import Mathlib

/-!
PS2 texture swizzling (`PS2_Dragon Ball Budokai Tenkaichi 3/swizzle.go`), with
the duplicated transforms of the Hunter X Hunter tool, the Tamsoft TI pixel
packing and the two LZSS codecs (Tamsoft, Shakugan no Shana).

A shallow embedding of the Go code: byte buffers are `List Nat`, loop
counters and indices are natural numbers (Go `int` values that are never
negative in this code; `int` arithmetic is taken without wrap-around), and
every indexed access, slice expression and `copy` that Go would check at run
time is a function into `Option`, with `none` standing for the run-time panic.
A slice has no spare capacity: its capacity is its length.

Where a statement ranges over dimensions that are not tied to the length of
the buffer, `int` overflow matters: the transforms are then taken in their
`_i64` form, with `int` the 64-bit two's complement integer, and the `_agree`
theorems show that both forms coincide for widths and heights up to `2^28`.
-/

set_option linter.unusedVariables false
set_option linter.unnecessarySeqFocus false

namespace Swizzle

/-! ## Go primitives -/

/-- Go `make([]T, n)`: a buffer of `n` zero elements. -/
def make (n : Nat) : List Nat := List.replicate n 0

/-- Go `a[i]` as a value; `none` is the index-out-of-range panic. -/
def readAt (a : List Nat) (i : Nat) : Option Nat := a[i]?

/-- Go `a[i] = v`; `none` is the index-out-of-range panic. -/
def writeAt (a : List Nat) (i v : Nat) : Option (List Nat) :=
  if i < a.length then some (a.set i v) else none

/-- Go slice expression `a[lo:hi]`; `none` is the slice-bounds panic. -/
def slice (a : List Nat) (lo hi : Nat) : Option (List Nat) :=
  if lo ≤ hi ∧ hi ≤ a.length then some ((a.drop lo).take (hi - lo)) else none

/-- Go `copy(dst[off:], src)`: copies `min(len(dst)-off, len(src))` elements
and yields the updated `dst`; `none` is the slice-bounds panic of `dst[off:]`. -/
def copyAt (dst : List Nat) (off : Nat) (src : List Nat) : Option (List Nat) :=
  if off ≤ dst.length then
    some (dst.take off ++ src.take (dst.length - off)
      ++ dst.drop (off + min src.length (dst.length - off)))
  else none

/-- Go `a & (^m)` on a non-negative `int`: the bits of `m` cleared in `a`. -/
def andNot (a m : Nat) : Nat := a - (a &&& m)

/-! ## Part 1: palette (CLUT) reordering -/

/-- The loop shared verbatim by the four CSM1 functions:
`for i := 0; i < len(entries); i += 32`, run as chunk number `c` with `i = 32*c`. -/
def csm1Body (entries : List Nat) (out : List Nat) (c : Nat) : Option (List Nat) :=
  let i := 32 * c
  let end_ := if i + 32 > entries.length then entries.length else i + 32
  if end_ - i < 32 then do
    let s ← slice entries i end_
    pure (out ++ s)
  else do
    let s0 ← slice entries i (i + 8)
    let out := out ++ s0
    let s1 ← slice entries (i + 16) (i + 24)
    let out := out ++ s1
    let s2 ← slice entries (i + 8) (i + 16)
    let out := out ++ s2
    let s3 ← slice entries (i + 24) (i + 32)
    pure (out ++ s3)

def UnswizzleCSM1_16 (entries : List Nat) : Option (List Nat) :=
  if entries.length = 0 then some []
  else (List.range ((entries.length + 31) / 32)).foldlM (csm1Body entries) []

def UnswizzleCSM1_32 (entries : List Nat) : Option (List Nat) :=
  if entries.length = 0 then some []
  else (List.range ((entries.length + 31) / 32)).foldlM (csm1Body entries) []

/-! ## Part 2: 8/16/32bpp pixel reordering -/

def Unswizzle8 (data : List Nat) (width height : Nat) : Option (List Nat) :=
  (List.range height).foldlM (fun out y =>
    (List.range width).foldlM (fun out x =>
      let blockLoc := andNot y 0xF * width + andNot x 0xF * 2
      let swapSel := (((y + 2) >>> 2) &&& 0x1) * 4
      let posY := (((andNot y 3) >>> 1) + (y &&& 1)) &&& 0x7
      let colLoc := posY * width * 2 + ((x + swapSel) &&& 0x7) * 4
      let byteNum := ((y >>> 1) &&& 1) + ((x >>> 2) &&& 2)
      let swizzleIdx := blockLoc + colLoc + byteNum
      let linearIdx := y * width + x
      if swizzleIdx < data.length ∧ linearIdx < out.length then do
        let v ← readAt data swizzleIdx
        writeAt out linearIdx v
      else pure out) out) (make data.length)

def pixel16Offset (x y width : Nat) : Nat :=
  if width ≥ 16 then
    let pageX := x >>> 6
    let pageY := y >>> 6
    let newX := (y &&& 0x38) + (x &&& 0x07)
    let newY := ((x &&& 0x30) >>> 1) + (y &&& 0x07)
    let bit := (x &&& 0x08) <<< 1
    let x := (pageX <<< 6) + newX
    let y := (pageY <<< 5) + newY
    32 * (y * width + x) + bit
  else
    32 * (y * width + x) + 0

def Unswizzle16 (data : List Nat) (width height : Nat) : Option (List Nat) :=
  (List.range height).foldlM (fun out y =>
    (List.range width).foldlM (fun out x =>
      let swizzledOffset := pixel16Offset x y width
      let srcIdx := swizzledOffset * 2
      let dstIdx := (y * width + x) * 2
      if srcIdx + 1 < data.length ∧ dstIdx + 1 < out.length then do
        let v0 ← readAt data srcIdx
        let out ← writeAt out dstIdx v0
        let v1 ← readAt data (srcIdx + 1)
        writeAt out (dstIdx + 1) v1
      else pure out) out) (make data.length)

def Unswizzle32 (data : List Nat) (width height : Nat) : Option (List Nat) :=
  (List.range height).foldlM (fun out y =>
    (List.range width).foldlM (fun out x =>
      let blockLoc := andNot y 0xF * width + andNot x 0xF * 2
      let swapSel := (((y + 2) >>> 2) &&& 0x1) * 4
      let posY := (((andNot y 3) >>> 1) + (y &&& 1)) &&& 0x7
      let colLoc := posY * width * 2 + ((x + swapSel) &&& 0x7) * 4
      let byteNum := ((y >>> 1) &&& 1) + ((x >>> 2) &&& 2)
      let swizzleIdx := blockLoc + colLoc + byteNum
      let srcIdx := swizzleIdx * 4
      let dstIdx := (y * width + x) * 4
      if srcIdx + 3 < data.length ∧ dstIdx + 3 < out.length then do
        let s ← slice data srcIdx (srcIdx + 4)
        let d ← slice out dstIdx (dstIdx + 4)
        copyAt out dstIdx (s.take d.length)
      else pure out) out) (make data.length)

/-! ## Part 3: 4bpp pixel reordering -/

def Unswizzle4By8 (data : List Nat) (width height : Nat) : Option (List Nat) := do
  let temp8 ← (List.range data.length).foldlM (fun temp8 i => do
      let b ← readAt data i
      let temp8 ← if i * 2 < temp8.length then writeAt temp8 (i * 2) (b &&& 0x0F)
                  else pure temp8
      if i * 2 + 1 < temp8.length then writeAt temp8 (i * 2 + 1) ((b >>> 4) &&& 0x0F)
      else pure temp8) (make (width * height))
  let unswizzled8 ← Unswizzle8 temp8 width height
  (List.range data.length).foldlM (fun out i => do
      let p1 ← if i * 2 < unswizzled8.length then
                  (readAt unswizzled8 (i * 2)).map (fun v => v &&& 0x0F)
               else pure 0
      let p2 ← if i * 2 + 1 < unswizzled8.length then
                  (readAt unswizzled8 (i * 2 + 1)).map (fun v => v &&& 0x0F)
               else pure 0
      writeAt out i (p1 ||| ((p2 <<< 4) % 256))) (make data.length)

/-! ## Internal lookup tables -/

def unswizzleLutTable : List Nat := [
  0, 8, 16, 24, 32, 40, 48, 56, 2, 10, 18, 26, 34, 42, 50, 58,
  4, 12, 20, 28, 36, 44, 52, 60, 6, 14, 22, 30, 38, 46, 54, 62,
  64, 72, 80, 88, 96, 104, 112, 120, 66, 74, 82, 90, 98, 106, 114, 122,
  68, 76, 84, 92, 100, 108, 116, 124, 70, 78, 86, 94, 102, 110, 118, 126,
  33, 41, 49, 57, 1, 9, 17, 25, 35, 43, 51, 59, 3, 11, 19, 27,
  37, 45, 53, 61, 5, 13, 21, 29, 39, 47, 55, 63, 7, 15, 23, 31,
  97, 105, 113, 121, 65, 73, 81, 89, 99, 107, 115, 123, 67, 75, 83, 91,
  101, 109, 117, 125, 69, 77, 85, 93, 103, 111, 119, 127, 71, 79, 87, 95,
  32, 40, 48, 56, 0, 8, 16, 24, 34, 42, 50, 58, 2, 10, 18, 26,
  36, 44, 52, 60, 4, 12, 20, 28, 38, 46, 54, 62, 6, 14, 22, 30,
  96, 104, 112, 120, 64, 72, 80, 88, 98, 106, 114, 122, 66, 74, 82, 90,
  100, 108, 116, 124, 68, 76, 84, 92, 102, 110, 118, 126, 70, 78, 86, 94,
  1, 9, 17, 25, 33, 41, 49, 57, 3, 11, 19, 27, 35, 43, 51, 59,
  5, 13, 21, 29, 37, 45, 53, 61, 7, 15, 23, 31, 39, 47, 55, 63,
  65, 73, 81, 89, 97, 105, 113, 121, 67, 75, 83, 91, 99, 107, 115, 123,
  69, 77, 85, 93, 101, 109, 117, 125, 71, 79, 87, 95, 103, 111, 119, 127]

def blockTable4 : List Nat := [
  0, 2, 8, 10, 1, 3, 9, 11, 4, 6, 12, 14, 5, 7, 13, 15,
  16, 18, 24, 26, 17, 19, 25, 27, 20, 22, 28, 30, 21, 23, 29, 31]

def blockTable32 : List Nat := [
  0, 1, 4, 5, 16, 17, 20, 21, 2, 3, 6, 7, 18, 19, 22, 23,
  8, 9, 12, 13, 24, 25, 28, 29, 10, 11, 14, 15, 26, 27, 30, 31]

def swizzleLutTable : List Nat := [
  0, 68, 8, 76, 16, 84, 24, 92, 1, 69, 9, 77, 17, 85, 25, 93, 2, 70, 10, 78, 18, 86, 26, 94, 3, 71, 11, 79, 19, 87, 27, 95,
  4, 64, 12, 72, 20, 80, 28, 88, 5, 65, 13, 73, 21, 81, 29, 89, 6, 66, 14, 74, 22, 82, 30, 90, 7, 67, 15, 75, 23, 83, 31, 91,
  32, 100, 40, 108, 48, 116, 56, 124, 33, 101, 41, 109, 49, 117, 57, 125, 34, 102, 42, 110, 50, 118, 58, 126, 35, 103, 43, 111, 51, 119, 59, 127,
  36, 96, 44, 104, 52, 112, 60, 120, 37, 97, 45, 105, 53, 113, 61, 121, 38, 98, 46, 106, 54, 114, 62, 122, 39, 99, 47, 107, 55, 115, 63, 123,
  4, 64, 12, 72, 20, 80, 28, 88, 5, 65, 13, 73, 21, 81, 29, 89, 6, 66, 14, 74, 22, 82, 30, 90, 7, 67, 15, 75, 23, 83, 31, 91,
  0, 68, 8, 76, 16, 84, 24, 92, 1, 69, 9, 77, 17, 85, 25, 93, 2, 70, 10, 78, 18, 86, 26, 94, 3, 71, 11, 79, 19, 87, 27, 95,
  36, 96, 44, 104, 52, 112, 60, 120, 37, 97, 45, 105, 53, 113, 61, 121, 38, 98, 46, 106, 54, 114, 62, 122, 39, 99, 47, 107, 55, 115, 63, 123,
  32, 100, 40, 108, 48, 116, 56, 124, 33, 101, 41, 109, 49, 117, 57, 125, 34, 102, 42, 110, 50, 118, 58, 126, 35, 103, 43, 111, 51, 119, 59, 127]

def unswizzle4ConvertBlock (inputBlockData : List Nat) : Option (List Nat) := do
  -- outer state: (outputBlockData, index1, pIn)
  let r ← (List.range 4).foldlM (fun (st : List Nat × Nat × Nat) k => do
      let pIn := st.2.2
      let index0 := (k % 2) * 128
      -- inner state: (outputBlockData, index0, index1)
      let r ← (List.range 16).foldlM (fun (st : List Nat × Nat × Nat) _ =>
          (List.range 4).foldlM (fun (st : List Nat × Nat × Nat) _ => do
              let index0 := st.2.1
              let cOut := 0x00
              let i0 ← readAt unswizzleLutTable index0
              let index0 := index0 + 1
              let i1 := i0 / 2
              let i2 := (i0 &&& 0x1) * 4
              let b ← readAt inputBlockData (pIn + i1)
              let cIn := (b &&& ((0x0F <<< i2) % 256)) >>> i2
              let cOut := cOut ||| cIn
              let i0 ← readAt unswizzleLutTable index0
              let index0 := index0 + 1
              let i1 := i0 / 2
              let i2 := (i0 &&& 0x1) * 4
              let b ← readAt inputBlockData (pIn + i1)
              let cIn := (b &&& ((0x0F <<< i2) % 256)) >>> i2
              let cOut := cOut ||| (((cIn <<< 4) % 256) &&& 0xF0)
              let out ← writeAt st.1 st.2.2 cOut
              pure (out, index0, st.2.2 + 1)) st)
        (st.1, index0, st.2.1)
      pure (r.1, r.2.2, pIn + 64)) (make 256, 0, 0)
  pure r.1

def unswizzle4ConvertPage (width height : Nat) (inputPageData index32H index32V : List Nat) :
    Option (List Nat) :=
  let nWidth := width / 32
  let nHeight := height / 16
  let inputPageLineSize := 256
  let outputPageLineSize := 128 / 2
  (List.range nHeight).foldlM (fun outputPageData i =>
    (List.range nWidth).foldlM (fun outputPageData j => do
      let inBlockNb ← readAt blockTable4 (i * nWidth + j)
      let iv ← readAt index32V inBlockNb
      let ih ← readAt index32H inBlockNb
      let po1Offset := 8 * iv * inputPageLineSize + ih * 32
      let po0 ← (List.range 8).foldlM (fun po0 k => do
          let start := po1Offset + k * inputPageLineSize
          let s ← slice inputPageData start (start + 32)
          copyAt po0 (k * 32) s) (make 256)
      let outputBlock ← unswizzle4ConvertBlock po0
      (List.range 16).foldlM (fun outputPageData k => do
          let start := (16 * i * outputPageLineSize) + j * 16 + k * outputPageLineSize
          let s ← slice outputBlock (k * 16) (k * 16 + 16)
          copyAt outputPageData start s) outputPageData) outputPageData)
    (make (64 * 4 * 32))

/-- The loop of `Unswizzle4`/`Swizzle4` that fills `index32H` and `index32V`
from `blockTable32`; the state is `(index32H, index32V, idx0)`. -/
def buildIndex32 : Option (List Nat × List Nat) := do
  let r ← (List.range 4).foldlM (fun (st : List Nat × List Nat × Nat) i =>
      (List.range 8).foldlM (fun (st : List Nat × List Nat × Nat) j => do
          let idx1 ← readAt blockTable32 st.2.2
          let index32H ← writeAt st.1 idx1 j
          let index32V ← writeAt st.2.1 idx1 i
          pure (index32H, index32V, st.2.2 + 1)) st) (make 32, make 32, 0)
  pure (r.1, r.2.1)

def Unswizzle4 (data : List Nat) (width height : Nat) : Option (List Nat) := do
  let psmt4PageW := 128
  let psmt4PageH := 128
  let psmct32PageW := 64
  let nPageW := (width - 1) / psmt4PageW + 1
  let nPageH := (height - 1) / psmt4PageH + 1
  let nInputWidthByte := if nPageH = 1 then height * 2 else psmct32PageW * 4
  let nOutputHeight := if nPageH = 1 then height else psmt4PageH
  let nInputHeight := if nPageW = 1 then width / 4 else 32
  let nOutputWidthByte := if nPageW = 1 then width / 2 else psmt4PageW / 2
  let index ← buildIndex32
  let index32H := index.1
  let index32V := index.2
  (List.range nPageH).foldlM (fun outputData i =>
    (List.range nPageW).foldlM (fun outputData j => do
      let po0Offset := (nInputWidthByte * nInputHeight) * nPageW * i + nInputWidthByte * j
      let pageBufSize := (psmt4PageW / 2) * psmt4PageH
      let inputPage ← (List.range nInputHeight).foldlM (fun inputPage k => do
          let srcOffset := po0Offset + k * nInputWidthByte * nPageW
          let dstOffset := k * (psmct32PageW * 4)
          let copyLen := nInputWidthByte
          if srcOffset + copyLen ≤ data.length ∧ dstOffset + copyLen ≤ inputPage.length then do
            let s ← slice data srcOffset (srcOffset + copyLen)
            copyAt inputPage dstOffset s
          else pure inputPage) (make pageBufSize)
      let outputPage ← unswizzle4ConvertPage psmt4PageW psmt4PageH inputPage index32H index32V
      let pi0Offset := (nOutputWidthByte * nOutputHeight) * nPageW * i + nOutputWidthByte * j
      (List.range nOutputHeight).foldlM (fun outputData k => do
          let srcOffset := k * (psmt4PageW / 2)
          let dstOffset := pi0Offset + k * nOutputWidthByte * nPageW
          let copyLen := nOutputWidthByte
          if srcOffset + copyLen ≤ outputPage.length ∧ dstOffset + copyLen ≤ outputData.length then do
            let s ← slice outputPage srcOffset (srcOffset + copyLen)
            copyAt outputData dstOffset s
          else pure outputData) outputData) outputData) (make data.length)

/-! ## Part 4: helper bit operations -/

def SwapNibbles (data : List Nat) : Option (List Nat) :=
  (List.range data.length).foldlM (fun out i => do
    let b ← readAt data i
    writeAt out i ((((b &&& 0x0F) <<< 4) % 256) ||| ((b &&& 0xF0) >>> 4))) (make data.length)

/-! ## Part 5: swizzling (linear to PS2 raw) -/

def Swizzle8 (linearData : List Nat) (width height : Nat) : Option (List Nat) :=
  (List.range height).foldlM (fun out y =>
    (List.range width).foldlM (fun out x =>
      let blockLoc := andNot y 0xF * width + andNot x 0xF * 2
      let swapSel := (((y + 2) >>> 2) &&& 0x1) * 4
      let posY := (((andNot y 3) >>> 1) + (y &&& 1)) &&& 0x7
      let colLoc := posY * width * 2 + ((x + swapSel) &&& 0x7) * 4
      let byteNum := ((y >>> 1) &&& 1) + ((x >>> 2) &&& 2)
      let swizzleIdx := blockLoc + colLoc + byteNum
      let linearIdx := y * width + x
      if swizzleIdx < out.length ∧ linearIdx < linearData.length then do
        let v ← readAt linearData linearIdx
        writeAt out swizzleIdx v
      else pure out) out) (make linearData.length)

def Swizzle4By8 (linearData : List Nat) (width height : Nat) : Option (List Nat) := do
  let temp8 ← (List.range linearData.length).foldlM (fun temp8 i => do
      let b ← readAt linearData i
      let temp8 ← writeAt temp8 (i * 2) (b &&& 0x0F)
      if i * 2 + 1 < temp8.length then do
        let b ← readAt linearData i
        writeAt temp8 (i * 2 + 1) ((b >>> 4) &&& 0x0F)
      else pure temp8) (make (width * height))
  let swizzled8 ← Swizzle8 temp8 width height
  (List.range linearData.length).foldlM (fun out i => do
      let p1 ← if i * 2 < swizzled8.length then
                  (readAt swizzled8 (i * 2)).map (fun v => v &&& 0x0F)
               else pure 0
      let p2 ← if i * 2 + 1 < swizzled8.length then
                  (readAt swizzled8 (i * 2 + 1)).map (fun v => v &&& 0x0F)
               else pure 0
      writeAt out i (p1 ||| ((p2 <<< 4) % 256))) (make linearData.length)

def Swizzle16 (linearData : List Nat) (width height : Nat) : Option (List Nat) :=
  (List.range height).foldlM (fun out y =>
    (List.range width).foldlM (fun out x =>
      let swizzledOffset := pixel16Offset x y width
      let dstIdx := swizzledOffset * 2
      let srcIdx := (y * width + x) * 2
      if dstIdx + 1 < out.length ∧ srcIdx + 1 < linearData.length then do
        let v0 ← readAt linearData srcIdx
        let out ← writeAt out dstIdx v0
        let v1 ← readAt linearData (srcIdx + 1)
        writeAt out (dstIdx + 1) v1
      else pure out) out) (make linearData.length)

def Swizzle32 (linearData : List Nat) (width height : Nat) : Option (List Nat) :=
  (List.range height).foldlM (fun out y =>
    (List.range width).foldlM (fun out x =>
      let blockLoc := andNot y 0xF * width + andNot x 0xF * 2
      let swapSel := (((y + 2) >>> 2) &&& 0x1) * 4
      let posY := (((andNot y 3) >>> 1) + (y &&& 1)) &&& 0x7
      let colLoc := posY * width * 2 + ((x + swapSel) &&& 0x7) * 4
      let byteNum := ((y >>> 1) &&& 1) + ((x >>> 2) &&& 2)
      let swizzleIdx := blockLoc + colLoc + byteNum
      let dstIdx := swizzleIdx * 4
      let srcIdx := (y * width + x) * 4
      if dstIdx + 3 < out.length ∧ srcIdx + 3 < linearData.length then do
        let s ← slice linearData srcIdx (srcIdx + 4)
        let d ← slice out dstIdx (dstIdx + 4)
        copyAt out dstIdx (s.take d.length)
      else pure out) out) (make linearData.length)

/-! ## Part 6: palette reordering (CSM1 encoding) -/

def SwizzleCSM1_32 (entries : List Nat) : Option (List Nat) :=
  if entries.length = 0 then some []
  else (List.range ((entries.length + 31) / 32)).foldlM (csm1Body entries) []

def SwizzleCSM1_16 (entries : List Nat) : Option (List Nat) :=
  if entries.length = 0 then some []
  else (List.range ((entries.length + 31) / 32)).foldlM (csm1Body entries) []

/-! ## Part 5.5: native 4bpp swizzle -/

def swizzle4ConvertBlock (inputBlockData : List Nat) : Option (List Nat) := do
  -- outer state: (outputBlockData, index1, pIn)
  let r ← (List.range 4).foldlM (fun (st : List Nat × Nat × Nat) k => do
      let pIn := st.2.2
      let index0 := (k % 2) * 128
      -- inner state: (outputBlockData, index0, index1)
      let r ← (List.range 16).foldlM (fun (st : List Nat × Nat × Nat) _ =>
          (List.range 4).foldlM (fun (st : List Nat × Nat × Nat) _ => do
              -- step state: (index0, cOut)
              let r ← (List.range 2).foldlM (fun (sc : Nat × Nat) step => do
                  let i0 ← readAt swizzleLutTable sc.1
                  let i1 := i0 / 2
                  let i2 := (i0 &&& 0x1) * 4
                  let b ← readAt inputBlockData (pIn + i1)
                  let cIn := (b &&& ((0x0F <<< i2) % 256)) >>> i2
                  if step = 0 then pure (sc.1 + 1, sc.2 ||| cIn)
                  else pure (sc.1 + 1, sc.2 ||| (((cIn <<< 4) % 256) &&& 0xF0))) (st.2.1, 0x00)
              let out ← writeAt st.1 st.2.2 r.2
              pure (out, r.1, st.2.2 + 1)) st)
        (st.1, index0, st.2.1)
      pure (r.1, r.2.2, pIn + 64)) (make 256, 0, 0)
  pure r.1

def swizzle4ConvertPage (width height : Nat) (inputPageData index32H index32V : List Nat) :
    Option (List Nat) := do
  let nWidth := width / 32
  let nHeight := height / 16
  let inputPageLineSize := 128 / 2
  let outputPageLineSize := 256
  -- state: (outputPageData, inputBlock); `inputBlock` is allocated once and reused
  let r ← (List.range nHeight).foldlM (fun (st : List Nat × List Nat) i =>
    (List.range nWidth).foldlM (fun (st : List Nat × List Nat) j => do
      let pi1Idx := 16 * i * inputPageLineSize + j * 16
      let inputBlock ← (List.range 16).foldlM (fun inputBlock k => do
          let start := pi1Idx + k * inputPageLineSize
          let s ← slice inputPageData start (start + 16)
          copyAt inputBlock (k * 16) s) st.2
      let outputBlock ← swizzle4ConvertBlock inputBlock
      let inBlockNb ← readAt blockTable4 (i * nWidth + j)
      let iv ← readAt index32V inBlockNb
      let ih ← readAt index32H inBlockNb
      let po0Idx := 8 * iv * outputPageLineSize + ih * 32
      let outputPageData ← (List.range 8).foldlM (fun outputPageData k => do
          let start := k * 32
          let outStart := po0Idx + k * outputPageLineSize
          let s ← slice outputBlock start (start + 32)
          copyAt outputPageData outStart s) st.1
      pure (outputPageData, inputBlock)) st) (make (64 * 4 * 32), make 256)
  pure r.1

def Swizzle4 (linearData : List Nat) (width height : Nat) : Option (List Nat) := do
  let psmt4PageW := 128
  let psmt4PageH := 128
  let psmct32PageW := 64
  let nPageW := (width - 1) / psmt4PageW + 1
  let nPageH := (height - 1) / psmt4PageH + 1
  let nInputWidthByte := if nPageW = 1 then width / 2 else psmt4PageW / 2
  let nOutputHeight := if nPageW = 1 then width / 4 else 32
  let nInputHeight := if nPageH = 1 then height else psmt4PageH
  let nOutputWidthByte := if nPageH = 1 then height * 2 else psmct32PageW * 4
  let index ← buildIndex32
  let index32H := index.1
  let index32V := index.2
  (List.range nPageH).foldlM (fun outputData i =>
    (List.range nPageW).foldlM (fun outputData j => do
      let inputPage ← (List.range nInputHeight).foldlM (fun inputPage k => do
          let srcIdx := (nInputWidthByte * nInputHeight) * nPageW * i + nInputWidthByte * j
                          + k * nInputWidthByte * nPageW
          let dstIdx := k * (psmt4PageW / 2)
          let copyLen := nInputWidthByte
          if srcIdx + copyLen ≤ linearData.length ∧ dstIdx + copyLen ≤ inputPage.length then do
            let s ← slice linearData srcIdx (srcIdx + copyLen)
            copyAt inputPage dstIdx s
          else pure inputPage) (make ((psmt4PageW / 2) * psmt4PageH))
      let outputPage ← swizzle4ConvertPage psmt4PageW psmt4PageH inputPage index32H index32V
      (List.range nOutputHeight).foldlM (fun outputData k => do
          let srcIdx := k * (psmct32PageW * 4)
          let dstIdx := (nOutputWidthByte * nOutputHeight) * nPageW * i + nOutputWidthByte * j
                          + k * nOutputWidthByte * nPageW
          let copyLen := nOutputWidthByte
          if srcIdx + copyLen ≤ outputPage.length ∧ dstIdx + copyLen ≤ outputData.length then do
            let s ← slice outputPage srcIdx (srcIdx + copyLen)
            copyAt outputData dstIdx s
          else pure outputData) outputData) outputData) (make linearData.length)

/-! ## Hunter X Hunter tool (`src/PS2_Hunter X Hunter/utils.go`) -/

/-- The 8bpp transform of the Hunter X Hunter tool, `ps2Swizzle`; the output is
allocated with `width*height` bytes and the write of the swizzle branch is not
guarded. -/
def ps2Swizzle (data : List Nat) (w h : Nat) (swizzle : Bool) : Option (List Nat) :=
  (List.range h).foldlM (fun out y =>
    (List.range w).foldlM (fun out x =>
      let blk := andNot y 0xF * w
      let blk := blk + andNot x 0xF * 2
      let swap := (((y + 2) >>> 2) &&& 0x1) * 4
      let py := (((andNot y 3) >>> 1) + (y &&& 1)) &&& 0x7
      let col := py * w * 2 + ((x + swap) &&& 0x7) * 4
      let bn := ((y >>> 1) &&& 1) + ((x >>> 2) &&& 2)
      let sid := blk + col + bn
      if swizzle then do
        let v ← readAt data (y * w + x)
        writeAt out sid v
      else
        if sid < data.length then do
          let v ← readAt data sid
          writeAt out (y * w + x) v
        else pure out) out) (make (w * h))

/-- Body shared by `palCSM1` and `palCSM1_32` of the Hunter X Hunter tool:
`for i := 0; i < 256; i += 32`, run as chunk number `c` with `i = 32*c`. -/
def palBody (entries : List Nat) (out : List Nat) (c : Nat) : Option (List Nat) := do
  let i := 32 * c
  let s0 ← slice entries i (i + 8)
  let out := out ++ s0
  let s1 ← slice entries (i + 16) (i + 24)
  let out := out ++ s1
  let s2 ← slice entries (i + 8) (i + 16)
  let out := out ++ s2
  let s3 ← slice entries (i + 24) (i + 32)
  pure (out ++ s3)

def palCSM1 (entries : List Nat) : Option (List Nat) :=
  (List.range 8).foldlM (palBody entries) []

def palCSM1_32 (entries : List Nat) : Option (List Nat) :=
  (List.range 8).foldlM (palBody entries) []

/-! ## Tamsoft TI converter (`src/Tamsoft_PS2_Tool/ti-converter.go`) -/

structure TIInfo where
  Width : Nat
  Height : Nat
  BPP : Nat

/-- The pair `(clutSize, pixSize)`. -/
def calcSizes (info : TIInfo) : Nat × Nat :=
  if info.BPP = 4 then (16 * 4, (info.Width * info.Height + 1) / 2)
  else (256 * 4, info.Width * info.Height)

/-- The function `processPix`, with the bytes still to be read from the reader
`r` as a list: `io.ReadFull` takes the first `pixSize` of them and fails
(the function then returns an error, `none`) when there are fewer. -/
def processPix (r : List Nat) (info : TIInfo) : Option (List Nat) :=
  let pixSize := (calcSizes info).2
  if r.length < pixSize then none
  else
    let rawPix := r.take pixSize
    if info.BPP = 8 then some rawPix
    else
      let expandedPix := rawPix.foldl (fun expandedPix b =>
        let pixel1 := b &&& 0x0F
        let pixel2 := (b >>> 4) &&& 0x0F
        (expandedPix ++ [pixel1]) ++ [pixel2]) []
      slice expandedPix 0 (info.Width * info.Height)

def reversePix (pix : List Nat) (info : TIInfo) : Option (List Nat) :=
  if info.BPP = 8 then some pix
  else
    let tiPixSize := (info.Width * info.Height + 1) / 2
    (List.range tiPixSize).foldlM (fun tiPix i => do
      let pixel1 ← if i * 2 < pix.length then (readAt pix (i * 2)).map (fun v => v &&& 0x0F)
                   else pure 0
      let pixel2 ← if i * 2 + 1 < pix.length then
                     (readAt pix (i * 2 + 1)).map (fun v => v &&& 0x0F)
                   else pure 0
      writeAt tiPix i (((pixel2 <<< 4) % 256) ||| pixel1)) (make tiPixSize)

/-! ## Tamsoft LZSS codec (`src/Tamsoft_PS2_Tool/compress.go`, `decompress.go`)

The progress output (`fmt.Printf`) of the compressor is not modelled. A loop
whose number of iterations is not fixed in advance is run for a number of
iterations that bounds it, each one testing the loop condition; the function
yields no result (`none`) if the loop has not finished by then, as it does on a
Go panic. -/

/-- State of `DecompressTamsoftLZSS`; `failed` records that the function has
returned `(nil, error)`. -/
structure DecState where
  dictionary : List Nat
  dictPos : Nat
  srcPos : Nat
  decompressedData : List Nat
  failed : Bool

/-- Body of the copy loop of a match pair, `for j := 0; j < length; j++`. -/
def copyStep (decompressedSize offset : Nat) (st : DecState) (j : Nat) : Option DecState :=
  if st.decompressedData.length ≥ decompressedSize then pure st
  else do
    let copyPos := (offset + j) &&& 0xFFF
    let copyByte ← readAt st.dictionary copyPos
    let dictionary ← writeAt st.dictionary st.dictPos copyByte
    pure { st with decompressedData := st.decompressedData ++ [copyByte],
                   dictionary := dictionary,
                   dictPos := (st.dictPos + 1) &&& 0xFFF }

def copyMatch (decompressedSize offset length : Nat) (st : DecState) : Option DecState :=
  (List.range length).foldlM (copyStep decompressedSize offset) st

/-- Body of `for i := 0; i < 8; i++` in `DecompressTamsoftLZSS`. -/
def decodeBit (compressedData : List Nat) (decompressedSize controlByte : Nat)
    (st : DecState) (i : Nat) : Option DecState :=
  if st.failed then pure st
  else if st.decompressedData.length ≥ decompressedSize then pure st
  else if (controlByte >>> i) &&& 1 = 1 then
    if st.srcPos ≥ compressedData.length then pure { st with failed := true }
    else do
      let b ← readAt compressedData st.srcPos
      let dictionary ← writeAt st.dictionary st.dictPos b
      pure { st with srcPos := st.srcPos + 1,
                     decompressedData := st.decompressedData ++ [b],
                     dictionary := dictionary,
                     dictPos := (st.dictPos + 1) &&& 0xFFF }
  else
    if st.srcPos + 1 ≥ compressedData.length then pure { st with failed := true }
    else do
      let byte1 ← readAt compressedData st.srcPos
      let byte2 ← readAt compressedData (st.srcPos + 1)
      let offset := byte1 ||| ((byte2 &&& 0xF0) <<< 4)
      let length := (byte2 &&& 0x0F) + 3
      copyMatch decompressedSize offset length { st with srcPos := st.srcPos + 2 }

/-- One test of the condition and, when it holds, one run of the body of
`for len(decompressedData) < int(decompressedSize)`. -/
def decodeChunk (compressedData : List Nat) (decompressedSize : Nat) (st : DecState) :
    Option DecState :=
  if st.failed then pure st
  else if st.decompressedData.length < decompressedSize then
    if st.srcPos ≥ compressedData.length then pure { st with failed := true }
    else do
      let controlByte ← readAt compressedData st.srcPos
      (List.range 8).foldlM (decodeBit compressedData decompressedSize controlByte)
        { st with srcPos := st.srcPos + 1 }
  else pure st

/-- The decompressor. The result pairs the returned data with whether the
returned error is non-nil: `([], true)` is `return nil, fmt.Errorf(..)`. Every
run of the outer loop body that does not return reads a control byte, so
`len(compressedData) + 1` iterations bound the loop. -/
def DecompressTamsoftLZSS (compressedData : List Nat) (decompressedSize : Nat) :
    Option (List Nat × Bool) := do
  let st ← (List.range (compressedData.length + 1)).foldlM
    (fun st _ => decodeChunk compressedData decompressedSize st)
    { dictionary := make 4096, dictPos := 0xFEE, srcPos := 0, decompressedData := [],
      failed := false }
  if st.failed then pure ([], true)
  else if st.decompressedData.length < decompressedSize then none
  else pure (st.decompressedData, false)

/-- Body of the comparison loop of `findLongestMatch`; the state is
`(currentLength, the loop has hit break)`. -/
def compareStep (data : List Nat) (currentPos : Nat) (dictionary : List Nat)
    (offsetCandidate : Nat) (st : Nat × Bool) (i : Nat) : Option (Nat × Bool) :=
  if st.2 then pure st
  else do
    let dictIdx := (offsetCandidate + i) &&& (4096 - 1)
    let a ← readAt dictionary dictIdx
    let b ← readAt data (currentPos + i)
    if a = b then pure (st.1 + 1, false) else pure (st.1, true)

/-- Body of the loop of `findLongestMatch` over the dictionary offsets; the
state is `(bestOffset, bestLength)`. -/
def candidateStep (data : List Nat) (currentPos : Nat) (dictionary : List Nat)
    (endOfBuffer : Nat) (best : Nat × Nat) (offsetCandidate : Nat) : Option (Nat × Nat) := do
  let r ← (List.range (endOfBuffer - currentPos)).foldlM
    (compareStep data currentPos dictionary offsetCandidate) (0, false)
  if r.1 > best.2 then pure (offsetCandidate, r.1) else pure best

def findLongestMatch (data : List Nat) (currentPos : Nat) (dictionary : List Nat) :
    Option (Nat × Nat) :=
  let endOfBuffer := if currentPos + 18 > data.length then data.length else currentPos + 18
  (List.range 4096).foldlM (candidateStep data currentPos dictionary endOfBuffer) (0, 0)

/-- State of `CompressTamsoftLZSS`, with the control byte and the blocks of
the chunk being built. -/
structure CompState where
  dictionary : List Nat
  dictPos : Nat
  srcPos : Nat
  controlByte : Nat
  chunkBlocks : List Nat

/-- Body of the loop that enters a match into the dictionary; the state is
`(dictionary, dictPos)`. -/
def updateDict (dataToCompress : List Nat) (srcPos : Nat) (d : List Nat × Nat) (j : Nat) :
    Option (List Nat × Nat) := do
  let b ← readAt dataToCompress (srcPos + j)
  let dictionary ← writeAt d.1 d.2 b
  pure (dictionary, (d.2 + 1) &&& (4096 - 1))

/-- Body of `for i := 0; i < 8; i++` in `CompressTamsoftLZSS`. -/
def encodeBit (dataToCompress : List Nat) (st : CompState) (i : Nat) : Option CompState :=
  if st.srcPos ≥ dataToCompress.length then pure st
  else do
    let m ← findLongestMatch dataToCompress st.srcPos st.dictionary
    let offset := m.1
    let length := m.2
    if length ≥ 3 then do
      let lengthEncoded := length - 3
      let byte1 := (offset &&& 0xFF) % 256
      let byte2 := (((offset >>> 4) &&& 0xF0) ||| lengthEncoded) % 256
      let r ← (List.range length).foldlM (updateDict dataToCompress st.srcPos)
        (st.dictionary, st.dictPos)
      pure { st with chunkBlocks := st.chunkBlocks ++ [byte1, byte2],
                     dictionary := r.1, dictPos := r.2, srcPos := st.srcPos + length }
    else do
      let controlByte := (st.controlByte ||| ((1 <<< i) % 256)) % 256
      let rawByte ← readAt dataToCompress st.srcPos
      let dictionary ← writeAt st.dictionary st.dictPos rawByte
      pure { st with controlByte := controlByte,
                     chunkBlocks := st.chunkBlocks ++ [rawByte],
                     dictionary := dictionary,
                     dictPos := (st.dictPos + 1) &&& (4096 - 1),
                     srcPos := st.srcPos + 1 }

/-- One test of the condition and, when it holds, one run of the body of
`for srcPos < totalSize`; the state is
`(dictionary, dictPos, srcPos, compressedData)`. -/
def encodeChunk (dataToCompress : List Nat) (st : List Nat × Nat × Nat × List Nat) :
    Option (List Nat × Nat × Nat × List Nat) :=
  if st.2.2.1 < dataToCompress.length then do
    let c ← (List.range 8).foldlM (encodeBit dataToCompress)
      { dictionary := st.1, dictPos := st.2.1, srcPos := st.2.2.1, controlByte := 0,
        chunkBlocks := [] }
    pure (c.dictionary, c.dictPos, c.srcPos, st.2.2.2 ++ [c.controlByte] ++ c.chunkBlocks)
  else pure st

/-- The compressor; its returned error is always nil. Every run of the body
of `for srcPos < totalSize` consumes at least one byte, so `totalSize`
iterations bound the loop. -/
def CompressTamsoftLZSS (dataToCompress : List Nat) : Option (List Nat) := do
  let totalSize := dataToCompress.length
  let r ← (List.range totalSize).foldlM (fun st _ => encodeChunk dataToCompress st)
    (make 4096, 0xFEE, 0, [])
  if r.2.2.1 < totalSize then none else pure r.2.2.2

/-! ## Shakugan no Shana LZSS codec (`src/PS2_Shakugan_no_Shana/utils.go`)

The copy of both functions in `pr_tool.go` has the same statements. -/

/-- State of `DecompressLZSS`; `stopped` records that the loop has hit `break`. -/
structure LzState where
  dict : List Nat
  dec : List Nat
  inOff : Nat
  outOff : Nat
  mask : Nat
  cb : Nat
  dicOff : Nat
  stopped : Bool

/-- Body of the copy loop `for b := 0; b < length; b++` of `DecompressLZSS`. -/
def lzCopyStep (decompSize loc : Nat) (st : LzState) (b : Nat) : Option LzState :=
  if st.outOff ≥ decompSize then pure st
  else do
    let val ← readAt st.dict ((loc + b) &&& 0xFFF)
    let dec ← writeAt st.dec st.outOff val
    let dict ← writeAt st.dict st.dicOff val
    pure { st with dec := dec, dict := dict, outOff := st.outOff + 1,
                   dicOff := (st.dicOff + 1) &&& 0xFFF }

/-- The `if mask == 0` block of `DecompressLZSS`. -/
def lzReadControl (data : List Nat) (st : LzState) : Option LzState :=
  if st.mask = 0 then
    if st.inOff ≥ data.length then pure { st with stopped := true }
    else do
      let cb ← readAt data st.inOff
      pure { st with cb := cb, inOff := st.inOff + 1, mask := 1 }
  else pure st

/-- The literal-or-pair part of the loop body of `DecompressLZSS`, ending
with `mask = (mask << 1)` on a `uint8`. -/
def lzToken (data : List Nat) (decompSize : Nat) (st : LzState) : Option LzState :=
  if (st.mask &&& st.cb) ≠ 0 then
    if st.inOff ≥ data.length ∨ st.outOff ≥ decompSize then pure { st with stopped := true }
    else do
      let val ← readAt data st.inOff
      let dec ← writeAt st.dec st.outOff val
      let dict ← writeAt st.dict st.dicOff val
      pure { st with dec := dec, dict := dict, outOff := st.outOff + 1, inOff := st.inOff + 1,
                     dicOff := (st.dicOff + 1) &&& 0xFFF, mask := (st.mask <<< 1) % 256 }
  else
    if st.inOff + 1 ≥ data.length then pure { st with stopped := true }
    else do
      let b1 ← readAt data st.inOff
      let b2 ← readAt data (st.inOff + 1)
      let length := (b2 &&& 0x0F) + 3
      let loc := b1 ||| ((b2 &&& 0xF0) <<< 4)
      let st ← (List.range length).foldlM (lzCopyStep decompSize loc)
        { st with inOff := st.inOff + 2 }
      pure { st with mask := (st.mask <<< 1) % 256 }

/-- One test of the condition and, when it holds, one run of the body of
`for outOff < decompSize`. -/
def lzDecodeStep (data : List Nat) (decompSize : Nat) (st : LzState) : Option LzState :=
  if st.stopped then pure st
  else if st.outOff < decompSize then do
    let st ← lzReadControl data st
    if st.stopped then pure st else lzToken data decompSize st
  else pure st

/-- The decompressor. Every run of the loop body that does not `break` reads
at least one byte of `data`, so `len(data) + 1` iterations bound the loop. -/
def DecompressLZSS (data : List Nat) (decompSize dicOff : Nat) : Option (List Nat) := do
  let st ← (List.range (data.length + 1)).foldlM (fun st _ => lzDecodeStep data decompSize st)
    { dict := make 0x1000, dec := make decompSize, inOff := 0, outOff := 0, mask := 0, cb := 0,
      dicOff := dicOff, stopped := false }
  if ¬ st.stopped ∧ st.outOff < decompSize then none else pure st.dec

/-- Body of the loop `for currLen < maxMatch`; the state is
`(currLen, the loop has hit break)`. -/
def lzCompareStep (input dict : List Nat) (inPos d : Nat) (st : Nat × Bool) (_ : Nat) :
    Option (Nat × Bool) :=
  if st.2 then pure st
  else do
    let a ← readAt input (inPos + st.1)
    let b ← readAt dict ((d + st.1) &&& 0xFFF)
    if a ≠ b then pure (st.1, true) else pure (st.1 + 1, false)

/-- Body of the loop `for d := 0; d < 4096; d++`; the state is
`(bestLen, bestDist, the loop has hit break)`. -/
def lzCandidateStep (input dict : List Nat) (inPos maxMatch : Nat) (best : Nat × Nat × Bool)
    (d : Nat) : Option (Nat × Nat × Bool) :=
  if best.2.2 then pure best
  else do
    let r ← (List.range maxMatch).foldlM (lzCompareStep input dict inPos d) (0, false)
    let currLen := r.1
    if currLen ≥ best.1 then
      if currLen = maxMatch then pure (currLen, d, true) else pure (currLen, d, false)
    else pure best

/-- The match search of `CompressLZSS`: the pair `(bestLen, bestDist)`. -/
def lzFindMatch (input dict : List Nat) (inPos : Nat) : Option (Nat × Nat) := do
  let maxMatch := if input.length - inPos < 18 then input.length - inPos else 18
  if maxMatch ≥ 3 then do
    let r ← (List.range 4096).foldlM (lzCandidateStep input dict inPos maxMatch) (0, 0, false)
    pure (r.1, r.2.1)
  else pure (0, 0)

/-- State of the loops of `CompressLZSS`. -/
structure LzComp where
  out : List Nat
  dict : List Nat
  inPos : Nat
  writePos : Nat
  flags : Nat

/-- Body of the loop `for j := 0; j < bestLen; j++`; the state is
`(dict, writePos, inPos)`. -/
def lzEnter (input : List Nat) (s : List Nat × Nat × Nat) (_ : Nat) :
    Option (List Nat × Nat × Nat) := do
  let v ← readAt input s.2.2
  let dict ← writeAt s.1 s.2.1 v
  pure (dict, (s.2.1 + 1) &&& 0xFFF, s.2.2 + 1)

/-- Body of `for i := 0; i < 8; i++` in `CompressLZSS`. -/
def lzEncodeBit (input : List Nat) (st : LzComp) (i : Nat) : Option LzComp :=
  if st.inPos ≥ input.length then pure st
  else do
    let m ← lzFindMatch input st.dict st.inPos
    let bestLen := m.1
    let bestDist := m.2
    if bestLen ≥ 3 then do
      let b1 := (bestDist &&& 0xFF) % 256
      let b2 := (((bestDist >>> 4) &&& 0xF0) % 256) ||| ((bestLen - 3) % 256)
      let r ← (List.range bestLen).foldlM (lzEnter input) (st.dict, st.writePos, st.inPos)
      pure { st with out := st.out ++ [b1, b2], dict := r.1, writePos := r.2.1,
                     inPos := r.2.2 }
    else do
      let flags := st.flags ||| ((1 <<< i) % 256)
      let val ← readAt input st.inPos
      let dict ← writeAt st.dict st.writePos val
      pure { st with flags := flags, out := st.out ++ [val], dict := dict,
                     writePos := (st.writePos + 1) &&& 0xFFF, inPos := st.inPos + 1 }

/-- One test of the condition and, when it holds, one run of the body of
`for inPos < inputLen`. -/
def lzEncodeChunk (input : List Nat) (st : LzComp) : Option LzComp :=
  if st.inPos < input.length then do
    let flagPos := st.out.length
    let st ← (List.range 8).foldlM (lzEncodeBit input) { st with out := st.out ++ [0], flags := 0 }
    let out ← writeAt st.out flagPos st.flags
    pure { st with out := out }
  else pure st

/-- The compressor. Every run of the body of `for inPos < inputLen` consumes
at least one byte, so `inputLen` iterations bound the loop. -/
def CompressLZSS (input : List Nat) (dicOff : Nat) : Option (List Nat) :=
  if input.length = 0 then some []
  else do
    let st ← (List.range input.length).foldlM (fun st _ => lzEncodeChunk input st)
      { out := [], dict := make 4096, inPos := 0, writePos := dicOff, flags := 0 }
    if st.inPos < input.length then none else pure st.out

/-! ## The transforms with 64-bit `int` arithmetic

The definitions above take Go `int` arithmetic without wrap-around, which is
what the code computes as long as no intermediate result leaves the `int`
range. The definitions of this section follow the same source functions with
`int` as the 64-bit two's complement integer it is on 64-bit targets. A value
is represented by its bit pattern, a natural number below `2^64`; the patterns
from `2^63` on are the negative values. Sums, products and left shifts are
reduced modulo `2^64`, right shifts are arithmetic and comparisons are signed.
The arguments `width` and `height`, the loop counters and the length of a
buffer are non-negative `int` values, below `2^63`. An index or a slice bound
with a negative value is out of range in Go, and so is its pattern, which is
at least `2^63`. -/

/-- Go `a + b` on `int`. -/
def add64 (a b : Nat) : Nat := (a + b) % 2 ^ 64

/-- Go `a * b` on `int`. -/
def mul64 (a b : Nat) : Nat := (a * b) % 2 ^ 64

/-- Go `a << k` on `int`. -/
def shl64 (a k : Nat) : Nat := (a <<< k) % 2 ^ 64

/-- Go `a >> k` on `int`, the arithmetic shift: a negative value keeps its sign. -/
def sar64 (a k : Nat) : Nat :=
  if a < 2 ^ 63 then a >>> k else 2 ^ 64 - 1 - ((2 ^ 64 - 1 - a) >>> k)

/-- Go `a < b` on `int`, the signed comparison: adding `2^63` modulo `2^64`
maps the signed order of the values onto the order of the patterns. -/
def lt64 (a b : Nat) : Bool := decide ((a + 2 ^ 63) % 2 ^ 64 < (b + 2 ^ 63) % 2 ^ 64)

/-- Go `a <= b` on `int`, the signed comparison. -/
def le64 (a b : Nat) : Bool := decide ((a + 2 ^ 63) % 2 ^ 64 ≤ (b + 2 ^ 63) % 2 ^ 64)

def Unswizzle8_i64 (data : List Nat) (width height : Nat) : Option (List Nat) :=
  (List.range height).foldlM (fun out y =>
    (List.range width).foldlM (fun out x =>
      let blockLoc := add64 (mul64 (andNot y 0xF) width) (mul64 (andNot x 0xF) 2)
      let swapSel := mul64 ((sar64 (add64 y 2) 2) &&& 0x1) 4
      let posY := (add64 (sar64 (andNot y 3) 1) (y &&& 1)) &&& 0x7
      let colLoc := add64 (mul64 (mul64 posY width) 2) (mul64 ((add64 x swapSel) &&& 0x7) 4)
      let byteNum := add64 ((sar64 y 1) &&& 1) ((sar64 x 2) &&& 2)
      let swizzleIdx := add64 (add64 blockLoc colLoc) byteNum
      let linearIdx := add64 (mul64 y width) x
      if lt64 swizzleIdx data.length ∧ lt64 linearIdx out.length then do
        let v ← readAt data swizzleIdx
        writeAt out linearIdx v
      else pure out) out) (make data.length)

def pixel16Offset_i64 (x y width : Nat) : Nat :=
  if le64 16 width then
    let pageX := sar64 x 6
    let pageY := sar64 y 6
    let newX := add64 (y &&& 0x38) (x &&& 0x07)
    let newY := add64 (sar64 (x &&& 0x30) 1) (y &&& 0x07)
    let bit := shl64 (x &&& 0x08) 1
    let x := add64 (shl64 pageX 6) newX
    let y := add64 (shl64 pageY 5) newY
    add64 (mul64 32 (add64 (mul64 y width) x)) bit
  else
    add64 (mul64 32 (add64 (mul64 y width) x)) 0

def Unswizzle16_i64 (data : List Nat) (width height : Nat) : Option (List Nat) :=
  (List.range height).foldlM (fun out y =>
    (List.range width).foldlM (fun out x =>
      let swizzledOffset := pixel16Offset_i64 x y width
      let srcIdx := mul64 swizzledOffset 2
      let dstIdx := mul64 (add64 (mul64 y width) x) 2
      if lt64 (add64 srcIdx 1) data.length ∧ lt64 (add64 dstIdx 1) out.length then do
        let v0 ← readAt data srcIdx
        let out ← writeAt out dstIdx v0
        let v1 ← readAt data (add64 srcIdx 1)
        writeAt out (add64 dstIdx 1) v1
      else pure out) out) (make data.length)

def Unswizzle32_i64 (data : List Nat) (width height : Nat) : Option (List Nat) :=
  (List.range height).foldlM (fun out y =>
    (List.range width).foldlM (fun out x =>
      let blockLoc := add64 (mul64 (andNot y 0xF) width) (mul64 (andNot x 0xF) 2)
      let swapSel := mul64 ((sar64 (add64 y 2) 2) &&& 0x1) 4
      let posY := (add64 (sar64 (andNot y 3) 1) (y &&& 1)) &&& 0x7
      let colLoc := add64 (mul64 (mul64 posY width) 2) (mul64 ((add64 x swapSel) &&& 0x7) 4)
      let byteNum := add64 ((sar64 y 1) &&& 1) ((sar64 x 2) &&& 2)
      let swizzleIdx := add64 (add64 blockLoc colLoc) byteNum
      let srcIdx := mul64 swizzleIdx 4
      let dstIdx := mul64 (add64 (mul64 y width) x) 4
      if lt64 (add64 srcIdx 3) data.length ∧ lt64 (add64 dstIdx 3) out.length then do
        let s ← slice data srcIdx (add64 srcIdx 4)
        let d ← slice out dstIdx (add64 dstIdx 4)
        copyAt out dstIdx (s.take d.length)
      else pure out) out) (make data.length)

def Unswizzle4_i64 (data : List Nat) (width height : Nat) : Option (List Nat) := do
  let psmt4PageW := 128
  let psmt4PageH := 128
  let psmct32PageW := 64
  -- `width - 1` is negative only for `width = 0`, where the truncated division
  -- gives 0, as does the subtraction of natural numbers
  let nPageW := (width - 1) / psmt4PageW + 1
  let nPageH := (height - 1) / psmt4PageH + 1
  let nInputWidthByte := if nPageH = 1 then mul64 height 2 else psmct32PageW * 4
  let nOutputHeight := if nPageH = 1 then height else psmt4PageH
  let nInputHeight := if nPageW = 1 then width / 4 else 32
  let nOutputWidthByte := if nPageW = 1 then width / 2 else psmt4PageW / 2
  let index ← buildIndex32
  let index32H := index.1
  let index32V := index.2
  (List.range nPageH).foldlM (fun outputData i =>
    (List.range nPageW).foldlM (fun outputData j => do
      let po0Offset := add64 (mul64 (mul64 (mul64 nInputWidthByte nInputHeight) nPageW) i)
        (mul64 nInputWidthByte j)
      let pageBufSize := (psmt4PageW / 2) * psmt4PageH
      let inputPage ← (List.range nInputHeight).foldlM (fun inputPage k => do
          let srcOffset := add64 po0Offset (mul64 (mul64 k nInputWidthByte) nPageW)
          let dstOffset := mul64 k (psmct32PageW * 4)
          let copyLen := nInputWidthByte
          if le64 (add64 srcOffset copyLen) data.length
              ∧ le64 (add64 dstOffset copyLen) inputPage.length then do
            let s ← slice data srcOffset (add64 srcOffset copyLen)
            copyAt inputPage dstOffset s
          else pure inputPage) (make pageBufSize)
      let outputPage ← unswizzle4ConvertPage psmt4PageW psmt4PageH inputPage index32H index32V
      let pi0Offset := add64 (mul64 (mul64 (mul64 nOutputWidthByte nOutputHeight) nPageW) i)
        (mul64 nOutputWidthByte j)
      (List.range nOutputHeight).foldlM (fun outputData k => do
          let srcOffset := mul64 k (psmt4PageW / 2)
          let dstOffset := add64 pi0Offset (mul64 (mul64 k nOutputWidthByte) nPageW)
          let copyLen := nOutputWidthByte
          if le64 (add64 srcOffset copyLen) outputPage.length
              ∧ le64 (add64 dstOffset copyLen) outputData.length then do
            let s ← slice outputPage srcOffset (add64 srcOffset copyLen)
            copyAt outputData dstOffset s
          else pure outputData) outputData) outputData) (make data.length)

def Swizzle8_i64 (linearData : List Nat) (width height : Nat) : Option (List Nat) :=
  (List.range height).foldlM (fun out y =>
    (List.range width).foldlM (fun out x =>
      let blockLoc := add64 (mul64 (andNot y 0xF) width) (mul64 (andNot x 0xF) 2)
      let swapSel := mul64 ((sar64 (add64 y 2) 2) &&& 0x1) 4
      let posY := (add64 (sar64 (andNot y 3) 1) (y &&& 1)) &&& 0x7
      let colLoc := add64 (mul64 (mul64 posY width) 2) (mul64 ((add64 x swapSel) &&& 0x7) 4)
      let byteNum := add64 ((sar64 y 1) &&& 1) ((sar64 x 2) &&& 2)
      let swizzleIdx := add64 (add64 blockLoc colLoc) byteNum
      let linearIdx := add64 (mul64 y width) x
      if lt64 swizzleIdx out.length ∧ lt64 linearIdx linearData.length then do
        let v ← readAt linearData linearIdx
        writeAt out swizzleIdx v
      else pure out) out) (make linearData.length)

def Swizzle16_i64 (linearData : List Nat) (width height : Nat) : Option (List Nat) :=
  (List.range height).foldlM (fun out y =>
    (List.range width).foldlM (fun out x =>
      let swizzledOffset := pixel16Offset_i64 x y width
      let dstIdx := mul64 swizzledOffset 2
      let srcIdx := mul64 (add64 (mul64 y width) x) 2
      if lt64 (add64 dstIdx 1) out.length ∧ lt64 (add64 srcIdx 1) linearData.length then do
        let v0 ← readAt linearData srcIdx
        let out ← writeAt out dstIdx v0
        let v1 ← readAt linearData (add64 srcIdx 1)
        writeAt out (add64 dstIdx 1) v1
      else pure out) out) (make linearData.length)

def Swizzle32_i64 (linearData : List Nat) (width height : Nat) : Option (List Nat) :=
  (List.range height).foldlM (fun out y =>
    (List.range width).foldlM (fun out x =>
      let blockLoc := add64 (mul64 (andNot y 0xF) width) (mul64 (andNot x 0xF) 2)
      let swapSel := mul64 ((sar64 (add64 y 2) 2) &&& 0x1) 4
      let posY := (add64 (sar64 (andNot y 3) 1) (y &&& 1)) &&& 0x7
      let colLoc := add64 (mul64 (mul64 posY width) 2) (mul64 ((add64 x swapSel) &&& 0x7) 4)
      let byteNum := add64 ((sar64 y 1) &&& 1) ((sar64 x 2) &&& 2)
      let swizzleIdx := add64 (add64 blockLoc colLoc) byteNum
      let dstIdx := mul64 swizzleIdx 4
      let srcIdx := mul64 (add64 (mul64 y width) x) 4
      if lt64 (add64 dstIdx 3) out.length ∧ lt64 (add64 srcIdx 3) linearData.length then do
        let s ← slice linearData srcIdx (add64 srcIdx 4)
        let d ← slice out dstIdx (add64 dstIdx 4)
        copyAt out dstIdx (s.take d.length)
      else pure out) out) (make linearData.length)

def Swizzle4_i64 (linearData : List Nat) (width height : Nat) : Option (List Nat) := do
  let psmt4PageW := 128
  let psmt4PageH := 128
  let psmct32PageW := 64
  let nPageW := (width - 1) / psmt4PageW + 1
  let nPageH := (height - 1) / psmt4PageH + 1
  let nInputWidthByte := if nPageW = 1 then width / 2 else psmt4PageW / 2
  let nOutputHeight := if nPageW = 1 then width / 4 else 32
  let nInputHeight := if nPageH = 1 then height else psmt4PageH
  let nOutputWidthByte := if nPageH = 1 then mul64 height 2 else psmct32PageW * 4
  let index ← buildIndex32
  let index32H := index.1
  let index32V := index.2
  (List.range nPageH).foldlM (fun outputData i =>
    (List.range nPageW).foldlM (fun outputData j => do
      let inputPage ← (List.range nInputHeight).foldlM (fun inputPage k => do
          let srcIdx := add64 (add64 (mul64 (mul64 (mul64 nInputWidthByte nInputHeight) nPageW) i)
            (mul64 nInputWidthByte j)) (mul64 (mul64 k nInputWidthByte) nPageW)
          let dstIdx := mul64 k (psmt4PageW / 2)
          let copyLen := nInputWidthByte
          if le64 (add64 srcIdx copyLen) linearData.length
              ∧ le64 (add64 dstIdx copyLen) inputPage.length then do
            let s ← slice linearData srcIdx (add64 srcIdx copyLen)
            copyAt inputPage dstIdx s
          else pure inputPage) (make ((psmt4PageW / 2) * psmt4PageH))
      let outputPage ← swizzle4ConvertPage psmt4PageW psmt4PageH inputPage index32H index32V
      (List.range nOutputHeight).foldlM (fun outputData k => do
          let srcIdx := mul64 k (psmct32PageW * 4)
          let dstIdx := add64 (add64 (mul64 (mul64 (mul64 nOutputWidthByte nOutputHeight) nPageW) i)
            (mul64 nOutputWidthByte j)) (mul64 (mul64 k nOutputWidthByte) nPageW)
          let copyLen := nOutputWidthByte
          if le64 (add64 srcIdx copyLen) outputPage.length
              ∧ le64 (add64 dstIdx copyLen) outputData.length then do
            let s ← slice outputPage srcIdx (add64 srcIdx copyLen)
            copyAt outputData dstIdx s
          else pure outputData) outputData) outputData) (make linearData.length)

/-! ## Auxiliary definitions used by the proofs -/

/-- `out'` is `out` with the `b` bytes of element `dq` replaced by the `b`
bytes of element `sq` of `data`. -/
def Moved (b : Nat) (data : List Nat) (dq sq : Nat) (out out' : List Nat) : Prop :=
  out'.length = out.length ∧
  ∀ p, out'[p]? = if b * dq ≤ p ∧ p < b * dq + b then data[b * sq + (p - b * dq)]? else out[p]?

/-- Both the destination element `dq` and the source element `sq` (of `b`
bytes each) lie inside a buffer of `n` bytes. -/
def Fits (b n dq sq : Nat) : Prop := b * dq + b ≤ n ∧ b * sq + b ≤ n

/-- What every per-pixel loop body of the 8/16/32bpp transforms does: when
source and destination fit, move the element; otherwise leave `out` alone. -/
def StepSpec (b : Nat) (data : List Nat) (d s : Nat → Nat → Nat)
    (f : List Nat → Nat → Nat → Option (List Nat)) : Prop :=
  ∀ out y x, out.length = data.length →
    (Fits b data.length (d x y) (s x y) →
      ∃ out', f out y x = some out' ∧ Moved b data (d x y) (s x y) out out') ∧
    (¬ Fits b data.length (d x y) (s x y) → f out y x = some out)

/-- No two pixels of the `w × h` image that fit share a destination element. -/
def InjOn (b n w h : Nat) (d s : Nat → Nat → Nat) : Prop :=
  ∀ x y x' y', x < w → y < h → x' < w → y' < h →
    Fits b n (d x y) (s x y) → Fits b n (d x' y') (s x' y') →
    d x y = d x' y' → x = x' ∧ y = y'

/-- The 8bpp swizzled address computed inline by `Swizzle8`, `Unswizzle8`,
`Swizzle32` and `Unswizzle32` (`swizzleIdx := blockLoc + colLoc + byteNum`). -/
def addr8 (x y width : Nat) : Nat :=
  (andNot y 0xF * width + andNot x 0xF * 2)
    + (((((andNot y 3) >>> 1) + (y &&& 1)) &&& 0x7) * width * 2
      + ((x + (((y + 2) >>> 2) &&& 0x1) * 4) &&& 0x7) * 4)
    + (((y >>> 1) &&& 1) + ((x >>> 2) &&& 2))

/-- Row-pair number of the address of a pixel in row `y`. -/
def rowSel8 (y : Nat) : Nat := 8 * (y / 16) + (4 * (y / 4) / 2 + y % 2) % 8

/-- Offset of the address inside its row pair. -/
def col8 (x y : Nat) : Nat :=
  32 * (x / 16) + ((x + ((y + 2) / 4 % 2) * 4) % 8) * 4 + (y / 2 % 2 + 2 * (x / 4 / 2 % 2))

/-- Body of the 8bpp loops: one guarded byte move. -/
def move1 (data out : List Nat) (d s : Nat) : Option (List Nat) :=
  if d < out.length ∧ s < data.length then do
    let v ← readAt data s
    writeAt out d v
  else pure out

/-- Body of the 16bpp loops: two guarded byte moves. -/
def move2 (data out : List Nat) (d s : Nat) : Option (List Nat) :=
  if d * 2 + 1 < out.length ∧ s * 2 + 1 < data.length then do
    let v0 ← readAt data (s * 2)
    let out ← writeAt out (d * 2) v0
    let v1 ← readAt data (s * 2 + 1)
    writeAt out (d * 2 + 1) v1
  else pure out

/-- Body of the 32bpp loops: one guarded four-byte `copy`. -/
def move4 (data out : List Nat) (d s : Nat) : Option (List Nat) :=
  if d * 4 + 3 < out.length ∧ s * 4 + 3 < data.length then do
    let sl ← slice data (s * 4) (s * 4 + 4)
    let dl ← slice out (d * 4) (d * 4 + 4)
    copyAt out (d * 4) (sl.take dl.length)
  else pure out

/-- Source position of output entry `j` of the CSM1 reorder of a table of `n`
entries: inside a full chunk of 32 the second and third groups of eight are
exchanged; entries of a trailing partial chunk stay in place. -/
def csm1Perm (n j : Nat) : Nat :=
  if 32 * (j / 32) + 32 ≤ n then
    if 8 ≤ j % 32 ∧ j % 32 < 16 then j + 8
    else if 16 ≤ j % 32 ∧ j % 32 < 24 then j - 8
    else j
  else j

/-- The nibble that entry `index0` of the table `lut` selects from the
quarter of the block `b` starting at byte `pIn`. -/
def nibAt (lut b : List Nat) (index0 pIn : Nat) : Nat :=
  ((b.getD (pIn + lut.getD index0 0 / 2) 0) &&& ((0x0F <<< ((lut.getD index0 0 &&& 0x1) * 4)) % 256))
    >>> ((lut.getD index0 0 &&& 0x1) * 4)

/-- Byte `n` of the block a converter driven by the table `lut` produces from `b`. -/
def blockByte (lut b : List Nat) (n : Nat) : Nat :=
  nibAt lut b ((n / 64 % 2) * 128 + 2 * (n % 64)) (64 * (n / 64))
    ||| ((((nibAt lut b ((n / 64 % 2) * 128 + 2 * (n % 64) + 1) (64 * (n / 64))) <<< 4) % 256)
      &&& 0xF0)

/-- Innermost loop body of the block converters with the table as a parameter;
the state is `(outputBlockData, index0, index1)`. -/
def blockStep (lut b : List Nat) (pIn : Nat) (st : List Nat × Nat × Nat) :
    Option (List Nat × Nat × Nat) := do
  let index0 := st.2.1
  let cOut := 0x00
  let i0 ← readAt lut index0
  let index0 := index0 + 1
  let i1 := i0 / 2
  let i2 := (i0 &&& 0x1) * 4
  let b0 ← readAt b (pIn + i1)
  let cIn := (b0 &&& ((0x0F <<< i2) % 256)) >>> i2
  let cOut := cOut ||| cIn
  let i0 ← readAt lut index0
  let index0 := index0 + 1
  let i1 := i0 / 2
  let i2 := (i0 &&& 0x1) * 4
  let b0 ← readAt b (pIn + i1)
  let cIn := (b0 &&& ((0x0F <<< i2) % 256)) >>> i2
  let cOut := cOut ||| (((cIn <<< 4) % 256) &&& 0xF0)
  let out ← writeAt st.1 st.2.2 cOut
  pure (out, index0, st.2.2 + 1)

/-- The loop nest of the block converters with the table as a parameter. -/
def convertBlockWith (lut b : List Nat) : Option (List Nat) := do
  let r ← (List.range 4).foldlM (fun (st : List Nat × Nat × Nat) k => do
      let pIn := st.2.2
      let index0 := (k % 2) * 128
      let r ← (List.range 16).foldlM (fun (st : List Nat × Nat × Nat) _ =>
          (List.range 4).foldlM (fun (st : List Nat × Nat × Nat) _ => blockStep lut b pIn st) st)
        (st.1, index0, st.2.1)
      pure (r.1, r.2.2, pIn + 64)) (make 256, 0, 0)
  pure r.1

/-- A nibble lookup table: 256 entries, each below 128. -/
def LutOk (lut : List Nat) : Prop := lut.length = 256 ∧ ∀ i, i < 256 → lut.getD i 0 < 128

/-- Innermost loop body of `swizzle4ConvertBlock`, with its `step` loop. -/
def swizzleStep (b : List Nat) (pIn : Nat) (st : List Nat × Nat × Nat) :
    Option (List Nat × Nat × Nat) := do
  let r ← (List.range 2).foldlM (fun (sc : Nat × Nat) step => do
      let i0 ← readAt swizzleLutTable sc.1
      let i1 := i0 / 2
      let i2 := (i0 &&& 0x1) * 4
      let b0 ← readAt b (pIn + i1)
      let cIn := (b0 &&& ((0x0F <<< i2) % 256)) >>> i2
      if step = 0 then pure (sc.1 + 1, sc.2 ||| cIn)
      else pure (sc.1 + 1, sc.2 ||| (((cIn <<< 4) % 256) &&& 0xF0))) (st.2.1, 0x00)
  let out ← writeAt st.1 st.2.2 r.2
  pure (out, r.1, st.2.2 + 1)

/-- Nibble `i0 mod 2` of the byte `v`, as the block converters extract it. -/
def nibOf (v i0 : Nat) : Nat :=
  (v &&& ((0x0F <<< ((i0 &&& 0x1) * 4)) % 256)) >>> ((i0 &&& 0x1) * 4)

/-- Two tables are inverse to each other half by half. -/
def LutInv (lutA lutB : List Nat) : Prop :=
  ∀ h, h < 2 → ∀ m, m < 128 → lutB.getD (h * 128 + lutA.getD (h * 128 + m) 0) 0 = m

/-- A step turns the buffer `a` into `a'` by writing exactly the bytes `(p, v)`
of the relation `W`. -/
def WritesTo (W : Nat → Nat → Prop) (a a' : List Nat) : Prop :=
  a'.length = a.length ∧
  ∀ p, (∀ v, W p v → a'[p]? = some v) ∧ ((∀ v, ¬ W p v) → a'[p]? = a[p]?)

/-- Row `k` of a strided copy: `len` bytes from `src` at `sOff k` land at `dOff k`. -/
def RowW (src : List Nat) (len : Nat) (sOff dOff : Nat → Nat) (k p v : Nat) : Prop :=
  dOff k ≤ p ∧ p < dOff k + len ∧ src[sOff k + (p - dOff k)]? = some v

/-- The table `index32H` that the loop `buildIndex32` computes. -/
def index32H : List Nat :=
  [0, 1, 0, 1, 2, 3, 2, 3, 0, 1, 0, 1, 2, 3, 2, 3, 4, 5, 4, 5, 6, 7, 6, 7, 4, 5, 4, 5, 6, 7, 6, 7]

/-- The table `index32V` that the loop `buildIndex32` computes. -/
def index32V : List Nat :=
  [0, 0, 1, 1, 0, 0, 1, 1, 2, 2, 3, 3, 2, 2, 3, 3, 0, 0, 1, 1, 0, 0, 1, 1, 2, 2, 3, 3, 2, 2, 3, 3]

/-- Byte offset, inside a PSMCT32-layout page, of the 8x32-byte block that
corresponds to the 4bpp block in block row `i`, block column `j`. -/
def blockBase (H V : List Nat) (i j : Nat) : Nat :=
  8 * V.getD (blockTable4.getD (i * 4 + j) 0) 0 * 256 + H.getD (blockTable4.getD (i * 4 + j) 0) 0 * 32

/-- Index tables with 32 entries, horizontal positions below 8 and vertical below 4. -/
def IndexOk (H V : List Nat) : Prop :=
  H.length = 32 ∧ V.length = 32 ∧ ∀ nb, nb < 32 → H.getD nb 0 < 8 ∧ V.getD nb 0 < 4

/-- The 256 bytes of the 8x32-byte block at offset `base` of a page with 256-byte lines. -/
def gather32 (S : List Nat) (base : Nat) : List Nat :=
  (List.range 256).map (fun m => S.getD (base + 256 * (m / 32) + m % 32) 0)

/-- The 256 bytes of the 16x16-byte block `(i, j)` of a page with 64-byte lines. -/
def gather16 (P : List Nat) (i j : Nat) : List Nat :=
  (List.range 256).map (fun n => P.getD (1024 * i + 16 * j + 64 * (n / 16) + n % 16) 0)

/-- Body of the block loops of `unswizzle4ConvertPage` for a 128x128 page. -/
def unswizzlePageStep (inputPageData index32H index32V outputPageData : List Nat) (i j : Nat) :
    Option (List Nat) := do
  let inBlockNb ← readAt blockTable4 (i * 4 + j)
  let iv ← readAt index32V inBlockNb
  let ih ← readAt index32H inBlockNb
  let po1Offset := 8 * iv * 256 + ih * 32
  let po0 ← (List.range 8).foldlM (fun po0 k => do
      let start := po1Offset + k * 256
      let s ← slice inputPageData start (start + 32)
      copyAt po0 (k * 32) s) (make 256)
  let outputBlock ← unswizzle4ConvertBlock po0
  (List.range 16).foldlM (fun outputPageData k => do
      let start := (16 * i * 64) + j * 16 + k * 64
      let s ← slice outputBlock (k * 16) (k * 16 + 16)
      copyAt outputPageData start s) outputPageData

/-- Bytes written by block `(i, j)` of `unswizzle4ConvertPage`. -/
def UnswizzlePageW (S H V : List Nat) (i j p v : Nat) : Prop :=
  ∃ n, n < 256 ∧ p = 1024 * i + 16 * j + 64 * (n / 16) + n % 16 ∧
    v = blockByte unswizzleLutTable (gather32 S (blockBase H V i j)) n

/-- Body of the block loops of `swizzle4ConvertPage` for a 128x128 page; the
state is `(outputPageData, inputBlock)`. -/
def swizzlePageStep (inputPageData index32H index32V : List Nat) (st : List Nat × List Nat)
    (i j : Nat) : Option (List Nat × List Nat) := do
  let pi1Idx := 16 * i * 64 + j * 16
  let inputBlock ← (List.range 16).foldlM (fun inputBlock k => do
      let start := pi1Idx + k * 64
      let s ← slice inputPageData start (start + 16)
      copyAt inputBlock (k * 16) s) st.2
  let outputBlock ← swizzle4ConvertBlock inputBlock
  let inBlockNb ← readAt blockTable4 (i * 4 + j)
  let iv ← readAt index32V inBlockNb
  let ih ← readAt index32H inBlockNb
  let po0Idx := 8 * iv * 256 + ih * 32
  let outputPageData ← (List.range 8).foldlM (fun outputPageData k => do
      let start := k * 32
      let outStart := po0Idx + k * 256
      let s ← slice outputBlock start (start + 32)
      copyAt outputPageData outStart s) st.1
  pure (outputPageData, inputBlock)

/-- Bytes written by block `(i, j)` of `swizzle4ConvertPage`. -/
def SwizzlePageW (P H V : List Nat) (i j p v : Nat) : Prop :=
  ∃ m, m < 256 ∧ p = blockBase H V i j + 256 * (m / 32) + m % 32 ∧
    v = blockByte swizzleLutTable (gather16 P i j) m

/-- Distinct 4bpp blocks of a page correspond to distinct PSMCT32 blocks. -/
def IndexInj (H V : List Nat) : Prop :=
  ∀ i, i < 8 → ∀ j, j < 4 → ∀ i', i' < 8 → ∀ j', j' < 4 →
    blockBase H V i j = blockBase H V i' j' → i = i' ∧ j = j'

/-- All elements of the buffer are byte values. -/
def Bytes (a : List Nat) : Prop := ∀ n, n < a.length → a.getD n 0 < 256

/-- Body of the page loops shared by `Swizzle4` and `Unswizzle4`: gather the
rows of page `(i, j)` into a fresh 8192-byte page buffer (`inStride` bytes per
page line), convert the page with `conv`, and scatter the rows of the result
(`outStride` bytes per page line) into `outputData`. -/
def pageStep (conv : List Nat → Option (List Nat)) (data : List Nat)
    (nInputWidthByte nInputHeight nOutputWidthByte nOutputHeight nPageW inStride outStride : Nat)
    (outputData : List Nat) (i j : Nat) : Option (List Nat) := do
  let inputPage ← (List.range nInputHeight).foldlM (fun inputPage k =>
      if (nInputWidthByte * nInputHeight) * nPageW * i + nInputWidthByte * j
            + k * nInputWidthByte * nPageW + nInputWidthByte ≤ data.length
          ∧ k * inStride + nInputWidthByte ≤ inputPage.length then do
        let s ← slice data ((nInputWidthByte * nInputHeight) * nPageW * i + nInputWidthByte * j
            + k * nInputWidthByte * nPageW)
          ((nInputWidthByte * nInputHeight) * nPageW * i + nInputWidthByte * j
            + k * nInputWidthByte * nPageW + nInputWidthByte)
        copyAt inputPage (k * inStride) s
      else pure inputPage) (make 8192)
  let outputPage ← conv inputPage
  (List.range nOutputHeight).foldlM (fun outputData k =>
      if k * outStride + nOutputWidthByte ≤ outputPage.length
          ∧ (nOutputWidthByte * nOutputHeight) * nPageW * i + nOutputWidthByte * j
            + k * nOutputWidthByte * nPageW + nOutputWidthByte ≤ outputData.length then do
        let s ← slice outputPage (k * outStride) (k * outStride + nOutputWidthByte)
        copyAt outputData ((nOutputWidthByte * nOutputHeight) * nPageW * i + nOutputWidthByte * j
            + k * nOutputWidthByte * nPageW) s
      else pure outputData) outputData

/-- Byte offset, in a buffer of `PW` pages per row with page lines of `rl`
bytes and `nr` lines per page, of byte `q` of page `(i, j)`. -/
def pageIdx (rl nr PW i j q : Nat) : Nat :=
  (rl * nr) * PW * i + rl * j + (q / rl) * rl * PW + q % rl

/-- The 8192 bytes of page `(i, j)` of a buffer. -/
def pageOf (rl nr PW : Nat) (data : List Nat) (i j : Nat) : List Nat :=
  (List.range 8192).map (fun q => data.getD (pageIdx rl nr PW i j q) 0)

/-- Bytes written when the rows of the page `op` are scattered to page `(i, j)`. -/
def ScatterW (op : List Nat) (rl nr PW i j p v : Nat) : Prop :=
  ∃ q, q < 8192 ∧ p = pageIdx rl nr PW i j q ∧ op[q]? = some v

/-- Bytes written by page `(i, j)` of a page loop. -/
def PageW (conv : List Nat → Option (List Nat)) (data : List Nat) (rl nr rl' nr' PW : Nat)
    (i j p v : Nat) : Prop :=
  ∃ S, conv (pageOf rl nr PW data i j) = some S ∧ ScatterW S rl' nr' PW i j p v

/-- Loop body of the nibble unpacking of `Unswizzle4By8` (both writes guarded). -/
def unpackStep (data temp8 : List Nat) (i : Nat) : Option (List Nat) := do
  let b ← readAt data i
  let temp8 ← if i * 2 < temp8.length then writeAt temp8 (i * 2) (b &&& 0x0F) else pure temp8
  if i * 2 + 1 < temp8.length then writeAt temp8 (i * 2 + 1) ((b >>> 4) &&& 0x0F)
  else pure temp8

/-- Loop body of the nibble repacking of `Unswizzle4By8` and `Swizzle4By8`. -/
def repackStep (u out : List Nat) (i : Nat) : Option (List Nat) := do
  let p1 ← if i * 2 < u.length then (readAt u (i * 2)).map (fun v => v &&& 0x0F) else pure 0
  let p2 ← if i * 2 + 1 < u.length then (readAt u (i * 2 + 1)).map (fun v => v &&& 0x0F)
           else pure 0
  writeAt out i (p1 ||| ((p2 <<< 4) % 256))

/-- Element `p` of the one-nibble-per-byte buffer built from `data`. -/
def unpackNib (data : List Nat) (p : Nat) : Nat :=
  if p / 2 < data.length then
    (if p % 2 = 0 then data.getD (p / 2) 0 &&& 0x0F else (data.getD (p / 2) 0 >>> 4) &&& 0x0F)
  else 0

/-- Byte `i` repacked from the one-nibble-per-byte buffer `u`. -/
def repackByte (u : List Nat) (i : Nat) : Nat :=
  (if i * 2 < u.length then u.getD (i * 2) 0 &&& 0x0F else 0)
    ||| (((if i * 2 + 1 < u.length then u.getD (i * 2 + 1) 0 &&& 0x0F else 0) <<< 4) % 256)

/-- Bytes written by iteration `i` of the unpacking loop into a buffer of `n` bytes. -/
def UnpackW (data : List Nat) (n i p v : Nat) : Prop :=
  p < n ∧ p / 2 = i ∧ v = unpackNib data p

/-- Loop body of the nibble unpacking of `Swizzle4By8`: the first write is not guarded. -/
def unpackStepS (data temp8 : List Nat) (i : Nat) : Option (List Nat) := do
  let b ← readAt data i
  let temp8 ← writeAt temp8 (i * 2) (b &&& 0x0F)
  if i * 2 + 1 < temp8.length then do
    let b ← readAt data i
    writeAt temp8 (i * 2 + 1) ((b >>> 4) &&& 0x0F)
  else pure temp8

/-- The result `out` of a per-pixel loop on `data` has the length of `data`,
and every byte that is not a destination byte of a pixel whose source and
destination elements both lie inside the buffer is still zero: pixels that do
not fit are skipped. -/
def SkipsUnfit (b : Nat) (data out : List Nat) (w h : Nat) (d s : Nat → Nat → Nat) : Prop :=
  out.length = data.length ∧
  ∀ p, p < data.length →
    (∀ x y, x < w → y < h → Fits b data.length (d x y) (s x y) →
      ¬ (b * d x y ≤ p ∧ p < b * d x y + b)) → out[p]? = some 0

/-- The 8bpp address as the specification writes it:
`addr(x,y,w) = (y & ~15)*w + (x & ~15)*2 + ((((y & ~3) >> 1) + (y & 1)) & 7)*w*2
 + ((x + (((y+2) >> 2) & 1)*4) & 7)*4 + ((y >> 1) & 1) + ((x >> 2) & 2)`. -/
def addrSpec (x y w : Nat) : Nat :=
  andNot y 15 * w + andNot x 15 * 2 + ((((andNot y 3) >>> 1) + (y &&& 1)) &&& 7) * w * 2
    + ((x + (((y + 2) >>> 2) &&& 1) * 4) &&& 7) * 4 + ((y >>> 1) &&& 1) + ((x >>> 2) &&& 2)

/-- The 16bpp element offset as the specification writes it. -/
def pixel16OffsetSpec (x y width : Nat) : Nat :=
  32 * ((((y >>> 6) <<< 5) + ((x &&& 0x30) >>> 1) + (y &&& 0x07)) * width
    + (((x >>> 6) <<< 6) + (y &&& 0x38) + (x &&& 0x07))) + ((x &&& 0x08) <<< 1)

/-- The buffer of 1056 bytes (a 16x33 image at 16bpp) that is zero except for
byte 32, which is 1. -/
def collide16 : List Nat := (List.replicate 1056 0).set 32 1

/-- Nibble expansion as the specification writes it: `unpack(x)[2i] = x[i] & 0x0F`
and `unpack(x)[2i+1] = x[i] >> 4`, two entries per byte of `x`. -/
def unpack (x : List Nat) : List Nat :=
  (List.range (2 * x.length)).map (fun p =>
    if p % 2 = 0 then x.getD (p / 2) 0 &&& 0x0F else x.getD (p / 2) 0 >>> 4)

/-- Nibble packing as the specification writes it:
`repack(p)[i] = (p[2i] & 0x0F) | ((p[2i+1] & 0x0F) << 4)`, one byte per pair of entries. -/
def repack (p : List Nat) : List Nat :=
  (List.range (p.length / 2)).map (fun i =>
    (p.getD (2 * i) 0 &&& 0x0F) ||| ((p.getD (2 * i + 1) 0 &&& 0x0F) <<< 4))

/-- Channel `c` of a buffer of 4-byte elements: `plane_c[i] = buf[4i + c]`. -/
def plane (buf : List Nat) (c : Nat) : List Nat :=
  (List.range (buf.length / 4)).map (fun i => buf.getD (4 * i + c) 0)

/-- Loop body of `ps2Swizzle` with the address written as `addr8`. -/
def ps2Step (data : List Nat) (w : Nat) (swizzle : Bool) (out : List Nat) (y x : Nat) :
    Option (List Nat) :=
  if swizzle then do
    let v ← readAt data (y * w + x)
    writeAt out (addr8 x y w) v
  else
    if addr8 x y w < data.length then do
      let v ← readAt data (addr8 x y w)
      writeAt out (y * w + x) v
    else pure out

/-- What `reversePix` rebuilds from the expansion of `raw` to `n` pixels: `raw`
itself, except that a byte whose second pixel lies beyond the `n` pixels loses
its high nibble. -/
def clearPad (raw : List Nat) (n : Nat) : List Nat :=
  (List.range raw.length).map (fun i =>
    if 2 * i + 1 < n then raw.getD i 0 else raw.getD i 0 &&& 0x0F)

/-- The nibbles of `raw`, low nibble first, as `processPix` appends them. -/
def nibbles : List Nat → List Nat
  | [] => []
  | b :: rest => (b &&& 0x0F) :: ((b >>> 4) &&& 0x0F) :: nibbles rest

/-- Number of bytes the compressed stream encodes, read from bit `i` of the
control byte `controlByte` on (`i ≥ 8`: a control byte comes first): a literal
takes one byte of the stream and gives one byte, a pair takes two and gives
`(byte2 & 0x0F) + 3`; the count stops where the stream ends inside a token. -/
def produced : Nat → Nat → List Nat → Nat
  | _, _, [] => 0
  | i, controlByte, x :: rest =>
    if i ≥ 8 then produced 0 x rest
    else if (controlByte >>> i) &&& 1 = 1 then 1 + produced (i + 1) controlByte rest
    else match rest with
      | [] => 0
      | y :: rest' => (y &&& 0x0F) + 3 + produced (i + 1) controlByte rest'

/-- Run `f` repeatedly, `k` times. -/
def iter {σ : Type} (f : σ → Option σ) : Nat → σ → Option σ
  | 0, s => some s
  | k + 1, s => (f s).bind (iter f k)

/-- The decoder state is well formed and has not failed. -/
def DecOk (c : List Nat) (n : Nat) (st : DecState) : Prop :=
  st.dictionary.length = 4096 ∧ st.dictPos < 4096 ∧ st.failed = false ∧
  st.srcPos ≤ c.length ∧ st.decompressedData.length ≤ n

/-- Page buffer that holds the `ih` rows of `iw` bytes of `data` at `stride`
bytes per page line, and zero elsewhere. -/
def subPage (data : List Nat) (iw ih stride : Nat) : List Nat :=
  (List.range 8192).map (fun q =>
    if q % stride < iw ∧ q / stride < ih then data.getD (q / stride * iw + q % stride) 0 else 0)

/-- The `oh` rows of `ow` bytes read from a page with `stride` bytes per line. -/
def subRows (page : List Nat) (ow oh stride : Nat) : List Nat :=
  (List.range (oh * ow)).map (fun p => page.getD (p / ow * stride + p % ow) 0)

/-- The 8bpp swizzled address computed inline by the 64-bit transforms. -/
def addr8_i64 (x y width : Nat) : Nat :=
  add64 (add64 (add64 (mul64 (andNot y 0xF) width) (mul64 (andNot x 0xF) 2))
    (add64 (mul64 (mul64 ((add64 (sar64 (andNot y 3) 1) (y &&& 1)) &&& 0x7) width) 2)
      (mul64 ((add64 x (mul64 ((sar64 (add64 y 2) 2) &&& 0x1) 4)) &&& 0x7) 4)))
    (add64 ((sar64 y 1) &&& 1) ((sar64 x 2) &&& 2))

/-- Body of the 8bpp loops with 64-bit indices: one guarded byte move. -/
def move1_i64 (data out : List Nat) (d s : Nat) : Option (List Nat) :=
  if lt64 d out.length ∧ lt64 s data.length then do
    let v ← readAt data s
    writeAt out d v
  else pure out

/-- Body of the 16bpp loops with 64-bit indices: two guarded byte moves. -/
def move2_i64 (data out : List Nat) (d s : Nat) : Option (List Nat) :=
  if lt64 (add64 (mul64 d 2) 1) out.length ∧ lt64 (add64 (mul64 s 2) 1) data.length then do
    let v0 ← readAt data (mul64 s 2)
    let out ← writeAt out (mul64 d 2) v0
    let v1 ← readAt data (add64 (mul64 s 2) 1)
    writeAt out (add64 (mul64 d 2) 1) v1
  else pure out

/-- Body of the 32bpp loops with 64-bit indices: one guarded four-byte `copy`. -/
def move4_i64 (data out : List Nat) (d s : Nat) : Option (List Nat) :=
  if lt64 (add64 (mul64 d 4) 3) out.length ∧ lt64 (add64 (mul64 s 4) 3) data.length then do
    let sl ← slice data (mul64 s 4) (add64 (mul64 s 4) 4)
    let dl ← slice out (mul64 d 4) (add64 (mul64 d 4) 4)
    copyAt out (mul64 d 4) (sl.take dl.length)
  else pure out

/-- Body of the page loops of `Swizzle4_i64` and `Unswizzle4_i64`: `pageStep`
with the row offsets and the guards computed in 64-bit `int` arithmetic. -/
def pageStep_i64 (conv : List Nat → Option (List Nat)) (data : List Nat)
    (nInputWidthByte nInputHeight nOutputWidthByte nOutputHeight nPageW inStride outStride : Nat)
    (outputData : List Nat) (i j : Nat) : Option (List Nat) := do
  let inputPage ← (List.range nInputHeight).foldlM (fun inputPage k =>
      if le64 (add64 (add64 (add64 (mul64 (mul64 (mul64 nInputWidthByte nInputHeight) nPageW) i)
              (mul64 nInputWidthByte j)) (mul64 (mul64 k nInputWidthByte) nPageW))
            nInputWidthByte) data.length
          ∧ le64 (add64 (mul64 k inStride) nInputWidthByte) inputPage.length then do
        let s ← slice data
          (add64 (add64 (mul64 (mul64 (mul64 nInputWidthByte nInputHeight) nPageW) i)
            (mul64 nInputWidthByte j)) (mul64 (mul64 k nInputWidthByte) nPageW))
          (add64 (add64 (add64 (mul64 (mul64 (mul64 nInputWidthByte nInputHeight) nPageW) i)
            (mul64 nInputWidthByte j)) (mul64 (mul64 k nInputWidthByte) nPageW))
            nInputWidthByte)
        copyAt inputPage (mul64 k inStride) s
      else pure inputPage) (make 8192)
  let outputPage ← conv inputPage
  (List.range nOutputHeight).foldlM (fun outputData k =>
      if le64 (add64 (mul64 k outStride) nOutputWidthByte) outputPage.length
          ∧ le64 (add64 (add64 (add64
              (mul64 (mul64 (mul64 nOutputWidthByte nOutputHeight) nPageW) i)
              (mul64 nOutputWidthByte j)) (mul64 (mul64 k nOutputWidthByte) nPageW))
            nOutputWidthByte) outputData.length then do
        let s ← slice outputPage (mul64 k outStride) (add64 (mul64 k outStride) nOutputWidthByte)
        copyAt outputData
          (add64 (add64 (mul64 (mul64 (mul64 nOutputWidthByte nOutputHeight) nPageW) i)
            (mul64 nOutputWidthByte j)) (mul64 (mul64 k nOutputWidthByte) nPageW)) s
      else pure outputData) outputData

/-! ## Loop rules -/

theorem foldlM_range_inv {σ : Type} (f : σ → Nat → Option σ) (P : Nat → σ → Prop) (n : Nat)
    (init : σ) (h0 : P 0 init)
    (hstep : ∀ k, k < n → ∀ s, P k s → ∃ s', f s k = some s' ∧ P (k + 1) s') :
    ∃ s', (List.range n).foldlM f init = some s' ∧ P n s' := by
  induction n with
  | zero => exact ⟨init, by simp, h0⟩
  | succ n ih =>
    obtain ⟨s, hs, hP⟩ := ih (fun k hk => hstep k (by omega))
    obtain ⟨s', hs', hP'⟩ := hstep n (by omega) s hP
    refine ⟨s', ?_, hP'⟩
    rw [List.range_succ, List.foldlM_append, hs]
    simp [hs']

theorem foldlM_range2_inv {σ : Type} (f : σ → Nat → Nat → Option σ) (P : Nat → σ → Prop)
    (h w : Nat) (init : σ) (h0 : P 0 init)
    (hstep : ∀ y x, y < h → x < w → ∀ s, P (y * w + x) s →
      ∃ s', f s y x = some s' ∧ P (y * w + x + 1) s') :
    ∃ s', (List.range h).foldlM (fun s y => (List.range w).foldlM (fun s x => f s y x) s) init
        = some s' ∧ P (h * w) s' := by
  apply foldlM_range_inv _ (fun y s => P (y * w) s) h init (by simpa using h0)
  intro y hy s hs
  have := foldlM_range_inv (fun s x => f s y x) (fun x s => P (y * w + x) s) w s
    (by simpa using hs) (fun x hx s hs => hstep y x hy hx s hs)
  obtain ⟨s', h1, h2⟩ := this
  exact ⟨s', h1, by simpa [Nat.succ_mul] using h2⟩

/-! ## Specifications of the primitives -/

theorem make_length (n : Nat) : (make n).length = n := by simp [make]

theorem make_getElem? (n p : Nat) (hp : p < n) : (make n)[p]? = some 0 := by
  simp [make, List.getElem?_replicate, hp]

theorem readAt_of_lt (a : List Nat) (i : Nat) (h : i < a.length) :
    readAt a i = some (a.getD i 0) := by
  simp [readAt, List.getD_eq_getElem?_getD, List.getElem?_eq_getElem h]

theorem writeAt_of_lt (a : List Nat) (i v : Nat) (h : i < a.length) :
    writeAt a i v = some (a.set i v) := by
  simp [writeAt, h]

theorem slice_of_le (a : List Nat) (lo hi : Nat) (h1 : lo ≤ hi) (h2 : hi ≤ a.length) :
    slice a lo hi = some ((a.drop lo).take (hi - lo)) := by
  simp [slice, h1, h2]

theorem slice_length (a : List Nat) (lo hi : Nat) (h2 : hi ≤ a.length) :
    ((a.drop lo).take (hi - lo)).length = hi - lo := by
  simp; omega

theorem slice_getElem? (a : List Nat) (lo hi t : Nat) :
    ((a.drop lo).take (hi - lo))[t]? = if t < hi - lo then a[lo + t]? else none := by
  simp [List.getElem?_take, List.getElem?_drop]

theorem copyAt_of_le (dst : List Nat) (off : Nat) (src : List Nat)
    (h : off + src.length ≤ dst.length) :
    ∃ r, copyAt dst off src = some r ∧ r.length = dst.length ∧
      ∀ p, r[p]? = if off ≤ p ∧ p < off + src.length then src[p - off]? else dst[p]? := by
  have h1 : off ≤ dst.length := by omega
  have h2 : min src.length (dst.length - off) = src.length := by omega
  have h3 : src.take (dst.length - off) = src := List.take_of_length_le (by omega)
  refine ⟨_, by simp only [copyAt, h1, if_true]; rfl, ?_, ?_⟩
  · simp [h2, h3]; omega
  · intro p
    rw [h2, h3]
    by_cases hp1 : p < off
    · have : ¬ (off ≤ p ∧ p < off + src.length) := by omega
      rw [if_neg this, List.append_assoc, List.getElem?_append_left (by simp; omega)]
      simp [List.getElem?_take, hp1]
    · by_cases hp2 : p < off + src.length
      · rw [if_pos ⟨by omega, hp2⟩, List.append_assoc,
          List.getElem?_append_right (by simp; omega)]
        rw [List.getElem?_append_left (by simp; omega)]
        simp [Nat.min_eq_left h1]
      · have : ¬ (off ≤ p ∧ p < off + src.length) := by omega
        rw [if_neg this, List.getElem?_append_right (by simp; omega)]
        simp [List.getElem?_drop, Nat.min_eq_left h1]
        congr 1; omega

/-! ## Row-major pixel numbering -/

theorem lin_lt_of_row_lt {w x y y0 : Nat} (hx : x < w) (hy : y < y0) (x0 : Nat) :
    y * w + x < y0 * w + x0 := by
  have := Nat.mul_le_mul_right w (Nat.succ_le_of_lt hy)
  rw [Nat.succ_mul] at this
  omega

theorem lin_inj {w x y x0 y0 : Nat} (hx : x < w) (hx0 : x0 < w)
    (h : y * w + x = y0 * w + x0) : x = x0 ∧ y = y0 := by
  rcases Nat.lt_trichotomy y y0 with hlt | heq | hgt
  · have := lin_lt_of_row_lt hx hlt x0; omega
  · subst heq; exact ⟨by omega, rfl⟩
  · have := lin_lt_of_row_lt hx0 hgt x; omega

theorem lin_lt_succ {w x y x0 y0 : Nat} (hx : x < w) (hx0 : x0 < w) :
    y * w + x < y0 * w + x0 + 1 ↔ (y * w + x < y0 * w + x0) ∨ (x = x0 ∧ y = y0) := by
  constructor
  · intro h
    by_cases heq : y * w + x = y0 * w + x0
    · exact Or.inr (lin_inj hx hx0 heq)
    · exact Or.inl (by omega)
  · rintro (h | ⟨rfl, rfl⟩) <;> omega

theorem lin_lt_rows {w x y h : Nat} (hx : x < w) : y * w + x < h * w ↔ y < h := by
  constructor
  · intro hl
    by_contra hc
    have := Nat.mul_le_mul_right w (Nat.le_of_not_lt hc)
    omega
  · intro hy
    have := lin_lt_of_row_lt hx hy 0
    omega

/-! ## Guarded element moves -/

theorem moveLoop_spec (b : Nat) (data : List Nat) (d s : Nat → Nat → Nat)
    (f : List Nat → Nat → Nat → Option (List Nat)) (hf : StepSpec b data d s f) (w h : Nat) :
    ∃ out, (List.range h).foldlM (fun o y => (List.range w).foldlM (fun o x => f o y x) o)
        (make data.length) = some out
      ∧ out.length = data.length
      ∧ (∀ p, p < data.length →
          (∀ x y, x < w → y < h → Fits b data.length (d x y) (s x y) →
            ¬ (b * d x y ≤ p ∧ p < b * d x y + b)) → out[p]? = some 0)
      ∧ (InjOn b data.length w h d s →
          ∀ x y, x < w → y < h → Fits b data.length (d x y) (s x y) →
            ∀ c, c < b → out[b * d x y + c]? = data[b * s x y + c]?) := by
  have key := foldlM_range2_inv f (fun m out =>
      out.length = data.length
      ∧ (∀ p, p < data.length →
          (∀ x y, x < w → y * w + x < m → Fits b data.length (d x y) (s x y) →
            ¬ (b * d x y ≤ p ∧ p < b * d x y + b)) → out[p]? = some 0)
      ∧ (InjOn b data.length w h d s →
          ∀ x y, x < w → y * w + x < m → Fits b data.length (d x y) (s x y) →
            ∀ c, c < b → out[b * d x y + c]? = data[b * s x y + c]?)) h w (make data.length)
    ⟨make_length _, fun p hp _ => make_getElem? _ _ hp, fun _ x y _ hm => by omega⟩
    (by
      intro y0 x0 hy0 hx0 out ⟨hlen, hzero, hval⟩
      obtain ⟨hfit, hnofit⟩ := hf out y0 x0 hlen
      by_cases hg : Fits b data.length (d x0 y0) (s x0 y0)
      · obtain ⟨out', hout', hl', hget⟩ := hfit hg
        refine ⟨out', hout', hl'.trans hlen, ?_, ?_⟩
        · intro p hp hnot
          have hp0 := hnot x0 y0 hx0 (by omega) hg
          rw [hget p, if_neg hp0]
          exact hzero p hp (fun x y hx hm hG => hnot x y hx (by omega) hG)
        · intro hinj x y hx hm hG c hc
          rcases (lin_lt_succ hx hx0).1 hm with hlt | ⟨rfl, rfl⟩
          · have hy : y < h := by
              by_contra hc'
              have := lin_lt_of_row_lt hx0 (Nat.lt_of_lt_of_le hy0 (Nat.le_of_not_lt hc')) x
              omega
            have hne : d x y ≠ d x0 y0 := by
              intro heq
              obtain ⟨rfl, rfl⟩ := hinj x y x0 y0 hx hy hx0 hy0 hG hg heq
              omega
            have hdis : ¬ (b * d x0 y0 ≤ b * d x y + c ∧ b * d x y + c < b * d x0 y0 + b) := by
              rcases Nat.lt_or_gt_of_ne hne with h1 | h1
              · have := Nat.mul_le_mul_left b (Nat.succ_le_of_lt h1)
                rw [Nat.mul_succ] at this; omega
              · have := Nat.mul_le_mul_left b (Nat.succ_le_of_lt h1)
                rw [Nat.mul_succ] at this; omega
            rw [hget _, if_neg hdis]
            exact hval hinj x y hx hlt hG c hc
          · rw [hget _, if_pos ⟨by omega, by omega⟩]
            congr 1; omega
      · refine ⟨out, hnofit hg, hlen, ?_, ?_⟩
        · intro p hp hnot
          exact hzero p hp (fun x y hx hm hG => hnot x y hx (by omega) hG)
        · intro hinj x y hx hm hG c hc
          rcases (lin_lt_succ hx hx0).1 hm with hlt | ⟨rfl, rfl⟩
          · exact hval hinj x y hx hlt hG c hc
          · exact absurd hG hg)
  obtain ⟨out, hout, hlen, hzero, hval⟩ := key
  refine ⟨out, hout, hlen, ?_, ?_⟩
  · intro p hp hnot
    exact hzero p hp (fun x y hx hm hG => hnot x y hx ((lin_lt_rows hx).1 hm) hG)
  · intro hinj x y hx hy hG c hc
    exact hval hinj x y hx ((lin_lt_rows hx).2 hy) hG c hc

/-! ## Bit operations as division and remainder -/

theorem and_one (n : Nat) : n &&& 1 = n % 2 := Nat.and_pow_two_sub_one_eq_mod n 1

theorem and_three (n : Nat) : n &&& 3 = n % 4 := Nat.and_pow_two_sub_one_eq_mod n 2

theorem and_seven (n : Nat) : n &&& 7 = n % 8 := Nat.and_pow_two_sub_one_eq_mod n 3

theorem and_fifteen (n : Nat) : n &&& 15 = n % 16 := Nat.and_pow_two_sub_one_eq_mod n 4

theorem and_two (n : Nat) : n &&& 2 = 2 * (n / 2 % 2) := by
  have h := Nat.and_two_pow n 1
  rw [Nat.testBit_to_div_mod] at h
  simp only [pow_one] at h
  rw [h]
  rcases Nat.mod_two_eq_zero_or_one (n / 2) with h0 | h0 <;> simp [h0]

theorem andNot_fifteen (n : Nat) : andNot n 15 = 16 * (n / 16) := by
  unfold andNot; rw [and_fifteen]; omega

theorem andNot_three (n : Nat) : andNot n 3 = 4 * (n / 4) := by
  unfold andNot; rw [and_three]; omega

theorem addr8_eq (x y w : Nat) : addr8 x y w = rowSel8 y * (2 * w) + col8 x y := by
  unfold addr8 rowSel8 col8
  simp only [Nat.reduceAnd, andNot_fifteen, andNot_three, and_one, and_seven, and_two,
    Nat.shiftRight_eq_div_pow]
  ring

theorem col8_lt {x W : Nat} (hx : x < 16 * W) (y : Nat) : col8 x y < 2 * (16 * W) := by
  unfold col8; omega

theorem addr8_inj {W x y x' y' : Nat} (hx : x < 16 * W) (hx' : x' < 16 * W)
    (h : addr8 x y (16 * W) = addr8 x' y' (16 * W)) : x = x' ∧ y = y' := by
  rw [addr8_eq, addr8_eq] at h
  obtain ⟨hc, hr⟩ := lin_inj (col8_lt hx y) (col8_lt hx' y') h
  unfold col8 at hc
  unfold rowSel8 at hr
  have e1 : y / 2 % 2 = y' / 2 % 2 := by omega
  have e2 : y = y' := by omega
  subst e2
  clear h hr e1
  have e3 : x / 4 / 2 % 2 = x' / 4 / 2 % 2 := by omega
  have e4 : (x + (y + 2) / 4 % 2 * 4) % 8 = (x' + (y + 2) / 4 % 2 * 4) % 8 := by omega
  have e5 : x / 16 = x' / 16 := by omega
  clear hc
  exact ⟨by omega, rfl⟩

theorem addr8_lt {W H x y : Nat} (hx : x < 16 * W) (hy : y < 16 * H) :
    addr8 x y (16 * W) < (16 * W) * (16 * H) := by
  rw [addr8_eq]
  have h1 : rowSel8 y < 8 * H := by unfold rowSel8; omega
  have := lin_lt_of_row_lt (col8_lt hx y) h1 0
  calc rowSel8 y * (2 * (16 * W)) + col8 x y < 8 * H * (2 * (16 * W)) + 0 := this
    _ = (16 * W) * (16 * H) := by ring

/-! ## The per-pixel loop bodies -/

theorem Swizzle8_eq (data : List Nat) (w h : Nat) :
    Swizzle8 data w h = (List.range h).foldlM (fun o y => (List.range w).foldlM
      (fun o x => move1 data o (addr8 x y w) (y * w + x)) o) (make data.length) := rfl

theorem Unswizzle8_eq (data : List Nat) (w h : Nat) :
    Unswizzle8 data w h = (List.range h).foldlM (fun o y => (List.range w).foldlM
      (fun o x => move1 data o (y * w + x) (addr8 x y w)) o) (make data.length) := by
  unfold Unswizzle8 move1 addr8
  simp only [and_comm]

theorem Swizzle16_eq (data : List Nat) (w h : Nat) :
    Swizzle16 data w h = (List.range h).foldlM (fun o y => (List.range w).foldlM
      (fun o x => move2 data o (pixel16Offset x y w) (y * w + x)) o) (make data.length) := rfl

theorem Unswizzle16_eq (data : List Nat) (w h : Nat) :
    Unswizzle16 data w h = (List.range h).foldlM (fun o y => (List.range w).foldlM
      (fun o x => move2 data o (y * w + x) (pixel16Offset x y w)) o) (make data.length) := by
  unfold Unswizzle16 move2
  simp only [and_comm]

theorem Swizzle32_eq (data : List Nat) (w h : Nat) :
    Swizzle32 data w h = (List.range h).foldlM (fun o y => (List.range w).foldlM
      (fun o x => move4 data o (addr8 x y w) (y * w + x)) o) (make data.length) := rfl

theorem Unswizzle32_eq (data : List Nat) (w h : Nat) :
    Unswizzle32 data w h = (List.range h).foldlM (fun o y => (List.range w).foldlM
      (fun o x => move4 data o (y * w + x) (addr8 x y w)) o) (make data.length) := by
  unfold Unswizzle32 move4 addr8
  simp only [and_comm]

theorem getElem?_eq_some_getD (a : List Nat) (i : Nat) (h : i < a.length) :
    a[i]? = some (a.getD i 0) := by
  simp [List.getD_eq_getElem?_getD, List.getElem?_eq_getElem h]

theorem move1_spec (data : List Nat) (d s : Nat → Nat → Nat) :
    StepSpec 1 data d s (fun o y x => move1 data o (d x y) (s x y)) := by
  intro out y x hlen
  constructor
  · rintro ⟨h1, h2⟩
    have hd : d x y < out.length := by omega
    have hs : s x y < data.length := by omega
    refine ⟨out.set (d x y) (data.getD (s x y) 0), ?_, by simp, ?_⟩
    · simp [move1, hd, hs, readAt_of_lt, writeAt_of_lt]
    · intro p
      rw [List.getElem?_set]
      by_cases hp : d x y = p
      · subst hp
        have e : 1 * s x y + (d x y - 1 * d x y) = s x y := by omega
        rw [if_pos rfl, if_pos hd, if_pos ⟨by omega, by omega⟩, e,
          getElem?_eq_some_getD _ _ hs]
      · have : ¬ (1 * d x y ≤ p ∧ p < 1 * d x y + 1) := by omega
        rw [if_neg hp, if_neg this]
  · intro hn
    have : ¬ (d x y < out.length ∧ s x y < data.length) := by
      unfold Fits at hn; omega
    simp [move1, this]

theorem move2_spec (data : List Nat) (d s : Nat → Nat → Nat) :
    StepSpec 2 data d s (fun o y x => move2 data o (d x y) (s x y)) := by
  intro out y x hlen
  constructor
  · rintro ⟨h1, h2⟩
    have hd : d x y * 2 + 1 < out.length := by omega
    have hs : s x y * 2 + 1 < data.length := by omega
    refine ⟨(out.set (d x y * 2) (data.getD (s x y * 2) 0)).set (d x y * 2 + 1)
      (data.getD (s x y * 2 + 1) 0), ?_, by simp, ?_⟩
    · have hs0 : s x y * 2 < data.length := by omega
      have hd0 : d x y * 2 < out.length := by omega
      simp [move2, hd, hs, readAt_of_lt _ _ hs, readAt_of_lt _ _ hs0, writeAt_of_lt _ _ _ hd0,
        writeAt_of_lt]
    · intro p
      rw [List.getElem?_set, List.getElem?_set]
      by_cases hp1 : d x y * 2 + 1 = p
      · subst hp1
        have e : 2 * s x y + (d x y * 2 + 1 - 2 * d x y) = s x y * 2 + 1 := by omega
        rw [if_pos rfl, if_pos (by simpa using hd), if_pos ⟨by omega, by omega⟩, e,
          getElem?_eq_some_getD _ _ hs]
      · by_cases hp0 : d x y * 2 = p
        · subst hp0
          have e : 2 * s x y + (d x y * 2 - 2 * d x y) = s x y * 2 := by omega
          have hs0 : s x y * 2 < data.length := by omega
          have hd0 : d x y * 2 < out.length := by omega
          rw [if_neg hp1, if_pos rfl, if_pos hd0, if_pos ⟨by omega, by omega⟩, e,
            getElem?_eq_some_getD _ _ hs0]
        · have : ¬ (2 * d x y ≤ p ∧ p < 2 * d x y + 2) := by omega
          rw [if_neg hp1, if_neg hp0, if_neg this]
  · intro hn
    have : ¬ (d x y * 2 + 1 < out.length ∧ s x y * 2 + 1 < data.length) := by
      unfold Fits at hn; omega
    simp [move2, this]

theorem move4_spec (data : List Nat) (d s : Nat → Nat → Nat) :
    StepSpec 4 data d s (fun o y x => move4 data o (d x y) (s x y)) := by
  intro out y x hlen
  constructor
  · rintro ⟨h1, h2⟩
    have hd : d x y * 4 + 3 < out.length := by omega
    have hs : s x y * 4 + 3 < data.length := by omega
    have e1 := slice_of_le data (s x y * 4) (s x y * 4 + 4) (by omega) (by omega)
    have e2 := slice_of_le out (d x y * 4) (d x y * 4 + 4) (by omega) (by omega)
    have l1 := slice_length data (s x y * 4) (s x y * 4 + 4) (by omega)
    have l2 := slice_length out (d x y * 4) (d x y * 4 + 4) (by omega)
    have e3 : (List.take (s x y * 4 + 4 - s x y * 4) (List.drop (s x y * 4) data)).take
        (List.take (d x y * 4 + 4 - d x y * 4) (List.drop (d x y * 4) out)).length
        = List.take (s x y * 4 + 4 - s x y * 4) (List.drop (s x y * 4) data) :=
      List.take_of_length_le (by omega)
    obtain ⟨r, hr, hrl, hrg⟩ := copyAt_of_le out (d x y * 4)
      (List.take (s x y * 4 + 4 - s x y * 4) (List.drop (s x y * 4) data)) (by omega)
    refine ⟨r, ?_, hrl, ?_⟩
    · simp only [move4, hd, hs, and_self, if_true, e1, e2, Option.bind_eq_bind,
        Option.some_bind, e3, hr]
    · intro p
      rw [hrg p, l1, slice_getElem?]
      by_cases hp : d x y * 4 ≤ p ∧ p < d x y * 4 + (s x y * 4 + 4 - s x y * 4)
      · have hp' : 4 * d x y ≤ p ∧ p < 4 * d x y + 4 := by omega
        have hp2 : p - d x y * 4 < s x y * 4 + 4 - s x y * 4 := by omega
        rw [if_pos hp, if_pos hp', if_pos hp2]
        congr 1; omega
      · have hp' : ¬ (4 * d x y ≤ p ∧ p < 4 * d x y + 4) := by omega
        rw [if_neg hp, if_neg hp']
  · intro hn
    have : ¬ (d x y * 4 + 3 < out.length ∧ s x y * 4 + 3 < data.length) := by
      unfold Fits at hn; omega
    simp [move4, this]

/-! ## Round trip of a scatter loop followed by the matching gather loop -/

theorem roundtrip_generic (b : Nat) (hb : 0 < b) (buf : List Nat) (w h : Nat)
    (hlen : buf.length = b * (w * h)) (addr : Nat → Nat → Nat)
    (hlt : ∀ x y, x < w → y < h → addr x y < w * h)
    (hinj : ∀ x y x' y', x < w → y < h → x' < w → y' < h →
      addr x y = addr x' y' → x = x' ∧ y = y')
    (f1 f2 : List Nat → List Nat → Nat → Nat → Option (List Nat))
    (hf1 : ∀ data, StepSpec b data addr (fun x y => y * w + x) (f1 data))
    (hf2 : ∀ data, StepSpec b data (fun x y => y * w + x) addr (f2 data)) :
    ((List.range h).foldlM (fun o y => (List.range w).foldlM (fun o x => f1 buf o y x) o)
        (make buf.length)).bind
      (fun sw => (List.range h).foldlM (fun o y => (List.range w).foldlM
        (fun o x => f2 sw o y x) o) (make sw.length)) = some buf := by
  obtain ⟨sw, hsw, hswlen, -, hswval⟩ := moveLoop_spec b buf addr _ (f1 buf) (hf1 buf) w h
  obtain ⟨un, hun, hunlen, -, hunval⟩ :=
    moveLoop_spec b sw (fun x y => y * w + x) addr (f2 sw) (hf2 sw) w h
  rw [hsw, Option.some_bind, hun]
  congr 1
  have hlinlt : ∀ x y, x < w → y < h → y * w + x < w * h := by
    intro x y hx hy
    have := (@lin_lt_rows w x y h hx).2 hy
    rw [Nat.mul_comm w h]; exact this
  have hfit : ∀ n x y, n = b * (w * h) → x < w → y < h →
      Fits b n (addr x y) (y * w + x) ∧ Fits b n (y * w + x) (addr x y) := by
    intro n x y hn hx hy
    have h1 := Nat.mul_le_mul_left b (Nat.succ_le_of_lt (hlt x y hx hy))
    have h2 := Nat.mul_le_mul_left b (Nat.succ_le_of_lt (hlinlt x y hx hy))
    rw [Nat.mul_succ] at h1 h2
    unfold Fits
    omega
  have inj1 : InjOn b buf.length w h addr (fun x y => y * w + x) :=
    fun x y x' y' hx hy hx' hy' _ _ he => hinj x y x' y' hx hy hx' hy' he
  have inj2 : InjOn b sw.length w h (fun x y => y * w + x) addr :=
    fun x y x' y' hx _ hx' _ _ _ he => lin_inj hx hx' he
  apply List.ext_getElem?
  intro p
  by_cases hp : p < buf.length
  · have hw0 : 0 < w := by
      rcases Nat.eq_zero_or_pos w with h0 | h0
      · subst h0; rw [hlen] at hp; simp at hp
      · exact h0
    have hq : p / b < w * h := by
      rw [Nat.div_lt_iff_lt_mul hb]; rw [hlen] at hp; rw [Nat.mul_comm]; exact hp
    have hx : p / b % w < w := Nat.mod_lt _ hw0
    have hy : p / b / w < h := by
      rw [Nat.div_lt_iff_lt_mul hw0]; rw [Nat.mul_comm]; exact hq
    have hq' : p / b / w * w + p / b % w = p / b := by
      rw [Nat.mul_comm]; exact Nat.div_add_mod _ _
    have hc : p % b < b := Nat.mod_lt _ hb
    have hp' : b * (p / b / w * w + p / b % w) + p % b = p := by
      rw [hq']; exact Nat.div_add_mod _ _
    have f1 := (hfit sw.length _ _ (by rw [hswlen, hlen]) hx hy).2
    have f2 := (hfit buf.length _ _ hlen hx hy).1
    have e1 := hunval inj2 _ _ hx hy f1 _ hc
    have e2 := hswval inj1 _ _ hx hy f2 _ hc
    simp only [hp'] at e1 e2
    rw [e1, e2]
  · have h1 : un.length ≤ p := by rw [hunlen, hswlen]; omega
    have h2 : buf.length ≤ p := by omega
    rw [List.getElem?_eq_none h1, List.getElem?_eq_none h2]

theorem addr8_lt_of_dvd {w h x y : Nat} (hw : 16 ∣ w) (hh : 16 ∣ h) (hx : x < w) (hy : y < h) :
    addr8 x y w < w * h := by
  obtain ⟨W, rfl⟩ := hw
  obtain ⟨H, rfl⟩ := hh
  exact addr8_lt hx hy

theorem addr8_inj_of_dvd {w x y x' y' : Nat} (hw : 16 ∣ w) (hx : x < w) (hx' : x' < w)
    (he : addr8 x y w = addr8 x' y' w) : x = x' ∧ y = y' := by
  obtain ⟨W, rfl⟩ := hw
  exact addr8_inj hx hx' he

/-- C1. For width and height multiples of 16 and a buffer of `width*height`
bytes, `Swizzle8` returns a buffer on which `Unswizzle8` returns the original
buffer: `Unswizzle8(Swizzle8(buf, w, h), w, h) = buf`. -/
theorem Unswizzle8_Swizzle8 (buf : List Nat) (width height : Nat)
    (hw : 16 ∣ width) (hh : 16 ∣ height) (hlen : buf.length = width * height) :
    (Swizzle8 buf width height).bind (fun s => Unswizzle8 s width height) = some buf := by
  simp only [Swizzle8_eq, Unswizzle8_eq]
  exact roundtrip_generic 1 Nat.one_pos buf width height (by omega)
    (fun x y => addr8 x y width)
    (fun x y hx hy => addr8_lt_of_dvd hw hh hx hy)
    (fun x y x' y' hx _ hx' _ he => addr8_inj_of_dvd hw hx hx' he)
    (fun data o y x => move1 data o (addr8 x y width) (y * width + x))
    (fun data o y x => move1 data o (y * width + x) (addr8 x y width))
    (fun data => move1_spec data _ _) (fun data => move1_spec data _ _)

/-- C1, example vector: the 16x16 buffer holding the bytes 0x00..0xFF in order. -/
theorem Unswizzle8_Swizzle8_witness :
    16 ∣ 16 ∧ (List.range 256).length = 16 * 16 ∧
    (Swizzle8 (List.range 256) 16 16).bind (fun s => Unswizzle8 s 16 16)
      = some (List.range 256) :=
  ⟨by decide, by simp, Unswizzle8_Swizzle8 (List.range 256) 16 16 (by decide) (by decide) (by simp)⟩

/-- C2. For width and height multiples of 16 and a buffer of `4*width*height`
bytes, `Unswizzle32(Swizzle32(buf, w, h), w, h) = buf`. -/
theorem Unswizzle32_Swizzle32 (buf : List Nat) (width height : Nat)
    (hw : 16 ∣ width) (hh : 16 ∣ height) (hlen : buf.length = 4 * width * height) :
    (Swizzle32 buf width height).bind (fun s => Unswizzle32 s width height) = some buf := by
  simp only [Swizzle32_eq, Unswizzle32_eq]
  exact roundtrip_generic 4 (by omega) buf width height (by rw [hlen, Nat.mul_assoc])
    (fun x y => addr8 x y width)
    (fun x y hx hy => addr8_lt_of_dvd hw hh hx hy)
    (fun x y x' y' hx _ hx' _ he => addr8_inj_of_dvd hw hx hx' he)
    (fun data o y x => move4 data o (addr8 x y width) (y * width + x))
    (fun data o y x => move4 data o (y * width + x) (addr8 x y width))
    (fun data => move4_spec data _ _) (fun data => move4_spec data _ _)

/-- C2 on the all-ones 16x16 image (1024 bytes `0xFF`). -/
theorem Unswizzle32_Swizzle32_witness :
    16 ∣ 16 ∧ (List.replicate 1024 255).length = 4 * 16 * 16 ∧
    (Swizzle32 (List.replicate 1024 255) 16 16).bind (fun s => Unswizzle32 s 16 16)
      = some (List.replicate 1024 255) :=
  ⟨by decide, List.length_replicate _ _,
    Unswizzle32_Swizzle32 (List.replicate 1024 255) 16 16 (by decide) (by decide)
      (List.length_replicate _ _)⟩

/-- Every run of `Unswizzle16` on a 64x64 image of 8192 bytes leaves byte 256
(pixel `(0, 2)`) at zero: its source offset `pixel16Offset 0 2 64 = 4096`
addresses bytes `8192, 8193`, outside the buffer, so the pixel is skipped. -/
theorem Unswizzle16_skips_pixel (data : List Nat) (hlen : data.length = 8192) :
    ∃ out, Unswizzle16 data 64 64 = some out ∧ out[256]? = some 0 := by
  rw [Unswizzle16_eq]
  obtain ⟨out, hout, -, hzero, -⟩ := moveLoop_spec 2 data (fun x y => y * 64 + x)
    (fun x y => pixel16Offset x y 64) _ (move2_spec data _ _) 64 64
  refine ⟨out, hout, hzero 256 (by omega) ?_⟩
  intro x y hx hy hfit hp
  have hxy : x = 0 ∧ y = 2 := by omega
  obtain ⟨rfl, rfl⟩ := hxy
  have e : pixel16Offset 0 2 64 = 4096 := by decide
  unfold Fits at hfit
  rw [e, hlen] at hfit
  omega

/-- C3 fails on the code: on the 64x64 image whose 8192 bytes are all `1`,
`Swizzle16` followed by `Unswizzle16` does not give the buffer back. -/
theorem Unswizzle16_Swizzle16_fails :
    (Swizzle16 (List.replicate 8192 1) 64 64).bind (fun s => Unswizzle16 s 64 64)
      ≠ some (List.replicate 8192 1) := by
  obtain ⟨sw, hsw, hswlen, -, -⟩ := moveLoop_spec 2 (List.replicate 8192 1)
    (fun x y => pixel16Offset x y 64) (fun x y => y * 64 + x) _
    (move2_spec (List.replicate 8192 1) _ _) 64 64
  rw [Swizzle16_eq, hsw, Option.some_bind]
  obtain ⟨out, hout, h0⟩ := Unswizzle16_skips_pixel sw (by rw [hswlen, List.length_replicate])
  rw [hout]
  intro heq
  have := Option.some.inj heq
  rw [this] at h0
  rw [List.getElem?_replicate, if_pos (by omega)] at h0
  exact absurd (Option.some.inj h0) (by decide)

/-! ## Palette reordering -/

theorem csm1Body_spec (e out : List Nat) (c : Nat) (hc : 32 * c < e.length)
    (hlen : out.length = 32 * c)
    (hget : ∀ p, p < out.length → out[p]? = e[csm1Perm e.length p]?) :
    ∃ out', csm1Body e out c = some out' ∧ out'.length = min (32 * (c + 1)) e.length ∧
      ∀ p, p < out'.length → out'[p]? = e[csm1Perm e.length p]? := by
  by_cases hfull : 32 * c + 32 ≤ e.length
  · have hcond : ¬ ((if 32 * c + 32 > e.length then e.length else 32 * c + 32) - 32 * c < 32) := by
      rw [if_neg (by omega)]; omega
    refine ⟨out ++ (e.drop (32 * c)).take (32 * c + 8 - 32 * c)
        ++ (e.drop (32 * c + 16)).take (32 * c + 24 - (32 * c + 16))
        ++ (e.drop (32 * c + 8)).take (32 * c + 16 - (32 * c + 8))
        ++ (e.drop (32 * c + 24)).take (32 * c + 32 - (32 * c + 24)), ?_, ?_, ?_⟩
    · simp only [csm1Body, hcond, if_false]
      rw [slice_of_le _ _ _ (by omega) (by omega), slice_of_le _ _ _ (by omega) (by omega),
        slice_of_le _ _ _ (by omega) (by omega), slice_of_le _ _ _ (by omega) (by omega)]
      rfl
    · simp only [List.length_append, List.length_take, List.length_drop, hlen]
      omega
    · intro p hp
      simp only [List.length_append, List.length_take, List.length_drop, hlen] at hp
      by_cases h0 : p < 32 * c
      · rw [List.append_assoc, List.append_assoc, List.append_assoc,
          List.getElem?_append_left (by omega)]
        exact hget p (by omega)
      · have hdiv : p / 32 = c := by omega
        have hperm : csm1Perm e.length p =
            if 8 ≤ p % 32 ∧ p % 32 < 16 then p + 8
            else if 16 ≤ p % 32 ∧ p % 32 < 24 then p - 8 else p := by
          unfold csm1Perm
          rw [hdiv, if_pos hfull]
        rw [hperm]
        simp only [List.getElem?_append, List.length_append, List.length_take,
          List.length_drop, hlen, slice_getElem?]
        split_ifs <;> first | omega | (congr 1; omega)
  · have hcond : (if 32 * c + 32 > e.length then e.length else 32 * c + 32) - 32 * c < 32 := by
      rw [if_pos (by omega)]; omega
    have hend : (if 32 * c + 32 > e.length then e.length else 32 * c + 32) = e.length := by
      rw [if_pos (by omega)]
    refine ⟨out ++ (e.drop (32 * c)).take (e.length - 32 * c), ?_, ?_, ?_⟩
    · have hcond2 : e.length - 32 * c < 32 := by omega
      simp only [csm1Body, hend, hcond2, if_true]
      rw [slice_of_le _ _ _ (by omega) (by omega)]
      rfl
    · simp only [List.length_append, List.length_take, List.length_drop, hlen]
      omega
    · intro p hp
      simp only [List.length_append, List.length_take, List.length_drop, hlen] at hp
      by_cases h0 : p < 32 * c
      · rw [List.getElem?_append_left (by omega)]
        exact hget p (by omega)
      · have hdiv : p / 32 = c := by omega
        have hperm : csm1Perm e.length p = p := by
          unfold csm1Perm
          rw [hdiv, if_neg hfull]
        rw [hperm, List.getElem?_append_right (by omega), slice_getElem?, hlen,
          if_pos (by omega)]
        congr 1; omega

/-- What the CSM1 loop computes: a table of the same length whose entry `p` is
entry `csm1Perm n p` of the input. -/
theorem csm1_loop_spec (e : List Nat) :
    ∃ out, (List.range ((e.length + 31) / 32)).foldlM (csm1Body e) [] = some out ∧
      out.length = e.length ∧ ∀ p, p < e.length → out[p]? = e[csm1Perm e.length p]? := by
  obtain ⟨out, hout, hlen, hget⟩ := foldlM_range_inv (csm1Body e)
    (fun c out => out.length = min (32 * c) e.length ∧
      ∀ p, p < out.length → out[p]? = e[csm1Perm e.length p]?)
    ((e.length + 31) / 32) [] ⟨by simp, fun p hp => by simp at hp⟩
    (by
      intro c hc out ⟨hlen, hget⟩
      have hc' : 32 * c < e.length := by omega
      exact csm1Body_spec e out c hc' (by omega) hget)
  have hl : out.length = e.length := by omega
  exact ⟨out, hout, hl, fun p hp => hget p (by omega)⟩

theorem SwizzleCSM1_32_spec (e : List Nat) :
    ∃ out, SwizzleCSM1_32 e = some out ∧
      out.length = e.length ∧ ∀ p, p < e.length → out[p]? = e[csm1Perm e.length p]? := by
  unfold SwizzleCSM1_32
  by_cases h : e.length = 0
  · rw [if_pos h]
    exact ⟨[], rfl, by simp [h], fun p hp => by omega⟩
  · rw [if_neg h]; exact csm1_loop_spec e

theorem SwizzleCSM1_16_eq (e : List Nat) : SwizzleCSM1_16 e = SwizzleCSM1_32 e := rfl
theorem UnswizzleCSM1_32_eq (e : List Nat) : UnswizzleCSM1_32 e = SwizzleCSM1_32 e := rfl
theorem UnswizzleCSM1_16_eq (e : List Nat) : UnswizzleCSM1_16 e = SwizzleCSM1_32 e := rfl

theorem csm1Perm_lt {n p : Nat} (hp : p < n) : csm1Perm n p < n := by
  unfold csm1Perm; split_ifs <;> omega

theorem csm1Perm_invol (n p : Nat) : csm1Perm n (csm1Perm n p) = p := by
  unfold csm1Perm; split_ifs <;> omega

theorem SwizzleCSM1_32_invol (p : List Nat) :
    (SwizzleCSM1_32 p).bind SwizzleCSM1_32 = some p := by
  obtain ⟨o1, h1, l1, g1⟩ := SwizzleCSM1_32_spec p
  obtain ⟨o2, h2, l2, g2⟩ := SwizzleCSM1_32_spec o1
  rw [h1, Option.some_bind, h2]
  congr 1
  apply List.ext_getElem?
  intro i
  by_cases hi : i < p.length
  · rw [g2 i (by omega), l1, g1 _ (csm1Perm_lt hi), csm1Perm_invol]
  · rw [List.getElem?_eq_none (by omega), List.getElem?_eq_none (by omega)]

/-- C6. The CSM1 palette reorder is an involution, for 16-bit and for 32-bit
entries and every table length: applying `SwizzleCSM1_16` (resp.
`SwizzleCSM1_32`) twice returns the table it started from. -/
theorem SwizzleCSM1_involution (p : List Nat) :
    (SwizzleCSM1_16 p).bind SwizzleCSM1_16 = some p ∧
    (SwizzleCSM1_32 p).bind SwizzleCSM1_32 = some p :=
  ⟨SwizzleCSM1_32_invol p, SwizzleCSM1_32_invol p⟩

/-- C7. In every full chunk `32k .. 32k+31` of the table, `SwizzleCSM1_32` and
`UnswizzleCSM1_32` output the four groups of eight entries in the order
first, third, second, fourth. -/
theorem SwizzleCSM1_32_chunk (e : List Nat) (k : Nat) (hk : 32 * k + 32 ≤ e.length) :
    ∃ out, SwizzleCSM1_32 e = some out ∧ UnswizzleCSM1_32 e = some out ∧
      (out.drop (32 * k)).take 32 =
        (e.drop (32 * k)).take 8 ++ (e.drop (32 * k + 16)).take 8
          ++ (e.drop (32 * k + 8)).take 8 ++ (e.drop (32 * k + 24)).take 8 := by
  obtain ⟨out, h1, l1, g1⟩ := SwizzleCSM1_32_spec e
  refine ⟨out, h1, h1, ?_⟩
  apply List.ext_getElem?
  intro t
  have hs := slice_getElem? out (32 * k) (32 * k + 32) t
  have e32 : 32 * k + 32 - 32 * k = 32 := by omega
  rw [e32] at hs
  rw [hs]
  have h8 : ∀ lo, (List.take 8 (List.drop lo e))[t - 0]? = if t < 8 then e[lo + t]? else none := by
    intro lo
    have := slice_getElem? e lo (lo + 8) t
    have e8 : lo + 8 - lo = 8 := by omega
    rw [e8] at this
    simpa using this
  by_cases ht : t < 32
  · rw [if_pos ht, g1 _ (by omega)]
    have hdiv : (32 * k + t) / 32 = k := by omega
    unfold csm1Perm
    rw [hdiv, if_pos hk]
    simp only [List.getElem?_append, List.length_append, List.length_take, List.length_drop,
      List.getElem?_take, List.getElem?_drop]
    split_ifs <;> first | omega | rfl | (congr 1 <;> omega)
  · rw [if_neg ht]
    symm
    apply List.getElem?_eq_none
    simp only [List.length_append, List.length_take, List.length_drop]
    omega

theorem SwizzleCSM1_32_chunk_witness :
    32 * 1 + 32 ≤ (List.range 70).length ∧
    ∃ out, SwizzleCSM1_32 (List.range 70) = some out ∧ UnswizzleCSM1_32 (List.range 70) = some out ∧
      (out.drop (32 * 1)).take 32 =
        ((List.range 70).drop (32 * 1)).take 8 ++ ((List.range 70).drop (32 * 1 + 16)).take 8
          ++ ((List.range 70).drop (32 * 1 + 8)).take 8
          ++ ((List.range 70).drop (32 * 1 + 24)).take 8 :=
  ⟨by simp, SwizzleCSM1_32_chunk (List.range 70) 1 (by simp)⟩

/-- C8. `SwizzleCSM1_32` and `SwizzleCSM1_16` return a table of the same
length in which every entry of the trailing partial chunk is unchanged; a
table of fewer than 32 entries (in particular one of 16) is returned as is. -/
theorem SwizzleCSM1_partial_chunk (e : List Nat) :
    ∃ out, SwizzleCSM1_32 e = some out ∧ SwizzleCSM1_16 e = some out ∧
      out.length = e.length ∧
      (∀ i, 32 * (e.length / 32) ≤ i → i < e.length → out[i]? = e[i]?) ∧
      (e.length = 16 → out = e) := by
  obtain ⟨out, h1, l1, g1⟩ := SwizzleCSM1_32_spec e
  have hpart : ∀ i, 32 * (e.length / 32) ≤ i → i < e.length → out[i]? = e[i]? := by
    intro i hi1 hi2
    rw [g1 i hi2]
    have : ¬ (32 * (i / 32) + 32 ≤ e.length) := by omega
    unfold csm1Perm
    rw [if_neg this]
  refine ⟨out, h1, h1, l1, hpart, ?_⟩
  intro h16
  apply List.ext_getElem?
  intro i
  by_cases hi : i < e.length
  · exact hpart i (by omega) hi
  · rw [List.getElem?_eq_none (by omega), List.getElem?_eq_none (by omega)]

/-! ## 4bpp block converters -/

theorem unswizzle4ConvertBlock_eq (b : List Nat) :
    unswizzle4ConvertBlock b = convertBlockWith unswizzleLutTable b := rfl

theorem swizzleStep_eq (b : List Nat) (pIn : Nat) (st : List Nat × Nat × Nat) :
    swizzleStep b pIn st = blockStep swizzleLutTable b pIn st := by
  have h2 : List.range 2 = [0, 1] := by decide
  unfold swizzleStep blockStep
  rw [h2]
  simp only [List.foldlM_cons, List.foldlM_nil, bind_assoc, pure_bind, if_true,
    Nat.one_ne_zero, if_false, Nat.zero_or]

theorem swizzle4ConvertBlock_eq (b : List Nat) :
    swizzle4ConvertBlock b = convertBlockWith swizzleLutTable b := by
  have : swizzle4ConvertBlock b = (do
    let r ← (List.range 4).foldlM (fun (st : List Nat × Nat × Nat) k => do
      let pIn := st.2.2
      let index0 := (k % 2) * 128
      let r ← (List.range 16).foldlM (fun (st : List Nat × Nat × Nat) _ =>
          (List.range 4).foldlM (fun (st : List Nat × Nat × Nat) _ => swizzleStep b pIn st) st)
        (st.1, index0, st.2.1)
      pure (r.1, r.2.2, pIn + 64)) (make 256, 0, 0)
    pure r.1) := rfl
  rw [this]
  simp only [swizzleStep_eq]
  rfl

theorem blockStep_spec (lut b : List Nat) (hlut : LutOk lut) (pIn : Nat)
    (hb : pIn + 64 ≤ b.length) (st : List Nat × Nat × Nat) (h0 : st.2.1 + 1 < 256)
    (h1 : st.2.2 < st.1.length) :
    blockStep lut b pIn st = some (st.1.set st.2.2
      (nibAt lut b st.2.1 pIn ||| ((((nibAt lut b (st.2.1 + 1) pIn) <<< 4) % 256) &&& 0xF0)),
      st.2.1 + 2, st.2.2 + 1) := by
  obtain ⟨hl, hv⟩ := hlut
  have a0 := hv st.2.1 (by omega)
  have a1 := hv (st.2.1 + 1) (by omega)
  have r0 := readAt_of_lt lut st.2.1 (by omega)
  have r1 := readAt_of_lt lut (st.2.1 + 1) (by omega)
  have r2 := readAt_of_lt b (pIn + lut.getD st.2.1 0 / 2) (by omega)
  have r3 := readAt_of_lt b (pIn + lut.getD (st.2.1 + 1) 0 / 2) (by omega)
  simp only [blockStep, r0, r1, r2, r3, writeAt_of_lt _ _ _ h1, Option.bind_eq_bind,
    Option.some_bind, Nat.zero_or, nibAt, Option.pure_def]

theorem blockInner_spec (lut b : List Nat) (hlut : LutOk lut) (hb : 256 ≤ b.length)
    (k : Nat) (hk : k < 4) (out0 : List Nat) (hl : out0.length = 256)
    (hget : ∀ n, n < 64 * k → out0[n]? = some (blockByte lut b n)) :
    ∃ r, (List.range 16).foldlM (fun (st : List Nat × Nat × Nat) _ =>
          (List.range 4).foldlM (fun (st : List Nat × Nat × Nat) _ =>
            blockStep lut b (64 * k) st) st) (out0, (k % 2) * 128, 64 * k) = some r ∧
      r.1.length = 256 ∧ r.2.2 = 64 * (k + 1) ∧
      ∀ n, n < 64 * (k + 1) → r.1[n]? = some (blockByte lut b n) := by
  have inner := foldlM_range2_inv
    (fun (s : List Nat × Nat × Nat) (_ _ : Nat) => blockStep lut b (64 * k) s)
    (fun m s => s.1.length = 256 ∧ s.2.1 = (k % 2) * 128 + 2 * m ∧ s.2.2 = 64 * k + m ∧
      ∀ n, n < 64 * k + m → s.1[n]? = some (blockByte lut b n)) 16 4
    (out0, (k % 2) * 128, 64 * k) ⟨hl, rfl, rfl, hget⟩
    (by
      intro y x hy hx s ⟨sl, s0, s1, sget⟩
      have hm : y * 4 + x < 64 := by omega
      have hstep := blockStep_spec lut b hlut (64 * k) (by omega) s (by omega) (by omega)
      refine ⟨_, hstep, ?_, ?_, ?_, ?_⟩
      · show (s.1.set _ _).length = 256
        rw [List.length_set]; exact sl
      · show s.2.1 + 2 = _
        omega
      · show s.2.2 + 1 = _
        omega
      · intro n hn
        show (s.1.set s.2.2 _)[n]? = _
        rw [List.getElem?_set]
        by_cases hne : s.2.2 = n
        · rw [if_pos hne, if_pos (by omega)]
          have d1 : n / 64 = k := by omega
          have d2 : n % 64 = y * 4 + x := by omega
          unfold blockByte
          rw [d1, d2, s0]
        · rw [if_neg hne]
          exact sget n (by omega))
  obtain ⟨r, hr, rl, -, r1, rget⟩ := inner
  exact ⟨r, hr, rl, by omega, fun n hn => rget n (by omega)⟩

theorem convertBlockWith_spec (lut b : List Nat) (hlut : LutOk lut) (hb : 256 ≤ b.length) :
    ∃ out, convertBlockWith lut b = some out ∧ out.length = 256 ∧
      ∀ n, n < 256 → out[n]? = some (blockByte lut b n) := by
  have outer := foldlM_range_inv (fun (st : List Nat × Nat × Nat) k => do
      let pIn := st.2.2
      let index0 := (k % 2) * 128
      let r ← (List.range 16).foldlM (fun (st : List Nat × Nat × Nat) _ =>
          (List.range 4).foldlM (fun (st : List Nat × Nat × Nat) _ => blockStep lut b pIn st) st)
        (st.1, index0, st.2.1)
      pure (r.1, r.2.2, pIn + 64))
    (fun k st => st.1.length = 256 ∧ st.2.1 = 64 * k ∧ st.2.2 = 64 * k ∧
      ∀ n, n < 64 * k → st.1[n]? = some (blockByte lut b n)) 4 (make 256, 0, 0)
    ⟨make_length _, rfl, rfl, fun n hn => by omega⟩
    (by
      intro k hk st ⟨hl, hi1, hpin, hget⟩
      obtain ⟨r, hr, rl, r1, rget⟩ := blockInner_spec lut b hlut hb k hk st.1 hl hget
      refine ⟨(r.1, r.2.2, st.2.2 + 64), ?_, rl, ?_, ?_, rget⟩
      · simp only [hpin, hi1, hr, Option.bind_eq_bind, Option.some_bind, Option.pure_def]
      · show r.2.2 = _
        omega
      · show st.2.2 + 64 = _
        omega)
  obtain ⟨r, hr, rl, -, -, rget⟩ := outer
  refine ⟨r.1, ?_, rl, fun n hn => rget n (by omega)⟩
  unfold convertBlockWith
  rw [hr]
  rfl

set_option maxRecDepth 100000 in
theorem unswizzleLutTable_ok : LutOk unswizzleLutTable := by
  unfold LutOk; decide

set_option maxRecDepth 100000 in
theorem swizzleLutTable_ok : LutOk swizzleLutTable := by
  unfold LutOk; decide

set_option maxRecDepth 100000 in
theorem lutInv_unswizzle_swizzle : LutInv unswizzleLutTable swizzleLutTable := by
  unfold LutInv; decide

set_option maxRecDepth 100000 in
theorem lutInv_swizzle_unswizzle : LutInv swizzleLutTable unswizzleLutTable := by
  unfold LutInv; decide

theorem nibAt_eq (lut b : List Nat) (index0 pIn : Nat) :
    nibAt lut b index0 pIn = nibOf (b.getD (pIn + lut.getD index0 0 / 2) 0) (lut.getD index0 0) :=
  rfl

theorem nibOf_even (v u : Nat) (hu : u % 2 = 0) : nibOf v u = v &&& 15 := by
  unfold nibOf; rw [and_one, hu]; rfl

theorem nibOf_odd (v u : Nat) (hu : u % 2 = 1) : nibOf v u = (v &&& 240) >>> 4 := by
  unfold nibOf; rw [and_one, hu]; rfl

theorem nibOf_lt (v u : Nat) : nibOf v u < 16 := by
  rcases Nat.mod_two_eq_zero_or_one u with hu | hu
  · rw [nibOf_even v u hu]
    exact Nat.lt_succ_of_le Nat.and_le_right
  · rw [nibOf_odd v u hu, Nat.shiftRight_eq_div_pow]
    have : v &&& 240 ≤ 240 := Nat.and_le_right
    omega

set_option maxRecDepth 100000 in
theorem join_low : ∀ lo, lo < 16 → ∀ hi, hi < 16 →
    (lo ||| (((hi <<< 4) % 256) &&& 0xF0)) &&& 15 = lo := by decide

set_option maxRecDepth 100000 in
theorem join_high : ∀ lo, lo < 16 → ∀ hi, hi < 16 →
    ((lo ||| (((hi <<< 4) % 256) &&& 0xF0)) &&& 240) >>> 4 = hi := by decide

set_option maxRecDepth 100000 in
theorem join_byte : ∀ v, v < 256 →
    (v &&& 15) ||| (((((v &&& 240) >>> 4) <<< 4) % 256) &&& 0xF0) = v := by decide

theorem nibAt_comp (lutA lutB : List Nat) (hA : LutOk lutA) (hinv : LutInv lutA lutB)
    (b sw : List Nat) (hsw : ∀ n, n < 256 → sw.getD n 0 = blockByte lutB b n)
    (k : Nat) (hk : k < 4) (m : Nat) (hm : m < 128) :
    nibAt lutA sw ((k % 2) * 128 + m) (64 * k) = nibOf (b.getD (64 * k + m / 2) 0) m := by
  have hu : lutA.getD ((k % 2) * 128 + m) 0 < 128 := hA.2 _ (by omega)
  have hi := hinv (k % 2) (by omega) m hm
  rw [nibAt_eq]
  generalize lutA.getD ((k % 2) * 128 + m) 0 = u at hu hi ⊢
  rw [hsw _ (by omega)]
  have d1 : (64 * k + u / 2) / 64 = k := by omega
  have d2 : (64 * k + u / 2) % 64 = u / 2 := by omega
  unfold blockByte
  rw [d1, d2]
  have key : ∀ t, t = (k % 2) * 128 + u → nibAt lutB b t (64 * k)
      = nibOf (b.getD (64 * k + m / 2) 0) m := by
    intro t ht
    rw [nibAt_eq, ht, hi]
  rcases Nat.mod_two_eq_zero_or_one u with h0 | h0
  · rw [nibOf_even _ u h0, nibAt_eq lutB b (k % 2 * 128 + 2 * (u / 2) + 1), nibAt_eq,
      join_low _ (nibOf_lt _ _) _ (nibOf_lt _ _), ← nibAt_eq]
    exact key _ (by omega)
  · rw [nibOf_odd _ u h0, nibAt_eq lutB b (k % 2 * 128 + 2 * (u / 2) + 1), nibAt_eq,
      join_high _ (nibOf_lt _ _) _ (nibOf_lt _ _), ← nibAt_eq]
    exact key _ (by omega)

/-- Composing a block converter with the converter of the inverse table gives
back every byte of a block of byte values. -/
theorem blockByte_comp (lutA lutB : List Nat) (hA : LutOk lutA) (hinv : LutInv lutA lutB)
    (b sw : List Nat) (hsw : ∀ n, n < 256 → sw.getD n 0 = blockByte lutB b n)
    (hbyte : ∀ n, n < 256 → b.getD n 0 < 256) (n : Nat) (hn : n < 256) :
    blockByte lutA sw n = b.getD n 0 := by
  have e0 := nibAt_comp lutA lutB hA hinv b sw hsw (n / 64) (by omega) (2 * (n % 64)) (by omega)
  have e1 := nibAt_comp lutA lutB hA hinv b sw hsw (n / 64) (by omega) (2 * (n % 64) + 1)
    (by omega)
  have a0 : 64 * (n / 64) + 2 * (n % 64) / 2 = n := by omega
  have a1 : 64 * (n / 64) + (2 * (n % 64) + 1) / 2 = n := by omega
  rw [a0] at e0
  rw [a1, ← Nat.add_assoc] at e1
  unfold blockByte
  rw [e0, e1, nibOf_even _ _ (by omega), nibOf_odd _ _ (by omega)]
  exact join_byte _ (hbyte n hn)

theorem getD_of_getElem? {a : List Nat} {i v : Nat} (h : a[i]? = some v) : a.getD i 0 = v := by
  rw [List.getD_eq_getElem?_getD, h]; rfl

/-- Block converters driven by inverse tables are inverse on 256-byte blocks. -/
theorem convertBlockWith_roundtrip (lutA lutB : List Nat) (hA : LutOk lutA) (hB : LutOk lutB)
    (hinv : LutInv lutA lutB) (b : List Nat) (hlen : b.length = 256)
    (hbyte : ∀ n, n < 256 → b.getD n 0 < 256) :
    (convertBlockWith lutB b).bind (convertBlockWith lutA) = some b := by
  obtain ⟨sw, hsw, swl, swget⟩ := convertBlockWith_spec lutB b hB (by omega)
  obtain ⟨un, hun, unl, unget⟩ := convertBlockWith_spec lutA sw hA (by omega)
  rw [hsw, Option.some_bind, hun]
  congr 1
  apply List.ext_getElem?
  intro n
  by_cases hn : n < 256
  · rw [unget n hn, blockByte_comp lutA lutB hA hinv b sw
      (fun n hn => getD_of_getElem? (swget n hn)) hbyte n hn,
      getElem?_eq_some_getD _ _ (by omega)]
  · rw [List.getElem?_eq_none (by omega), List.getElem?_eq_none (by omega)]

/-! ## Loops whose steps overwrite regions of a buffer -/

theorem scatter1_spec {σ : Type} (proj : σ → List Nat) (I : σ → Prop) (n : Nat)
    (W : Nat → Nat → Nat → Prop) (f : σ → Nat → Option σ) (h : Nat) (init : σ)
    (hinit : (proj init).length = n) (hI : I init)
    (hf : ∀ y, y < h → ∀ st, (proj st).length = n → I st →
      ∃ st', f st y = some st' ∧ I st' ∧ WritesTo (W y) (proj st) (proj st')) :
    ∃ st, (List.range h).foldlM f init = some st ∧ (proj st).length = n ∧ I st
      ∧ (∀ p, (∀ y v, y < h → ¬ W y p v) → (proj st)[p]? = (proj init)[p]?)
      ∧ ((∀ y y' p v v', y < h → y' < h → W y p v → W y' p v' → y = y') →
          ∀ y p v, y < h → W y p v → (proj st)[p]? = some v) := by
  have key := foldlM_range_inv f (fun m st =>
      (proj st).length = n ∧ I st
      ∧ (∀ p, (∀ y v, y < m → ¬ W y p v) → (proj st)[p]? = (proj init)[p]?)
      ∧ ((∀ y y' p v v', y < h → y' < h → W y p v → W y' p v' → y = y') →
          ∀ y p v, y < m → W y p v → (proj st)[p]? = some v)) h init
    ⟨hinit, hI, fun p _ => rfl, fun _ y p v hy => by omega⟩
    (by
      intro y0 hy0 st ⟨hlen, hIst, hkeep, hval⟩
      obtain ⟨st', hst', hI', hl', hw⟩ := hf y0 hy0 st hlen hIst
      refine ⟨st', hst', hl'.trans hlen, hI', ?_, ?_⟩
      · intro p hno
        rw [(hw p).2 (fun v => hno y0 v (by omega))]
        exact hkeep p (fun y v hy => hno y v (by omega))
      · intro hdis y p v hy hW
        by_cases hyy : y = y0
        · subst hyy
          exact (hw p).1 v hW
        · have hno : ∀ v', ¬ W y0 p v' := by
            intro v' hW'
            exact hyy (hdis y y0 p v v' (by omega) hy0 hW hW')
          rw [(hw p).2 hno]
          exact hval hdis y p v (by omega) hW)
  exact key

theorem scatter2_spec {σ : Type} (proj : σ → List Nat) (I : σ → Prop) (n : Nat)
    (W : Nat → Nat → Nat → Nat → Prop) (f : σ → Nat → Nat → Option σ) (h w : Nat) (init : σ)
    (hinit : (proj init).length = n) (hI : I init)
    (hf : ∀ y x, y < h → x < w → ∀ st, (proj st).length = n → I st →
      ∃ st', f st y x = some st' ∧ I st' ∧ WritesTo (W y x) (proj st) (proj st')) :
    ∃ st, (List.range h).foldlM (fun s y => (List.range w).foldlM (fun s x => f s y x) s) init
        = some st ∧ (proj st).length = n ∧ I st
      ∧ (∀ p, (∀ y x v, y < h → x < w → ¬ W y x p v) → (proj st)[p]? = (proj init)[p]?)
      ∧ ((∀ y x y' x' p v v', y < h → x < w → y' < h → x' < w →
            W y x p v → W y' x' p v' → y = y' ∧ x = x') →
          ∀ y x p v, y < h → x < w → W y x p v → (proj st)[p]? = some v) := by
  have key := foldlM_range2_inv f (fun m st =>
      (proj st).length = n ∧ I st
      ∧ (∀ p, (∀ y x v, x < w → y * w + x < m → ¬ W y x p v) →
          (proj st)[p]? = (proj init)[p]?)
      ∧ ((∀ y x y' x' p v v', y < h → x < w → y' < h → x' < w →
            W y x p v → W y' x' p v' → y = y' ∧ x = x') →
          ∀ y x p v, x < w → y * w + x < m → W y x p v → (proj st)[p]? = some v)) h w init
    ⟨hinit, hI, fun p _ => rfl, fun _ y x p v _ hm => by omega⟩
    (by
      intro y0 x0 hy0 hx0 st ⟨hlen, hIst, hkeep, hval⟩
      obtain ⟨st', hst', hI', hl', hw⟩ := hf y0 x0 hy0 hx0 st hlen hIst
      refine ⟨st', hst', hl'.trans hlen, hI', ?_, ?_⟩
      · intro p hno
        rw [(hw p).2 (fun v => hno y0 x0 v hx0 (by omega))]
        exact hkeep p (fun y x v hx hm => hno y x v hx (by omega))
      · intro hdis y x p v hx hm hW
        rcases (lin_lt_succ hx hx0).1 hm with hlt | ⟨rfl, rfl⟩
        · have hy : y < h := by
            by_contra hc
            have := lin_lt_of_row_lt hx0 (Nat.lt_of_lt_of_le hy0 (Nat.le_of_not_lt hc)) x
            omega
          have hno : ∀ v', ¬ W y0 x0 p v' := by
            intro v' hW'
            obtain ⟨rfl, rfl⟩ := hdis y x y0 x0 p v v' hy hx hy0 hx0 hW hW'
            omega
          rw [(hw p).2 hno]
          exact hval hdis y x p v hx hlt hW
        · exact (hw p).1 v hW)
  obtain ⟨st, hst, hlen, hIst, hkeep, hval⟩ := key
  refine ⟨st, hst, hlen, hIst, ?_, ?_⟩
  · intro p hno
    exact hkeep p (fun y x v hx hm => hno y x v ((lin_lt_rows hx).1 hm) hx)
  · intro hdis y x p v hy hx hW
    exact hval hdis y x p v hx ((lin_lt_rows hx).2 hy) hW

/-! ## Row copies -/

theorem copyRow_writes (src a : List Nat) (len : Nat) (sOff dOff : Nat → Nat) (k : Nat)
    (hs : sOff k + len ≤ src.length) (hd : dOff k + len ≤ a.length) :
    ∃ r, (do let s ← slice src (sOff k) (sOff k + len); copyAt a (dOff k) s) = some r ∧
      WritesTo (RowW src len sOff dOff k) a r := by
  have hsl := slice_length src (sOff k) (sOff k + len) hs
  have e : sOff k + len - sOff k = len := by omega
  rw [e] at hsl
  obtain ⟨r, hr, hl, hg⟩ := copyAt_of_le a (dOff k) ((src.drop (sOff k)).take len)
    (by rw [hsl]; exact hd)
  refine ⟨r, ?_, hl, ?_⟩
  · rw [slice_of_le _ _ _ (by omega) hs, e]
    exact hr
  · intro p
    have hp := hg p
    rw [hsl] at hp
    constructor
    · rintro v ⟨h1, h2, h3⟩
      rw [hp, if_pos ⟨h1, h2⟩]
      have := slice_getElem? src (sOff k) (sOff k + len) (p - dOff k)
      rw [e] at this
      rw [this, if_pos (by omega)]
      exact h3
    · intro hno
      by_cases hin : dOff k ≤ p ∧ p < dOff k + len
      · exfalso
        have hlt : sOff k + (p - dOff k) < src.length := by omega
        exact hno _ ⟨hin.1, hin.2, getElem?_eq_some_getD _ _ hlt⟩
      · rw [hp, if_neg hin]

theorem copyRows_spec (src dst : List Nat) (nrows len : Nat) (sOff dOff : Nat → Nat)
    (hs : ∀ k, k < nrows → sOff k + len ≤ src.length)
    (hd : ∀ k, k < nrows → dOff k + len ≤ dst.length)
    (hdisj : ∀ k k', k < nrows → k' < nrows → k ≠ k' →
      dOff k + len ≤ dOff k' ∨ dOff k' + len ≤ dOff k) :
    ∃ r, (List.range nrows).foldlM (fun a k => do
        let s ← slice src (sOff k) (sOff k + len)
        copyAt a (dOff k) s) dst = some r ∧ r.length = dst.length
      ∧ (∀ k t, k < nrows → t < len → r[dOff k + t]? = src[sOff k + t]?)
      ∧ (∀ p, (∀ k, k < nrows → ¬ (dOff k ≤ p ∧ p < dOff k + len)) → r[p]? = dst[p]?) := by
  obtain ⟨r, hr, hl, -, hkeep, hval⟩ := scatter1_spec (fun a : List Nat => a) (fun _ => True)
    dst.length (RowW src len sOff dOff) (fun a k => do
        let s ← slice src (sOff k) (sOff k + len)
        copyAt a (dOff k) s) nrows dst rfl trivial
    (by
      intro k hk a ha _
      obtain ⟨r, hr, hw⟩ := copyRow_writes src a len sOff dOff k (hs k hk) (by rw [ha]; exact hd k hk)
      exact ⟨r, hr, trivial, hw⟩)
  refine ⟨r, hr, hl, ?_, ?_⟩
  · intro k t hk ht
    have hlt : sOff k + t < src.length := by have := hs k hk; omega
    rw [getElem?_eq_some_getD _ _ hlt]
    apply hval _ k (dOff k + t) _ hk
    · refine ⟨by omega, by omega, ?_⟩
      have e : dOff k + t - dOff k = t := by omega
      rw [e]; exact getElem?_eq_some_getD _ _ hlt
    · intro y y' p v v' hy hy' h1 h2
      by_contra hne
      have := hdisj y y' hy hy' hne
      obtain ⟨a1, a2, -⟩ := h1
      obtain ⟨b1, b2, -⟩ := h2
      omega
  · intro p hno
    apply hkeep
    intro k v hk hW
    exact hno k hk ⟨hW.1, hW.2.1⟩

theorem copyRowsG_spec (src dst : List Nat) (nrows len : Nat) (sOff dOff : Nat → Nat) :
    ∃ r, (List.range nrows).foldlM (fun a k =>
        if sOff k + len ≤ src.length ∧ dOff k + len ≤ a.length then do
          let s ← slice src (sOff k) (sOff k + len)
          copyAt a (dOff k) s
        else pure a) dst = some r ∧ r.length = dst.length
      ∧ ((∀ k k', k < nrows → k' < nrows → k ≠ k' →
            dOff k + len ≤ dOff k' ∨ dOff k' + len ≤ dOff k) →
          ∀ k t, k < nrows → sOff k + len ≤ src.length → dOff k + len ≤ dst.length → t < len →
          r[dOff k + t]? = src[sOff k + t]?)
      ∧ (∀ p, (∀ k, k < nrows → sOff k + len ≤ src.length → dOff k + len ≤ dst.length →
          ¬ (dOff k ≤ p ∧ p < dOff k + len)) → r[p]? = dst[p]?) := by
  obtain ⟨r, hr, hl, -, hkeep, hval⟩ := scatter1_spec (fun a : List Nat => a) (fun _ => True)
    dst.length (fun k p v => (sOff k + len ≤ src.length ∧ dOff k + len ≤ dst.length) ∧
      RowW src len sOff dOff k p v) (fun a k =>
        if sOff k + len ≤ src.length ∧ dOff k + len ≤ a.length then do
          let s ← slice src (sOff k) (sOff k + len)
          copyAt a (dOff k) s
        else pure a) nrows dst rfl trivial
    (by
      intro k hk a ha _
      have ha : a.length = dst.length := ha
      beta_reduce
      by_cases hg : sOff k + len ≤ src.length ∧ dOff k + len ≤ a.length
      · obtain ⟨r, hr, hw1, hw2⟩ := copyRow_writes src a len sOff dOff k hg.1 hg.2
        refine ⟨r, ?_, trivial, hw1, ?_⟩
        · rw [if_pos hg]; exact hr
        · intro p
          exact ⟨fun v hv => (hw2 p).1 v hv.2,
            fun hno => (hw2 p).2 (fun v hv => hno v ⟨by rw [← ha]; exact hg, hv⟩)⟩
      · refine ⟨a, by rw [if_neg hg]; rfl, trivial, rfl, ?_⟩
        intro p
        exact ⟨fun v hv => absurd (by rw [ha]; exact hv.1) hg, fun _ => rfl⟩)
  refine ⟨r, hr, hl, ?_, ?_⟩
  · intro hdisj k t hk hgs hgd ht
    have hlt : sOff k + t < src.length := by omega
    rw [getElem?_eq_some_getD _ _ hlt]
    apply hval _ k (dOff k + t) _ hk
    · refine ⟨⟨hgs, hgd⟩, by omega, by omega, ?_⟩
      have e : dOff k + t - dOff k = t := by omega
      rw [e]; exact getElem?_eq_some_getD _ _ hlt
    · intro y y' p v v' hy hy' h1 h2
      by_contra hne
      have := hdisj y y' hy hy' hne
      obtain ⟨-, a1, a2, -⟩ := h1
      obtain ⟨-, b1, b2, -⟩ := h2
      omega
  · intro p hno
    apply hkeep
    intro k v hk hW
    exact hno k hk hW.1.1 hW.1.2 ⟨hW.2.1, hW.2.2.1⟩

/-! ## 4bpp page converters -/

theorem buildIndex32_eq : buildIndex32 = some (index32H, index32V) := by decide

theorem index32_ok : IndexOk index32H index32V := by unfold IndexOk; decide

theorem blockTable4_lt : ∀ n, n < 32 → blockTable4.getD n 0 < 32 := by decide

theorem unswizzle4ConvertPage_eq (S H V : List Nat) :
    unswizzle4ConvertPage 128 128 S H V = (List.range 8).foldlM (fun o i =>
      (List.range 4).foldlM (fun o j => unswizzlePageStep S H V o i j) o) (make 8192) := rfl

theorem gather32_length (S : List Nat) (base : Nat) : (gather32 S base).length = 256 := by
  simp [gather32]

theorem gather32_getD (S : List Nat) (base m : Nat) (hm : m < 256) :
    (gather32 S base).getD m 0 = S.getD (base + 256 * (m / 32) + m % 32) 0 := by
  simp [gather32, List.getD_eq_getElem?_getD, List.getElem?_map, List.getElem?_range hm]

theorem gather16_length (P : List Nat) (i j : Nat) : (gather16 P i j).length = 256 := by
  simp [gather16]

theorem gather16_getD (P : List Nat) (i j n : Nat) (hn : n < 256) :
    (gather16 P i j).getD n 0 = P.getD (1024 * i + 16 * j + 64 * (n / 16) + n % 16) 0 := by
  simp [gather16, List.getD_eq_getElem?_getD, List.getElem?_map, List.getElem?_range hn]

theorem blockBase_le (H V : List Nat) (hok : IndexOk H V) (i j : Nat) (hi : i < 8) (hj : j < 4) :
    ∃ ih iv, ih < 8 ∧ iv < 4 ∧ blockBase H V i j = 2048 * iv + 32 * ih := by
  obtain ⟨-, -, hb⟩ := hok
  have hnb := blockTable4_lt (i * 4 + j) (by omega)
  obtain ⟨h1, h2⟩ := hb _ hnb
  exact ⟨_, _, h1, h2, by unfold blockBase; omega⟩

theorem po0_loop_spec (S : List Nat) (hS : S.length = 8192) (base : Nat)
    (hbase : base + 1824 ≤ 8192) :
    (List.range 8).foldlM (fun po0 k => do
      let start := base + k * 256
      let s ← slice S start (start + 32)
      copyAt po0 (k * 32) s) (make 256) = some (gather32 S base) := by
  obtain ⟨r, hr, hl, hval, -⟩ := copyRows_spec S (make 256) 8 32 (fun k => base + k * 256)
    (fun k => k * 32) (fun k hk => by simp only; omega)
    (fun k hk => by simp only [make_length]; omega) (fun k k' hk hk' hne => by simp only; omega)
  rw [make_length] at hl
  have : r = gather32 S base := by
    apply List.ext_getElem?
    intro p
    by_cases hp : p < 256
    · have h1 := hval (p / 32) (p % 32) (by omega) (by omega)
      have e1 : p / 32 * 32 + p % 32 = p := by omega
      simp only [e1] at h1
      rw [h1, getElem?_eq_some_getD _ _ (by omega),
        getElem?_eq_some_getD _ _ (by rw [gather32_length]; exact hp), gather32_getD _ _ _ hp]
      congr 2; omega
    · rw [List.getElem?_eq_none (by omega),
        List.getElem?_eq_none (by rw [gather32_length]; omega)]
  rw [← this]
  exact hr

theorem unswizzlePageStep_spec (S H V : List Nat) (hS : S.length = 8192) (hok : IndexOk H V)
    (i j : Nat) (hi : i < 8) (hj : j < 4) (out : List Nat) (hout : out.length = 8192) :
    ∃ r, unswizzlePageStep S H V out i j = some r ∧ WritesTo (UnswizzlePageW S H V i j) out r := by
  obtain ⟨ih, iv, hih, hiv, hbase⟩ := blockBase_le H V hok i j hi hj
  have hnb := blockTable4_lt (i * 4 + j) (by omega)
  have r1 : readAt blockTable4 (i * 4 + j) = some (blockTable4.getD (i * 4 + j) 0) :=
    readAt_of_lt _ _ (by have : blockTable4.length = 32 := rfl; omega)
  have r2 := readAt_of_lt V (blockTable4.getD (i * 4 + j) 0) (by rw [hok.2.1]; exact hnb)
  have r3 := readAt_of_lt H (blockTable4.getD (i * 4 + j) 0) (by rw [hok.1]; exact hnb)
  have r4 := po0_loop_spec S hS (blockBase H V i j) (by omega)
  obtain ⟨ob, hob, obl, obget⟩ := convertBlockWith_spec unswizzleLutTable
    (gather32 S (blockBase H V i j)) unswizzleLutTable_ok (by rw [gather32_length])
  rw [← unswizzle4ConvertBlock_eq] at hob
  obtain ⟨r, hr, hl, hval, hkeep⟩ := copyRows_spec ob out 16 16 (fun k => k * 16)
    (fun k => (16 * i * 64) + j * 16 + k * 64) (fun k hk => by simp only; omega)
    (fun k hk => by simp only; omega) (fun k k' hk hk' hne => by simp only; omega)
  refine ⟨r, ?_, hl, ?_⟩
  · unfold unswizzlePageStep
    simp only [Option.bind_eq_bind, Option.some_bind, blockBase] at r4 hob hr ⊢
    rw [r1, Option.some_bind, r2, Option.some_bind, r3, Option.some_bind, r4, Option.some_bind,
      hob, Option.some_bind]
    exact hr
  · intro p
    constructor
    · rintro v ⟨n, hn, rfl, rfl⟩
      have h1 := hval (n / 16) (n % 16) (by omega) (by omega)
      have e1 : n / 16 * 16 + n % 16 = n := by omega
      have e2 : 16 * i * 64 + j * 16 + n / 16 * 64 + n % 16
          = 1024 * i + 16 * j + 64 * (n / 16) + n % 16 := by omega
      simp only [e1, e2] at h1
      rw [h1]
      exact obget n hn
    · intro hno
      apply hkeep
      intro k hk hin
      apply hno (blockByte unswizzleLutTable (gather32 S (blockBase H V i j))
        (16 * k + (p - (16 * i * 64 + j * 16 + k * 64))))
      refine ⟨16 * k + (p - (16 * i * 64 + j * 16 + k * 64)), by omega, by omega, rfl⟩

set_option maxRecDepth 100000 in
theorem index32_inj_aux : ∀ a, a < 32 → ∀ c, c < 32 →
    blockBase index32H index32V (a / 4) (a % 4) = blockBase index32H index32V (c / 4) (c % 4) →
    a = c := by decide

theorem index32_inj : IndexInj index32H index32V := by
  intro i hi j hj i' hi' j' hj' h
  have e1 : (i * 4 + j) / 4 = i := by omega
  have e2 : (i * 4 + j) % 4 = j := by omega
  have e3 : (i' * 4 + j') / 4 = i' := by omega
  have e4 : (i' * 4 + j') % 4 = j' := by omega
  have := index32_inj_aux (i * 4 + j) (by omega) (i' * 4 + j') (by omega)
    (by rw [e1, e2, e3, e4]; exact h)
  omega

theorem swizzle4ConvertPage_eq (P H V : List Nat) :
    swizzle4ConvertPage 128 128 P H V = ((List.range 8).foldlM (fun st i =>
      (List.range 4).foldlM (fun st j => swizzlePageStep P H V st i j) st)
        (make 8192, make 256)).bind (fun r => some r.1) := rfl

theorem unswizzle4ConvertPage_spec (S H V : List Nat) (hS : S.length = 8192)
    (hok : IndexOk H V) :
    ∃ U, unswizzle4ConvertPage 128 128 S H V = some U ∧ U.length = 8192 ∧
      ∀ i j n, i < 8 → j < 4 → n < 256 →
        U[1024 * i + 16 * j + 64 * (n / 16) + n % 16]?
          = some (blockByte unswizzleLutTable (gather32 S (blockBase H V i j)) n) := by
  obtain ⟨U, hU, hl, -, -, hval⟩ := scatter2_spec (fun a : List Nat => a) (fun _ => True) 8192
    (UnswizzlePageW S H V) (fun o i j => unswizzlePageStep S H V o i j) 8 4 (make 8192)
    (make_length _) trivial
    (by
      intro i j hi hj out hout _
      obtain ⟨r, hr, hw⟩ := unswizzlePageStep_spec S H V hS hok i j hi hj out hout
      exact ⟨r, hr, trivial, hw⟩)
  refine ⟨U, by rw [unswizzle4ConvertPage_eq]; exact hU, hl, ?_⟩
  intro i j n hi hj hn
  apply hval _ i j _ _ hi hj ⟨n, hn, rfl, rfl⟩
  rintro y x y' x' p v v' hy hx hy' hx' ⟨n1, hn1, rfl, -⟩ ⟨n2, hn2, h2, -⟩
  omega

theorem inputBlock_loop_spec (P : List Nat) (hP : P.length = 8192) (i j : Nat) (hi : i < 8)
    (hj : j < 4) (blk : List Nat) (hblk : blk.length = 256) :
    (List.range 16).foldlM (fun inputBlock k => do
      let start := 16 * i * 64 + j * 16 + k * 64
      let s ← slice P start (start + 16)
      copyAt inputBlock (k * 16) s) blk = some (gather16 P i j) := by
  obtain ⟨r, hr, hl, hval, -⟩ := copyRows_spec P blk 16 16
    (fun k => 16 * i * 64 + j * 16 + k * 64)
    (fun k => k * 16) (fun k hk => by simp only; omega)
    (fun k hk => by simp only; omega) (fun k k' hk hk' hne => by simp only; omega)
  have : r = gather16 P i j := by
    apply List.ext_getElem?
    intro p
    by_cases hp : p < 256
    · have h1 := hval (p / 16) (p % 16) (by omega) (by omega)
      have e1 : p / 16 * 16 + p % 16 = p := by omega
      simp only [e1] at h1
      rw [h1, getElem?_eq_some_getD _ _ (by omega),
        getElem?_eq_some_getD _ _ (by rw [gather16_length]; exact hp), gather16_getD _ _ _ _ hp]
      congr 2; omega
    · rw [List.getElem?_eq_none (by omega),
        List.getElem?_eq_none (by rw [gather16_length]; omega)]
  rw [← this]
  exact hr

theorem swizzlePageStep_spec (P H V : List Nat) (hP : P.length = 8192) (hok : IndexOk H V)
    (i j : Nat) (hi : i < 8) (hj : j < 4) (st : List Nat × List Nat)
    (hout : st.1.length = 8192) (hblk : st.2.length = 256) :
    ∃ r, swizzlePageStep P H V st i j = some r ∧ r.2.length = 256 ∧
      WritesTo (SwizzlePageW P H V i j) st.1 r.1 := by
  obtain ⟨ih, iv, hih, hiv, hbase⟩ := blockBase_le H V hok i j hi hj
  have hnb := blockTable4_lt (i * 4 + j) (by omega)
  have r0 := inputBlock_loop_spec P hP i j hi hj st.2 hblk
  obtain ⟨ob, hob, obl, obget⟩ := convertBlockWith_spec swizzleLutTable
    (gather16 P i j) swizzleLutTable_ok (by rw [gather16_length])
  rw [← swizzle4ConvertBlock_eq] at hob
  have r1 : readAt blockTable4 (i * 4 + j) = some (blockTable4.getD (i * 4 + j) 0) :=
    readAt_of_lt _ _ (by have : blockTable4.length = 32 := rfl; omega)
  have r2 := readAt_of_lt V (blockTable4.getD (i * 4 + j) 0) (by rw [hok.2.1]; exact hnb)
  have r3 := readAt_of_lt H (blockTable4.getD (i * 4 + j) 0) (by rw [hok.1]; exact hnb)
  obtain ⟨r, hr, hl, hval, hkeep⟩ := copyRows_spec ob st.1 8 32 (fun k => k * 32)
    (fun k => blockBase H V i j + k * 256) (fun k hk => by simp only; omega)
    (fun k hk => by simp only; omega) (fun k k' hk hk' hne => by simp only; omega)
  refine ⟨(r, gather16 P i j), ?_, gather16_length _ _ _, hl, ?_⟩
  · unfold swizzlePageStep
    simp only [Option.bind_eq_bind, Option.some_bind, blockBase] at r0 hob hr ⊢
    rw [r0, Option.some_bind, hob, Option.some_bind, r1, Option.some_bind, r2, Option.some_bind,
      r3, Option.some_bind, hr, Option.some_bind]
    rfl
  · intro p
    constructor
    · rintro v ⟨m, hm, rfl, rfl⟩
      have h1 := hval (m / 32) (m % 32) (by omega) (by omega)
      have e1 : m / 32 * 32 + m % 32 = m := by omega
      have e2 : blockBase H V i j + m / 32 * 256 + m % 32
          = blockBase H V i j + 256 * (m / 32) + m % 32 := by omega
      simp only [e1, e2] at h1
      rw [h1]
      exact obget m hm
    · intro hno
      apply hkeep
      intro k hk hin
      apply hno (blockByte swizzleLutTable (gather16 P i j)
        (32 * k + (p - (blockBase H V i j + k * 256))))
      refine ⟨32 * k + (p - (blockBase H V i j + k * 256)), by omega, by omega, rfl⟩

theorem swizzle4ConvertPage_spec (P H V : List Nat) (hP : P.length = 8192)
    (hok : IndexOk H V) :
    ∃ S, swizzle4ConvertPage 128 128 P H V = some S ∧ S.length = 8192 ∧
      (IndexInj H V → ∀ i j m, i < 8 → j < 4 → m < 256 →
        S[blockBase H V i j + 256 * (m / 32) + m % 32]?
          = some (blockByte swizzleLutTable (gather16 P i j) m)) := by
  obtain ⟨st, hst, hl, -, -, hval⟩ := scatter2_spec (fun st : List Nat × List Nat => st.1)
    (fun st => st.2.length = 256) 8192
    (SwizzlePageW P H V) (fun st i j => swizzlePageStep P H V st i j) 8 4 (make 8192, make 256)
    (make_length _) (make_length _)
    (by
      intro i j hi hj st hout hblk
      obtain ⟨r, hr, hb, hw⟩ := swizzlePageStep_spec P H V hP hok i j hi hj st hout hblk
      exact ⟨r, hr, hb, hw⟩)
  refine ⟨st.1, by rw [swizzle4ConvertPage_eq, hst]; rfl, hl, ?_⟩
  intro hinj i j m hi hj hm
  apply hval _ i j _ _ hi hj ⟨m, hm, rfl, rfl⟩
  rintro y x y' x' p v v' hy hx hy' hx' ⟨n1, hn1, rfl, -⟩ ⟨n2, hn2, h2, -⟩
  obtain ⟨ih, iv, hih, hiv, hb⟩ := blockBase_le H V hok y x hy hx
  obtain ⟨ih', iv', hih', hiv', hb'⟩ := blockBase_le H V hok y' x' hy' hx'
  exact hinj y hy x hx y' hy' x' hx' (by omega)

theorem page_roundtrip (P H V : List Nat) (hP : P.length = 8192) (hok : IndexOk H V)
    (hinj : IndexInj H V) (hbyte : Bytes P) :
    (swizzle4ConvertPage 128 128 P H V).bind (fun S => unswizzle4ConvertPage 128 128 S H V)
      = some P := by
  obtain ⟨S, hS, Sl, Sget⟩ := swizzle4ConvertPage_spec P H V hP hok
  obtain ⟨U, hU, Ul, Uget⟩ := unswizzle4ConvertPage_spec S H V Sl hok
  rw [hS, Option.some_bind, hU]
  congr 1
  apply List.ext_getElem?
  intro q
  by_cases hq : q < 8192
  · have hi : q / 1024 < 8 := by omega
    have hj : q % 64 / 16 < 4 := by omega
    have hn : 16 * (q % 1024 / 64) + q % 16 < 256 := by omega
    have e := Uget (q / 1024) (q % 64 / 16) (16 * (q % 1024 / 64) + q % 16) hi hj hn
    have eq : 1024 * (q / 1024) + 16 * (q % 64 / 16)
        + 64 * ((16 * (q % 1024 / 64) + q % 16) / 16) + (16 * (q % 1024 / 64) + q % 16) % 16
        = q := by omega
    rw [eq] at e
    rw [e, blockByte_comp unswizzleLutTable swizzleLutTable unswizzleLutTable_ok
      lutInv_unswizzle_swizzle (gather16 P (q / 1024) (q % 64 / 16)) _ _ _ _ hn,
      gather16_getD _ _ _ _ hn, eq, getElem?_eq_some_getD _ _ (by omega)]
    · intro m hm
      rw [gather32_getD _ _ _ hm]
      exact getD_of_getElem? (Sget hinj _ _ m hi hj hm)
    · intro n hn'
      rw [gather16_getD _ _ _ _ hn']
      apply hbyte
      omega
  · rw [List.getElem?_eq_none (by omega), List.getElem?_eq_none (by omega)]

/-! ## 4bpp page loops -/

theorem Swizzle4_eq (data : List Nat) (width height : Nat) :
    Swizzle4 data width height =
      (List.range ((height - 1) / 128 + 1)).foldlM (fun o i =>
        (List.range ((width - 1) / 128 + 1)).foldlM (fun o j =>
          pageStep (fun a => swizzle4ConvertPage 128 128 a index32H index32V) data
            (if (width - 1) / 128 + 1 = 1 then width / 2 else 64)
            (if (height - 1) / 128 + 1 = 1 then height else 128)
            (if (height - 1) / 128 + 1 = 1 then height * 2 else 256)
            (if (width - 1) / 128 + 1 = 1 then width / 4 else 32)
            ((width - 1) / 128 + 1) 64 256 o i j) o) (make data.length) := by
  unfold Swizzle4
  rw [buildIndex32_eq]
  rfl

theorem Unswizzle4_eq (data : List Nat) (width height : Nat) :
    Unswizzle4 data width height =
      (List.range ((height - 1) / 128 + 1)).foldlM (fun o i =>
        (List.range ((width - 1) / 128 + 1)).foldlM (fun o j =>
          pageStep (fun a => unswizzle4ConvertPage 128 128 a index32H index32V) data
            (if (height - 1) / 128 + 1 = 1 then height * 2 else 256)
            (if (width - 1) / 128 + 1 = 1 then width / 4 else 32)
            (if (width - 1) / 128 + 1 = 1 then width / 2 else 64)
            (if (height - 1) / 128 + 1 = 1 then height else 128)
            ((width - 1) / 128 + 1) 256 64 o i j) o) (make data.length) := by
  unfold Unswizzle4
  rw [buildIndex32_eq]
  rfl

theorem pageStep_total (conv : List Nat → Option (List Nat))
    (hconv : ∀ a, a.length = 8192 → ∃ r, conv a = some r ∧ r.length = 8192)
    (data : List Nat) (iw ih ow oh nPageW inStride outStride : Nat) (out : List Nat)
    (i j : Nat) :
    ∃ r, pageStep conv data iw ih ow oh nPageW inStride outStride out i j = some r ∧
      r.length = out.length := by
  obtain ⟨pg, hpg, pgl, -, -⟩ := copyRowsG_spec data (make 8192) ih iw
    (fun k => (iw * ih) * nPageW * i + iw * j + k * iw * nPageW) (fun k => k * inStride)
  rw [make_length] at pgl
  obtain ⟨op, hop, opl⟩ := hconv pg pgl
  obtain ⟨r, hr, rl, -, -⟩ := copyRowsG_spec op out oh ow (fun k => k * outStride)
    (fun k => (ow * oh) * nPageW * i + ow * j + k * ow * nPageW)
  refine ⟨r, ?_, rl⟩
  unfold pageStep
  simp only [Option.bind_eq_bind] at hpg hr ⊢
  rw [hpg, Option.some_bind, hop, Option.some_bind]
  exact hr

theorem swizzlePage_total (a : List Nat) (ha : a.length = 8192) :
    ∃ r, swizzle4ConvertPage 128 128 a index32H index32V = some r ∧ r.length = 8192 := by
  obtain ⟨S, hS, hl, -⟩ := swizzle4ConvertPage_spec a index32H index32V ha index32_ok
  exact ⟨S, hS, hl⟩

theorem unswizzlePage_total (a : List Nat) (ha : a.length = 8192) :
    ∃ r, unswizzle4ConvertPage 128 128 a index32H index32V = some r ∧ r.length = 8192 := by
  obtain ⟨S, hS, hl, -⟩ := unswizzle4ConvertPage_spec a index32H index32V ha index32_ok
  exact ⟨S, hS, hl⟩

theorem pageLoop_total (conv : List Nat → Option (List Nat))
    (hconv : ∀ a, a.length = 8192 → ∃ r, conv a = some r ∧ r.length = 8192)
    (data : List Nat) (iw ih ow oh nPageW nPageH inStride outStride : Nat) :
    ∃ r, (List.range nPageH).foldlM (fun o i => (List.range nPageW).foldlM (fun o j =>
        pageStep conv data iw ih ow oh nPageW inStride outStride o i j) o) (make data.length)
        = some r ∧ r.length = data.length :=
  foldlM_range2_inv (fun o i j => pageStep conv data iw ih ow oh nPageW inStride outStride o i j)
    (fun _ o => o.length = data.length) nPageH nPageW (make data.length) (make_length _)
    (fun i j _ _ o ho => by
      obtain ⟨r, hr, rl⟩ := pageStep_total conv hconv data iw ih ow oh nPageW inStride outStride
        o i j
      exact ⟨r, hr, rl.trans ho⟩)

/-- Without wrap-around `Swizzle4` never fails and preserves the length, whatever the buffer
and the dimensions. -/
theorem Swizzle4_total (data : List Nat) (width height : Nat) :
    ∃ out, Swizzle4 data width height = some out ∧ out.length = data.length := by
  rw [Swizzle4_eq]
  exact pageLoop_total _ swizzlePage_total data _ _ _ _ _ _ _ _

/-- Without wrap-around `Unswizzle4` never fails and preserves the length, whatever the
buffer and the dimensions. -/
theorem Unswizzle4_total (data : List Nat) (width height : Nat) :
    ∃ out, Unswizzle4 data width height = some out ∧ out.length = data.length := by
  rw [Unswizzle4_eq]
  exact pageLoop_total _ unswizzlePage_total data _ _ _ _ _ _ _ _

theorem pageIdx_eq (rl nr PW i j q : Nat) :
    pageIdx rl nr PW i j q = (nr * i + q / rl) * (rl * PW) + (rl * j + q % rl) := by
  unfold pageIdx; ring

theorem pageOf_length (rl nr PW : Nat) (data : List Nat) (i j : Nat) :
    (pageOf rl nr PW data i j).length = 8192 := by
  simp [pageOf]

theorem pageOf_getD (rl nr PW : Nat) (data : List Nat) (i j q : Nat) (hq : q < 8192) :
    (pageOf rl nr PW data i j).getD q 0 = data.getD (pageIdx rl nr PW i j q) 0 := by
  simp [pageOf, List.getD_eq_getElem?_getD, List.getElem?_map, List.getElem?_range hq]

theorem page_col_lt {rl PW j q : Nat} (hrl : 0 < rl) (hj : j < PW) :
    rl * j + q % rl < rl * PW := by
  have h1 := Nat.mod_lt q hrl
  have h2 := Nat.mul_le_mul_left rl (Nat.succ_le_of_lt hj)
  rw [Nat.mul_succ] at h2
  omega

theorem page_div_lt {rl nr q : Nat} (hrl : 0 < rl) (hg : rl * nr = 8192) (hq : q < 8192) :
    q / rl < nr := by
  rw [Nat.div_lt_iff_lt_mul hrl, Nat.mul_comm, hg]; exact hq

theorem page_row_lt {rl nr PH i q : Nat} (hrl : 0 < rl) (hg : rl * nr = 8192) (hi : i < PH)
    (hq : q < 8192) : nr * i + q / rl < nr * PH := by
  have h1 := page_div_lt hrl hg hq
  have h2 := Nat.mul_le_mul_left nr (Nat.succ_le_of_lt hi)
  rw [Nat.mul_succ] at h2
  omega

theorem pageIdx_lt {rl nr PW PH i j q : Nat} (hrl : 0 < rl) (hg : rl * nr = 8192)
    (hi : i < PH) (hj : j < PW) (hq : q < 8192) :
    pageIdx rl nr PW i j q < 8192 * PW * PH := by
  rw [pageIdx_eq]
  have h := lin_lt_of_row_lt (@page_col_lt rl PW j q hrl hj) (page_row_lt hrl hg hi hq) 0
  calc (nr * i + q / rl) * (rl * PW) + (rl * j + q % rl) < nr * PH * (rl * PW) + 0 := h
    _ = (rl * nr) * PW * PH := by ring
    _ = 8192 * PW * PH := by rw [hg]

theorem pageIdx_inj {rl nr PW i j q i' j' q' : Nat} (hrl : 0 < rl) (hg : rl * nr = 8192)
    (hj : j < PW) (hj' : j' < PW) (hq : q < 8192) (hq' : q' < 8192)
    (h : pageIdx rl nr PW i j q = pageIdx rl nr PW i' j' q') : i = i' ∧ j = j' ∧ q = q' := by
  rw [pageIdx_eq, pageIdx_eq] at h
  obtain ⟨hc, hr⟩ := lin_inj (page_col_lt hrl hj) (page_col_lt hrl hj') h
  rw [Nat.mul_comm rl j, Nat.mul_comm rl j'] at hc
  obtain ⟨ht, hjj⟩ := lin_inj (Nat.mod_lt q hrl) (Nat.mod_lt q' hrl) hc
  rw [Nat.mul_comm nr i, Nat.mul_comm nr i', Nat.add_comm, Nat.add_comm (i' * nr)] at hr
  have hr' : i * nr + q / rl = i' * nr + q' / rl := by omega
  obtain ⟨hk, hii⟩ := lin_inj (page_div_lt hrl hg hq) (page_div_lt hrl hg hq') hr'
  refine ⟨hii, hjj, ?_⟩
  rw [← Nat.div_add_mod q rl, ← Nat.div_add_mod q' rl, hk, ht]

theorem pageIdx_cover {rl nr PW PH p : Nat} (hrl : 0 < rl) (hg : rl * nr = 8192)
    (hp : p < 8192 * PW * PH) :
    ∃ i j q, i < PH ∧ j < PW ∧ q < 8192 ∧ p = pageIdx rl nr PW i j q := by
  have hnr : 0 < nr := by
    rcases Nat.eq_zero_or_pos nr with h0 | h0
    · rw [h0] at hg; omega
    · exact h0
  have hPW : 0 < PW := by
    rcases Nat.eq_zero_or_pos PW with h0 | h0
    · rw [h0] at hp; omega
    · exact h0
  have hL : 0 < rl * PW := Nat.mul_pos hrl hPW
  have hlen : 8192 * PW * PH = (nr * PH) * (rl * PW) := by rw [← hg]; ring
  have hR : p / (rl * PW) < nr * PH := by
    rw [Nat.div_lt_iff_lt_mul hL, ← hlen]; exact hp
  have hC : p % (rl * PW) < rl * PW := Nat.mod_lt _ hL
  have hi : p / (rl * PW) / nr < PH := by
    rw [Nat.div_lt_iff_lt_mul hnr, Nat.mul_comm PH nr]; exact hR
  have hj : p % (rl * PW) / rl < PW := by
    rw [Nat.div_lt_iff_lt_mul hrl, Nat.mul_comm PW rl]; exact hC
  have hk : p / (rl * PW) % nr < nr := Nat.mod_lt _ hnr
  have ht : p % (rl * PW) % rl < rl := Nat.mod_lt _ hrl
  have hq : (p / (rl * PW) % nr) * rl + p % (rl * PW) % rl < 8192 := by
    have := lin_lt_of_row_lt ht hk 0
    rw [← hg, Nat.mul_comm rl nr]; omega
  refine ⟨_, _, _, hi, hj, hq, ?_⟩
  have d1 : ((p / (rl * PW) % nr) * rl + p % (rl * PW) % rl) / rl = p / (rl * PW) % nr := by
    rw [Nat.add_comm, Nat.add_mul_div_right _ _ hrl, Nat.div_eq_of_lt ht, Nat.zero_add]
  have d2 : ((p / (rl * PW) % nr) * rl + p % (rl * PW) % rl) % rl = p % (rl * PW) % rl := by
    rw [Nat.add_comm, Nat.add_mul_mod_self_right, Nat.mod_mod]
  rw [pageIdx_eq, d1, d2, Nat.div_add_mod, Nat.div_add_mod, Nat.mul_comm _ (rl * PW),
    Nat.div_add_mod]

theorem row_q_lt {rl nr k t : Nat} (hg : rl * nr = 8192) (hk : k < nr) (ht : t < rl) :
    k * rl + t < 8192 := by
  have := lin_lt_of_row_lt ht hk 0
  rw [← hg, Nat.mul_comm rl nr]; omega

theorem pageIdx_row (rl nr PW i j k t : Nat) (ht : t < rl) :
    pageIdx rl nr PW i j (k * rl + t) = (rl * nr) * PW * i + rl * j + k * rl * PW + t := by
  have hrl : 0 < rl := by omega
  have d1 : (k * rl + t) / rl = k := by
    rw [Nat.add_comm, Nat.add_mul_div_right _ _ hrl, Nat.div_eq_of_lt ht, Nat.zero_add]
  have d2 : (k * rl + t) % rl = t := by
    rw [Nat.add_comm, Nat.add_mul_mod_self_right, Nat.mod_eq_of_lt ht]
  unfold pageIdx
  rw [d1, d2]

theorem row_fits {rl nr PW PH i j k : Nat} (hrl : 0 < rl) (hg : rl * nr = 8192)
    (hi : i < PH) (hj : j < PW) (hk : k < nr) :
    (rl * nr) * PW * i + rl * j + k * rl * PW + rl ≤ 8192 * PW * PH := by
  have h1 : pageIdx rl nr PW i j (k * rl + (rl - 1)) < 8192 * PW * PH :=
    pageIdx_lt hrl hg hi hj (row_q_lt hg hk (Nat.sub_lt hrl Nat.one_pos))
  rw [pageIdx_row _ _ _ _ _ _ _ (Nat.sub_lt hrl Nat.one_pos)] at h1
  omega

theorem row_fits_page {rl nr k : Nat} (hrl : 0 < rl) (hg : rl * nr = 8192) (hk : k < nr) :
    k * rl + rl ≤ 8192 := by
  have := row_q_lt hg hk (Nat.sub_lt hrl Nat.one_pos)
  omega

theorem rows_disjoint {rl PW i0 k k' : Nat} (hPW : 0 < PW) (hne : k ≠ k') :
    i0 + k * rl * PW + rl ≤ i0 + k' * rl * PW ∨ i0 + k' * rl * PW + rl ≤ i0 + k * rl * PW := by
  have hle : rl ≤ rl * PW := Nat.le_mul_of_pos_right rl hPW
  rcases Nat.lt_or_gt_of_ne hne with h | h
  · left
    have := Nat.mul_le_mul_right (rl * PW) (Nat.succ_le_of_lt h)
    rw [Nat.succ_mul, ← Nat.mul_assoc, ← Nat.mul_assoc] at this
    omega
  · right
    have := Nat.mul_le_mul_right (rl * PW) (Nat.succ_le_of_lt h)
    rw [Nat.succ_mul, ← Nat.mul_assoc, ← Nat.mul_assoc] at this
    omega

theorem rows_disjoint_page {rl k k' : Nat} (hne : k ≠ k') :
    k * rl + rl ≤ k' * rl ∨ k' * rl + rl ≤ k * rl := by
  rcases Nat.lt_or_gt_of_ne hne with h | h
  · left
    have := Nat.mul_le_mul_right rl (Nat.succ_le_of_lt h)
    rw [Nat.succ_mul] at this
    omega
  · right
    have := Nat.mul_le_mul_right rl (Nat.succ_le_of_lt h)
    rw [Nat.succ_mul] at this
    omega

theorem gather_spec (data : List Nat) (rl nr PW PH i j : Nat) (hrl : 0 < rl)
    (hg : rl * nr = 8192) (hi : i < PH) (hj : j < PW) (hlen : data.length = 8192 * PW * PH) :
    (List.range nr).foldlM (fun inputPage k =>
      if (rl * nr) * PW * i + rl * j + k * rl * PW + rl ≤ data.length
          ∧ k * rl + rl ≤ inputPage.length then do
        let s ← slice data ((rl * nr) * PW * i + rl * j + k * rl * PW)
          ((rl * nr) * PW * i + rl * j + k * rl * PW + rl)
        copyAt inputPage (k * rl) s
      else pure inputPage) (make 8192) = some (pageOf rl nr PW data i j) := by
  obtain ⟨r, hr, hl, hval, -⟩ := copyRowsG_spec data (make 8192) nr rl
    (fun k => (rl * nr) * PW * i + rl * j + k * rl * PW) (fun k => k * rl)
  rw [make_length] at hl
  have : r = pageOf rl nr PW data i j := by
    apply List.ext_getElem?
    intro q
    by_cases hq : q < 8192
    · have hk := page_div_lt hrl hg hq
      have ht := Nat.mod_lt q hrl
      have h1 := hval (fun k k' _ _ hne => rows_disjoint_page hne) (q / rl) (q % rl) hk
        (by rw [hlen]; exact row_fits hrl hg hi hj hk)
        (by rw [make_length]; exact row_fits_page hrl hg hk) ht
      have e1 : q / rl * rl + q % rl = q := by
        rw [Nat.mul_comm]; exact Nat.div_add_mod q rl
      simp only [e1] at h1
      have hin : pageIdx rl nr PW i j q < data.length := by
        rw [hlen]; exact pageIdx_lt hrl hg hi hj hq
      rw [h1, getElem?_eq_some_getD (pageOf rl nr PW data i j) q
          (by rw [pageOf_length]; exact hq),
        pageOf_getD _ _ _ _ _ _ _ hq, ← getElem?_eq_some_getD _ _ hin]
      rfl
    · rw [List.getElem?_eq_none (by omega),
        List.getElem?_eq_none (by rw [pageOf_length]; omega)]
  rw [← this]
  exact hr

theorem scatter_spec (op out : List Nat) (rl nr PW PH i j : Nat) (hrl : 0 < rl)
    (hg : rl * nr = 8192) (hi : i < PH) (hj : j < PW) (hop : op.length = 8192)
    (hout : out.length = 8192 * PW * PH) :
    ∃ r, (List.range nr).foldlM (fun outputData k =>
      if k * rl + rl ≤ op.length
          ∧ (rl * nr) * PW * i + rl * j + k * rl * PW + rl ≤ outputData.length then do
        let s ← slice op (k * rl) (k * rl + rl)
        copyAt outputData ((rl * nr) * PW * i + rl * j + k * rl * PW) s
      else pure outputData) out = some r ∧ WritesTo (ScatterW op rl nr PW i j) out r := by
  obtain ⟨r, hr, hl, hval, hkeep⟩ := copyRowsG_spec op out nr rl (fun k => k * rl)
    (fun k => (rl * nr) * PW * i + rl * j + k * rl * PW)
  have hPW : 0 < PW := by omega
  refine ⟨r, hr, hl, ?_⟩
  intro p
  constructor
  · rintro v ⟨q, hq, rfl, hv⟩
    have hk := page_div_lt hrl hg hq
    have ht := Nat.mod_lt q hrl
    have h1 := hval (fun k k' _ _ hne => rows_disjoint hPW hne) (q / rl) (q % rl) hk
      (by rw [hop]; exact row_fits_page hrl hg hk)
      (by rw [hout]; exact row_fits hrl hg hi hj hk) ht
    have e1 : q / rl * rl + q % rl = q := by
      rw [Nat.mul_comm]; exact Nat.div_add_mod q rl
    simp only [e1] at h1
    rw [← hv, ← h1]
    rfl
  · intro hno
    apply hkeep
    intro k hk _ _ hin
    have ht : p - ((rl * nr) * PW * i + rl * j + k * rl * PW) < rl := by omega
    have hq := row_q_lt hg hk ht
    apply hno (op.getD (k * rl + (p - ((rl * nr) * PW * i + rl * j + k * rl * PW))) 0)
    refine ⟨_, hq, ?_, getElem?_eq_some_getD _ _ (by omega)⟩
    rw [pageIdx_row _ _ _ _ _ _ _ ht]
    omega

theorem pageStep_spec (conv : List Nat → Option (List Nat))
    (hconv : ∀ a, a.length = 8192 → ∃ r, conv a = some r ∧ r.length = 8192)
    (data : List Nat) (rl nr rl' nr' PW PH i j : Nat) (hrl : 0 < rl) (hg : rl * nr = 8192)
    (hrl' : 0 < rl') (hg' : rl' * nr' = 8192) (hi : i < PH) (hj : j < PW)
    (hlen : data.length = 8192 * PW * PH) (out : List Nat)
    (hout : out.length = 8192 * PW * PH) :
    ∃ r, pageStep conv data rl nr rl' nr' PW rl rl' out i j = some r ∧
      WritesTo (PageW conv data rl nr rl' nr' PW i j) out r := by
  have hG := gather_spec data rl nr PW PH i j hrl hg hi hj hlen
  obtain ⟨S, hS, Sl⟩ := hconv (pageOf rl nr PW data i j) (pageOf_length _ _ _ _ _ _)
  obtain ⟨r, hr, hl, hw⟩ := scatter_spec S out rl' nr' PW PH i j hrl' hg' hi hj Sl hout
  refine ⟨r, ?_, hl, ?_⟩
  · unfold pageStep
    simp only [Option.bind_eq_bind] at hG hr ⊢
    rw [hG, Option.some_bind, hS, Option.some_bind]
    exact hr
  · intro p
    constructor
    · rintro v ⟨S', hS', hv⟩
      rw [hS] at hS'
      cases hS'
      exact (hw p).1 v hv
    · intro hno
      exact (hw p).2 (fun v hv => hno v ⟨S, hS, hv⟩)

theorem pageLoop_spec (conv : List Nat → Option (List Nat))
    (hconv : ∀ a, a.length = 8192 → ∃ r, conv a = some r ∧ r.length = 8192)
    (data : List Nat) (rl nr rl' nr' PW PH : Nat) (hrl : 0 < rl) (hg : rl * nr = 8192)
    (hrl' : 0 < rl') (hg' : rl' * nr' = 8192) (hlen : data.length = 8192 * PW * PH) :
    ∃ out, (List.range PH).foldlM (fun o i => (List.range PW).foldlM (fun o j =>
        pageStep conv data rl nr rl' nr' PW rl rl' o i j) o) (make data.length) = some out
      ∧ out.length = data.length
      ∧ ∀ i j, i < PH → j < PW →
          conv (pageOf rl nr PW data i j) = some (pageOf rl' nr' PW out i j) := by
  obtain ⟨out, hout, hl, -, -, hval⟩ := scatter2_spec (fun a : List Nat => a) (fun _ => True)
    (8192 * PW * PH) (PageW conv data rl nr rl' nr' PW)
    (fun o i j => pageStep conv data rl nr rl' nr' PW rl rl' o i j) PH PW (make data.length)
    (by rw [make_length, hlen]) trivial
    (by
      intro i j hi hj o ho _
      obtain ⟨r, hr, hw⟩ := pageStep_spec conv hconv data rl nr rl' nr' PW PH i j hrl hg hrl'
        hg' hi hj hlen o ho
      exact ⟨r, hr, trivial, hw⟩)
  refine ⟨out, hout, by rw [hlen]; exact hl, ?_⟩
  intro i j hi hj
  obtain ⟨S, hS, Sl⟩ := hconv (pageOf rl nr PW data i j) (pageOf_length _ _ _ _ _ _)
  rw [hS]
  refine congrArg some ?_
  apply List.ext_getElem?
  intro q
  by_cases hq : q < 8192
  · have hv := hval (by
        rintro y x y' x' p v v' hy hx hy' hx' ⟨S1, -, q1, hq1, rfl, -⟩ ⟨S2, -, q2, hq2, h2, -⟩
        obtain ⟨h1, h2, -⟩ := pageIdx_inj hrl' hg' hx hx' hq1 hq2 h2
        exact ⟨h1, h2⟩)
      i j (pageIdx rl' nr' PW i j q) (S.getD q 0) hi hj
      ⟨S, hS, q, hq, rfl, getElem?_eq_some_getD _ _ (by omega)⟩
    rw [getElem?_eq_some_getD S q (by omega),
      getElem?_eq_some_getD (pageOf rl' nr' PW out i j) q (by rw [pageOf_length]; exact hq),
      pageOf_getD _ _ _ _ _ _ _ hq, getD_of_getElem? hv]
  · rw [List.getElem?_eq_none (by omega),
      List.getElem?_eq_none (by rw [pageOf_length]; omega)]

theorem pages_ext (rl nr PW PH : Nat) (hrl : 0 < rl) (hg : rl * nr = 8192) (a b : List Nat)
    (ha : a.length = 8192 * PW * PH) (hb : b.length = 8192 * PW * PH)
    (h : ∀ i j, i < PH → j < PW → pageOf rl nr PW a i j = pageOf rl nr PW b i j) : a = b := by
  apply List.ext_getElem?
  intro p
  by_cases hp : p < 8192 * PW * PH
  · obtain ⟨i, j, q, hi, hj, hq, rfl⟩ := @pageIdx_cover rl nr PW PH p hrl hg hp
    have e := congrArg (fun l => l.getD q 0) (h i j hi hj)
    simp only [pageOf_getD _ _ _ _ _ _ _ hq] at e
    rw [getElem?_eq_some_getD a _ (by omega), getElem?_eq_some_getD b _ (by omega), e]
  · rw [List.getElem?_eq_none (by omega), List.getElem?_eq_none (by omega)]

theorem pageLoop_roundtrip (conv1 conv2 : List Nat → Option (List Nat))
    (hc1 : ∀ a, a.length = 8192 → ∃ r, conv1 a = some r ∧ r.length = 8192)
    (hc2 : ∀ a, a.length = 8192 → ∃ r, conv2 a = some r ∧ r.length = 8192)
    (hrt : ∀ a, a.length = 8192 → Bytes a → (conv1 a).bind conv2 = some a)
    (data : List Nat) (hbyte : Bytes data) (rl nr rl' nr' PW PH : Nat) (hrl : 0 < rl)
    (hg : rl * nr = 8192) (hrl' : 0 < rl') (hg' : rl' * nr' = 8192)
    (hlen : data.length = 8192 * PW * PH) :
    ((List.range PH).foldlM (fun o i => (List.range PW).foldlM (fun o j =>
        pageStep conv1 data rl nr rl' nr' PW rl rl' o i j) o) (make data.length)).bind
      (fun sw => (List.range PH).foldlM (fun o i => (List.range PW).foldlM (fun o j =>
        pageStep conv2 sw rl' nr' rl nr PW rl' rl o i j) o) (make sw.length)) = some data := by
  obtain ⟨sw, hsw, swl, swp⟩ := pageLoop_spec conv1 hc1 data rl nr rl' nr' PW PH hrl hg hrl' hg'
    hlen
  obtain ⟨un, hun, unl, unp⟩ := pageLoop_spec conv2 hc2 sw rl' nr' rl nr PW PH hrl' hg' hrl hg
    (by rw [swl, hlen])
  rw [hsw, Option.some_bind, hun]
  congr 1
  apply pages_ext rl nr PW PH hrl hg un data (by rw [unl, swl, hlen]) hlen
  intro i j hi hj
  have h1 := swp i j hi hj
  have h2 := unp i j hi hj
  have h3 := hrt (pageOf rl nr PW data i j) (pageOf_length _ _ _ _ _ _) (by
    intro q hq
    rw [pageOf_length] at hq
    rw [pageOf_getD _ _ _ _ _ _ _ hq]
    exact hbyte _ (by rw [hlen]; exact pageIdx_lt hrl hg hi hj hq))
  rw [h1, Option.some_bind, h2] at h3
  exact Option.some.inj h3

theorem bytes_replicate (n v : Nat) (hv : v < 256) : Bytes (List.replicate n v) := by
  intro k hk
  rw [List.length_replicate] at hk
  rw [List.getD_eq_getElem?_getD, List.getElem?_replicate, if_pos hk]
  exact hv

/-- C4. For width and height positive multiples of 128 and a buffer of
`width*height/2` bytes, the hardware 4bpp strategy round-trips:
`Unswizzle4(Swizzle4(buf, w, h), w, h) = buf`. -/
theorem Unswizzle4_Swizzle4 (buf : List Nat) (width height : Nat) (hw : 0 < width)
    (hh : 0 < height) (hw128 : 128 ∣ width) (hh128 : 128 ∣ height)
    (hlen : buf.length = width * height / 2) (hbyte : Bytes buf) :
    (Swizzle4 buf width height).bind (fun s => Unswizzle4 s width height) = some buf := by
  obtain ⟨PW, rfl⟩ := hw128
  obtain ⟨PH, rfl⟩ := hh128
  have e1 : (128 * PW - 1) / 128 + 1 = PW := by omega
  have e2 : (128 * PH - 1) / 128 + 1 = PH := by omega
  have p1 : (if PW = 1 then 128 * PW / 2 else 64) = 64 := by split_ifs <;> omega
  have p2 : (if PH = 1 then 128 * PH else 128) = 128 := by split_ifs <;> omega
  have p3 : (if PH = 1 then 128 * PH * 2 else 256) = 256 := by split_ifs <;> omega
  have p4 : (if PW = 1 then 128 * PW / 4 else 32) = 32 := by split_ifs <;> omega
  have hl : buf.length = 8192 * PW * PH := by
    rw [hlen]
    have : 128 * PW * (128 * PH) = 2 * (8192 * PW * PH) := by ring
    rw [this]; omega
  have hU : (fun s => Unswizzle4 s (128 * PW) (128 * PH)) = (fun sw =>
      (List.range PH).foldlM (fun o i => (List.range PW).foldlM (fun o j =>
        pageStep (fun a => unswizzle4ConvertPage 128 128 a index32H index32V) sw
          256 32 64 128 PW 256 64 o i j) o) (make sw.length)) := by
    funext s
    rw [Unswizzle4_eq, e1, e2, p1, p2, p3, p4]
  rw [hU, Swizzle4_eq, e1, e2, p1, p2, p3, p4]
  exact pageLoop_roundtrip _ _ swizzlePage_total unswizzlePage_total
    (fun a ha hb => page_roundtrip a index32H index32V ha index32_ok index32_inj hb)
    buf hbyte 64 128 256 32 PW PH (by omega) (by omega) (by omega) (by omega) hl

/-- C4 on the all-ones 128x128 page. -/
theorem Unswizzle4_Swizzle4_witness :
    (Swizzle4 (List.replicate 8192 255) 128 128).bind (fun s => Unswizzle4 s 128 128)
      = some (List.replicate 8192 255) :=
  Unswizzle4_Swizzle4 (List.replicate 8192 255) 128 128 (by decide) (by decide) (by decide)
    (by decide) (by rw [List.length_replicate]) (bytes_replicate 8192 255 (by decide))

/-! ## The 4bpp shortcut strategy -/

theorem Unswizzle4By8_eq (data : List Nat) (w h : Nat) :
    Unswizzle4By8 data w h =
      ((List.range data.length).foldlM (unpackStep data) (make (w * h))).bind (fun t =>
        (Unswizzle8 t w h).bind (fun u =>
          (List.range data.length).foldlM (repackStep u) (make data.length))) := rfl

theorem unpackStep_spec (data a : List Nat) (i : Nat) (hi : i < data.length) :
    ∃ r, unpackStep data a i = some r ∧ WritesTo (UnpackW data a.length i) a r := by
  have hr := readAt_of_lt data i hi
  have n0 : unpackNib data (i * 2) = data.getD i 0 &&& 0x0F := by
    unfold unpackNib
    have e1 : i * 2 / 2 = i := by omega
    have e2 : i * 2 % 2 = 0 := by omega
    rw [e1, e2, if_pos hi, if_pos rfl]
  have n1 : unpackNib data (i * 2 + 1) = (data.getD i 0 >>> 4) &&& 0x0F := by
    unfold unpackNib
    have e1 : (i * 2 + 1) / 2 = i := by omega
    have e2 : (i * 2 + 1) % 2 = 1 := by omega
    rw [e1, e2, if_pos hi, if_neg (by omega)]
  unfold unpackStep
  rw [hr]
  simp only [Option.bind_eq_bind, Option.some_bind]
  by_cases h0 : i * 2 < a.length
  · rw [if_pos h0, writeAt_of_lt _ _ _ h0, Option.some_bind]
    by_cases h1 : i * 2 + 1 < a.length
    · rw [if_pos (by rw [List.length_set]; exact h1),
        writeAt_of_lt _ _ _ (by rw [List.length_set]; exact h1)]
      refine ⟨_, rfl, by simp, ?_⟩
      intro p
      rw [List.getElem?_set, List.getElem?_set]
      constructor
      · rintro v ⟨hp, hpi, rfl⟩
        by_cases e : i * 2 + 1 = p
        · rw [if_pos e, if_pos (by rw [List.length_set]; exact h1), ← e, n1]
        · have e' : i * 2 = p := by omega
          rw [if_neg e, if_pos e', if_pos h0, ← e', n0]
      · intro hno
        have e : ¬ i * 2 + 1 = p := fun e => hno _ ⟨by omega, by omega, rfl⟩
        have e' : ¬ i * 2 = p := fun e => hno _ ⟨by omega, by omega, rfl⟩
        rw [if_neg e, if_neg e']
    · rw [if_neg (by rw [List.length_set]; exact h1)]
      refine ⟨_, rfl, by simp, ?_⟩
      intro p
      rw [List.getElem?_set]
      constructor
      · rintro v ⟨hp, hpi, rfl⟩
        have e' : i * 2 = p := by omega
        rw [if_pos e', if_pos h0, ← e', n0]
      · intro hno
        have e' : ¬ i * 2 = p := fun e => hno _ ⟨by omega, by omega, rfl⟩
        rw [if_neg e']
  · rw [if_neg h0]
    simp only [Option.pure_def, Option.some_bind]
    rw [if_neg (by omega)]
    refine ⟨_, rfl, rfl, ?_⟩
    intro p
    exact ⟨fun v hv => by obtain ⟨hp, hpi, -⟩ := hv; omega, fun _ => rfl⟩

theorem unpack_loop_spec (data : List Nat) (n : Nat) :
    ∃ t, (List.range data.length).foldlM (unpackStep data) (make n) = some t ∧ t.length = n ∧
      ∀ p, p < n → t[p]? = some (unpackNib data p) := by
  obtain ⟨t, ht, hl, -, hkeep, hval⟩ := scatter1_spec (fun a : List Nat => a) (fun _ => True) n
    (UnpackW data n) (unpackStep data) data.length (make n) (make_length _) trivial
    (by
      intro i hi a ha _
      obtain ⟨r, hr, hw⟩ := unpackStep_spec data a i hi
      have ha : a.length = n := ha
      rw [ha] at hw
      exact ⟨r, hr, trivial, hw⟩)
  refine ⟨t, ht, hl, ?_⟩
  intro p hp
  by_cases hin : p / 2 < data.length
  · apply hval _ (p / 2) p _ hin ⟨hp, rfl, rfl⟩
    rintro y y' q v v' _ _ ⟨-, h1, -⟩ ⟨-, h2, -⟩
    omega
  · rw [hkeep p (fun y v hy hw => by obtain ⟨-, h1, -⟩ := hw; omega), make_getElem? _ _ hp]
    unfold unpackNib
    rw [if_neg hin]

theorem repackStep_spec (u out : List Nat) (i : Nat) (hi : i < out.length) :
    repackStep u out i = some (out.set i (repackByte u i)) := by
  unfold repackStep repackByte
  by_cases h0 : i * 2 < u.length
  · by_cases h1 : i * 2 + 1 < u.length
    · simp only [if_pos h0, if_pos h1, readAt_of_lt _ _ h0, readAt_of_lt _ _ h1, Option.map_some',
        Option.bind_eq_bind, Option.some_bind, writeAt_of_lt _ _ _ hi]
    · simp only [if_pos h0, if_neg h1, readAt_of_lt _ _ h0, Option.map_some',
        Option.bind_eq_bind, Option.some_bind, writeAt_of_lt _ _ _ hi, Option.pure_def]
  · have h1 : ¬ i * 2 + 1 < u.length := by omega
    simp only [if_neg h0, if_neg h1, Option.bind_eq_bind, Option.some_bind,
      writeAt_of_lt _ _ _ hi, Option.pure_def]

theorem repack_loop_spec (u : List Nat) (n : Nat) :
    ∃ out, (List.range n).foldlM (repackStep u) (make n) = some out ∧ out.length = n ∧
      ∀ i, i < n → out[i]? = some (repackByte u i) := by
  obtain ⟨out, hout, hl, hget⟩ := foldlM_range_inv (repackStep u)
    (fun k out => out.length = n ∧ ∀ i, i < k → out[i]? = some (repackByte u i)) n (make n)
    ⟨make_length _, fun i hi => by omega⟩
    (by
      intro k hk out ⟨hl, hget⟩
      refine ⟨_, repackStep_spec u out k (by omega), by simp [hl], ?_⟩
      intro i hi
      rw [List.getElem?_set]
      by_cases e : k = i
      · rw [if_pos e, if_pos (by omega), e]
      · rw [if_neg e]; exact hget i (by omega))
  exact ⟨out, hout, hl, hget⟩

/-- What `Unswizzle8` computes, for every buffer and all dimensions: a buffer
of the same length in which pixel `(x, y)` holds the byte at its swizzled
address when both indices are inside the buffer, and bytes that no pixel
writes are zero. -/
theorem Unswizzle8_spec (data : List Nat) (w h : Nat) :
    ∃ out, Unswizzle8 data w h = some out ∧ out.length = data.length
      ∧ (∀ x y, x < w → y < h → addr8 x y w < data.length → y * w + x < data.length →
          out[y * w + x]? = data[addr8 x y w]?)
      ∧ (∀ p, p < data.length →
          (∀ x y, x < w → y < h → addr8 x y w < data.length → y * w + x ≠ p) →
          out[p]? = some 0) := by
  obtain ⟨out, hout, hl, hzero, hval⟩ := moveLoop_spec 1 data (fun x y => y * w + x)
    (fun x y => addr8 x y w) _ (move1_spec data _ _) w h
  refine ⟨out, by rw [Unswizzle8_eq]; exact hout, hl, ?_, ?_⟩
  · intro x y hx hy ha hlin
    have := hval (fun x y x' y' hx _ hx' _ _ _ he => lin_inj hx hx' he) x y hx hy
      ⟨by omega, by omega⟩ 0 (by omega)
    simpa using this
  · intro p hp hno
    apply hzero p hp
    intro x y hx hy hfit hin
    unfold Fits at hfit
    exact hno x y hx hy (by omega) (by omega)

theorem Unswizzle4By8_spec (data : List Nat) (w h : Nat) :
    ∃ t u out, t.length = w * h ∧ (∀ p, p < w * h → t[p]? = some (unpackNib data p))
      ∧ Unswizzle8 t w h = some u ∧ u.length = w * h
      ∧ Unswizzle4By8 data w h = some out ∧ out.length = data.length
      ∧ ∀ i, i < data.length → out[i]? = some (repackByte u i) := by
  obtain ⟨t, ht, tl, tget⟩ := unpack_loop_spec data (w * h)
  obtain ⟨u, hu, ul, -, -⟩ := Unswizzle8_spec t w h
  obtain ⟨out, hout, ol, oget⟩ := repack_loop_spec u data.length
  refine ⟨t, u, out, tl, tget, hu, by rw [ul, tl], ?_, ol, oget⟩
  rw [Unswizzle4By8_eq, ht, Option.some_bind, hu, Option.some_bind]
  exact hout

theorem pageIdx_single (rl nr q : Nat) : pageIdx rl nr 1 0 0 q = q := by
  have h := Nat.div_add_mod q rl
  have e : rl * nr * 1 * 0 + rl * 0 + q / rl * rl * 1 + q % rl = rl * (q / rl) + q % rl := by
    ring
  unfold pageIdx
  rw [e, h]

theorem pageOf_single (rl nr : Nat) (a : List Nat) (ha : a.length = 8192) :
    pageOf rl nr 1 a 0 0 = a := by
  apply List.ext_getElem?
  intro q
  by_cases hq : q < 8192
  · rw [getElem?_eq_some_getD _ _ (by rw [pageOf_length]; exact hq), pageOf_getD _ _ _ _ _ _ _ hq,
      pageIdx_single, getElem?_eq_some_getD _ _ (by omega)]
  · rw [List.getElem?_eq_none (by rw [pageOf_length]; omega), List.getElem?_eq_none (by omega)]

/-- On a single 128x128 page `Unswizzle4` is the page converter. -/
theorem Unswizzle4_single_page (x : List Nat) (hx : x.length = 8192) :
    Unswizzle4 x 128 128 = unswizzle4ConvertPage 128 128 x index32H index32V := by
  obtain ⟨out, hout, hl, hp⟩ := pageLoop_spec
    (fun a => unswizzle4ConvertPage 128 128 a index32H index32V) unswizzlePage_total x
    256 32 64 128 1 1 (by omega) (by omega) (by omega) (by omega) (by rw [hx])
  have h00 := hp 0 0 (by omega) (by omega)
  rw [pageOf_single _ _ x hx, pageOf_single _ _ out (by rw [hl, hx])] at h00
  rw [h00, Unswizzle4_eq]
  exact hout

/-- Byte 0 of the shortcut strategy on a 128x128 image: the low nibbles of
input bytes 0 and 2. -/
theorem Unswizzle4By8_byte0 (x : List Nat) (hx : x.length = 8192) :
    ∃ out, Unswizzle4By8 x 128 128 = some out ∧
      out[0]? = some (((x.getD 0 0 &&& 0x0F) &&& 0x0F)
        ||| ((((x.getD 2 0 &&& 0x0F) &&& 0x0F) <<< 4) % 256)) := by
  obtain ⟨t, u, out, tl, tget, hu, ul, hout, ol, oget⟩ := Unswizzle4By8_spec x 128 128
  obtain ⟨u', hu', -, uget, -⟩ := Unswizzle8_spec t 128 128
  rw [hu] at hu'
  cases hu'
  refine ⟨out, hout, ?_⟩
  rw [oget 0 (by omega)]
  have a0 : addr8 0 0 128 = 0 := by decide
  have a1 : addr8 1 0 128 = 4 := by decide
  have u0 := uget 0 0 (by omega) (by omega) (by rw [a0, tl]; omega) (by rw [tl]; omega)
  have u1 := uget 1 0 (by omega) (by omega) (by rw [a1, tl]; omega) (by rw [tl]; omega)
  rw [a0, tget 0 (by omega)] at u0
  rw [a1, tget 4 (by omega)] at u1
  have n0 : unpackNib x 0 = x.getD 0 0 &&& 0x0F := by
    unfold unpackNib
    rw [if_pos (by rw [hx]; omega), if_pos (by omega)]
  have n4 : unpackNib x 4 = x.getD 2 0 &&& 0x0F := by
    unfold unpackNib
    rw [if_pos (by rw [hx]; omega), if_pos (by omega)]
  rw [n0] at u0
  rw [n4] at u1
  have g0 := getD_of_getElem? u0
  have g1 := getD_of_getElem? u1
  unfold repackByte
  rw [if_pos (by rw [ul]; omega), if_pos (by rw [ul]; omega)]
  have e0 : 0 * 2 = 0 * 128 + 0 := by omega
  have e1 : 0 * 2 + 1 = 0 * 128 + 1 := by omega
  rw [e0, e1, g0, g1]

/-- Byte 0 of the hardware strategy on a 128x128 image: the low nibbles of
input bytes 0 and 4. -/
theorem Unswizzle4_byte0 (x : List Nat) (hx : x.length = 8192) :
    ∃ out, Unswizzle4 x 128 128 = some out ∧
      out[0]? = some ((x.getD 0 0 &&& 0x0F) ||| ((((x.getD 4 0 &&& 0x0F) <<< 4) % 256) &&& 0xF0)) := by
  obtain ⟨U, hU, Ul, Uget⟩ := unswizzle4ConvertPage_spec x index32H index32V hx index32_ok
  refine ⟨U, by rw [Unswizzle4_single_page x hx]; exact hU, ?_⟩
  have h := Uget 0 0 0 (by omega) (by omega) (by omega)
  have b0 : blockBase index32H index32V 0 0 = 0 := by decide
  have l0 : unswizzleLutTable.getD 0 0 = 0 := by decide
  have l1 : unswizzleLutTable.getD 1 0 = 8 := by decide
  have e : 1024 * 0 + 16 * 0 + 64 * (0 / 16) + 0 % 16 = 0 := by omega
  rw [e, b0] at h
  rw [h]
  have i0 : 0 / 64 % 2 * 128 + 2 * (0 % 64) = 0 := by omega
  have p0 : 64 * (0 / 64) = 0 := by omega
  have q0 : 0 + 256 * (0 / 32) + 0 % 32 = 0 := by omega
  have q4 : 0 + 256 * ((0 + 8 / 2) / 32) + (0 + 8 / 2) % 32 = 4 := by omega
  unfold blockByte nibAt
  rw [i0, p0, l0, l1, gather32_getD _ _ _ (by omega), gather32_getD _ _ _ (by omega), q0, q4]
  rfl

/-- C5 fails on the code: on the 8192-byte page that is zero except for byte 2,
which is 1, the shortcut strategy and the hardware strategy return different
buffers (byte 0 is 0x10 in one and 0x00 in the other). -/
theorem Unswizzle4By8_ne_Unswizzle4 :
    ((List.replicate 8192 0).set 2 1).length = 8192 ∧
    Unswizzle4By8 ((List.replicate 8192 0).set 2 1) 128 128
      ≠ Unswizzle4 ((List.replicate 8192 0).set 2 1) 128 128 := by
  have hx : ((List.replicate 8192 0).set 2 1).length = 8192 := by
    rw [List.length_set, List.length_replicate]
  refine ⟨hx, ?_⟩
  obtain ⟨a, ha, a0⟩ := Unswizzle4By8_byte0 _ hx
  obtain ⟨b, hb, b0⟩ := Unswizzle4_byte0 _ hx
  have g0 : ((List.replicate 8192 0).set 2 1).getD 0 0 = 0 := by
    rw [List.getD_eq_getElem?_getD, List.getElem?_set, if_neg (by omega),
      List.getElem?_replicate, if_pos (by omega)]
    rfl
  have g2 : ((List.replicate 8192 0).set 2 1).getD 2 0 = 1 := by
    rw [List.getD_eq_getElem?_getD, List.getElem?_set, if_pos rfl,
      if_pos (by rw [List.length_replicate]; omega)]
    rfl
  have g4 : ((List.replicate 8192 0).set 2 1).getD 4 0 = 0 := by
    rw [List.getD_eq_getElem?_getD, List.getElem?_set, if_neg (by omega),
      List.getElem?_replicate, if_pos (by omega)]
    rfl
  rw [g0, g2] at a0
  rw [g0, g4] at b0
  rw [ha, hb]
  intro heq
  rw [Option.some.inj heq, b0] at a0
  exact absurd (Option.some.inj a0) (by decide)

set_option maxRecDepth 100000 in
theorem uniform_nibbles : ∀ c, c < 16 →
    (17 * c) &&& 15 = c ∧ ((17 * c) >>> 4) &&& 15 = c ∧ ((17 * c) &&& 240) >>> 4 = c
      ∧ ((c &&& 15) ||| (((c &&& 15) <<< 4) % 256)) = 17 * c
      ∧ (c ||| (((c <<< 4) % 256) &&& 240)) = 17 * c := by decide

theorem nibOf_uniform (c u : Nat) (hc : c < 16) : nibOf (17 * c) u = c := by
  obtain ⟨h1, -, h3, -, -⟩ := uniform_nibbles c hc
  rcases Nat.mod_two_eq_zero_or_one u with hu | hu
  · rw [nibOf_even _ _ hu, h1]
  · rw [nibOf_odd _ _ hu, h3]

theorem blockByte_uniform (lut g : List Nat) (hlut : LutOk lut) (c : Nat) (hc : c < 16)
    (hg : ∀ m, m < 256 → g.getD m 0 = 17 * c) (n : Nat) (hn : n < 256) :
    blockByte lut g n = 17 * c := by
  have b0 := hlut.2 ((n / 64 % 2) * 128 + 2 * (n % 64)) (by omega)
  have b1 := hlut.2 ((n / 64 % 2) * 128 + 2 * (n % 64) + 1) (by omega)
  unfold blockByte
  rw [nibAt_eq, nibAt_eq, hg _ (by omega), hg _ (by omega), nibOf_uniform _ _ hc,
    nibOf_uniform _ _ hc]
  exact (uniform_nibbles c hc).2.2.2.2

theorem replicate_getD (n v k : Nat) (hk : k < n) : (List.replicate n v).getD k 0 = v := by
  rw [List.getD_eq_getElem?_getD, List.getElem?_replicate, if_pos hk]; rfl

theorem eq_replicate_of_getElem? (a : List Nat) (n v : Nat) (hl : a.length = n)
    (hget : ∀ k, k < n → a[k]? = some v) : a = List.replicate n v := by
  apply List.ext_getElem?
  intro k
  by_cases hk : k < n
  · rw [hget k hk, List.getElem?_replicate, if_pos hk]
  · rw [List.getElem?_eq_none (by omega), List.getElem?_replicate, if_neg hk]

theorem Unswizzle4_uniform (c : Nat) (hc : c < 16) :
    Unswizzle4 (List.replicate 8192 (17 * c)) 128 128 = some (List.replicate 8192 (17 * c)) := by
  have hx : (List.replicate 8192 (17 * c)).length = 8192 := List.length_replicate _ _
  obtain ⟨U, hU, Ul, Uget⟩ := unswizzle4ConvertPage_spec _ index32H index32V hx index32_ok
  rw [Unswizzle4_single_page _ hx, hU]
  refine congrArg some (eq_replicate_of_getElem? U 8192 (17 * c) Ul ?_)
  intro q hq
  have hi : q / 1024 < 8 := by omega
  have hj : q % 64 / 16 < 4 := by omega
  have hn : 16 * (q % 1024 / 64) + q % 16 < 256 := by omega
  have e := Uget (q / 1024) (q % 64 / 16) (16 * (q % 1024 / 64) + q % 16) hi hj hn
  have eq : 1024 * (q / 1024) + 16 * (q % 64 / 16)
      + 64 * ((16 * (q % 1024 / 64) + q % 16) / 16) + (16 * (q % 1024 / 64) + q % 16) % 16
      = q := by omega
  rw [eq] at e
  rw [e, blockByte_uniform _ _ unswizzleLutTable_ok c hc _ _ hn]
  intro m hm
  obtain ⟨ih, iv, hih, hiv, hb⟩ := blockBase_le index32H index32V index32_ok _ _ hi hj
  rw [gather32_getD _ _ _ hm, replicate_getD _ _ _ (by omega)]

theorem Unswizzle4By8_uniform (c : Nat) (hc : c < 16) :
    Unswizzle4By8 (List.replicate 8192 (17 * c)) 128 128
      = some (List.replicate 8192 (17 * c)) := by
  have hx : (List.replicate 8192 (17 * c)).length = 8192 := List.length_replicate _ _
  obtain ⟨t, u, out, tl, tget, hu, ul, hout, ol, oget⟩ :=
    Unswizzle4By8_spec (List.replicate 8192 (17 * c)) 128 128
  obtain ⟨u', hu', -, uget, -⟩ := Unswizzle8_spec t 128 128
  rw [hu] at hu'
  cases hu'
  have ht : ∀ p, p < 128 * 128 → t[p]? = some c := by
    intro p hp
    rw [tget p hp]
    unfold unpackNib
    rw [if_pos (by rw [hx]; omega), replicate_getD _ _ _ (by omega)]
    obtain ⟨h1, h2, -⟩ := uniform_nibbles c hc
    split_ifs
    · rw [h1]
    · rw [h2]
  have hud : ∀ p, p < 128 * 128 → u.getD p 0 = c := by
    intro p hp
    have ha : addr8 (p % 128) (p / 128) 128 < 128 * 128 :=
      addr8_lt_of_dvd (by decide) (by decide) (by omega) (by omega)
    have := uget (p % 128) (p / 128) (by omega) (by omega) (by rw [tl]; exact ha)
      (by rw [tl]; omega)
    have e : p / 128 * 128 + p % 128 = p := by omega
    rw [e, ht _ ha] at this
    exact getD_of_getElem? this
  rw [hout]
  refine congrArg some (eq_replicate_of_getElem? out 8192 (17 * c) (by rw [ol, hx]) ?_)
  intro i hi
  rw [oget i (by rw [hx]; exact hi)]
  unfold repackByte
  rw [if_pos (by rw [ul]; omega), if_pos (by rw [ul]; omega), hud _ (by omega),
    hud _ (by omega)]
  exact congrArg some (uniform_nibbles c hc).2.2.2.1

/-- C5, amended. On a single 128x128 page of 8192 bytes both 4bpp strategies
return a buffer of 8192 bytes, and on every page whose nibbles are all equal
(all bytes `0x11 * c`, such as the all-zero and the all-0xFF page) they return
the same buffer. -/
theorem Unswizzle4By8_Unswizzle4_agree (x : List Nat) (hx : x.length = 8192) :
    (∃ a b, Unswizzle4By8 x 128 128 = some a ∧ a.length = 8192 ∧
        Unswizzle4 x 128 128 = some b ∧ b.length = 8192) ∧
    (∀ c, c < 16 → x = List.replicate 8192 (17 * c) →
        Unswizzle4By8 x 128 128 = Unswizzle4 x 128 128) := by
  constructor
  · obtain ⟨t, u, a, -, -, -, -, ha, al, -⟩ := Unswizzle4By8_spec x 128 128
    obtain ⟨b, hb, bl⟩ := Unswizzle4_total x 128 128
    exact ⟨a, b, ha, by rw [al, hx], hb, by rw [bl, hx]⟩
  · rintro c hc rfl
    rw [Unswizzle4By8_uniform c hc, Unswizzle4_uniform c hc]

theorem Unswizzle4By8_Unswizzle4_agree_witness :
    (∃ a b, Unswizzle4By8 (List.replicate 8192 255) 128 128 = some a ∧ a.length = 8192 ∧
        Unswizzle4 (List.replicate 8192 255) 128 128 = some b ∧ b.length = 8192) ∧
    (∀ c, c < 16 → List.replicate 8192 255 = List.replicate 8192 (17 * c) →
        Unswizzle4By8 (List.replicate 8192 255) 128 128
          = Unswizzle4 (List.replicate 8192 255) 128 128) :=
  Unswizzle4By8_Unswizzle4_agree (List.replicate 8192 255) (List.length_replicate _ _)

theorem Swizzle4By8_eq (data : List Nat) (w h : Nat) :
    Swizzle4By8 data w h =
      ((List.range data.length).foldlM (unpackStepS data) (make (w * h))).bind (fun t =>
        (Swizzle8 t w h).bind (fun u =>
          (List.range data.length).foldlM (repackStep u) (make data.length))) := rfl

theorem unpackStepS_eq (data a : List Nat) (i : Nat) (hi : i < data.length)
    (h0 : i * 2 < a.length) : unpackStepS data a i = unpackStep data a i := by
  unfold unpackStepS unpackStep
  rw [readAt_of_lt data i hi]
  simp only [Option.bind_eq_bind, Option.some_bind, if_pos h0]

theorem unpackS_loop_spec (data : List Nat) (n : Nat) (hn : ∀ i, i < data.length → i * 2 < n) :
    ∃ t, (List.range data.length).foldlM (unpackStepS data) (make n) = some t ∧ t.length = n ∧
      ∀ p, p < n → t[p]? = some (unpackNib data p) := by
  obtain ⟨t, ht, hl, -, hkeep, hval⟩ := scatter1_spec (fun a : List Nat => a) (fun _ => True) n
    (UnpackW data n) (unpackStepS data) data.length (make n) (make_length _) trivial
    (by
      intro i hi a ha _
      have ha : a.length = n := ha
      obtain ⟨r, hr, hw⟩ := unpackStep_spec data a i hi
      rw [ha] at hw
      exact ⟨r, by rw [unpackStepS_eq data a i hi (by rw [ha]; exact hn i hi)]; exact hr,
        trivial, hw⟩)
  refine ⟨t, ht, hl, ?_⟩
  intro p hp
  by_cases hin : p / 2 < data.length
  · apply hval _ (p / 2) p _ hin ⟨hp, rfl, rfl⟩
    rintro y y' q v v' _ _ ⟨-, h1, -⟩ ⟨-, h2, -⟩
    omega
  · rw [hkeep p (fun y v hy hw => by obtain ⟨-, h1, -⟩ := hw; omega), make_getElem? _ _ hp]
    unfold unpackNib
    rw [if_neg hin]

theorem Swizzle8_total (data : List Nat) (w h : Nat) :
    ∃ out, Swizzle8 data w h = some out ∧
      SkipsUnfit 1 data out w h (fun x y => addr8 x y w) (fun x y => y * w + x) := by
  obtain ⟨out, hout, hl, hzero, -⟩ := moveLoop_spec 1 data (fun x y => addr8 x y w)
    (fun x y => y * w + x) _ (move1_spec data _ _) w h
  exact ⟨out, by rw [Swizzle8_eq]; exact hout, hl, hzero⟩

theorem Unswizzle8_total (data : List Nat) (w h : Nat) :
    ∃ out, Unswizzle8 data w h = some out ∧
      SkipsUnfit 1 data out w h (fun x y => y * w + x) (fun x y => addr8 x y w) := by
  obtain ⟨out, hout, hl, hzero, -⟩ := moveLoop_spec 1 data (fun x y => y * w + x)
    (fun x y => addr8 x y w) _ (move1_spec data _ _) w h
  exact ⟨out, by rw [Unswizzle8_eq]; exact hout, hl, hzero⟩

theorem Swizzle16_total (data : List Nat) (w h : Nat) :
    ∃ out, Swizzle16 data w h = some out ∧
      SkipsUnfit 2 data out w h (fun x y => pixel16Offset x y w) (fun x y => y * w + x) := by
  obtain ⟨out, hout, hl, hzero, -⟩ := moveLoop_spec 2 data (fun x y => pixel16Offset x y w)
    (fun x y => y * w + x) _ (move2_spec data _ _) w h
  exact ⟨out, by rw [Swizzle16_eq]; exact hout, hl, hzero⟩

theorem Unswizzle16_total (data : List Nat) (w h : Nat) :
    ∃ out, Unswizzle16 data w h = some out ∧
      SkipsUnfit 2 data out w h (fun x y => y * w + x) (fun x y => pixel16Offset x y w) := by
  obtain ⟨out, hout, hl, hzero, -⟩ := moveLoop_spec 2 data (fun x y => y * w + x)
    (fun x y => pixel16Offset x y w) _ (move2_spec data _ _) w h
  exact ⟨out, by rw [Unswizzle16_eq]; exact hout, hl, hzero⟩

theorem Swizzle32_total (data : List Nat) (w h : Nat) :
    ∃ out, Swizzle32 data w h = some out ∧
      SkipsUnfit 4 data out w h (fun x y => addr8 x y w) (fun x y => y * w + x) := by
  obtain ⟨out, hout, hl, hzero, -⟩ := moveLoop_spec 4 data (fun x y => addr8 x y w)
    (fun x y => y * w + x) _ (move4_spec data _ _) w h
  exact ⟨out, by rw [Swizzle32_eq]; exact hout, hl, hzero⟩

theorem Unswizzle32_total (data : List Nat) (w h : Nat) :
    ∃ out, Unswizzle32 data w h = some out ∧
      SkipsUnfit 4 data out w h (fun x y => y * w + x) (fun x y => addr8 x y w) := by
  obtain ⟨out, hout, hl, hzero, -⟩ := moveLoop_spec 4 data (fun x y => y * w + x)
    (fun x y => addr8 x y w) _ (move4_spec data _ _) w h
  exact ⟨out, by rw [Unswizzle32_eq]; exact hout, hl, hzero⟩

theorem Swizzle4By8_total (data : List Nat) (w h : Nat)
    (hn : ∀ i, i < data.length → i * 2 < w * h) :
    ∃ out, Swizzle4By8 data w h = some out ∧ out.length = data.length := by
  obtain ⟨t, ht, tl, -⟩ := unpackS_loop_spec data (w * h) hn
  obtain ⟨u, hu, -⟩ := Swizzle8_total t w h
  obtain ⟨out, hout, ol, -⟩ := repack_loop_spec u data.length
  refine ⟨out, ?_, ol⟩
  rw [Swizzle4By8_eq, ht, Option.some_bind, hu, Option.some_bind]
  exact hout

/-- C9. Length preservation: for all width and height (positive or zero) and a
buffer of `width*height*bpp/8` bytes, each of the ten pixel transforms returns
a buffer of the same length as its input (bpp = 8, 16, 32 and 4 in turn). -/
theorem transforms_preserve_length (buf : List Nat) (width height : Nat) :
    (buf.length = width * height * 8 / 8 →
      (∃ out, Swizzle8 buf width height = some out ∧ out.length = buf.length) ∧
      (∃ out, Unswizzle8 buf width height = some out ∧ out.length = buf.length)) ∧
    (buf.length = width * height * 16 / 8 →
      (∃ out, Swizzle16 buf width height = some out ∧ out.length = buf.length) ∧
      (∃ out, Unswizzle16 buf width height = some out ∧ out.length = buf.length)) ∧
    (buf.length = width * height * 32 / 8 →
      (∃ out, Swizzle32 buf width height = some out ∧ out.length = buf.length) ∧
      (∃ out, Unswizzle32 buf width height = some out ∧ out.length = buf.length)) ∧
    (buf.length = width * height * 4 / 8 →
      (∃ out, Swizzle4 buf width height = some out ∧ out.length = buf.length) ∧
      (∃ out, Unswizzle4 buf width height = some out ∧ out.length = buf.length) ∧
      (∃ out, Swizzle4By8 buf width height = some out ∧ out.length = buf.length) ∧
      (∃ out, Unswizzle4By8 buf width height = some out ∧ out.length = buf.length)) := by
  refine ⟨fun _ => ⟨?_, ?_⟩, fun _ => ⟨?_, ?_⟩, fun _ => ⟨?_, ?_⟩, fun hl => ⟨?_, ?_, ?_, ?_⟩⟩
  · obtain ⟨out, h1, h2, -⟩ := Swizzle8_total buf width height
    exact ⟨out, h1, h2⟩
  · obtain ⟨out, h1, h2, -⟩ := Unswizzle8_total buf width height
    exact ⟨out, h1, h2⟩
  · obtain ⟨out, h1, h2, -⟩ := Swizzle16_total buf width height
    exact ⟨out, h1, h2⟩
  · obtain ⟨out, h1, h2, -⟩ := Unswizzle16_total buf width height
    exact ⟨out, h1, h2⟩
  · obtain ⟨out, h1, h2, -⟩ := Swizzle32_total buf width height
    exact ⟨out, h1, h2⟩
  · obtain ⟨out, h1, h2, -⟩ := Unswizzle32_total buf width height
    exact ⟨out, h1, h2⟩
  · exact Swizzle4_total buf width height
  · exact Unswizzle4_total buf width height
  · exact Swizzle4By8_total buf width height (fun i hi => by
      generalize width * height = n at hl
      omega)
  · obtain ⟨t, u, out, -, -, -, -, ho, ol, -⟩ := Unswizzle4By8_spec buf width height
    exact ⟨out, ho, ol⟩

theorem addr8_eq_addrSpec (x y w : Nat) : addr8 x y w = addrSpec x y w := by
  unfold addr8 addrSpec
  simp only [Nat.add_assoc]

/-- What `Swizzle8` computes on an image whose width and height are multiples
of 16: the byte of pixel `(x, y)` lands at its swizzled address. -/
theorem Swizzle8_spec (data : List Nat) (w h : Nat) (hw : 16 ∣ w) (hh : 16 ∣ h)
    (hlen : data.length = w * h) :
    ∃ out, Swizzle8 data w h = some out ∧ out.length = data.length
      ∧ ∀ x y, x < w → y < h → out[addr8 x y w]? = data[y * w + x]? := by
  obtain ⟨out, hout, hl, -, hval⟩ := moveLoop_spec 1 data (fun x y => addr8 x y w)
    (fun x y => y * w + x) _ (move1_spec data _ _) w h
  refine ⟨out, by rw [Swizzle8_eq]; exact hout, hl, ?_⟩
  intro x y hx hy
  have ha := addr8_lt_of_dvd hw hh hx hy
  have hlin : y * w + x < h * w := (lin_lt_rows hx).2 hy
  rw [Nat.mul_comm h w] at hlin
  have := hval (fun x y x' y' hx _ hx' _ _ _ he => addr8_inj_of_dvd hw hx hx' he) x y hx hy
    ⟨by omega, by omega⟩ 0 (by omega)
  simpa using this

/-- Every address below `w*h` is the swizzled address of a pixel. -/
theorem addr8_surj (w h : Nat) (hw : 16 ∣ w) (hh : 16 ∣ h) (p : Nat) (hp : p < w * h) :
    ∃ x y, x < w ∧ y < h ∧ addr8 x y w = p := by
  have hw0 : 0 < w := by
    rcases Nat.eq_zero_or_pos w with h0 | h0
    · subst h0; simp at hp
    · exact h0
  have hxy : ∀ q : Fin (w * h), q.val % w < w ∧ q.val / w < h := fun q =>
    ⟨Nat.mod_lt _ hw0, Nat.div_lt_of_lt_mul q.isLt⟩
  let f : Fin (w * h) → Fin (w * h) := fun q =>
    ⟨addr8 (q.val % w) (q.val / w) w, addr8_lt_of_dvd hw hh (hxy q).1 (hxy q).2⟩
  have hinj : Function.Injective f := by
    intro a c hac
    have he : addr8 (a.val % w) (a.val / w) w = addr8 (c.val % w) (c.val / w) w :=
      congrArg Fin.val hac
    obtain ⟨h1, h2⟩ := addr8_inj_of_dvd hw (hxy a).1 (hxy c).1 he
    apply Fin.ext
    rw [← Nat.div_add_mod a.val w, ← Nat.div_add_mod c.val w, h1, h2]
  obtain ⟨q, hq⟩ := Finite.surjective_of_injective hinj ⟨p, hp⟩
  exact ⟨q.val % w, q.val / w, (hxy q).1, (hxy q).2, congrArg Fin.val hq⟩

/-- C12. For width and height multiples of 16 and a buffer of `width*height`
bytes, `Swizzle8(Unswizzle8(x, w, h), w, h) = x`, and the composition in the
other order, `Unswizzle8(Swizzle8(x, w, h), w, h)`, is `x` as well. -/
theorem Swizzle8_Unswizzle8 (x : List Nat) (width height : Nat)
    (hw : 16 ∣ width) (hh : 16 ∣ height) (hlen : x.length = width * height) :
    (Unswizzle8 x width height).bind (fun u => Swizzle8 u width height) = some x ∧
    (Swizzle8 x width height).bind (fun s => Unswizzle8 s width height) = some x := by
  constructor
  · obtain ⟨un, hun, unl, unget, -⟩ := Unswizzle8_spec x width height
    obtain ⟨sw, hsw, swl, swget⟩ := Swizzle8_spec un width height hw hh (by rw [unl, hlen])
    rw [hun, Option.some_bind, hsw]
    refine congrArg some ?_
    apply List.ext_getElem?
    intro p
    by_cases hp : p < width * height
    · obtain ⟨a, b, ha, hb, rfl⟩ := addr8_surj width height hw hh p hp
      have hlin : b * width + a < height * width := (lin_lt_rows ha).2 hb
      rw [Nat.mul_comm height width] at hlin
      rw [swget a b ha hb, unget a b ha hb (by omega) (by omega)]
    · rw [List.getElem?_eq_none (by omega), List.getElem?_eq_none (by omega)]
  · simp only [Swizzle8_eq, Unswizzle8_eq]
    exact roundtrip_generic 1 Nat.one_pos x width height (by omega)
      (fun x y => addr8 x y width)
      (fun x y hx hy => addr8_lt_of_dvd hw hh hx hy)
      (fun x y x' y' hx _ hx' _ he => addr8_inj_of_dvd hw hx hx' he)
      (fun data o y x => move1 data o (addr8 x y width) (y * width + x))
      (fun data o y x => move1 data o (y * width + x) (addr8 x y width))
      (fun data => move1_spec data _ _) (fun data => move1_spec data _ _)

/-- C12 on the 16x16 example vector 0x00..0xFF. -/
theorem Swizzle8_Unswizzle8_witness :
    16 ∣ 16 ∧ (List.range 256).length = 16 * 16 ∧
    (Unswizzle8 (List.range 256) 16 16).bind (fun u => Swizzle8 u 16 16)
      = some (List.range 256) ∧
    (Swizzle8 (List.range 256) 16 16).bind (fun s => Unswizzle8 s 16 16)
      = some (List.range 256) :=
  ⟨by decide, by simp, Swizzle8_Unswizzle8 (List.range 256) 16 16 (by decide) (by decide) (by simp)⟩

/-- C11 fails on the code: for the 3-byte buffer `[1, 2, 3]` and a 2x2 image
(one byte short of `2*2`), neither `Unswizzle8` nor `Swizzle8` returns a
buffer of the requested length `2*2`; both allocate `len(data)` bytes. -/
theorem short_buffer_length_fails :
    (¬ ∃ out, Unswizzle8 [1, 2, 3] 2 2 = some out ∧ out.length = 2 * 2) ∧
    (¬ ∃ out, Swizzle8 [1, 2, 3] 2 2 = some out ∧ out.length = 2 * 2) := by
  constructor
  · rintro ⟨out, h, hl⟩
    obtain ⟨o, ho, hlen, -⟩ := Unswizzle8_total [1, 2, 3] 2 2
    rw [ho] at h
    cases h
    simp at hlen
    omega
  · rintro ⟨out, h, hl⟩
    obtain ⟨o, ho, hlen, -⟩ := Swizzle8_total [1, 2, 3] 2 2
    rw [ho] at h
    cases h
    simp at hlen
    omega

/-- C11, amended. For every width and height and every buffer one byte shorter
than `width*height`, `Unswizzle8` and `Swizzle8` do not fail and return a
buffer of the length of the input, `width*height - 1`, in which every byte
that is not the destination of a pixel whose source and destination both lie
inside the buffer is zero. -/
theorem boundary_clamp (buf : List Nat) (width height : Nat)
    (hlen : buf.length = width * height - 1) :
    (∃ out, Unswizzle8 buf width height = some out ∧ out.length = width * height - 1 ∧
      SkipsUnfit 1 buf out width height (fun x y => y * width + x)
        (fun x y => addr8 x y width)) ∧
    (∃ out, Swizzle8 buf width height = some out ∧ out.length = width * height - 1 ∧
      SkipsUnfit 1 buf out width height (fun x y => addr8 x y width)
        (fun x y => y * width + x)) := by
  obtain ⟨o1, h1, s1⟩ := Unswizzle8_total buf width height
  obtain ⟨o2, h2, s2⟩ := Swizzle8_total buf width height
  exact ⟨⟨o1, h1, by rw [s1.1, hlen], s1⟩, ⟨o2, h2, by rw [s2.1, hlen], s2⟩⟩

theorem boundary_clamp_witness :
    [1, 2, 3].length = 2 * 2 - 1 ∧
    (∃ out, Unswizzle8 [1, 2, 3] 2 2 = some out ∧ out.length = 2 * 2 - 1 ∧
      SkipsUnfit 1 [1, 2, 3] out 2 2 (fun x y => y * 2 + x) (fun x y => addr8 x y 2)) ∧
    (∃ out, Swizzle8 [1, 2, 3] 2 2 = some out ∧ out.length = 2 * 2 - 1 ∧
      SkipsUnfit 1 [1, 2, 3] out 2 2 (fun x y => addr8 x y 2) (fun x y => y * 2 + x)) :=
  ⟨by decide, boundary_clamp [1, 2, 3] 2 2 (by decide)⟩

/-- C13. With `addr` the address formula of the specification: for every
buffer, all dimensions and every pixel `(x, y)` of the image whose address and
linear index are inside the buffer, byte `y*width + x` of `Unswizzle8(data)` is
byte `addr(x, y, width)` of `data`; and when width and height are multiples of
16 and `len(data) = width*height`, byte `addr(x, y, width)` of `Swizzle8(data)`
is byte `y*width + x` of `data`. -/
theorem swizzle8_pointwise (data : List Nat) (width height x y : Nat)
    (hx : x < width) (hy : y < height) :
    (addrSpec x y width < data.length → y * width + x < data.length →
      ∃ out, Unswizzle8 data width height = some out ∧
        out[y * width + x]? = some (data.getD (addrSpec x y width) 0)) ∧
    (16 ∣ width → 16 ∣ height → data.length = width * height →
      ∃ out, Swizzle8 data width height = some out ∧
        out[addrSpec x y width]? = some (data.getD (y * width + x) 0)) := by
  rw [← addr8_eq_addrSpec]
  constructor
  · intro ha hl
    obtain ⟨out, hout, -, hget, -⟩ := Unswizzle8_spec data width height
    exact ⟨out, hout, by rw [hget x y hx hy ha hl, getElem?_eq_some_getD _ _ ha]⟩
  · intro hw hh hlen
    obtain ⟨out, hout, -, hget⟩ := Swizzle8_spec data width height hw hh hlen
    have hlin : y * width + x < height * width := (lin_lt_rows hx).2 hy
    rw [Nat.mul_comm height width] at hlin
    exact ⟨out, hout, by rw [hget x y hx hy, getElem?_eq_some_getD _ _ (by omega)]⟩

/-- C13 at pixel `(5, 3)` of the 16x16 example vector. -/
theorem swizzle8_pointwise_witness :
    5 < 16 ∧ 3 < 16 ∧
    (addrSpec 5 3 16 < (List.range 256).length → 3 * 16 + 5 < (List.range 256).length →
      ∃ out, Unswizzle8 (List.range 256) 16 16 = some out ∧
        out[3 * 16 + 5]? = some ((List.range 256).getD (addrSpec 5 3 16) 0)) ∧
    (16 ∣ 16 → 16 ∣ 16 → (List.range 256).length = 16 * 16 →
      ∃ out, Swizzle8 (List.range 256) 16 16 = some out ∧
        out[addrSpec 5 3 16]? = some ((List.range 256).getD (3 * 16 + 5) 0)) :=
  ⟨by decide, by decide, swizzle8_pointwise (List.range 256) 16 16 5 3 (by decide) (by decide)⟩

/-- C15. For width and height multiples of 16 the 8bpp address map computed
by `Swizzle8`/`Unswizzle8` is a bijection from the pixels of the image onto
`0 .. width*height - 1`: every address is inside a buffer of `width*height`
bytes, no two pixels share an address, and every address is taken. -/
theorem addr8_bijection (width height : Nat) (hw : 16 ∣ width) (hh : 16 ∣ height) :
    (∀ x y, x < width → y < height → addr8 x y width < width * height) ∧
    (∀ x y x' y', x < width → y < height → x' < width → y' < height →
      addr8 x y width = addr8 x' y' width → x = x' ∧ y = y') ∧
    (∀ p, p < width * height → ∃ x y, x < width ∧ y < height ∧ addr8 x y width = p) :=
  ⟨fun x y hx hy => addr8_lt_of_dvd hw hh hx hy,
    fun x y x' y' hx _ hx' _ he => addr8_inj_of_dvd hw hx hx' he,
    fun p hp => addr8_surj width height hw hh p hp⟩

theorem addr8_bijection_witness :
    16 ∣ 32 ∧ 16 ∣ 16 ∧
    (∀ x y, x < 32 → y < 16 → addr8 x y 32 < 32 * 16) ∧
    (∀ x y x' y', x < 32 → y < 16 → x' < 32 → y' < 16 →
      addr8 x y 32 = addr8 x' y' 32 → x = x' ∧ y = y') ∧
    (∀ p, p < 32 * 16 → ∃ x y, x < 32 ∧ y < 16 ∧ addr8 x y 32 = p) :=
  ⟨by decide, by decide, addr8_bijection 32 16 (by decide) (by decide)⟩

/-- C18. A skipped pixel keeps the zero default: when the linear index of
pixel `(x, y)` is inside the buffer but its swizzled address is not, byte
`y*width + x` of `Unswizzle8(data)` is zero. -/
theorem Unswizzle8_skipped_zero (data : List Nat) (width height x y : Nat)
    (hx : x < width) (hy : y < height) (hlin : y * width + x < data.length)
    (haddr : data.length ≤ addr8 x y width) :
    ∃ out, Unswizzle8 data width height = some out ∧ out[y * width + x]? = some 0 := by
  obtain ⟨out, hout, -, -, hzero⟩ := Unswizzle8_spec data width height
  refine ⟨out, hout, hzero _ hlin ?_⟩
  intro x' y' hx' hy' ha he
  obtain ⟨rfl, rfl⟩ := lin_inj hx' hx he
  omega

/-- C18 on the 3-byte buffer `[1, 2, 3]` as a 2x2 image: pixel `(1, 0)` has
linear index 1 and swizzled address 4. -/
theorem Unswizzle8_skipped_zero_witness :
    1 < 2 ∧ 0 < 2 ∧ 0 * 2 + 1 < [1, 2, 3].length ∧ [1, 2, 3].length ≤ addr8 1 0 2 ∧
    ∃ out, Unswizzle8 [1, 2, 3] 2 2 = some out ∧ out[0 * 2 + 1]? = some 0 :=
  ⟨by decide, by decide, by decide, by decide,
    Unswizzle8_skipped_zero [1, 2, 3] 2 2 1 0 (by decide) (by decide) (by decide) (by decide)⟩

/-- C16. The 4bpp swizzle and unswizzle lookup tables are inverse
permutations half by half: for `h` in `{0, 1}` and `n` in `0..127`, entry
`128*h + n` of either table exists, and the other table at `128*h` plus that
entry holds `n`. -/
theorem lut_inverse_halves (h n : Nat) (hh : h < 2) (hn : n < 128) :
    (∃ s, swizzleLutTable[128 * h + n]? = some s ∧
      unswizzleLutTable[128 * h + s]? = some n) ∧
    (∃ u, unswizzleLutTable[128 * h + n]? = some u ∧
      swizzleLutTable[128 * h + u]? = some n) := by
  have hS := swizzleLutTable_ok
  have hU := unswizzleLutTable_ok
  have h1 := lutInv_swizzle_unswizzle h hh n hn
  have h2 := lutInv_unswizzle_swizzle h hh n hn
  have hi : 128 * h + n < 256 := by omega
  have sS := hS.2 _ hi
  have sU := hU.2 _ hi
  rw [Nat.mul_comm h 128] at h1 h2
  refine ⟨⟨swizzleLutTable.getD (128 * h + n) 0,
      getElem?_eq_some_getD _ _ (by rw [hS.1]; exact hi), ?_⟩,
    ⟨unswizzleLutTable.getD (128 * h + n) 0,
      getElem?_eq_some_getD _ _ (by rw [hU.1]; exact hi), ?_⟩⟩
  · rw [getElem?_eq_some_getD _ _ (by rw [hU.1]; omega), h1]
  · rw [getElem?_eq_some_getD _ _ (by rw [hS.1]; omega), h2]

/-- C16 at `h = 1`, `n = 5`: `swizzleLutTable[133] = 84` and
`unswizzleLutTable[128 + 84] = 5`. -/
theorem lut_inverse_halves_witness :
    1 < 2 ∧ 5 < 128 ∧
    (∃ s, swizzleLutTable[128 * 1 + 5]? = some s ∧
      unswizzleLutTable[128 * 1 + s]? = some 5) ∧
    (∃ u, unswizzleLutTable[128 * 1 + 5]? = some u ∧
      swizzleLutTable[128 * 1 + u]? = some 5) :=
  ⟨by decide, by decide, lut_inverse_halves 1 5 (by decide) (by decide)⟩

/-- C17. The 4bpp block converters are mutually inverse: for every block `b`
of exactly 256 bytes, `unswizzle4ConvertBlock(swizzle4ConvertBlock(b)) = b`
and `swizzle4ConvertBlock(unswizzle4ConvertBlock(b)) = b`, neither converter
failing on the way. -/
theorem block_converters_inverse (b : List Nat) (hlen : b.length = 256) (hbyte : Bytes b) :
    (swizzle4ConvertBlock b).bind unswizzle4ConvertBlock = some b ∧
    (unswizzle4ConvertBlock b).bind swizzle4ConvertBlock = some b := by
  have hb : ∀ n, n < 256 → b.getD n 0 < 256 := fun n hn => hbyte n (by omega)
  have e1 : unswizzle4ConvertBlock = convertBlockWith unswizzleLutTable :=
    funext unswizzle4ConvertBlock_eq
  have e2 : swizzle4ConvertBlock = convertBlockWith swizzleLutTable :=
    funext swizzle4ConvertBlock_eq
  rw [e1, e2]
  exact ⟨convertBlockWith_roundtrip _ _ unswizzleLutTable_ok swizzleLutTable_ok
      lutInv_unswizzle_swizzle b hlen hb,
    convertBlockWith_roundtrip _ _ swizzleLutTable_ok unswizzleLutTable_ok
      lutInv_swizzle_unswizzle b hlen hb⟩

/-- C17 on the block of 256 bytes `0xA5`. -/
theorem block_converters_inverse_witness :
    (List.replicate 256 165).length = 256 ∧ Bytes (List.replicate 256 165) ∧
    (swizzle4ConvertBlock (List.replicate 256 165)).bind unswizzle4ConvertBlock
      = some (List.replicate 256 165) ∧
    (unswizzle4ConvertBlock (List.replicate 256 165)).bind swizzle4ConvertBlock
      = some (List.replicate 256 165) :=
  ⟨List.length_replicate _ _, bytes_replicate 256 165 (by decide),
    block_converters_inverse (List.replicate 256 165) (List.length_replicate _ _)
      (bytes_replicate 256 165 (by decide))⟩

theorem pixel16Offset_eq_spec (x y w : Nat) (hw : 16 ≤ w) :
    pixel16Offset x y w = pixel16OffsetSpec x y w := by
  unfold pixel16Offset pixel16OffsetSpec
  rw [if_pos hw]
  simp only [Nat.add_assoc]

/-- The last pixel (in loop order) that fits and writes a destination element
determines that element of the result. -/
theorem moveLoop_last (b : Nat) (data : List Nat) (d s : Nat → Nat → Nat)
    (f : List Nat → Nat → Nat → Option (List Nat)) (hf : StepSpec b data d s f) (w h : Nat)
    (x1 y1 : Nat) (hx1 : x1 < w) (hy1 : y1 < h)
    (hfit1 : Fits b data.length (d x1 y1) (s x1 y1))
    (hlast : ∀ x y, x < w → y < h → Fits b data.length (d x y) (s x y) →
      y1 * w + x1 < y * w + x → d x y ≠ d x1 y1) :
    ∃ out, (List.range h).foldlM (fun o y => (List.range w).foldlM (fun o x => f o y x) o)
        (make data.length) = some out
      ∧ ∀ c, c < b → out[b * d x1 y1 + c]? = data[b * s x1 y1 + c]? := by
  have key := foldlM_range2_inv f (fun m out =>
      out.length = data.length
      ∧ (y1 * w + x1 < m → ∀ c, c < b → out[b * d x1 y1 + c]? = data[b * s x1 y1 + c]?))
    h w (make data.length) ⟨make_length _, fun hm => by omega⟩
    (by
      intro y0 x0 hy0 hx0 out ⟨hlen, hval⟩
      obtain ⟨hfit, hnofit⟩ := hf out y0 x0 hlen
      by_cases hg : Fits b data.length (d x0 y0) (s x0 y0)
      · obtain ⟨out', hout', hl', hget⟩ := hfit hg
        refine ⟨out', hout', hl'.trans hlen, ?_⟩
        intro hm c hc
        rcases (lin_lt_succ hx1 hx0).1 hm with hlt | ⟨rfl, rfl⟩
        · have hne : d x0 y0 ≠ d x1 y1 := hlast x0 y0 hx0 hy0 hg hlt
          have hdis : ¬ (b * d x0 y0 ≤ b * d x1 y1 + c ∧ b * d x1 y1 + c < b * d x0 y0 + b) := by
            rcases Nat.lt_or_gt_of_ne hne with h1 | h1
            · have := Nat.mul_le_mul_left b (Nat.succ_le_of_lt h1)
              rw [Nat.mul_succ] at this; omega
            · have := Nat.mul_le_mul_left b (Nat.succ_le_of_lt h1)
              rw [Nat.mul_succ] at this; omega
          rw [hget _, if_neg hdis]
          exact hval hlt c hc
        · rw [hget _, if_pos ⟨by omega, by omega⟩]
          congr 1; omega
      · refine ⟨out, hnofit hg, hlen, ?_⟩
        intro hm c hc
        rcases (lin_lt_succ hx1 hx0).1 hm with hlt | ⟨rfl, rfl⟩
        · exact hval hlt c hc
        · exact absurd hfit1 hg)
  obtain ⟨out, hout, -, hval⟩ := key
  exact ⟨out, hout, hval ((lin_lt_rows hx1).2 hy1)⟩

theorem and_56 (n : Nat) : n &&& 0x38 = 8 * (n / 8 % 8) := by
  have h : ∀ m, m < 64 → m &&& 0x38 = 8 * (m / 8 % 8) := by decide
  have e : n &&& 0x38 = (n % 64) &&& 0x38 := by
    have c : (2 ^ 6 - 1 &&& 0x38 : Nat) = 0x38 := by decide
    rw [← Nat.and_pow_two_sub_one_eq_mod n 6, Nat.and_assoc, c]
  rw [e, h _ (Nat.mod_lt _ (by decide))]
  omega

theorem and_48 (n : Nat) : n &&& 0x30 = 16 * (n / 16 % 4) := by
  have h : ∀ m, m < 64 → m &&& 0x30 = 16 * (m / 16 % 4) := by decide
  have e : n &&& 0x30 = (n % 64) &&& 0x30 := by
    have c : (2 ^ 6 - 1 &&& 0x30 : Nat) = 0x30 := by decide
    rw [← Nat.and_pow_two_sub_one_eq_mod n 6, Nat.and_assoc, c]
  rw [e, h _ (Nat.mod_lt _ (by decide))]
  omega

theorem and_8 (n : Nat) : n &&& 0x08 = 8 * (n / 8 % 2) := by
  have h : ∀ m, m < 16 → m &&& 0x08 = 8 * (m / 8 % 2) := by decide
  have e : n &&& 0x08 = (n % 16) &&& 0x08 := by
    have c : (2 ^ 4 - 1 &&& 0x08 : Nat) = 0x08 := by decide
    rw [← Nat.and_pow_two_sub_one_eq_mod n 4, Nat.and_assoc, c]
  rw [e, h _ (Nat.mod_lt _ (by decide))]
  omega

theorem pixel16Offset_eq (x y w : Nat) (hw : 16 ≤ w) :
    pixel16Offset x y w
      = 32 * ((32 * (y / 64) + 8 * (x / 16 % 4) + y % 8) * w
          + (64 * (x / 64) + 8 * (y / 8 % 8) + x % 8)) + 16 * (x / 8 % 2) := by
  unfold pixel16Offset
  rw [if_pos hw]
  simp only [and_56, and_48, and_8, and_seven, Nat.shiftRight_eq_div_pow, Nat.shiftLeft_eq]
  have e1 : 16 * (x / 16 % 4) / 2 ^ 1 = 8 * (x / 16 % 4) := by omega
  rw [e1]
  ring

/-- For a width that is a multiple of 64 no two pixels of a row range share a
16bpp offset. -/
theorem pixel16Offset_inj {W x y x' y' : Nat} (hx : x < 64 * W) (hx' : x' < 64 * W)
    (h : pixel16Offset x y (64 * W) = pixel16Offset x' y' (64 * W)) : x = x' ∧ y = y' := by
  have hW : 16 ≤ 64 * W := by omega
  rw [pixel16Offset_eq _ _ _ hW, pixel16Offset_eq _ _ _ hW] at h
  have hX : 64 * (x / 64) + 8 * (y / 8 % 8) + x % 8 < 64 * W := by omega
  have hX' : 64 * (x' / 64) + 8 * (y' / 8 % 8) + x' % 8 < 64 * W := by omega
  generalize hA : (32 * (y / 64) + 8 * (x / 16 % 4) + y % 8) * (64 * W)
    + (64 * (x / 64) + 8 * (y / 8 % 8) + x % 8) = A at h
  generalize hB : (32 * (y' / 64) + 8 * (x' / 16 % 4) + y' % 8) * (64 * W)
    + (64 * (x' / 64) + 8 * (y' / 8 % 8) + x' % 8) = B at h
  have hAB : A = B := by omega
  have hbit : x / 8 % 2 = x' / 8 % 2 := by omega
  subst hA hB
  obtain ⟨eX, eY⟩ := lin_inj hX hX' hAB
  clear h hAB hX hX'
  constructor <;> omega

theorem collide16_length : collide16.length = 1056 := by
  rw [collide16, List.length_set, List.length_replicate]

theorem collide16_32 : collide16[32]? = some 1 := by
  rw [collide16, List.getElem?_set_self (by rw [List.length_replicate]; decide)]

theorem collide16_512 : collide16[512]? = some 0 := by
  rw [collide16, List.getElem?_set_ne (by decide), List.getElem?_replicate, if_pos (by decide)]

theorem pixel16Offset_512_last :
    ∀ x, x < 16 → ∀ y, y < 33 → 16 * 16 + 0 < y * 16 + x →
      pixel16Offset x y 16 ≠ pixel16Offset 0 16 16 := by
  decide

theorem unpack_length (x : List Nat) : (unpack x).length = 2 * x.length := by
  simp [unpack]

theorem repack_length (p : List Nat) : (repack p).length = p.length / 2 := by
  simp [repack]

set_option maxRecDepth 100000 in
theorem shift4_and15 : ∀ b, b < 256 → (b >>> 4) &&& 0x0F = b >>> 4 := by decide

set_option maxRecDepth 100000 in
theorem nib_join : ∀ b, b < 256 → (b &&& 0x0F) ||| (((b >>> 4) &&& 0x0F) <<< 4) = b := by
  decide

theorem and15_shift4_mod (v : Nat) : ((v &&& 0x0F) <<< 4) % 256 = (v &&& 0x0F) <<< 4 := by
  rw [and_fifteen, Nat.shiftLeft_eq]
  omega

theorem and15_lt (v : Nat) : v &&& 0x0F < 16 := by
  rw [and_fifteen]; omega

theorem unpack_getElem? (x : List Nat) (hb : Bytes x) (p : Nat) (hp : p < 2 * x.length) :
    (unpack x)[p]? = some (unpackNib x p) := by
  unfold unpack unpackNib
  have hlt : p / 2 < x.length := by omega
  rw [List.getElem?_map, List.getElem?_range hp, Option.map_some']
  by_cases h0 : p % 2 = 0
  · simp only [if_pos h0, if_pos hlt]
  · simp only [if_neg h0, if_pos hlt, shift4_and15 _ (hb _ hlt)]

theorem unpack_loop_eq (data : List Nat) (hb : Bytes data) :
    (List.range data.length).foldlM (unpackStep data) (make (2 * data.length))
      = some (unpack data) := by
  obtain ⟨t, ht, tl, tget⟩ := unpack_loop_spec data (2 * data.length)
  rw [ht]
  refine congrArg some (List.ext_getElem? fun p => ?_)
  by_cases hp : p < 2 * data.length
  · rw [tget p hp, unpack_getElem? data hb p hp]
  · rw [List.getElem?_eq_none (by omega), List.getElem?_eq_none (by rw [unpack_length]; omega)]

theorem unpackS_loop_eq (data : List Nat) (hb : Bytes data) :
    (List.range data.length).foldlM (unpackStepS data) (make (2 * data.length))
      = some (unpack data) := by
  obtain ⟨t, ht, tl, tget⟩ := unpackS_loop_spec data (2 * data.length) (fun i hi => by omega)
  rw [ht]
  refine congrArg some (List.ext_getElem? fun p => ?_)
  by_cases hp : p < 2 * data.length
  · rw [tget p hp, unpack_getElem? data hb p hp]
  · rw [List.getElem?_eq_none (by omega), List.getElem?_eq_none (by rw [unpack_length]; omega)]

theorem repack_loop_eq (u : List Nat) (n : Nat) (hn : u.length = 2 * n) :
    (List.range n).foldlM (repackStep u) (make n) = some (repack u) := by
  obtain ⟨out, hout, ol, oget⟩ := repack_loop_spec u n
  rw [hout]
  refine congrArg some (List.ext_getElem? fun i => ?_)
  by_cases hi : i < n
  · rw [oget i hi]
    unfold repack repackByte
    rw [List.getElem?_map, List.getElem?_range (by omega), Option.map_some',
      if_pos (by omega), if_pos (by omega), Nat.mul_comm i 2, and15_shift4_mod]
  · rw [List.getElem?_eq_none (by omega),
      List.getElem?_eq_none (by rw [repack_length]; omega)]

/-- `Unswizzle4By8` on a buffer of `n` bytes treated as `2n` pixels is
unpack, `Unswizzle8`, repack. -/
theorem Unswizzle4By8_factor (x : List Nat) (w h : Nat) (hlen : w * h = 2 * x.length)
    (hb : Bytes x) : Unswizzle4By8 x w h = (Unswizzle8 (unpack x) w h).map repack := by
  obtain ⟨u, hu, ul, -⟩ := Unswizzle8_total (unpack x) w h
  rw [Unswizzle4By8_eq, hlen, unpack_loop_eq x hb, Option.some_bind, hu, Option.some_bind,
    Option.map_some', repack_loop_eq u x.length (by rw [ul, unpack_length])]

/-- `Swizzle4By8` on a buffer of `n` bytes treated as `2n` pixels is
unpack, `Swizzle8`, repack. -/
theorem Swizzle4By8_factor (x : List Nat) (w h : Nat) (hlen : w * h = 2 * x.length)
    (hb : Bytes x) : Swizzle4By8 x w h = (Swizzle8 (unpack x) w h).map repack := by
  obtain ⟨u, hu, ul, -⟩ := Swizzle8_total (unpack x) w h
  rw [Swizzle4By8_eq, hlen, unpackS_loop_eq x hb, Option.some_bind, hu, Option.some_bind,
    Option.map_some', repack_loop_eq u x.length (by rw [ul, unpack_length])]

set_option maxRecDepth 100000 in
theorem nib_split : ∀ a, a < 16 → ∀ b, b < 16 →
    ((a &&& 0x0F) ||| ((b &&& 0x0F) <<< 4)) &&& 0x0F = a ∧
    ((a &&& 0x0F) ||| ((b &&& 0x0F) <<< 4)) >>> 4 = b := by
  decide

theorem repack_getD_lt (s : List Nat) (i : Nat) : (repack s).getD i 0 < 256 := by
  rw [List.getD_eq_getElem?_getD]
  by_cases hi : i < s.length / 2
  · unfold repack
    rw [List.getElem?_map, List.getElem?_range hi, Option.map_some', Option.getD_some]
    have h1 : s.getD (2 * i) 0 &&& 0x0F < 2 ^ 8 := Nat.lt_of_lt_of_le (and15_lt _) (by decide)
    have h2 : (s.getD (2 * i + 1) 0 &&& 0x0F) <<< 4 < 2 ^ 8 := by
      rw [and_fifteen, Nat.shiftLeft_eq]; omega
    exact Nat.or_lt_two_pow h1 h2
  · rw [List.getElem?_eq_none (by rw [repack_length]; omega)]
    decide

theorem bytes_repack (s : List Nat) : Bytes (repack s) := fun n _ => repack_getD_lt s n

theorem repack_getD (s : List Nat) (i : Nat) (hi : i < s.length / 2) :
    (repack s).getD i 0
      = (s.getD (2 * i) 0 &&& 0x0F) ||| ((s.getD (2 * i + 1) 0 &&& 0x0F) <<< 4) := by
  unfold repack
  rw [List.getD_eq_getElem?_getD, List.getElem?_map, List.getElem?_range hi, Option.map_some',
    Option.getD_some]

theorem unpack_repack (s : List Nat) (hs : ∀ p, p < s.length → s.getD p 0 < 16)
    (heven : s.length % 2 = 0) : unpack (repack s) = s := by
  apply List.ext_getElem?
  intro p
  by_cases hp : p < s.length
  · have hl : 2 * (repack s).length = s.length := by rw [repack_length]; omega
    have hp2 : p / 2 < s.length / 2 := by omega
    unfold unpack
    rw [List.getElem?_map, List.getElem?_range (by omega), Option.map_some',
      repack_getD s _ hp2, getElem?_eq_some_getD _ _ hp]
    have hn := nib_split _ (hs (2 * (p / 2)) (by omega)) _ (hs (2 * (p / 2) + 1) (by omega))
    by_cases h0 : p % 2 = 0
    · rw [if_pos h0, hn.1]
      have e : 2 * (p / 2) = p := by omega
      rw [e]
    · rw [if_neg h0, hn.2]
      have e : 2 * (p / 2) + 1 = p := by omega
      rw [e]
  · rw [List.getElem?_eq_none (by rw [unpack_length, repack_length]; omega),
      List.getElem?_eq_none (by omega)]

theorem unpack_getD (x : List Nat) (p : Nat) (hp : p < 2 * x.length) :
    (unpack x).getD p 0
      = if p % 2 = 0 then x.getD (p / 2) 0 &&& 0x0F else x.getD (p / 2) 0 >>> 4 := by
  unfold unpack
  rw [List.getD_eq_getElem?_getD, List.getElem?_map, List.getElem?_range hp, Option.map_some',
    Option.getD_some]

theorem unpack_lt (x : List Nat) (hb : Bytes x) (p : Nat) (hp : p < (unpack x).length) :
    (unpack x).getD p 0 < 16 := by
  rw [unpack_length] at hp
  rw [unpack_getD x p hp]
  by_cases h0 : p % 2 = 0
  · rw [if_pos h0]; exact and15_lt _
  · rw [if_neg h0, ← shift4_and15 _ (hb _ (by omega))]; exact and15_lt _

theorem repack_unpack (x : List Nat) (hb : Bytes x) : repack (unpack x) = x := by
  apply List.ext_getElem?
  intro i
  by_cases hi : i < x.length
  · have hi2 : i < (unpack x).length / 2 := by rw [unpack_length]; omega
    rw [getElem?_eq_some_getD _ _ (by rw [repack_length]; exact hi2), repack_getD _ _ hi2,
      unpack_getD x _ (by omega), unpack_getD x _ (by omega), if_pos (by omega),
      if_neg (by omega), getElem?_eq_some_getD _ _ hi]
    have e1 : 2 * i / 2 = i := by omega
    have e2 : (2 * i + 1) / 2 = i := by omega
    rw [e1, e2, Nat.and_assoc, Nat.and_self, ← shift4_and15 _ (hb _ hi), Nat.and_assoc,
      Nat.and_self, nib_join _ (hb _ hi)]
  · rw [List.getElem?_eq_none (by rw [repack_length, unpack_length]; omega),
      List.getElem?_eq_none (by omega)]

/-- On dimensions that are multiples of 16, `Swizzle8` only moves the bytes
of a full buffer around: every output byte is an input byte. -/
theorem Swizzle8_bound (t : List Nat) (w h B : Nat) (hw : 16 ∣ w) (hh : 16 ∣ h)
    (hlen : t.length = w * h) (ht : ∀ p, p < t.length → t.getD p 0 < B) :
    ∃ s, Swizzle8 t w h = some s ∧ s.length = t.length ∧ ∀ p, p < s.length → s.getD p 0 < B := by
  obtain ⟨s, hs, sl, sget⟩ := Swizzle8_spec t w h hw hh hlen
  refine ⟨s, hs, sl, ?_⟩
  intro p hp
  obtain ⟨a, b, ha, hb, rfl⟩ := addr8_surj w h hw hh p (by omega)
  have hlin : b * w + a < h * w := (lin_lt_rows ha).2 hb
  rw [Nat.mul_comm h w] at hlin
  have := sget a b ha hb
  rw [getElem?_eq_some_getD _ _ hp, getElem?_eq_some_getD _ _ (by omega)] at this
  rw [Option.some.inj this]
  exact ht _ (by omega)

/-- C21. For width and height with `width*height` even and a buffer `x` of
`width*height/2` bytes, `Unswizzle8` returns a buffer `u` on `unpack(x)` and
`Unswizzle4By8(x, width, height)` returns `repack(u)`:
`Unswizzle4By8(x) = repack(Unswizzle8(unpack(x)))`. -/
theorem Unswizzle4By8_refines (x : List Nat) (width height : Nat)
    (heven : width * height % 2 = 0) (hlen : x.length = width * height / 2) (hb : Bytes x) :
    ∃ u, Unswizzle8 (unpack x) width height = some u ∧
      Unswizzle4By8 x width height = some (repack u) := by
  obtain ⟨u, hu, -⟩ := Unswizzle8_total (unpack x) width height
  refine ⟨u, hu, ?_⟩
  rw [Unswizzle4By8_factor x width height (by omega) hb, hu, Option.map_some']

/-- C21 on the 2x2 image packed as the bytes `0x21, 0x43`. -/
theorem Unswizzle4By8_refines_witness :
    2 * 2 % 2 = 0 ∧ [0x21, 0x43].length = 2 * 2 / 2 ∧ Bytes [0x21, 0x43] ∧
    ∃ u, Unswizzle8 (unpack [0x21, 0x43]) 2 2 = some u ∧
      Unswizzle4By8 [0x21, 0x43] 2 2 = some (repack u) :=
  ⟨by decide, by decide, by unfold Bytes; decide,
    Unswizzle4By8_refines [0x21, 0x43] 2 2 (by decide) (by decide) (by unfold Bytes; decide)⟩

/-- C22. The 4bpp shortcut strategy round-trips: for width and height
multiples of 16 and a byte buffer of `width*height/2` bytes,
`Unswizzle4By8(Swizzle4By8(buf, w, h), w, h) = buf`. -/
theorem Unswizzle4By8_Swizzle4By8 (buf : List Nat) (width height : Nat)
    (hw : 16 ∣ width) (hh : 16 ∣ height) (hlen : buf.length = width * height / 2)
    (hb : Bytes buf) :
    (Swizzle4By8 buf width height).bind (fun s => Unswizzle4By8 s width height) = some buf := by
  have hwh : width * height = 2 * buf.length := by
    obtain ⟨W, rfl⟩ := hw
    rw [Nat.mul_assoc] at hlen ⊢
    omega
  have hul : (unpack buf).length = width * height := by rw [unpack_length, hwh]
  obtain ⟨s, hs, sl, slt⟩ := Swizzle8_bound (unpack buf) width height 16 hw hh hul
    (unpack_lt buf hb)
  have hrt : (Swizzle8 (unpack buf) width height).bind (fun s => Unswizzle8 s width height)
      = some (unpack buf) := by
    simp only [Swizzle8_eq, Unswizzle8_eq]
    exact roundtrip_generic 1 Nat.one_pos (unpack buf) width height (by omega)
      (fun x y => addr8 x y width)
      (fun x y hx hy => addr8_lt_of_dvd hw hh hx hy)
      (fun x y x' y' hx _ hx' _ he => addr8_inj_of_dvd hw hx hx' he)
      (fun data o y x => move1 data o (addr8 x y width) (y * width + x))
      (fun data o y x => move1 data o (y * width + x) (addr8 x y width))
      (fun data => move1_spec data _ _) (fun data => move1_spec data _ _)
  rw [hs, Option.some_bind] at hrt
  have hsl : s.length = 2 * buf.length := by rw [sl, unpack_length]
  rw [Swizzle4By8_factor buf width height hwh hb, hs, Option.map_some', Option.some_bind,
    Unswizzle4By8_factor (repack s) width height (by rw [repack_length]; omega)
      (bytes_repack s),
    unpack_repack s slt (by omega), hrt, Option.map_some', repack_unpack buf hb]

/-- C22 on the 16x16 image of 128 bytes `0xA5`. -/
theorem Unswizzle4By8_Swizzle4By8_witness :
    16 ∣ 16 ∧ (List.replicate 128 165).length = 16 * 16 / 2 ∧ Bytes (List.replicate 128 165) ∧
    (Swizzle4By8 (List.replicate 128 165) 16 16).bind (fun s => Unswizzle4By8 s 16 16)
      = some (List.replicate 128 165) :=
  ⟨by decide, List.length_replicate _ _, bytes_replicate 128 165 (by decide),
    Unswizzle4By8_Swizzle4By8 (List.replicate 128 165) 16 16 (by decide) (by decide)
      (List.length_replicate _ _) (bytes_replicate 128 165 (by decide))⟩

theorem plane_length (buf : List Nat) (c : Nat) : (plane buf c).length = buf.length / 4 := by
  simp [plane]

theorem plane_getElem? (buf : List Nat) (c i : Nat) (hi : i < buf.length / 4) :
    (plane buf c)[i]? = some (buf.getD (4 * i + c) 0) := by
  unfold plane
  rw [List.getElem?_map, List.getElem?_range hi, Option.map_some']

theorem foldlM_range_rel {σ τ : Type} (f : σ → Nat → Option σ) (g : τ → Nat → Option τ)
    (R : σ → τ → Prop) (n : Nat) (s : σ) (t : τ) (h0 : R s t)
    (hstep : ∀ k, k < n → ∀ s t, R s t → ∃ s' t', f s k = some s' ∧ g t k = some t' ∧ R s' t') :
    ∃ s' t', (List.range n).foldlM f s = some s' ∧ (List.range n).foldlM g t = some t'
      ∧ R s' t' := by
  induction n with
  | zero => exact ⟨s, t, by simp, by simp, h0⟩
  | succ n ih =>
    obtain ⟨s1, t1, hs1, ht1, hR⟩ := ih (fun k hk => hstep k (by omega))
    obtain ⟨s2, t2, hs2, ht2, hR2⟩ := hstep n (by omega) s1 t1 hR
    refine ⟨s2, t2, ?_, ?_, hR2⟩
    · rw [List.range_succ, List.foldlM_append, hs1]; simp [hs2]
    · rw [List.range_succ, List.foldlM_append, ht1]; simp [ht2]

theorem foldlM_range2_rel {σ τ : Type} (f : σ → Nat → Nat → Option σ)
    (g : τ → Nat → Nat → Option τ) (R : σ → τ → Prop) (h w : Nat) (s : σ) (t : τ) (h0 : R s t)
    (hstep : ∀ y x, y < h → x < w → ∀ s t, R s t →
      ∃ s' t', f s y x = some s' ∧ g t y x = some t' ∧ R s' t') :
    ∃ s' t',
      (List.range h).foldlM (fun s y => (List.range w).foldlM (fun s x => f s y x) s) s = some s'
      ∧ (List.range h).foldlM (fun t y => (List.range w).foldlM (fun t x => g t y x) t) t
        = some t'
      ∧ R s' t' :=
  foldlM_range_rel _ _ R h s t h0 (fun y hy s t hR =>
    foldlM_range_rel (fun s x => f s y x) (fun t x => g t y x) R w s t hR
      (fun x hx s t hR => hstep y x hy hx s t hR))

/-- A loop of guarded 4-byte element moves agrees, channel by channel, with the
loop of guarded 1-byte moves on the channel plane. -/
theorem planeLoop (data : List Nat) (n c : Nat) (hlen : data.length = 4 * n) (hc : c < 4)
    (d s : Nat → Nat → Nat) (f g : List Nat → Nat → Nat → Option (List Nat))
    (hf : StepSpec 4 data d s f) (hg : StepSpec 1 (plane data c) d s g) (w h : Nat) :
    ∃ o4 o1,
      (List.range h).foldlM (fun o y => (List.range w).foldlM (fun o x => f o y x) o)
        (make data.length) = some o4
      ∧ (List.range h).foldlM (fun o y => (List.range w).foldlM (fun o x => g o y x) o)
        (make (plane data c).length) = some o1
      ∧ o1.length = n ∧ ∀ k, k < n → o4[4 * k + c]? = o1[k]? := by
  have hpl : (plane data c).length = n := by rw [plane_length]; omega
  obtain ⟨o4, o1, h4, h1, -, hl1, hR⟩ := foldlM_range2_rel f g
    (fun o4 o1 => o4.length = data.length ∧ o1.length = n ∧ ∀ k, k < n → o4[4 * k + c]? = o1[k]?)
    h w (make data.length) (make (plane data c).length)
    ⟨make_length _, by rw [make_length, hpl], fun k hk => by
      rw [make_getElem? _ _ (by omega), hpl, make_getElem? _ _ hk]⟩
    (by
      intro y x _ _ o4 o1 ⟨hl4, hl1, hR⟩
      obtain ⟨hf1, hf2⟩ := hf o4 y x hl4
      obtain ⟨hg1, hg2⟩ := hg o1 y x (by rw [hl1, hpl])
      by_cases hfit : Fits 4 data.length (d x y) (s x y)
      · have hfit1 : Fits 1 (plane data c).length (d x y) (s x y) := by
          unfold Fits at hfit ⊢; rw [hpl]; omega
        obtain ⟨o4', e4, l4, m4⟩ := hf1 hfit
        obtain ⟨o1', e1, l1, m1⟩ := hg1 hfit1
        refine ⟨o4', o1', e4, e1, l4.trans hl4, l1.trans hl1, ?_⟩
        intro k hk
        rw [m4, m1]
        unfold Fits at hfit
        by_cases hkd : k = d x y
        · subst hkd
          rw [if_pos ⟨by omega, by omega⟩, if_pos ⟨by omega, by omega⟩]
          have e : 1 * s x y + (d x y - 1 * d x y) = s x y := by omega
          have e' : 4 * s x y + (4 * d x y + c - 4 * d x y) = 4 * s x y + c := by omega
          rw [e, e', plane_getElem? data c _ (by omega), getElem?_eq_some_getD _ _ (by omega)]
        · rw [if_neg (by omega), if_neg (by omega)]
          exact hR k hk
      · have hfit1 : ¬ Fits 1 (plane data c).length (d x y) (s x y) := by
          unfold Fits at hfit ⊢; rw [hpl]; omega
        exact ⟨o4, o1, hf2 hfit, hg2 hfit1, hl4, hl1, hR⟩)
  exact ⟨o4, o1, h4, h1, hl1, hR⟩

/-- C24. `Swizzle32` is `Swizzle8` applied to 4-byte elements: for all widths
and heights, a buffer of `4*width*height` bytes, a channel `c < 4` and
`k < width*height`, both functions return a buffer and byte `4k + c` of
`Swizzle32(buf)` is byte `k` of `Swizzle8(plane_c)`, where
`plane_c[i] = buf[4i + c]`; likewise for `Unswizzle32` and `Unswizzle8`. -/
theorem Swizzle32_planes (buf : List Nat) (width height c k : Nat)
    (hlen : buf.length = 4 * width * height) (hc : c < 4) (hk : k < width * height) :
    (∃ o32 o8 v, Swizzle32 buf width height = some o32 ∧
      Swizzle8 (plane buf c) width height = some o8 ∧
      o32[4 * k + c]? = some v ∧ o8[k]? = some v) ∧
    (∃ o32 o8 v, Unswizzle32 buf width height = some o32 ∧
      Unswizzle8 (plane buf c) width height = some o8 ∧
      o32[4 * k + c]? = some v ∧ o8[k]? = some v) := by
  have hl : buf.length = 4 * (width * height) := by rw [hlen, Nat.mul_assoc]
  constructor
  · obtain ⟨o4, o1, h4, h1, l1, hR⟩ := planeLoop buf (width * height) c hl hc
      (fun x y => addr8 x y width) (fun x y => y * width + x) _ _
      (move4_spec buf _ _) (move1_spec (plane buf c) _ _) width height
    refine ⟨o4, o1, o1.getD k 0, by rw [Swizzle32_eq]; exact h4, by rw [Swizzle8_eq]; exact h1,
      ?_, getElem?_eq_some_getD _ _ (by omega)⟩
    rw [hR k hk, getElem?_eq_some_getD _ _ (by omega)]
  · obtain ⟨o4, o1, h4, h1, l1, hR⟩ := planeLoop buf (width * height) c hl hc
      (fun x y => y * width + x) (fun x y => addr8 x y width) _ _
      (move4_spec buf _ _) (move1_spec (plane buf c) _ _) width height
    refine ⟨o4, o1, o1.getD k 0, by rw [Unswizzle32_eq]; exact h4,
      by rw [Unswizzle8_eq]; exact h1, ?_, getElem?_eq_some_getD _ _ (by omega)⟩
    rw [hR k hk, getElem?_eq_some_getD _ _ (by omega)]

/-- C24 on the 2x2 image with bytes `0..15`, channel 1, element 3. -/
theorem Swizzle32_planes_witness :
    (List.range 16).length = 4 * 2 * 2 ∧ 1 < 4 ∧ 3 < 2 * 2 ∧
    (∃ o32 o8 v, Swizzle32 (List.range 16) 2 2 = some o32 ∧
      Swizzle8 (plane (List.range 16) 1) 2 2 = some o8 ∧
      o32[4 * 3 + 1]? = some v ∧ o8[3]? = some v) ∧
    (∃ o32 o8 v, Unswizzle32 (List.range 16) 2 2 = some o32 ∧
      Unswizzle8 (plane (List.range 16) 1) 2 2 = some o8 ∧
      o32[4 * 3 + 1]? = some v ∧ o8[3]? = some v) :=
  ⟨by decide, by decide, by decide,
    Swizzle32_planes (List.range 16) 2 2 1 3 (by decide) (by decide) (by decide)⟩

theorem ps2Swizzle_eq (data : List Nat) (w h : Nat) (sw : Bool) :
    ps2Swizzle data w h sw = (List.range h).foldlM (fun o y => (List.range w).foldlM
      (fun o x => ps2Step data w sw o y x) o) (make (w * h)) := rfl

theorem foldlM_range2_same (f g : List Nat → Nat → Nat → Option (List Nat)) (n h w : Nat)
    (init : List Nat) (h0 : init.length = n)
    (hstep : ∀ y x, y < h → x < w → ∀ o, o.length = n →
      f o y x = g o y x ∧ ∀ o', g o y x = some o' → o'.length = n)
    (hg : ∀ y x, y < h → x < w → ∀ o, o.length = n → ∃ o', g o y x = some o') :
    (List.range h).foldlM (fun o y => (List.range w).foldlM (fun o x => f o y x) o) init
      = (List.range h).foldlM (fun o y => (List.range w).foldlM (fun o x => g o y x) o) init := by
  obtain ⟨s, t, hs, ht, rfl, -⟩ := foldlM_range2_rel f g (fun o o' => o = o' ∧ o.length = n)
    h w init init ⟨rfl, h0⟩
    (by
      rintro y x hy hx o _ ⟨rfl, hl⟩
      obtain ⟨o', ho'⟩ := hg y x hy hx o hl
      obtain ⟨e, hl'⟩ := hstep y x hy hx o hl
      exact ⟨o', o', by rw [e, ho'], ho', rfl, hl' o' ho'⟩)
  rw [hs, ht]

theorem move1_total (data o : List Nat) (d s : Nat) :
    ∃ o', move1 data o d s = some o' ∧ o'.length = o.length := by
  unfold move1
  by_cases hg : d < o.length ∧ s < data.length
  · rw [if_pos hg, readAt_of_lt _ _ hg.2]
    simp only [Option.bind_eq_bind, Option.some_bind, writeAt_of_lt _ _ _ hg.1]
    exact ⟨_, rfl, by simp⟩
  · rw [if_neg hg]
    exact ⟨o, rfl, rfl⟩

theorem ps2Swizzle_false (data : List Nat) (w h : Nat) (hlen : data.length = w * h) :
    ps2Swizzle data w h false = Unswizzle8 data w h := by
  rw [ps2Swizzle_eq, Unswizzle8_eq, hlen]
  apply foldlM_range2_same _ _ (w * h) h w _ (make_length _)
  · intro y x hy hx o ho
    have hlin : y * w + x < h * w := (lin_lt_rows hx).2 hy
    rw [Nat.mul_comm h w] at hlin
    refine ⟨?_, fun o' ho' => ?_⟩
    · unfold ps2Step move1
      by_cases ha : addr8 x y w < data.length
      · rw [if_neg (by decide), if_pos ha, if_pos ⟨by omega, ha⟩]
      · rw [if_neg (by decide), if_neg ha, if_neg (fun hc => ha hc.2)]
    · obtain ⟨o2, e, l⟩ := move1_total data o (y * w + x) (addr8 x y w)
      rw [e] at ho'
      cases ho'
      rw [l, ho]
  · intro y x _ _ o _
    obtain ⟨o2, e, -⟩ := move1_total data o (y * w + x) (addr8 x y w)
    exact ⟨o2, e⟩

theorem ps2Swizzle_true (data : List Nat) (w h : Nat) (hw : 16 ∣ w) (hh : 16 ∣ h)
    (hlen : data.length = w * h) : ps2Swizzle data w h true = Swizzle8 data w h := by
  rw [ps2Swizzle_eq, Swizzle8_eq, hlen]
  apply foldlM_range2_same _ _ (w * h) h w _ (make_length _)
  · intro y x hy hx o ho
    have hlin : y * w + x < h * w := (lin_lt_rows hx).2 hy
    rw [Nat.mul_comm h w] at hlin
    have ha := addr8_lt_of_dvd hw hh hx hy
    refine ⟨?_, fun o' ho' => ?_⟩
    · unfold ps2Step move1
      rw [if_pos rfl, if_pos ⟨by omega, by omega⟩]
    · obtain ⟨o2, e, l⟩ := move1_total data o (addr8 x y w) (y * w + x)
      rw [e] at ho'
      cases ho'
      rw [l, ho]
  · intro y x _ _ o _
    obtain ⟨o2, e, -⟩ := move1_total data o (addr8 x y w) (y * w + x)
    exact ⟨o2, e⟩

/-- C25 fails on the code for the swizzle direction: on the 2x2 image
`[0, 0, 0, 0]` the unguarded write `out[sid]` of `ps2Swizzle(.., true)` is out
of range for pixel `(1, 0)` (address 4 in a 4-byte buffer), so it fails where
`Swizzle8` returns a buffer. The two agree where the claim can hold:
`ps2Swizzle(.., false)` is `Unswizzle8` for every buffer of `w*h` bytes, and
`ps2Swizzle(.., true)` is `Swizzle8` when `w` and `h` are multiples of 16. -/
theorem ps2Swizzle_vs_shared :
    ps2Swizzle [0, 0, 0, 0] 2 2 true = none ∧
    Swizzle8 [0, 0, 0, 0] 2 2 = some [0, 0, 0, 0] ∧
    (∀ (data : List Nat) (w h : Nat), data.length = w * h →
      ps2Swizzle data w h false = Unswizzle8 data w h) ∧
    (∀ (data : List Nat) (w h : Nat), 16 ∣ w → 16 ∣ h → data.length = w * h →
      ps2Swizzle data w h true = Swizzle8 data w h) :=
  ⟨by decide, by decide, ps2Swizzle_false, ps2Swizzle_true⟩

theorem foldlM_range_congr {σ : Type} (f g : σ → Nat → Option σ) (n : Nat) (init : σ)
    (h : ∀ k, k < n → ∀ s, f s k = g s k) :
    (List.range n).foldlM f init = (List.range n).foldlM g init := by
  induction n with
  | zero => rfl
  | succ n ih =>
    rw [List.range_succ, List.foldlM_append, List.foldlM_append, ih (fun k hk => h k (by omega))]
    congr 1
    funext s
    simp [h n (by omega)]

theorem palBody_eq (entries out : List Nat) (c : Nat) (hlen : entries.length = 256)
    (hc : c < 8) : palBody entries out c = csm1Body entries out c := by
  unfold palBody csm1Body
  have h1 : ¬ (32 * c + 32 > entries.length) := by omega
  simp only [if_neg h1]
  have h2 : ¬ (32 * c + 32 - 32 * c < 32) := by omega
  rw [if_neg h2]

/-- C26 fails on the code for a table of 16 entries: `palCSM1` and
`palCSM1_32` always run the eight chunks of a 256-entry table, so on 16 entries
the slice `entries[16:24]` is out of range and they fail, where
`SwizzleCSM1_16` and `SwizzleCSM1_32` return the table unchanged. -/
theorem palCSM1_16_entries :
    palCSM1 (List.range 16) = none ∧ SwizzleCSM1_16 (List.range 16) = some (List.range 16) ∧
    palCSM1_32 (List.range 16) = none ∧
    SwizzleCSM1_32 (List.range 16) = some (List.range 16) := by
  decide

/-- C26, amended. On every table of 256 entries the palette reorder of the
Hunter X Hunter tool agrees with the shared one:
`palCSM1(e) = SwizzleCSM1_16(e)` and `palCSM1_32(e) = SwizzleCSM1_32(e)`, and
the shared functions (hence all four) return a table there. -/
theorem palCSM1_agrees (e : List Nat) (hlen : e.length = 256) :
    palCSM1 e = SwizzleCSM1_16 e ∧ palCSM1_32 e = SwizzleCSM1_32 e ∧
    ∃ out, SwizzleCSM1_32 e = some out ∧ out.length = 256 := by
  have h0 : ¬ e.length = 0 := by omega
  have hn : (e.length + 31) / 32 = 8 := by omega
  have key : (List.range 8).foldlM (palBody e) [] = (List.range 8).foldlM (csm1Body e) [] :=
    foldlM_range_congr _ _ 8 [] (fun k hk s => palBody_eq e s k hlen hk)
  refine ⟨?_, ?_, ?_⟩
  · unfold palCSM1 SwizzleCSM1_16
    rw [if_neg h0, hn, key]
  · unfold palCSM1_32 SwizzleCSM1_32
    rw [if_neg h0, hn, key]
  · obtain ⟨out, hout, hl, -⟩ := SwizzleCSM1_32_spec e
    exact ⟨out, hout, by rw [hl, hlen]⟩

/-- C26 (amended) on the table `0, 1, .., 255`. -/
theorem palCSM1_agrees_witness :
    (List.range 256).length = 256 ∧
    palCSM1 (List.range 256) = SwizzleCSM1_16 (List.range 256) ∧
    palCSM1_32 (List.range 256) = SwizzleCSM1_32 (List.range 256) ∧
    ∃ out, SwizzleCSM1_32 (List.range 256) = some out ∧ out.length = 256 :=
  ⟨List.length_range 256, palCSM1_agrees (List.range 256) (List.length_range 256)⟩

theorem expand_foldl (raw acc : List Nat) :
    raw.foldl (fun expandedPix b => (expandedPix ++ [b &&& 0x0F]) ++ [(b >>> 4) &&& 0x0F]) acc
      = acc ++ nibbles raw := by
  induction raw generalizing acc with
  | nil => simp [nibbles]
  | cons b rest ih =>
    simp only [List.foldl_cons, nibbles]
    rw [ih]
    simp

theorem nibbles_length (raw : List Nat) : (nibbles raw).length = 2 * raw.length := by
  induction raw with
  | nil => rfl
  | cons b rest ih => simp [nibbles, ih]; omega

theorem nibbles_getElem? (raw : List Nat) (p : Nat) (hp : p < 2 * raw.length) :
    (nibbles raw)[p]? = some (unpackNib raw p) := by
  induction raw generalizing p with
  | nil => simp at hp
  | cons b rest ih =>
    match p with
    | 0 => simp [nibbles, unpackNib]
    | 1 => simp [nibbles, unpackNib]
    | q + 2 =>
      have hq : q < 2 * rest.length := by simp at hp; omega
      have e1 : (q + 2) / 2 = q / 2 + 1 := by omega
      have e2 : (q + 2) % 2 = q % 2 := by omega
      have hlt : q / 2 < rest.length := by omega
      have l2 : q / 2 + 1 < (b :: rest).length := by simp; omega
      have e0 : (nibbles (b :: rest))[q + 2]? = (nibbles rest)[q]? := by simp [nibbles]
      rw [e0, ih q hq]
      congr 1
      unfold unpackNib
      rw [e1, e2, if_pos hlt, if_pos l2, List.getD_cons_succ]

set_option maxRecDepth 100000 in
theorem nib_join_rev : ∀ b, b < 256 →
    (((((b >>> 4) &&& 0x0F) &&& 0x0F) <<< 4) % 256) ||| ((b &&& 0x0F) &&& 0x0F) = b := by
  decide

theorem processPix_spec (raw : List Nat) (info : TIInfo) (hbpp : info.BPP = 4)
    (hlen : raw.length = (info.Width * info.Height + 1) / 2) :
    ∃ pix, processPix raw info = some pix ∧ pix.length = info.Width * info.Height ∧
      ∀ p, p < info.Width * info.Height → pix[p]? = some (unpackNib raw p) := by
  have hsz : (calcSizes info).2 = raw.length := by
    unfold calcSizes; rw [if_pos hbpp, hlen]
  have hle : info.Width * info.Height ≤ (nibbles raw).length := by
    rw [nibbles_length]; omega
  refine ⟨(nibbles raw).take (info.Width * info.Height), ?_, ?_, ?_⟩
  · unfold processPix
    simp only [hsz, Nat.lt_irrefl, if_false, List.take_length, hbpp]
    rw [if_neg (by decide), expand_foldl, List.nil_append, slice_of_le _ _ _ (Nat.zero_le _) hle]
    simp
  · rw [List.length_take]; omega
  · intro p hp
    rw [List.getElem?_take, if_pos hp, nibbles_getElem? raw p (by omega)]

theorem reversePix_spec (pix raw : List Nat) (info : TIInfo) (hbpp : info.BPP = 4)
    (hlen : raw.length = (info.Width * info.Height + 1) / 2) (hb : Bytes raw)
    (hpl : pix.length = info.Width * info.Height)
    (hpix : ∀ p, p < info.Width * info.Height → pix[p]? = some (unpackNib raw p)) :
    reversePix pix info = some (clearPad raw (info.Width * info.Height)) := by
  obtain ⟨out, hout, hl, hget⟩ := foldlM_range_inv (fun tiPix i => do
      let pixel1 ← if i * 2 < pix.length then (readAt pix (i * 2)).map (fun v => v &&& 0x0F)
                   else pure 0
      let pixel2 ← if i * 2 + 1 < pix.length then
                     (readAt pix (i * 2 + 1)).map (fun v => v &&& 0x0F)
                   else pure 0
      writeAt tiPix i (((pixel2 <<< 4) % 256) ||| pixel1))
    (fun k out => out.length = raw.length ∧
      ∀ i, i < k → out[i]? = (clearPad raw (info.Width * info.Height))[i]?)
    raw.length (make raw.length) ⟨make_length _, fun i hi => by omega⟩
    (by
      intro k hk out ⟨hl, hget⟩
      have h1 : k * 2 < pix.length := by omega
      have hv : (clearPad raw (info.Width * info.Height))[k]?
          = some (if 2 * k + 1 < info.Width * info.Height then raw.getD k 0
              else raw.getD k 0 &&& 0x0F) := by
        unfold clearPad
        rw [List.getElem?_map, List.getElem?_range hk, Option.map_some']
      have n0 : unpackNib raw (k * 2) = raw.getD k 0 &&& 0x0F := by
        unfold unpackNib
        have e1 : k * 2 / 2 = k := by omega
        have e2 : k * 2 % 2 = 0 := by omega
        rw [e1, e2, if_pos hk, if_pos rfl]
      have n1 : unpackNib raw (k * 2 + 1) = (raw.getD k 0 >>> 4) &&& 0x0F := by
        unfold unpackNib
        have e1 : (k * 2 + 1) / 2 = k := by omega
        have e2 : (k * 2 + 1) % 2 = 1 := by omega
        rw [e1, e2, if_pos hk, if_neg (by decide)]
      have r0 : readAt pix (k * 2) = some (raw.getD k 0 &&& 0x0F) := by
        unfold readAt; rw [hpix _ (by omega), n0]
      by_cases h2 : k * 2 + 1 < pix.length
      · have r1 : readAt pix (k * 2 + 1) = some ((raw.getD k 0 >>> 4) &&& 0x0F) := by
          unfold readAt; rw [hpix _ (by omega), n1]
        refine ⟨out.set k (raw.getD k 0), ?_, by simp [hl], ?_⟩
        · simp only [if_pos h1, if_pos h2, r0, r1, Option.map_some', Option.bind_eq_bind,
            Option.some_bind, nib_join_rev _ (hb k hk)]
          exact writeAt_of_lt _ _ _ (by omega)
        · intro i hi
          rw [List.getElem?_set]
          by_cases e : k = i
          · subst e
            rw [if_pos rfl, if_pos (by omega), hv, if_pos (by omega)]
          · rw [if_neg e]; exact hget i (by omega)
      · refine ⟨out.set k (raw.getD k 0 &&& 0x0F), ?_, by simp [hl], ?_⟩
        · simp only [if_pos h1, if_neg h2, r0, Option.map_some', Option.bind_eq_bind,
            Option.some_bind, Option.pure_def]
          have e : ((0 <<< 4) % 256) ||| ((raw.getD k 0 &&& 0x0F) &&& 0x0F)
              = raw.getD k 0 &&& 0x0F := by
            rw [Nat.and_assoc, Nat.and_self]; simp
          rw [e]
          exact writeAt_of_lt _ _ _ (by omega)
        · intro i hi
          rw [List.getElem?_set]
          by_cases e : k = i
          · subst e
            rw [if_pos rfl, if_pos (by omega), hv, if_neg (by omega)]
          · rw [if_neg e]; exact hget i (by omega))
  unfold reversePix
  rw [if_neg (by rw [hbpp]; decide), ← hlen, hout]
  refine congrArg some (List.ext_getElem? fun i => ?_)
  by_cases hi : i < raw.length
  · exact hget i hi
  · rw [List.getElem?_eq_none (by omega),
      List.getElem?_eq_none (by unfold clearPad; simp; omega)]

theorem clearPad_even (raw : List Nat) (n : Nat) (hn : 2 * raw.length ≤ n) :
    clearPad raw n = raw := by
  apply List.ext_getElem?
  intro i
  unfold clearPad
  by_cases hi : i < raw.length
  · rw [List.getElem?_map, List.getElem?_range hi, Option.map_some', if_pos (by omega),
      getElem?_eq_some_getD _ _ hi]
  · rw [List.getElem?_eq_none (by simp; omega), List.getElem?_eq_none (by omega)]

/-- C30 fails on the code when `Width*Height` is odd: for the 1x1 image with
raw byte `0xFF`, `processPix` keeps the single pixel 15 and `reversePix`
rebuilds the byte `0x0F`, not `0xFF`. -/
theorem reversePix_odd_fails :
    (processPix [0xFF] { Width := 1, Height := 1, BPP := 4 }).bind
      (fun pix => reversePix pix { Width := 1, Height := 1, BPP := 4 }) = some [0x0F] := by
  decide

/-- C30, amended. For a 4bpp TI image and a raw pixel buffer of
`(Width*Height+1)/2` bytes, `processPix` returns the `Width*Height` nibbles of
`raw` (low nibble first) and `reversePix` of them is `raw` with the high nibble
of the last byte cleared when `Width*Height` is odd; in particular it is `raw`
itself when `Width*Height` is even. -/
theorem reversePix_processPix (raw : List Nat) (info : TIInfo) (hbpp : info.BPP = 4)
    (hlen : raw.length = (info.Width * info.Height + 1) / 2) (hb : Bytes raw) :
    ∃ pix, processPix raw info = some pix ∧ pix.length = info.Width * info.Height ∧
      reversePix pix info = some (clearPad raw (info.Width * info.Height)) ∧
      (info.Width * info.Height % 2 = 0 → reversePix pix info = some raw) := by
  obtain ⟨pix, hp, hl, hget⟩ := processPix_spec raw info hbpp hlen
  have hr := reversePix_spec pix raw info hbpp hlen hb hl hget
  refine ⟨pix, hp, hl, hr, fun heven => ?_⟩
  rw [hr, clearPad_even raw _ (by omega)]

/-- C30 (amended) on the 2x2 image with raw bytes `0x21, 0x43`. -/
theorem reversePix_processPix_witness :
    ({ Width := 2, Height := 2, BPP := 4 } : TIInfo).BPP = 4 ∧
    [0x21, 0x43].length = (2 * 2 + 1) / 2 ∧ Bytes [0x21, 0x43] ∧
    ∃ pix, processPix [0x21, 0x43] { Width := 2, Height := 2, BPP := 4 } = some pix ∧
      pix.length = 2 * 2 ∧
      reversePix pix { Width := 2, Height := 2, BPP := 4 }
        = some (clearPad [0x21, 0x43] (2 * 2)) ∧
      (2 * 2 % 2 = 0 → reversePix pix { Width := 2, Height := 2, BPP := 4 }
        = some [0x21, 0x43]) :=
  ⟨rfl, by decide, by unfold Bytes; decide,
    reversePix_processPix [0x21, 0x43] { Width := 2, Height := 2, BPP := 4 } rfl (by decide)
      (by unfold Bytes; decide)⟩

theorem iter_succ_right {σ : Type} (f : σ → Option σ) (k : Nat) (s : σ) :
    iter f (k + 1) s = (iter f k s).bind f := by
  induction k generalizing s with
  | zero => simp [iter]
  | succ k ih =>
    rw [iter, iter]
    cases hf : f s with
    | none => simp
    | some s' =>
      simp only [Option.some_bind]
      rw [← ih s']

theorem foldlM_range_iter {σ : Type} (f : σ → Option σ) (k : Nat) (s : σ) :
    (List.range k).foldlM (fun s _ => f s) s = iter f k s := by
  induction k with
  | zero => rfl
  | succ k ih =>
    rw [List.range_succ, List.foldlM_append, ih, iter_succ_right]
    cases iter f k s <;> simp

theorem iter_fix {σ : Type} (f : σ → Option σ) (s : σ) (h : f s = some s) (k : Nat) :
    iter f k s = some s := by
  induction k with
  | zero => rfl
  | succ k ih => rw [iter, h, Option.some_bind, ih]

theorem foldlM_fix {σ : Type} (f : σ → Nat → Option σ) (s : σ) (l : List Nat)
    (h : ∀ i, f s i = some s) : l.foldlM f s = some s := by
  induction l with
  | nil => rfl
  | cons a l ih => rw [List.foldlM_cons, h a]; exact ih

theorem and_4095 (n : Nat) : n &&& 0xFFF = n % 4096 := Nat.and_pow_two_sub_one_eq_mod n 12

theorem drop_cons_inv (c : List Nat) (p x : Nat) (rest : List Nat) (h : c.drop p = x :: rest) :
    p < c.length ∧ readAt c p = some x ∧ c.drop (p + 1) = rest := by
  have hl : (c.drop p).length = rest.length + 1 := by rw [h]; rfl
  rw [List.length_drop] at hl
  refine ⟨by omega, ?_, ?_⟩
  · have : (c.drop p)[0]? = some x := by rw [h]; simp
    rw [List.getElem?_drop] at this
    exact this
  · have : (c.drop p).drop 1 = rest := by rw [h]; rfl
    rw [List.drop_drop] at this
    exact this

theorem copyMatch_spec (n offset length : Nat) (st : DecState)
    (hd : st.dictionary.length = 4096) (hp : st.dictPos < 4096)
    (hn : st.decompressedData.length ≤ n) :
    ∃ st', copyMatch n offset length st = some st' ∧ st'.dictionary.length = 4096 ∧
      st'.dictPos < 4096 ∧ st'.failed = st.failed ∧ st'.srcPos = st.srcPos ∧
      st'.decompressedData.length = min n (st.decompressedData.length + length) := by
  unfold copyMatch
  apply foldlM_range_inv (copyStep n offset) (fun k (s : DecState) => s.dictionary.length = 4096 ∧
      s.dictPos < 4096 ∧ s.failed = st.failed ∧ s.srcPos = st.srcPos ∧
      s.decompressedData.length = min n (st.decompressedData.length + k)) length st
    ⟨hd, hp, rfl, rfl, by simp; omega⟩
  intro k hk s ⟨h1, h2, h3, h4, h5⟩
  unfold copyStep
  by_cases hfull : s.decompressedData.length ≥ n
  · rw [if_pos hfull]
    exact ⟨s, rfl, h1, h2, h3, h4, by omega⟩
  · rw [if_neg hfull]
    have hc : (offset + k) &&& 0xFFF < s.dictionary.length := by
      rw [and_4095, h1]; omega
    simp only [readAt_of_lt _ _ hc, Option.bind_eq_bind, Option.some_bind, Option.pure_def,
      writeAt_of_lt _ _ _ (show s.dictPos < s.dictionary.length by rw [h1]; exact h2)]
    refine ⟨_, rfl, by simp [h1], by simp only; rw [and_4095]; omega, h3, h4, ?_⟩
    simp only [List.length_append, List.length_singleton]
    omega

theorem decodeBit_done (c : List Nat) (n cb : Nat) (st : DecState)
    (h : st.failed = true ∨ st.decompressedData.length ≥ n) (i : Nat) :
    decodeBit c n cb st i = some st := by
  unfold decodeBit
  rcases h with h | h
  · rw [if_pos h]; rfl
  · by_cases hf : st.failed = true
    · rw [if_pos hf]; rfl
    · rw [if_neg hf, if_pos h]; rfl

theorem decodeChunk_done (c : List Nat) (n : Nat) (st : DecState)
    (h : st.failed = true ∨ st.decompressedData.length ≥ n) :
    decodeChunk c n st = some st := by
  unfold decodeChunk
  rcases h with h | h
  · rw [if_pos h]; rfl
  · by_cases hf : st.failed = true
    · rw [if_pos hf]; rfl
    · rw [if_neg hf, if_neg (by omega)]; rfl

/-- Once the decoder has failed or has produced `n` bytes, the rest of the run
leaves the state alone. -/
theorem machine_done (c : List Nat) (n cb : Nat) (st : DecState)
    (h : st.failed = true ∨ st.decompressedData.length ≥ n) (l : List Nat) (k : Nat) :
    (l.foldlM (decodeBit c n cb) st).bind (iter (decodeChunk c n) k) = some st := by
  rw [foldlM_fix _ st l (decodeBit_done c n cb st h), Option.some_bind]
  exact iter_fix _ st (decodeChunk_done c n st h) k

theorem decodeBit_lit (c : List Nat) (n cb : Nat) (st : DecState) (i x : Nat)
    (hf : st.failed = false) (hn : st.decompressedData.length < n)
    (hbit : (cb >>> i) &&& 1 = 1) (hx : readAt c st.srcPos = some x)
    (hs : st.srcPos < c.length) (hd : st.dictPos < st.dictionary.length) :
    decodeBit c n cb st i = some { st with
      srcPos := st.srcPos + 1, decompressedData := st.decompressedData ++ [x],
      dictionary := st.dictionary.set st.dictPos x, dictPos := (st.dictPos + 1) &&& 0xFFF } := by
  unfold decodeBit
  rw [if_neg (by rw [hf]; decide), if_neg (by omega), if_pos hbit, if_neg (by omega), hx]
  simp only [Option.bind_eq_bind, Option.some_bind, writeAt_of_lt _ _ _ hd]
  rfl

theorem decodeBit_lit_end (c : List Nat) (n cb : Nat) (st : DecState) (i : Nat)
    (hf : st.failed = false) (hn : st.decompressedData.length < n)
    (hbit : (cb >>> i) &&& 1 = 1) (hs : st.srcPos ≥ c.length) :
    decodeBit c n cb st i = some { st with failed := true } := by
  unfold decodeBit
  rw [if_neg (by rw [hf]; decide), if_neg (by omega), if_pos hbit, if_pos hs]
  rfl

theorem decodeBit_pair (c : List Nat) (n cb : Nat) (st : DecState) (i x y : Nat)
    (hf : st.failed = false) (hn : st.decompressedData.length < n)
    (hbit : ¬ (cb >>> i) &&& 1 = 1) (hx : readAt c st.srcPos = some x)
    (hy : readAt c (st.srcPos + 1) = some y) (hs : st.srcPos + 1 < c.length) :
    decodeBit c n cb st i = copyMatch n (x ||| ((y &&& 0xF0) <<< 4)) ((y &&& 0x0F) + 3)
      { st with srcPos := st.srcPos + 2 } := by
  unfold decodeBit
  rw [if_neg (by rw [hf]; decide), if_neg (by omega), if_neg hbit, if_neg (by omega), hx, hy]
  rfl

theorem decodeBit_pair_end (c : List Nat) (n cb : Nat) (st : DecState) (i : Nat)
    (hf : st.failed = false) (hn : st.decompressedData.length < n)
    (hbit : ¬ (cb >>> i) &&& 1 = 1) (hs : st.srcPos + 1 ≥ c.length) :
    decodeBit c n cb st i = some { st with failed := true } := by
  unfold decodeBit
  rw [if_neg (by rw [hf]; decide), if_neg (by omega), if_neg hbit, if_pos hs]
  rfl

theorem decodeChunk_read (c : List Nat) (n : Nat) (st : DecState) (x : Nat)
    (hf : st.failed = false) (hn : st.decompressedData.length < n)
    (hx : readAt c st.srcPos = some x) (hs : st.srcPos < c.length) :
    decodeChunk c n st = (List.range' 0 (8 - 0)).foldlM (decodeBit c n x)
      { st with srcPos := st.srcPos + 1 } := by
  unfold decodeChunk
  rw [if_neg (by rw [hf]; decide), if_pos hn, if_neg (by omega), hx, List.range_eq_range']
  rfl

theorem decodeChunk_end (c : List Nat) (n : Nat) (st : DecState)
    (hf : st.failed = false) (hn : st.decompressedData.length < n)
    (hs : st.srcPos ≥ c.length) :
    decodeChunk c n st = some { st with failed := true } := by
  unfold decodeChunk
  rw [if_neg (by rw [hf]; decide), if_pos hn, if_pos hs]
  rfl

theorem drop_nil_inv (c : List Nat) (p : Nat) (h : c.drop p = []) : p ≥ c.length := by
  have := congrArg List.length h
  rw [List.length_drop] at this
  simp at this
  omega

theorem produced_nil (i cb : Nat) : produced i cb [] = 0 := by
  unfold produced; rfl

theorem produced_cons (i cb x : Nat) (rest : List Nat) :
    produced i cb (x :: rest) =
      if i ≥ 8 then produced 0 x rest
      else if (cb >>> i) &&& 1 = 1 then 1 + produced (i + 1) cb rest
      else match rest with
        | [] => 0
        | y :: rest' => (y &&& 0x0F) + 3 + produced (i + 1) cb rest' := by
  cases rest <;> simp only [produced]

/-- The run of the decoder from bit `i` of the control byte `cb`, with the
stream still to be read equal to `rest`: it fails exactly when the bytes
already produced plus those `rest` encodes are fewer than `n`, and ends with
`n` bytes otherwise. -/
theorem machine_spec (c : List Nat) (n : Nat) :
    ∀ (L : Nat) (rest : List Nat), rest.length ≤ L → ∀ (i cb k : Nat) (st : DecState),
      i ≤ 8 → c.drop st.srcPos = rest → rest.length + 1 ≤ k → DecOk c n st →
      ∃ st', ((List.range' i (8 - i)).foldlM (decodeBit c n cb) st).bind
          (iter (decodeChunk c n) k) = some st' ∧
        ((st.decompressedData.length + produced i cb rest < n ∧ st'.failed = true) ∨
         (n ≤ st.decompressedData.length + produced i cb rest ∧ st'.failed = false ∧
            st'.decompressedData.length = n)) := by
  intro L
  induction L with
  | zero =>
    intro rest hL i cb k st hi hdrop hk ⟨hd, hp, hf, hs, hn⟩
    have hrest : rest = [] := List.eq_nil_of_length_eq_zero (by omega)
    subst hrest
    have hend := drop_nil_inv c _ hdrop
    by_cases hfull : st.decompressedData.length ≥ n
    · exact ⟨st, machine_done c n cb st (Or.inr hfull) _ k,
        Or.inr ⟨by omega, hf, by omega⟩⟩
    · have hlt : st.decompressedData.length < n := by omega
      by_cases hi8 : i = 8
      · subst hi8
        obtain ⟨k', rfl⟩ : ∃ k', k = k' + 1 := ⟨k - 1, by omega⟩
        refine ⟨{ st with failed := true }, ?_, Or.inl ⟨by rw [produced_nil]; omega, rfl⟩⟩
        show (iter (decodeChunk c n) (k' + 1) st) = _
        rw [iter, decodeChunk_end c n st hf hlt hend, Option.some_bind]
        exact iter_fix _ _ (decodeChunk_done c n _ (Or.inl rfl)) k'
      · have e : List.range' i (8 - i) = i :: List.range' (i + 1) (8 - (i + 1)) := by
          have : 8 - i = (8 - (i + 1)) + 1 := by omega
          rw [this, List.range'_succ]
        refine ⟨{ st with failed := true }, ?_, Or.inl ⟨by rw [produced_nil]; omega, rfl⟩⟩
        rw [e, List.foldlM_cons]
        by_cases hbit : (cb >>> i) &&& 1 = 1
        · rw [decodeBit_lit_end c n cb st i hf hlt hbit hend]
          exact machine_done c n cb _ (Or.inl rfl) _ k
        · rw [decodeBit_pair_end c n cb st i hf hlt hbit (by omega)]
          exact machine_done c n cb _ (Or.inl rfl) _ k
  | succ L ih =>
    intro rest hL i cb k st hi hdrop hk ⟨hd, hp, hf, hs, hn⟩
    by_cases hfull : st.decompressedData.length ≥ n
    · exact ⟨st, machine_done c n cb st (Or.inr hfull) _ k,
        Or.inr ⟨by omega, hf, by omega⟩⟩
    have hlt : st.decompressedData.length < n := by omega
    match rest, hdrop, hL, hk with
    | [], hdrop, _, hk =>
      exact ih [] (by simp) i cb k st hi hdrop (by simpa using hk) ⟨hd, hp, hf, hs, hn⟩
    | x :: rest', hdrop, hL, hk =>
      obtain ⟨hsl, hx, hdrop'⟩ := drop_cons_inv c _ x rest' hdrop
      have hL' : rest'.length ≤ L := by simpa using hL
      have hk' : rest'.length + 2 ≤ k := by simpa using hk
      by_cases hi8 : i = 8
      · subst hi8
        obtain ⟨k', rfl⟩ : ∃ k', k = k' + 1 := ⟨k - 1, by omega⟩
        obtain ⟨st', hst', hres⟩ := ih rest' hL' 0 x k' { st with srcPos := st.srcPos + 1 }
          (by omega) hdrop' (by omega) ⟨hd, hp, hf, by simp only; omega, hn⟩
        refine ⟨st', ?_, ?_⟩
        · show (iter (decodeChunk c n) (k' + 1) st) = _
          rw [iter, decodeChunk_read c n st x hf hlt hx hsl]
          exact hst'
        · have e : produced 8 cb (x :: rest') = produced 0 x rest' := by
            rw [produced_cons, if_pos (by omega)]
          rw [e]
          exact hres
      · have e : List.range' i (8 - i) = i :: List.range' (i + 1) (8 - (i + 1)) := by
          have : 8 - i = (8 - (i + 1)) + 1 := by omega
          rw [this, List.range'_succ]
        rw [e, List.foldlM_cons]
        by_cases hbit : (cb >>> i) &&& 1 = 1
        · have e1 : produced i cb (x :: rest') = 1 + produced (i + 1) cb rest' := by
            rw [produced_cons, if_neg (by omega), if_pos hbit]
          rw [decodeBit_lit c n cb st i x hf hlt hbit hx hsl (by rw [hd]; exact hp)]
          obtain ⟨st', hst', hres⟩ := ih rest' hL' (i + 1) cb k
            { st with srcPos := st.srcPos + 1, decompressedData := st.decompressedData ++ [x],
                      dictionary := st.dictionary.set st.dictPos x,
                      dictPos := (st.dictPos + 1) &&& 0xFFF }
            (by omega) hdrop' (by omega)
            ⟨by simp [hd], by simp only; rw [and_4095]; omega, hf, by simp only; omega,
              by simp only [List.length_append, List.length_singleton]; omega⟩
          refine ⟨st', hst', ?_⟩
          simp only [List.length_append, List.length_singleton] at hres
          rw [e1]
          rcases hres with h | h
          · exact Or.inl ⟨by omega, h.2⟩
          · exact Or.inr ⟨by omega, h.2⟩
        · match rest', hdrop', hL', hk' with
          | [], hdrop', _, _ =>
            have hend := drop_nil_inv c _ hdrop'
            have e1 : produced i cb [x] = 0 := by
              simp only [produced]
              rw [if_neg (by omega), if_neg hbit]
            rw [decodeBit_pair_end c n cb st i hf hlt hbit hend]
            exact ⟨_, machine_done c n cb _ (Or.inl rfl) _ k, Or.inl ⟨by rw [e1]; omega, rfl⟩⟩
          | y :: rest'', hdrop', hL', hk' =>
            obtain ⟨hsl', hy, hdrop''⟩ := drop_cons_inv c _ y rest'' hdrop'
            have e1 : produced i cb (x :: y :: rest'')
                = (y &&& 0x0F) + 3 + produced (i + 1) cb rest'' := by
              simp only [produced]
              rw [if_neg (by omega), if_neg hbit]
            rw [decodeBit_pair c n cb st i x y hf hlt hbit hx hy hsl']
            obtain ⟨st3, hst3, h1, h2, h3, h4, h5⟩ := copyMatch_spec n
              (x ||| ((y &&& 0xF0) <<< 4)) ((y &&& 0x0F) + 3)
              { st with srcPos := st.srcPos + 2 } hd hp hn
            simp only at h3 h4 h5
            rw [hst3]
            obtain ⟨st', hst', hres⟩ := ih rest'' (by simp at hL'; omega) (i + 1) cb k st3
              (by omega) (by rw [h4]; exact hdrop'') (by simp at hk'; omega)
              ⟨h1, h2, by rw [h3, hf], by rw [h4]; omega, by rw [h5]; omega⟩
            refine ⟨st', hst', ?_⟩
            rw [e1]
            rcases hres with h | h
            · exact Or.inl ⟨by omega, h.2⟩
            · exact Or.inr ⟨by omega, h.2⟩

/-- C29. For every compressed stream `c` and target size `n`,
`DecompressTamsoftLZSS(c, n)` returns either an error with no data, which
happens exactly when the stream encodes fewer than `n` bytes (it ends before
`n` bytes have been produced), or no error and a buffer of exactly `n` bytes. -/
theorem DecompressTamsoftLZSS_result (c : List Nat) (n : Nat) :
    (produced 8 0 c < n ∧ DecompressTamsoftLZSS c n = some ([], true)) ∨
    (n ≤ produced 8 0 c ∧
      ∃ out, DecompressTamsoftLZSS c n = some (out, false) ∧ out.length = n) := by
  obtain ⟨st', hst', hres⟩ := machine_spec c n c.length c (Nat.le_refl _) 8 0 (c.length + 1)
    { dictionary := make 4096, dictPos := 0xFEE, srcPos := 0, decompressedData := [],
      failed := false }
    (Nat.le_refl _) rfl (Nat.le_refl _)
    ⟨make_length _, by decide, rfl, Nat.zero_le _, Nat.zero_le _⟩
  have hrun : (List.range (c.length + 1)).foldlM (fun st _ => decodeChunk c n st)
      { dictionary := make 4096, dictPos := 0xFEE, srcPos := 0, decompressedData := [],
        failed := false } = some st' := by
    rw [foldlM_range_iter]
    exact hst'
  unfold DecompressTamsoftLZSS
  simp only [Option.bind_eq_bind, hrun, Option.some_bind]
  simp only [List.length_nil, Nat.zero_add] at hres
  rcases hres with ⟨h1, h2⟩ | ⟨h1, h2, h3⟩
  · exact Or.inl ⟨h1, by rw [if_pos h2]; rfl⟩
  · refine Or.inr ⟨h1, st'.decompressedData, ?_, h3⟩
    rw [if_neg (by rw [h2]; decide), if_neg (by omega)]
    rfl

theorem readAt_make (n p : Nat) (hp : p < n) : readAt (make n) p = some 0 :=
  make_getElem? n p hp

theorem readAt_set_self (a : List Nat) (i v : Nat) (h : i < a.length) :
    readAt (a.set i v) i = some v := by
  unfold readAt
  rw [List.getElem?_set_self h]

theorem readAt_set_ne (a : List Nat) (i j v : Nat) (h : i ≠ j) :
    readAt (a.set i v) j = readAt a j := by
  unfold readAt
  rw [List.getElem?_set_ne h]

/-- An overlapping copy replicates: when the pair points at the byte just
before the write position, every copied byte is that byte. -/
theorem copyMatch_run (n offset length v : Nat) (st : DecState)
    (hd : st.dictionary.length = 4096) (ho : offset + 1 = st.dictPos)
    (hw : st.dictPos + length < 4096) (hv : readAt st.dictionary offset = some v)
    (hn : st.decompressedData.length + length ≤ n) :
    ∃ st', copyMatch n offset length st = some st' ∧ st'.failed = st.failed ∧
      st'.decompressedData = st.decompressedData ++ List.replicate length v := by
  unfold copyMatch
  obtain ⟨st', h, -, -, h3, h4, -⟩ := foldlM_range_inv (copyStep n offset)
    (fun k (s : DecState) => s.dictionary.length = 4096 ∧ s.dictPos = st.dictPos + k ∧
      s.failed = st.failed ∧
      s.decompressedData = st.decompressedData ++ List.replicate k v ∧
      ∀ p, offset ≤ p → p < st.dictPos + k → readAt s.dictionary p = some v)
    length st
    ⟨hd, rfl, rfl, by simp, fun p h1 h2 => by
      have : p = offset := by omega
      rw [this]; exact hv⟩
    (by
      intro k hk s ⟨h1, h2, h3, h4, h5⟩
      have hlt : ¬ s.decompressedData.length ≥ n := by
        rw [h4, List.length_append, List.length_replicate]; omega
      have hidx : (offset + k) &&& 0xFFF = offset + k := by
        rw [and_4095]; omega
      have hpos : s.dictPos < s.dictionary.length := by rw [h1, h2]; omega
      have hnext : (s.dictPos + 1) &&& 0xFFF = st.dictPos + (k + 1) := by
        rw [and_4095, h2]; omega
      refine ⟨{ s with decompressedData := s.decompressedData ++ [v],
                       dictionary := s.dictionary.set s.dictPos v,
                       dictPos := (s.dictPos + 1) &&& 0xFFF }, ?_, by simp [h1], hnext, h3, ?_, ?_⟩
      · unfold copyStep
        rw [if_neg hlt]
        simp only [hidx, h5 (offset + k) (by omega) (by omega), Option.bind_eq_bind,
          Option.some_bind, writeAt_of_lt _ _ _ hpos]
        rfl
      · simp only [h4, List.append_assoc, List.replicate_succ']
      · intro p hp1 hp2
        by_cases e : s.dictPos = p
        · rw [← e, readAt_set_self _ _ _ hpos]
        · rw [readAt_set_ne _ _ _ _ e]
          exact h5 p hp1 (by omega))
  exact ⟨st', h, h3, h4⟩

theorem foldlM_cons_some {σ : Type} (f : σ → Nat → Option σ) (s s' : σ) (a : Nat)
    (l : List Nat) (h : f s a = some s') : (a :: l).foldlM f s = l.foldlM f s' := by
  rw [List.foldlM_cons, h]
  rfl

/-- The decompressor on the stream `01 05 EE F0` (a literal 5, then the
pair `(0xFEE, 3)`): the pair copies from the position the literal was written
to, so all four bytes are 5. -/
theorem DecompressTamsoftLZSS_example :
    DecompressTamsoftLZSS [1, 5, 0xEE, 0xF0] 4 = some ([5, 5, 5, 5], false) := by
  have hA := decodeBit_lit [1, 5, 0xEE, 0xF0] 4 1
      { dictionary := make 4096, dictPos := 0xFEE, srcPos := 1, decompressedData := [],
        failed := false } 0 5 rfl (by decide) (by decide) rfl (by decide)
      (by rw [make_length]; decide)
  obtain ⟨stC, hC, hCf, hCd⟩ := copyMatch_run 4 0xFEE 3 5
    { dictionary := (make 4096).set 0xFEE 5, dictPos := (0xFEE + 1) &&& 0xFFF,
      srcPos := 2 + 2, decompressedData := [] ++ [5], failed := false }
    (by rw [List.length_set, make_length]) (by decide) (by decide)
    (readAt_set_self _ _ _ (by rw [make_length]; decide)) (by decide)
  have hB := decodeBit_pair [1, 5, 0xEE, 0xF0] 4 1
      { dictionary := (make 4096).set 0xFEE 5, dictPos := (0xFEE + 1) &&& 0xFFF,
        srcPos := 1 + 1, decompressedData := [] ++ [5], failed := false } 1 0xEE 0xF0
      rfl (by decide) (by decide) rfl rfl (by decide)
  have e3 : (0xEE ||| ((0xF0 &&& 0xF0) <<< 4)) = 0xFEE := by decide
  have e4 : (0xF0 &&& 0x0F) + 3 = 3 := by decide
  rw [e3, e4] at hB
  have hrun : iter (decodeChunk [1, 5, 0xEE, 0xF0] 4) (4 + 1)
      { dictionary := make 4096, dictPos := 0xFEE, srcPos := 0, decompressedData := [],
        failed := false } = some stC := by
    rw [iter, decodeChunk_read [1, 5, 0xEE, 0xF0] 4
      { dictionary := make 4096, dictPos := 0xFEE, srcPos := 0, decompressedData := [],
        failed := false } 1 rfl (by decide) rfl (by decide)]
    have e : List.range' 0 (8 - 0) = 0 :: 1 :: List.range' 2 6 := by decide
    rw [e, foldlM_cons_some _ _ _ _ _ hA, foldlM_cons_some _ _ _ _ _ (hB.trans hC)]
    exact machine_done _ 4 1 stC (Or.inr (by rw [hCd]; decide)) _ 4
  unfold DecompressTamsoftLZSS
  rw [foldlM_range_iter]
  have hlen : [1, 5, 0xEE, 0xF0].length = 4 := rfl
  rw [hlen, hrun, Option.bind_eq_bind, Option.some_bind, if_neg (by rw [hCf]; decide),
    if_neg (by rw [hCd]; decide), hCd]
  rfl

theorem and_4095_sub (n : Nat) : n &&& (4096 - 1) = n % 4096 :=
  Nat.and_pow_two_sub_one_eq_mod n 12

/-- A candidate whose first byte differs from the data has match length 0. -/
theorem compare_mismatch (data dict : List Nat) (pos o a b m : Nat)
    (ha : readAt dict ((o + 0) &&& (4096 - 1)) = some a) (hb : readAt data (pos + 0) = some b)
    (hne : a ≠ b) (hm : 0 < m) :
    (List.range m).foldlM (compareStep data pos dict o) (0, false) = some (0, true) := by
  obtain ⟨m', rfl⟩ : ∃ m', m = m' + 1 := ⟨m - 1, by omega⟩
  have h0 : compareStep data pos dict o (0, false) 0 = some (0, true) := by
    unfold compareStep
    simp only [Bool.false_eq_true, if_false, ha, hb, Option.bind_eq_bind, Option.some_bind,
      if_neg hne]
    rfl
  rw [List.range_eq_range', List.range'_succ, foldlM_cons_some _ _ _ _ _ h0]
  exact foldlM_fix _ _ _ (fun i => by unfold compareStep; rfl)

theorem compare_match (data dict : List Nat) (pos o len i v : Nat)
    (ha : readAt dict ((o + i) &&& (4096 - 1)) = some v)
    (hb : readAt data (pos + i) = some v) :
    compareStep data pos dict o (len, false) i = some (len + 1, false) := by
  unfold compareStep
  simp only [Bool.false_eq_true, if_false, ha, hb, Option.bind_eq_bind, Option.some_bind,
    if_true]
  rfl

theorem candidate_keep (data dict : List Nat) (pos e o : Nat) (best r : Nat × Nat)
    (flag : Bool)
    (hr : (List.range (e - pos)).foldlM (compareStep data pos dict o) (0, false)
      = some (r.1, flag))
    (h : ¬ r.1 > best.2) : candidateStep data pos dict e best o = some best := by
  unfold candidateStep
  rw [hr]
  simp only [Option.bind_eq_bind, Option.some_bind, if_neg h]
  rfl

theorem candidate_take (data dict : List Nat) (pos e o len : Nat) (best : Nat × Nat)
    (flag : Bool)
    (hr : (List.range (e - pos)).foldlM (compareStep data pos dict o) (0, false)
      = some (len, flag))
    (h : len > best.2) : candidateStep data pos dict e best o = some (o, len) := by
  unfold candidateStep
  rw [hr]
  simp only [Option.bind_eq_bind, Option.some_bind, if_pos h]
  rfl

/-- No dictionary byte equals the first byte of the data: no match. -/
theorem findLongestMatch_none (data dict : List Nat) (pos b : Nat)
    (hd : dict.length = 4096) (hpos : pos < data.length)
    (hb : readAt data (pos + 0) = some b)
    (hno : ∀ o, o < 4096 → ∃ a, readAt dict o = some a ∧ a ≠ b) :
    findLongestMatch data pos dict = some (0, 0) := by
  unfold findLongestMatch
  obtain ⟨r, hr, hP⟩ := foldlM_range_inv
    (candidateStep data pos dict (if pos + 18 > data.length then data.length else pos + 18))
    (fun _ best => best = (0, 0)) 4096 (0, 0) rfl
    (by
      intro o ho best hbest
      subst hbest
      obtain ⟨a, ha, hne⟩ := hno o ho
      have hidx : (o + 0) &&& (4096 - 1) = o := by rw [and_4095_sub]; omega
      refine ⟨(0, 0), candidate_keep data dict pos _ o (0, 0) (0, 0) true ?_ (by decide), rfl⟩
      exact compare_mismatch data dict pos o a b _ (by rw [hidx]; exact ha) hb hne
        (by split <;> omega))
  rw [hr, hP]

theorem updateDict_total (data : List Nat) (srcPos length : Nat) (d : List Nat × Nat)
    (hd : d.1.length = 4096) (hp : d.2 < 4096) (hs : srcPos + length ≤ data.length) :
    ∃ r, (List.range length).foldlM (updateDict data srcPos) d = some r ∧
      r.1.length = 4096 ∧ r.2 < 4096 := by
  apply foldlM_range_inv (updateDict data srcPos) (fun _ r => r.1.length = 4096 ∧ r.2 < 4096)
    length d ⟨hd, hp⟩
  intro k hk r ⟨h1, h2⟩
  unfold updateDict
  rw [readAt_of_lt data _ (by omega)]
  simp only [Option.bind_eq_bind, Option.some_bind,
    writeAt_of_lt _ _ _ (show r.2 < r.1.length by rw [h1]; exact h2)]
  exact ⟨_, rfl, by simp [h1], by simp only; rw [and_4095_sub]; omega⟩

theorem encodeBit_done (data : List Nat) (st : CompState) (i : Nat)
    (h : st.srcPos ≥ data.length) : encodeBit data st i = some st := by
  unfold encodeBit
  rw [if_pos h]
  rfl

theorem encodeBit_lit (data : List Nat) (st : CompState) (i b : Nat) (m : Nat × Nat)
    (hs : st.srcPos < data.length) (hm : findLongestMatch data st.srcPos st.dictionary = some m)
    (hl : ¬ m.2 ≥ 3) (hb : readAt data st.srcPos = some b)
    (hd : st.dictPos < st.dictionary.length) :
    encodeBit data st i = some { st with
      controlByte := (st.controlByte ||| ((1 <<< i) % 256)) % 256,
      chunkBlocks := st.chunkBlocks ++ [b],
      dictionary := st.dictionary.set st.dictPos b,
      dictPos := (st.dictPos + 1) &&& (4096 - 1),
      srcPos := st.srcPos + 1 } := by
  unfold encodeBit
  rw [if_neg (by omega), hm]
  simp only [Option.bind_eq_bind, Option.some_bind, if_neg hl, hb, writeAt_of_lt _ _ _ hd]
  rfl

theorem encodeBit_match (data : List Nat) (st : CompState) (i : Nat) (m : Nat × Nat)
    (dict' : List Nat) (pos' : Nat)
    (hs : st.srcPos < data.length) (hm : findLongestMatch data st.srcPos st.dictionary = some m)
    (hl : m.2 ≥ 3)
    (hr : (List.range m.2).foldlM (updateDict data st.srcPos) (st.dictionary, st.dictPos)
      = some (dict', pos')) :
    encodeBit data st i = some { st with
      chunkBlocks := st.chunkBlocks ++
        [(m.1 &&& 0xFF) % 256, (((m.1 >>> 4) &&& 0xF0) ||| (m.2 - 3)) % 256],
      dictionary := dict', dictPos := pos', srcPos := st.srcPos + m.2 } := by
  unfold encodeBit
  rw [if_neg (by omega), hm]
  simp only [Option.bind_eq_bind, Option.some_bind, if_pos hl, hr]
  rfl

theorem encodeChunk_done (d : List Nat) (st : List Nat × Nat × Nat × List Nat)
    (h : ¬ st.2.2.1 < d.length) : encodeChunk d st = some st := by
  unfold encodeChunk
  rw [if_neg h]
  rfl

theorem CompressTamsoftLZSS_eq (d : List Nat) :
    CompressTamsoftLZSS d = (iter (encodeChunk d) d.length (make 4096, 0xFEE, 0, [])).bind
      (fun r => if r.2.2.1 < d.length then none else some r.2.2.2) := by
  unfold CompressTamsoftLZSS
  dsimp only
  rw [foldlM_range_iter]
  rfl

/-- Exactly one dictionary offset starts with the first byte of the data: it
is the best match. -/
theorem findLongestMatch_unique (data dict : List Nat) (pos b o0 len : Nat) (flag : Bool)
    (hpos : pos < data.length) (hb : readAt data (pos + 0) = some b) (ho0 : o0 < 4096)
    (hno : ∀ o, o < 4096 → o ≠ o0 → ∃ a, readAt dict o = some a ∧ a ≠ b)
    (hlen : 0 < len)
    (hr : (List.range ((if pos + 18 > data.length then data.length else pos + 18) - pos)).foldlM
      (compareStep data pos dict o0) (0, false) = some (len, flag)) :
    findLongestMatch data pos dict = some (o0, len) := by
  unfold findLongestMatch
  obtain ⟨r, hr', hP⟩ := foldlM_range_inv
    (candidateStep data pos dict (if pos + 18 > data.length then data.length else pos + 18))
    (fun k best => (k ≤ o0 → best = (0, 0)) ∧ (o0 < k → best = (o0, len))) 4096 (0, 0)
    ⟨fun _ => rfl, fun h => by omega⟩
    (by
      intro o ho best ⟨h1, h2⟩
      by_cases e : o = o0
      · subst e
        have hbest := h1 (Nat.le_refl _)
        subst hbest
        exact ⟨(o, len), candidate_take data dict pos _ o len (0, 0) flag hr hlen,
          fun h => by omega, fun _ => rfl⟩
      · obtain ⟨a, ha, hne⟩ := hno o ho e
        have hidx : (o + 0) &&& (4096 - 1) = o := by rw [and_4095_sub]; omega
        have hcmp := compare_mismatch data dict pos o a b
          ((if pos + 18 > data.length then data.length else pos + 18) - pos)
          (by rw [hidx]; exact ha) hb hne (by split <;> omega)
        refine ⟨best, candidate_keep data dict pos _ o best (0, 0) true hcmp (by simp),
          fun h => h1 (by omega), fun h => h2 (by omega)⟩)
  rw [hr', hP.2 ho0]

/-- The compressor on `05 05 00 00`: a literal 5 and then the pair
`(0xFEE, 3)`, found by matching `05 00 00` against the dictionary as it is
before the match is entered (the 5 just written, followed by zeros). -/
theorem CompressTamsoftLZSS_example :
    CompressTamsoftLZSS [5, 5, 0, 0] = some [1, 5, 0xEE, 0xF0] := by
  have hm1 : findLongestMatch [5, 5, 0, 0] 0 (make 4096) = some (0, 0) :=
    findLongestMatch_none _ _ 0 5 (make_length _) (by decide) rfl
      (fun o ho => ⟨0, readAt_make _ _ ho, by decide⟩)
  have hA := encodeBit_lit [5, 5, 0, 0]
    { dictionary := make 4096, dictPos := 0xFEE, srcPos := 0, controlByte := 0,
      chunkBlocks := [] } 0 5 (0, 0) (by decide) hm1 (by decide) rfl
    (by rw [make_length]; decide)
  have hlenD : ((make 4096).set 0xFEE 5).length = 4096 := by
    rw [List.length_set, make_length]
  have hcmp : (List.range ((if 1 + 18 > [5, 5, 0, 0].length then [5, 5, 0, 0].length
        else 1 + 18) - 1)).foldlM
      (compareStep [5, 5, 0, 0] 1 ((make 4096).set 0xFEE 5) 0xFEE) (0, false)
      = some (3, false) := by
    have e : List.range ((if 1 + 18 > [5, 5, 0, 0].length then [5, 5, 0, 0].length
        else 1 + 18) - 1) = [0, 1, 2] := by decide
    have i0 : (0xFEE + 0) &&& (4096 - 1) = 0xFEE := by decide
    have i1 : (0xFEE + 1) &&& (4096 - 1) = 0xFEF := by decide
    have i2 : (0xFEE + 2) &&& (4096 - 1) = 0xFF0 := by decide
    rw [e,
      foldlM_cons_some _ _ _ _ _ (compare_match [5, 5, 0, 0] _ 1 0xFEE 0 0 5
        (by rw [i0]; exact readAt_set_self _ _ _ (by rw [make_length]; decide)) rfl),
      foldlM_cons_some _ _ _ _ _ (compare_match [5, 5, 0, 0] _ 1 0xFEE (0 + 1) 1 0
        (by rw [i1, readAt_set_ne _ _ _ _ (by decide)]; exact readAt_make _ _ (by decide))
        rfl),
      foldlM_cons_some _ _ _ _ _ (compare_match [5, 5, 0, 0] _ 1 0xFEE (0 + 1 + 1) 2 0
        (by rw [i2, readAt_set_ne _ _ _ _ (by decide)]; exact readAt_make _ _ (by decide))
        rfl)]
    rfl
  have hm2 : findLongestMatch [5, 5, 0, 0] 1 ((make 4096).set 0xFEE 5) = some (0xFEE, 3) :=
    findLongestMatch_unique _ _ 1 5 0xFEE 3 false (by decide) rfl (by decide)
      (fun o ho hne => ⟨0, by
        rw [readAt_set_ne _ _ _ _ (fun h => hne h.symm)]; exact readAt_make _ _ ho,
        by decide⟩)
      (by decide) hcmp
  obtain ⟨r, hr, -⟩ := updateDict_total [5, 5, 0, 0] 1 3
    ((make 4096).set 0xFEE 5, (0xFEE + 1) &&& (4096 - 1)) hlenD (by decide) (by decide)
  have hB := encodeBit_match [5, 5, 0, 0]
    { dictionary := (make 4096).set 0xFEE 5, dictPos := (0xFEE + 1) &&& (4096 - 1),
      srcPos := 0 + 1, controlByte := (0 ||| ((1 <<< 0) % 256)) % 256,
      chunkBlocks := [] ++ [5] } 1 (0xFEE, 3) r.1 r.2 (by decide) hm2 (by decide) hr
  obtain ⟨stB, hstB, hs, hc, hk⟩ : ∃ stB : CompState, encodeBit [5, 5, 0, 0]
      { dictionary := (make 4096).set 0xFEE 5, dictPos := (0xFEE + 1) &&& (4096 - 1),
        srcPos := 0 + 1, controlByte := (0 ||| ((1 <<< 0) % 256)) % 256,
        chunkBlocks := [] ++ [5] } 1 = some stB ∧ stB.srcPos = 4 ∧ stB.controlByte = 1 ∧
      stB.chunkBlocks = [5, 0xEE, 0xF0] := ⟨_, hB, rfl, rfl, rfl⟩
  have hchunk : encodeChunk [5, 5, 0, 0] (make 4096, 0xFEE, 0, [])
      = some (stB.dictionary, stB.dictPos, 4, [1, 5, 0xEE, 0xF0]) := by
    unfold encodeChunk
    rw [if_pos (by decide)]
    have e : List.range 8 = 0 :: 1 :: List.range' 2 6 := by decide
    rw [e, foldlM_cons_some _ _ _ _ _ hA, foldlM_cons_some _ _ _ _ _ hstB,
      foldlM_fix _ stB _ (fun i => encodeBit_done [5, 5, 0, 0] stB i (by rw [hs]; decide)),
      Option.bind_eq_bind, Option.some_bind, hs, hc, hk]
    rfl
  rw [CompressTamsoftLZSS_eq]
  have hlen : [5, 5, 0, 0].length = 3 + 1 := rfl
  rw [hlen, iter, hchunk, Option.some_bind,
    iter_fix _ _ (encodeChunk_done [5, 5, 0, 0] _ (Nat.lt_irrefl 4)) 3]
  rfl

/-- C27 fails on the code: the four bytes `05 05 00 00` are compressed to
`01 05 EE F0` without error, and decompressing that to 4 bytes returns
`05 05 05 05` without error, not the original. -/
theorem TamsoftLZSS_roundtrip_fails :
    CompressTamsoftLZSS [5, 5, 0, 0] = some [1, 5, 0xEE, 0xF0] ∧
    DecompressTamsoftLZSS [1, 5, 0xEE, 0xF0] [5, 5, 0, 0].length
      = some ([5, 5, 5, 5], false) :=
  ⟨CompressTamsoftLZSS_example, DecompressTamsoftLZSS_example⟩

theorem lzDecodeStep_done (data : List Nat) (n : Nat) (st : LzState)
    (h : st.stopped = true ∨ ¬ st.outOff < n) : lzDecodeStep data n st = some st := by
  unfold lzDecodeStep
  rcases h with h | h
  · rw [if_pos h]; rfl
  · by_cases hs : st.stopped = true
    · rw [if_pos hs]; rfl
    · rw [if_neg hs, if_neg h]; rfl

theorem lzDecodeStep_eq (data : List Nat) (n : Nat) (st : LzState)
    (hs : st.stopped = false) (hn : st.outOff < n) :
    lzDecodeStep data n st = (lzReadControl data st).bind
      (fun st => if st.stopped then some st else lzToken data n st) := by
  unfold lzDecodeStep
  rw [if_neg (by rw [hs]; decide), if_pos hn]
  rfl

theorem lzDecodeStep_of (data : List Nat) (n : Nat) (st st1 st2 : LzState)
    (hs : st.stopped = false) (hn : st.outOff < n) (h1 : lzReadControl data st = some st1)
    (hs1 : st1.stopped = false) (h2 : lzToken data n st1 = some st2) :
    lzDecodeStep data n st = some st2 := by
  rw [lzDecodeStep_eq data n st hs hn, h1, Option.some_bind, hs1]
  exact h2

theorem lzReadControl_read (data : List Nat) (st : LzState) (cb : Nat) (hm : st.mask = 0)
    (hi : st.inOff < data.length) (hcb : readAt data st.inOff = some cb) :
    lzReadControl data st = some { st with cb := cb, inOff := st.inOff + 1, mask := 1 } := by
  unfold lzReadControl
  rw [if_pos hm, if_neg (by omega), hcb]
  rfl

theorem lzReadControl_skip (data : List Nat) (st : LzState) (hm : st.mask ≠ 0) :
    lzReadControl data st = some st := by
  unfold lzReadControl
  rw [if_neg hm]
  rfl

theorem lzToken_lit (data : List Nat) (n : Nat) (st : LzState) (val : Nat)
    (hn : st.outOff < n) (hbit : (st.mask &&& st.cb) ≠ 0) (hi : st.inOff < data.length)
    (hval : readAt data st.inOff = some val)
    (hdec : st.outOff < st.dec.length) (hdict : st.dicOff < st.dict.length) :
    lzToken data n st = some { st with
      dec := st.dec.set st.outOff val, dict := st.dict.set st.dicOff val,
      outOff := st.outOff + 1, inOff := st.inOff + 1,
      dicOff := (st.dicOff + 1) &&& 0xFFF, mask := (st.mask <<< 1) % 256 } := by
  unfold lzToken
  rw [if_pos hbit, if_neg (by omega), hval]
  simp only [Option.bind_eq_bind, Option.some_bind, writeAt_of_lt _ _ _ hdec,
    writeAt_of_lt _ _ _ hdict]
  rfl

theorem lzToken_pair (data : List Nat) (n : Nat) (st : LzState) (b1 b2 : Nat)
    (hbit : ¬ (st.mask &&& st.cb) ≠ 0) (hi : st.inOff + 1 < data.length)
    (h1 : readAt data st.inOff = some b1) (h2 : readAt data (st.inOff + 1) = some b2) :
    lzToken data n st = ((List.range ((b2 &&& 0x0F) + 3)).foldlM
      (lzCopyStep n (b1 ||| ((b2 &&& 0xF0) <<< 4))) { st with inOff := st.inOff + 2 }).bind
      (fun st2 => some { st2 with mask := (st2.mask <<< 1) % 256 }) := by
  unfold lzToken
  rw [if_neg hbit, if_neg (by omega), h1, h2]
  rfl

/-- An overlapping copy replicates, here into the preallocated output. -/
theorem lzCopy_run (n loc length v : Nat) (st : LzState)
    (hd : st.dict.length = 4096) (ho : loc + 1 = st.dicOff)
    (hw : st.dicOff + length < 4096) (hv : readAt st.dict loc = some v)
    (hn : st.outOff + length ≤ n) (hdec : st.outOff + length ≤ st.dec.length) :
    ∃ st', (List.range length).foldlM (lzCopyStep n loc) st = some st' ∧
      st'.stopped = st.stopped ∧ st'.outOff = st.outOff + length ∧ st'.mask = st.mask ∧
      st'.dec.length = st.dec.length ∧
      ∀ p, st'.dec[p]? = if st.outOff ≤ p ∧ p < st.outOff + length then some v
        else st.dec[p]? := by
  obtain ⟨st', h, -, -, h3, h4, h5, h6, h7, -⟩ := foldlM_range_inv (lzCopyStep n loc)
    (fun k (s : LzState) => s.dict.length = 4096 ∧ s.dicOff = st.dicOff + k ∧
      s.stopped = st.stopped ∧ s.outOff = st.outOff + k ∧ s.mask = st.mask ∧
      s.dec.length = st.dec.length ∧
      (∀ p, s.dec[p]? = if st.outOff ≤ p ∧ p < st.outOff + k then some v else st.dec[p]?) ∧
      ∀ p, loc ≤ p → p < st.dicOff + k → readAt s.dict p = some v)
    length st
    ⟨hd, rfl, rfl, rfl, rfl, rfl, fun p => by rw [if_neg (by omega)], fun p h1 h2 => by
      have : p = loc := by omega
      rw [this]; exact hv⟩
    (by
      intro k hk s ⟨h1, h2, h3, h4, h5, h6, h7, h8⟩
      have hlt : ¬ s.outOff ≥ n := by omega
      have hidx : (loc + k) &&& 0xFFF = loc + k := by rw [and_4095]; omega
      have hpos : s.dicOff < s.dict.length := by rw [h1, h2]; omega
      have hout : s.outOff < s.dec.length := by rw [h6, h4]; omega
      have hnext : (s.dicOff + 1) &&& 0xFFF = st.dicOff + (k + 1) := by
        rw [and_4095, h2]; omega
      refine ⟨{ s with dec := s.dec.set s.outOff v, dict := s.dict.set s.dicOff v,
                       outOff := s.outOff + 1, dicOff := (s.dicOff + 1) &&& 0xFFF },
        ?_, by simp [h1], hnext, h3, by simp only; omega, h5, by simp [h6], ?_, ?_⟩
      · unfold lzCopyStep
        rw [if_neg hlt]
        simp only [hidx, h8 (loc + k) (by omega) (by omega), Option.bind_eq_bind,
          Option.some_bind, writeAt_of_lt _ _ _ hpos, writeAt_of_lt _ _ _ hout]
        rfl
      · intro p
        simp only
        rw [List.getElem?_set]
        by_cases e : s.outOff = p
        · rw [if_pos e, if_pos (by omega), if_pos ⟨by omega, by omega⟩]
        · rw [if_neg e, h7 p]
          by_cases hp : st.outOff ≤ p ∧ p < st.outOff + k
          · rw [if_pos hp, if_pos ⟨hp.1, by omega⟩]
          · rw [if_neg hp, if_neg (by omega)]
      · intro p hp1 hp2
        by_cases e : s.dicOff = p
        · rw [← e, readAt_set_self _ _ _ hpos]
        · rw [readAt_set_ne _ _ _ _ e]
          exact h8 p hp1 (by omega))
  exact ⟨st', h, h3, h4, h5, h6, h7⟩

/-- The decoding loop on the stream `01 05 EE F0`, from any dictionary `D`
of 4096 bytes: a literal 5 and three copies of it. -/
theorem lzDecode_example (D : List Nat) (hD : D.length = 4096) :
    ∃ st, iter (lzDecodeStep [1, 5, 0xEE, 0xF0] 4) (3 + 1 + 1)
        { dict := D, dec := make 4, inOff := 0, outOff := 0, mask := 0, cb := 0,
          dicOff := 0xFEE, stopped := false } = some st ∧
      st.outOff = 4 ∧ st.dec = [5, 5, 5, 5] := by
  have hA := lzDecodeStep_of [1, 5, 0xEE, 0xF0] 4
    { dict := D, dec := make 4, inOff := 0, outOff := 0, mask := 0, cb := 0,
      dicOff := 0xFEE, stopped := false } _ _ rfl (by dsimp only; decide)
    (lzReadControl_read _ _ 1 rfl (by dsimp only; decide) rfl) rfl
    (lzToken_lit _ 4 _ 5 (by dsimp only; decide) (by dsimp only; decide)
      (by dsimp only; decide) rfl (by dsimp only; decide) (by dsimp only; rw [hD]; decide))
  obtain ⟨st2, hc, c1, c2, c3, c4, c5⟩ := lzCopy_run 4 0xFEE 3 5
    { dict := D.set 0xFEE 5, dec := (make 4).set 0 5, inOff := 0 + 1 + 1 + 2,
      outOff := 0 + 1, mask := (1 <<< 1) % 256, cb := 1, dicOff := (0xFEE + 1) &&& 0xFFF,
      stopped := false }
    (by dsimp only; rw [List.length_set, hD]) (by dsimp only; decide) (by dsimp only; decide)
    (readAt_set_self _ _ _ (by rw [hD]; decide)) (by dsimp only; decide)
    (by dsimp only; decide)
  have hB2 := lzToken_pair [1, 5, 0xEE, 0xF0] 4
    { dict := D.set 0xFEE 5, dec := (make 4).set 0 5, inOff := 0 + 1 + 1,
      outOff := 0 + 1, mask := (1 <<< 1) % 256, cb := 1, dicOff := (0xFEE + 1) &&& 0xFFF,
      stopped := false } 0xEE 0xF0 (by dsimp only; decide) (by dsimp only; decide) rfl rfl
  have e3 : (0xEE ||| ((0xF0 &&& 0xF0) <<< 4)) = 0xFEE := by decide
  have e4 : (0xF0 &&& 0x0F) + 3 = 3 := by decide
  rw [e3, e4, hc, Option.some_bind] at hB2
  have hB := lzDecodeStep_of [1, 5, 0xEE, 0xF0] 4
    { dict := D.set 0xFEE 5, dec := (make 4).set 0 5, inOff := 0 + 1 + 1,
      outOff := 0 + 1, mask := (1 <<< 1) % 256, cb := 1, dicOff := (0xFEE + 1) &&& 0xFFF,
      stopped := false } _ _ rfl (by dsimp only; decide)
    (lzReadControl_skip _ _ (by dsimp only; decide)) rfl hB2
  have hout : st2.outOff = 4 := c2
  have hdec : st2.dec = [5, 5, 5, 5] := by
    apply List.ext_getElem?
    intro p
    rw [c5 p]
    match p with
    | 0 => rfl
    | 1 => rfl
    | 2 => rfl
    | 3 => rfl
    | q + 4 => rw [if_neg (by simp only; omega)]; rfl
  refine ⟨{ st2 with mask := (st2.mask <<< 1) % 256 }, ?_, hout, hdec⟩
  rw [iter, hA, Option.some_bind, iter, hB, Option.some_bind]
  exact iter_fix _ _ (lzDecodeStep_done _ 4 _ (Or.inr (by simp only; omega))) 3

/-- The decompressor on the stream `01 05 EE F0` with the dictionary offset
`0xFEE`: all four bytes are 5. -/
theorem DecompressLZSS_example :
    DecompressLZSS [1, 5, 0xEE, 0xF0] 4 0xFEE = some [5, 5, 5, 5] := by
  obtain ⟨st, hrun, hout, hdec⟩ := lzDecode_example (make 0x1000) (make_length _)
  unfold DecompressLZSS
  rw [foldlM_range_iter]
  have hlen : [1, 5, 0xEE, 0xF0].length + 1 = 3 + 1 + 1 := rfl
  rw [hlen, hrun, Option.bind_eq_bind, Option.some_bind,
    if_neg (fun h => by have := h.2; omega), hdec]
  rfl

theorem lzCompare_mismatch (input dict : List Nat) (inPos d a b m : Nat)
    (ha : readAt input (inPos + 0) = some a) (hb : readAt dict ((d + 0) &&& 0xFFF) = some b)
    (hne : a ≠ b) (hm : 0 < m) :
    (List.range m).foldlM (lzCompareStep input dict inPos d) (0, false) = some (0, true) := by
  obtain ⟨m', rfl⟩ : ∃ m', m = m' + 1 := ⟨m - 1, by omega⟩
  have h0 : lzCompareStep input dict inPos d (0, false) 0 = some (0, true) := by
    unfold lzCompareStep
    simp only [Bool.false_eq_true, if_false, ha, hb, Option.bind_eq_bind, Option.some_bind,
      if_pos hne]
    rfl
  rw [List.range_eq_range', List.range'_succ, foldlM_cons_some _ _ _ _ _ h0]
  exact foldlM_fix _ _ _ (fun i => by unfold lzCompareStep; rfl)

theorem lzCompare_match (input dict : List Nat) (inPos d len i v : Nat)
    (ha : readAt input (inPos + len) = some v)
    (hb : readAt dict ((d + len) &&& 0xFFF) = some v) :
    lzCompareStep input dict inPos d (len, false) i = some (len + 1, false) := by
  unfold lzCompareStep
  simp only [Bool.false_eq_true, if_false, ha, hb, Option.bind_eq_bind, Option.some_bind,
    ne_eq, not_true_eq_false]
  rfl

theorem lzCandidate_zero (input dict : List Nat) (inPos maxMatch d : Nat) (flag : Bool)
    (best : Nat × Nat × Bool) (hb : best.2.2 = false) (h0 : best.1 = 0) (hm : 0 ≠ maxMatch)
    (hr : (List.range maxMatch).foldlM (lzCompareStep input dict inPos d) (0, false)
      = some (0, flag)) :
    lzCandidateStep input dict inPos maxMatch best d = some (0, d, false) := by
  unfold lzCandidateStep
  rw [if_neg (by rw [hb]; decide), hr]
  simp only [Option.bind_eq_bind, Option.some_bind]
  rw [if_pos (by omega), if_neg hm]
  rfl

theorem lzCandidate_full (input dict : List Nat) (inPos maxMatch d : Nat) (flag : Bool)
    (best : Nat × Nat × Bool) (hb : best.2.2 = false) (h0 : best.1 ≤ maxMatch)
    (hr : (List.range maxMatch).foldlM (lzCompareStep input dict inPos d) (0, false)
      = some (maxMatch, flag)) :
    lzCandidateStep input dict inPos maxMatch best d = some (maxMatch, d, true) := by
  unfold lzCandidateStep
  rw [if_neg (by rw [hb]; decide), hr]
  simp only [Option.bind_eq_bind, Option.some_bind]
  rw [if_pos (by omega)]
  rfl

theorem lzCandidate_stopped (input dict : List Nat) (inPos maxMatch d : Nat)
    (best : Nat × Nat × Bool) (hb : best.2.2 = true) :
    lzCandidateStep input dict inPos maxMatch best d = some best := by
  unfold lzCandidateStep
  rw [if_pos hb]
  rfl

/-- No dictionary byte equals the first byte of the input: the best length is 0. -/
theorem lzFindMatch_none (input dict : List Nat) (inPos a : Nat)
    (hmax : 3 ≤ input.length - inPos) (ha : readAt input (inPos + 0) = some a)
    (hno : ∀ d, d < 4096 → ∃ b, readAt dict d = some b ∧ a ≠ b) :
    ∃ m, lzFindMatch input dict inPos = some m ∧ m.1 = 0 := by
  obtain ⟨r, hr, h1, -⟩ := foldlM_range_inv
    (lzCandidateStep input dict inPos
      (if input.length - inPos < 18 then input.length - inPos else 18))
    (fun _ best => best.1 = 0 ∧ best.2.2 = false) 4096 (0, 0, false) ⟨rfl, rfl⟩
    (by
      intro d hd best ⟨h1, h2⟩
      obtain ⟨b, hb, hne⟩ := hno d hd
      have hidx : (d + 0) &&& 0xFFF = d := by rw [and_4095]; omega
      have hpos : 0 < (if input.length - inPos < 18 then input.length - inPos else 18) := by
        split <;> omega
      exact ⟨(0, d, false), lzCandidate_zero input dict inPos _ d true best h2 h1 (by omega)
        (lzCompare_mismatch input dict inPos d a b _ ha (by rw [hidx]; exact hb) hne hpos),
        rfl, rfl⟩)
  refine ⟨(r.1, r.2.1), ?_, h1⟩
  unfold lzFindMatch
  simp only [Option.bind_eq_bind, Option.pure_def]
  rw [if_pos (by split <;> omega), hr]
  rfl

/-- Exactly one dictionary offset starts with the first byte of the input,
and the input matches there to the full length: the search stops at it. -/
theorem lzFindMatch_unique (input dict : List Nat) (inPos a d0 : Nat) (flag : Bool)
    (hmax : 3 ≤ input.length - inPos) (ha : readAt input (inPos + 0) = some a)
    (hd0 : d0 < 4096)
    (hno : ∀ d, d < 4096 → d ≠ d0 → ∃ b, readAt dict d = some b ∧ a ≠ b)
    (hr : (List.range (if input.length - inPos < 18 then input.length - inPos else 18)).foldlM
      (lzCompareStep input dict inPos d0) (0, false)
      = some ((if input.length - inPos < 18 then input.length - inPos else 18), flag)) :
    lzFindMatch input dict inPos
      = some ((if input.length - inPos < 18 then input.length - inPos else 18), d0) := by
  have hpos : 0 < (if input.length - inPos < 18 then input.length - inPos else 18) := by
    split <;> omega
  obtain ⟨r, hr', -, h2⟩ := foldlM_range_inv
    (lzCandidateStep input dict inPos
      (if input.length - inPos < 18 then input.length - inPos else 18))
    (fun k best => (k ≤ d0 → best.1 = 0 ∧ best.2.2 = false) ∧
      (d0 < k → best = ((if input.length - inPos < 18 then input.length - inPos else 18),
        d0, true))) 4096 (0, 0, false)
    ⟨fun _ => ⟨rfl, rfl⟩, fun h => by omega⟩
    (by
      intro d hd best ⟨h1, h2⟩
      rcases Nat.lt_trichotomy d d0 with hlt | heq | hgt
      · obtain ⟨b, hb, hne⟩ := hno d hd (by omega)
        have hidx : (d + 0) &&& 0xFFF = d := by rw [and_4095]; omega
        obtain ⟨b1, b2⟩ := h1 (by omega)
        exact ⟨(0, d, false), lzCandidate_zero input dict inPos _ d true best b2 b1 (by omega)
          (lzCompare_mismatch input dict inPos d a b _ ha (by rw [hidx]; exact hb) hne hpos),
          fun _ => ⟨rfl, rfl⟩, fun h => by omega⟩
      · subst heq
        obtain ⟨b1, b2⟩ := h1 (Nat.le_refl _)
        exact ⟨_, lzCandidate_full input dict inPos _ d flag best b2 (by omega) hr,
          fun h => by omega, fun _ => rfl⟩
      · have hb := h2 hgt
        exact ⟨best, lzCandidate_stopped input dict inPos _ d best (by rw [hb]),
          fun h => by omega, fun _ => hb⟩)
  unfold lzFindMatch
  simp only [Option.bind_eq_bind, Option.pure_def]
  rw [if_pos (by split <;> omega), hr', h2 hd0]
  rfl

theorem lzEnter_total (input : List Nat) (len : Nat) (s : List Nat × Nat × Nat)
    (hd : s.1.length = 4096) (hp : s.2.1 < 4096) (hs : s.2.2 + len ≤ input.length) :
    ∃ r, (List.range len).foldlM (lzEnter input) s = some r ∧ r.2.2 = s.2.2 + len := by
  obtain ⟨r, hr, -, -, h3⟩ := foldlM_range_inv (lzEnter input)
    (fun k r => r.1.length = 4096 ∧ r.2.1 < 4096 ∧ r.2.2 = s.2.2 + k) len s ⟨hd, hp, rfl⟩
    (by
      intro k hk r ⟨h1, h2, h3⟩
      unfold lzEnter
      rw [readAt_of_lt input _ (by omega)]
      simp only [Option.bind_eq_bind, Option.some_bind,
        writeAt_of_lt _ _ _ (show r.2.1 < r.1.length by rw [h1]; exact h2)]
      exact ⟨_, rfl, by simp [h1], by simp only; rw [and_4095]; omega, by simp only; omega⟩)
  exact ⟨r, hr, h3⟩

theorem lzEncodeBit_done (input : List Nat) (st : LzComp) (i : Nat)
    (h : st.inPos ≥ input.length) : lzEncodeBit input st i = some st := by
  unfold lzEncodeBit
  rw [if_pos h]
  rfl

theorem lzEncodeBit_lit (input : List Nat) (st : LzComp) (i val : Nat) (m : Nat × Nat)
    (hs : st.inPos < input.length) (hm : lzFindMatch input st.dict st.inPos = some m)
    (hl : ¬ m.1 ≥ 3) (hv : readAt input st.inPos = some val)
    (hd : st.writePos < st.dict.length) :
    lzEncodeBit input st i = some { st with
      flags := st.flags ||| ((1 <<< i) % 256), out := st.out ++ [val],
      dict := st.dict.set st.writePos val, writePos := (st.writePos + 1) &&& 0xFFF,
      inPos := st.inPos + 1 } := by
  unfold lzEncodeBit
  rw [if_neg (by omega), hm]
  simp only [Option.bind_eq_bind, Option.some_bind, if_neg hl, hv, writeAt_of_lt _ _ _ hd]
  rfl

theorem lzEncodeBit_match (input : List Nat) (st : LzComp) (i : Nat) (m : Nat × Nat)
    (r : List Nat × Nat × Nat)
    (hs : st.inPos < input.length) (hm : lzFindMatch input st.dict st.inPos = some m)
    (hl : m.1 ≥ 3)
    (hr : (List.range m.1).foldlM (lzEnter input) (st.dict, st.writePos, st.inPos) = some r) :
    lzEncodeBit input st i = some { st with
      out := st.out ++ [(m.2 &&& 0xFF) % 256,
        (((m.2 >>> 4) &&& 0xF0) % 256) ||| ((m.1 - 3) % 256)],
      dict := r.1, writePos := r.2.1, inPos := r.2.2 } := by
  unfold lzEncodeBit
  rw [if_neg (by omega), hm]
  simp only [Option.bind_eq_bind, Option.some_bind, if_pos hl, hr]
  rfl

theorem lzEncodeChunk_done (input : List Nat) (st : LzComp) (h : ¬ st.inPos < input.length) :
    lzEncodeChunk input st = some st := by
  unfold lzEncodeChunk
  rw [if_neg h]
  rfl

theorem lzEncodeChunk_of (input : List Nat) (st st' : LzComp)
    (h : st.inPos < input.length)
    (hbits : (List.range 8).foldlM (lzEncodeBit input) { st with out := st.out ++ [0], flags := 0 }
      = some st')
    (hlen : st.out.length < st'.out.length) :
    lzEncodeChunk input st = some { st' with out := st'.out.set st.out.length st'.flags } := by
  unfold lzEncodeChunk
  rw [if_pos h]
  simp only [Option.bind_eq_bind, hbits, Option.some_bind, writeAt_of_lt _ _ _ hlen]
  rfl

theorem CompressLZSS_eq (input : List Nat) (dicOff : Nat) (h : input.length ≠ 0) :
    CompressLZSS input dicOff = (iter (lzEncodeChunk input) input.length
      { out := [], dict := make 4096, inPos := 0, writePos := dicOff, flags := 0 }).bind
      (fun st => if st.inPos < input.length then none else some st.out) := by
  unfold CompressLZSS
  rw [if_neg h, foldlM_range_iter]
  rfl

/-- The encoding loop on `05 05 00 00` from an all-zero dictionary `D`: a
literal 5 and then the pair `(0xFEE, 3)`. -/
theorem lzEncode_example (D : List Nat) (hD : D.length = 4096)
    (hz : ∀ p, p < 4096 → readAt D p = some 0) :
    ∃ st, iter (lzEncodeChunk [5, 5, 0, 0]) (3 + 1)
        { out := [], dict := D, inPos := 0, writePos := 0xFEE, flags := 0 } = some st ∧
      st.inPos = 4 ∧ st.out = [1, 5, 0xEE, 0xF0] := by
  obtain ⟨m1, hm1, hm1z⟩ := lzFindMatch_none [5, 5, 0, 0] D 0 5 (by decide) rfl
    (fun d hd => ⟨0, hz d hd, by decide⟩)
  have hA := lzEncodeBit_lit [5, 5, 0, 0]
    { out := [] ++ [0], dict := D, inPos := 0, writePos := 0xFEE, flags := 0 } 0 5 m1
    (by dsimp only; decide) hm1 (by omega) rfl (by dsimp only; rw [hD]; decide)
  have e : (if [5, 5, 0, 0].length - (0 + 1) < 18 then [5, 5, 0, 0].length - (0 + 1) else 18)
      = 3 := by decide
  have i0 : (0xFEE + 0) &&& 0xFFF = 0xFEE := by decide
  have i1 : (0xFEE + (0 + 1)) &&& 0xFFF = 0xFEF := by decide
  have i2 : (0xFEE + (0 + 1 + 1)) &&& 0xFFF = 0xFF0 := by decide
  have hcmp : (List.range 3).foldlM
      (lzCompareStep [5, 5, 0, 0] (D.set 0xFEE 5) (0 + 1) 0xFEE) (0, false)
      = some (3, false) := by
    have r3 : List.range 3 = [0, 1, 2] := by decide
    rw [r3,
      foldlM_cons_some _ _ _ _ _ (lzCompare_match [5, 5, 0, 0] _ (0 + 1) 0xFEE 0 0 5 rfl
        (by rw [i0]; exact readAt_set_self _ _ _ (by rw [hD]; decide))),
      foldlM_cons_some _ _ _ _ _ (lzCompare_match [5, 5, 0, 0] _ (0 + 1) 0xFEE (0 + 1) 1 0 rfl
        (by rw [i1, readAt_set_ne _ _ _ _ (by decide)]; exact hz _ (by decide))),
      foldlM_cons_some _ _ _ _ _ (lzCompare_match [5, 5, 0, 0] _ (0 + 1) 0xFEE (0 + 1 + 1) 2 0
        rfl (by rw [i2, readAt_set_ne _ _ _ _ (by decide)]; exact hz _ (by decide)))]
    rfl
  have hm2 := lzFindMatch_unique [5, 5, 0, 0] (D.set 0xFEE 5) (0 + 1) 5 0xFEE false
    (by decide) rfl (by decide)
    (fun d hd hne => ⟨0, by rw [readAt_set_ne _ _ _ _ (fun h => hne h.symm)]; exact hz d hd,
      by decide⟩)
    (by rw [e]; exact hcmp)
  rw [e] at hm2
  obtain ⟨r, hr, hr3⟩ := lzEnter_total [5, 5, 0, 0] 3
    (D.set 0xFEE 5, (0xFEE + 1) &&& 0xFFF, 0 + 1)
    (by dsimp only; rw [List.length_set, hD]) (by dsimp only; decide) (by dsimp only; decide)
  have hB := lzEncodeBit_match [5, 5, 0, 0]
    { out := [] ++ [0] ++ [5], dict := D.set 0xFEE 5, inPos := 0 + 1,
      writePos := (0xFEE + 1) &&& 0xFFF, flags := 0 ||| ((1 <<< 0) % 256) } 1 (3, 0xFEE) r
    (by dsimp only; decide) hm2 (by decide) hr
  obtain ⟨stB, hstB, hin, hout, hfl⟩ : ∃ stB : LzComp, lzEncodeBit [5, 5, 0, 0]
      { out := [] ++ [0] ++ [5], dict := D.set 0xFEE 5, inPos := 0 + 1,
        writePos := (0xFEE + 1) &&& 0xFFF, flags := 0 ||| ((1 <<< 0) % 256) } 1 = some stB ∧
      stB.inPos = 4 ∧ stB.out = [0, 5, 0xEE, 0xF0] ∧ stB.flags = 1 :=
    ⟨_, hB, hr3, rfl, rfl⟩
  have hbits : (List.range 8).foldlM (lzEncodeBit [5, 5, 0, 0])
      { out := [] ++ [0], dict := D, inPos := 0, writePos := 0xFEE, flags := 0 }
      = some stB := by
    have e8 : List.range 8 = 0 :: 1 :: List.range' 2 6 := by decide
    rw [e8, foldlM_cons_some _ _ _ _ _ hA, foldlM_cons_some _ _ _ _ _ hstB]
    exact foldlM_fix _ stB _ (fun i => lzEncodeBit_done [5, 5, 0, 0] stB i
      (by rw [hin]; decide))
  have hchunk := lzEncodeChunk_of [5, 5, 0, 0]
    { out := [], dict := D, inPos := 0, writePos := 0xFEE, flags := 0 } stB
    (by dsimp only; decide) hbits (by rw [hout]; dsimp only; decide)
  refine ⟨{ stB with out := stB.out.set 0 stB.flags }, ?_, hin, ?_⟩
  · rw [iter, hchunk, Option.some_bind]
    exact iter_fix _ _ (lzEncodeChunk_done [5, 5, 0, 0] _
      (by dsimp only; rw [hin]; decide)) 3
  · show stB.out.set 0 stB.flags = _
    rw [hout, hfl]
    rfl

/-- The compressor on `05 05 00 00` with the dictionary offset `0xFEE`. -/
theorem CompressLZSS_example : CompressLZSS [5, 5, 0, 0] 0xFEE = some [1, 5, 0xEE, 0xF0] := by
  obtain ⟨st, hrun, hin, hout⟩ := lzEncode_example (make 4096) (make_length _)
    (fun p hp => readAt_make _ p hp)
  rw [CompressLZSS_eq _ _ (by decide)]
  have hlen : [5, 5, 0, 0].length = 3 + 1 := rfl
  rw [hlen, hrun, Option.some_bind, if_neg (by rw [hin]; decide), hout]

/-- C28 fails on the code: with the dictionary offset `0xFEE` the four bytes
`05 05 00 00` are compressed to `01 05 EE F0`, and decompressing that to 4
bytes returns `05 05 05 05`, not the original. -/
theorem ShanaLZSS_roundtrip_fails :
    CompressLZSS [5, 5, 0, 0] 0xFEE = some [1, 5, 0xEE, 0xF0] ∧
    DecompressLZSS [1, 5, 0xEE, 0xF0] [5, 5, 0, 0].length 0xFEE = some [5, 5, 5, 5] :=
  ⟨CompressLZSS_example, DecompressLZSS_example⟩

theorem subPage_length (data : List Nat) (iw ih stride : Nat) :
    (subPage data iw ih stride).length = 8192 := by
  simp [subPage]

theorem subRows_length (page : List Nat) (ow oh stride : Nat) :
    (subRows page ow oh stride).length = oh * ow := by
  simp [subRows]

theorem lin_div {k s t : Nat} (ht : t < s) : (k * s + t) / s = k ∧ (k * s + t) % s = t := by
  have hs : 0 < s := by omega
  constructor
  · rw [Nat.add_comm, Nat.add_mul_div_right _ _ hs, Nat.div_eq_of_lt ht, Nat.zero_add]
  · rw [Nat.add_comm, Nat.add_mul_mod_self_right, Nat.mod_eq_of_lt ht]

theorem stride_fits {k n s l : Nat} (hk : k < n) (hl : l ≤ s) : k * s + l ≤ n * s := by
  have := Nat.mul_le_mul_right s (Nat.succ_le_of_lt hk)
  rw [Nat.succ_mul] at this
  omega

theorem stride_disj {k k' s len : Nat} (hl : len ≤ s) (hne : k ≠ k') :
    k * s + len ≤ k' * s ∨ k' * s + len ≤ k * s := by
  rcases Nat.lt_or_gt_of_ne hne with h | h
  · exact Or.inl (stride_fits h hl)
  · exact Or.inr (stride_fits h hl)

/-- Gathering `ih` rows of `iw` bytes into a fresh page builds `subPage`. -/
theorem gather_sub (data : List Nat) (iw ih stride : Nat) (hiw : 0 < iw) (hle : iw ≤ stride)
    (hfit : ih * stride ≤ 8192) (hlen : data.length = ih * iw) :
    (List.range ih).foldlM (fun inputPage k =>
      if (iw * ih) * 1 * 0 + iw * 0 + k * iw * 1 + iw ≤ data.length
          ∧ k * stride + iw ≤ inputPage.length then do
        let s ← slice data ((iw * ih) * 1 * 0 + iw * 0 + k * iw * 1)
          ((iw * ih) * 1 * 0 + iw * 0 + k * iw * 1 + iw)
        copyAt inputPage (k * stride) s
      else pure inputPage) (make 8192) = some (subPage data iw ih stride) := by
  obtain ⟨r, hr, hl, hval, hkeep⟩ := copyRowsG_spec data (make 8192) ih iw
    (fun k => (iw * ih) * 1 * 0 + iw * 0 + k * iw * 1) (fun k => k * stride)
  rw [make_length] at hl
  have hs : 0 < stride := by omega
  have : r = subPage data iw ih stride := by
    apply List.ext_getElem?
    intro q
    by_cases hq : q < 8192
    · unfold subPage
      rw [List.getElem?_map, List.getElem?_range hq, Option.map_some']
      have hdm : q / stride * stride + q % stride = q := by
        rw [Nat.mul_comm]; exact Nat.div_add_mod q stride
      by_cases hin : q % stride < iw ∧ q / stride < ih
      · rw [if_pos hin]
        have hsrc : q / stride * iw + iw ≤ ih * iw := stride_fits hin.2 (Nat.le_refl _)
        have h1 := hval (fun k k' _ _ hne => stride_disj hle hne) (q / stride) (q % stride)
          hin.2 (by rw [hlen]; omega)
          (by rw [make_length]; have := stride_fits hin.2 hle; omega) hin.1
        rw [hdm] at h1
        rw [h1, getElem?_eq_some_getD _ _ (by rw [hlen]; omega)]
        congr 2
        omega
      · rw [if_neg hin, hkeep q, make_getElem? _ _ hq]
        intro k hk _ _ hcon
        apply hin
        have hk' : q = k * stride + (q - k * stride) := by omega
        have hd := lin_div (k := k) (s := stride) (t := q - k * stride) (by omega)
        rw [← hk'] at hd
        rw [hd.1, hd.2]
        exact ⟨by omega, hk⟩
    · rw [List.getElem?_eq_none (by omega),
        List.getElem?_eq_none (by rw [subPage_length]; omega)]
  rw [← this]
  exact hr

/-- Scattering `oh` rows of `ow` bytes of a page into a buffer of `oh*ow`
bytes yields `subRows`. -/
theorem scatter_sub (op out : List Nat) (ow oh stride : Nat) (how : 0 < ow) (hle : ow ≤ stride)
    (hfit : oh * stride ≤ 8192) (hop : op.length = 8192) (hout : out.length = oh * ow) :
    (List.range oh).foldlM (fun outputData k =>
      if k * stride + ow ≤ op.length
          ∧ (ow * oh) * 1 * 0 + ow * 0 + k * ow * 1 + ow ≤ outputData.length then do
        let s ← slice op (k * stride) (k * stride + ow)
        copyAt outputData ((ow * oh) * 1 * 0 + ow * 0 + k * ow * 1) s
      else pure outputData) out = some (subRows op ow oh stride) := by
  obtain ⟨r, hr, hl, hval, -⟩ := copyRowsG_spec op out oh ow (fun k => k * stride)
    (fun k => (ow * oh) * 1 * 0 + ow * 0 + k * ow * 1)
  have : r = subRows op ow oh stride := by
    apply List.ext_getElem?
    intro p
    by_cases hp : p < oh * ow
    · unfold subRows
      rw [List.getElem?_map, List.getElem?_range hp, Option.map_some']
      have hk : p / ow < oh := Nat.div_lt_of_lt_mul (by rw [Nat.mul_comm]; exact hp)
      have ht : p % ow < ow := Nat.mod_lt _ how
      have hdm : p / ow * ow + p % ow = p := by
        rw [Nat.mul_comm]; exact Nat.div_add_mod p ow
      have hsrc : p / ow * stride + ow ≤ oh * stride := stride_fits hk hle
      have hdst : p / ow * ow + ow ≤ oh * ow := stride_fits hk (Nat.le_refl _)
      have h1 := hval (fun k k' _ _ hne => by
          have := stride_disj (Nat.le_refl ow) hne
          omega) (p / ow) (p % ow) hk
        (by rw [hop]; omega) (by rw [hout]; omega) ht
      have e : (ow * oh) * 1 * 0 + ow * 0 + p / ow * ow * 1 + p % ow = p := by omega
      rw [e] at h1
      rw [h1, getElem?_eq_some_getD _ _ (by rw [hop]; omega)]
    · rw [List.getElem?_eq_none (by omega),
        List.getElem?_eq_none (by rw [subRows_length]; omega)]
  rw [← this]
  exact hr

/-- The page step on an image that lies inside a single page. -/
theorem pageStep_sub (conv : List Nat → Option (List Nat))
    (hconv : ∀ a, a.length = 8192 → ∃ r, conv a = some r ∧ r.length = 8192)
    (data out : List Nat) (iw ih ow oh inStride outStride : Nat)
    (hiw : 0 < iw) (hile : iw ≤ inStride) (hifit : ih * inStride ≤ 8192)
    (hlen : data.length = ih * iw)
    (how : 0 < ow) (hole : ow ≤ outStride) (hofit : oh * outStride ≤ 8192)
    (hout : out.length = oh * ow) :
    pageStep conv data iw ih ow oh 1 inStride outStride out 0 0
      = (conv (subPage data iw ih inStride)).map (fun S => subRows S ow oh outStride) := by
  have hG := gather_sub data iw ih inStride hiw hile hifit hlen
  obtain ⟨S, hS, Sl⟩ := hconv _ (subPage_length data iw ih inStride)
  have hSc := scatter_sub S out ow oh outStride how hole hofit Sl hout
  unfold pageStep
  simp only [Option.bind_eq_bind] at hG hSc ⊢
  rw [hG, Option.some_bind, hS, Option.some_bind, Option.map_some']
  exact hSc

theorem foldlM_range_one {σ : Type} (f : σ → Nat → Option σ) (s : σ) :
    (List.range 1).foldlM f s = f s 0 := by
  have : List.range 1 = [0] := by decide
  rw [this, List.foldlM_cons]
  cases f s 0 <;> rfl

/-- `Swizzle4` on an image that lies inside a single page. -/
theorem Swizzle4_sub (buf : List Nat) (W h : Nat) (hW0 : 0 < W) (hW : W ≤ 32)
    (hh0 : 0 < h) (hh : h ≤ 128) (hlen : buf.length = 2 * W * h) :
    Swizzle4 buf (4 * W) h
      = (swizzle4ConvertPage 128 128 (subPage buf (2 * W) h 64) index32H index32V).map
          (fun S => subRows S (h * 2) W 256) := by
  have e1 : (4 * W - 1) / 128 + 1 = 1 := by omega
  have e2 : (h - 1) / 128 + 1 = 1 := by omega
  have e3 : 4 * W / 2 = 2 * W := by omega
  have e4 : 4 * W / 4 = W := by omega
  rw [Swizzle4_eq, e1, e2, if_pos rfl, if_pos rfl, if_pos rfl, if_pos rfl, e3, e4,
    foldlM_range_one, foldlM_range_one]
  exact pageStep_sub _ swizzlePage_total buf _ (2 * W) h (h * 2) W 64 256 (by omega)
    (by omega) (by omega) (by rw [hlen, Nat.mul_comm]) (by omega) (by omega) (by omega)
    (by rw [make_length, hlen]; ring)

/-- `Unswizzle4` on an image that lies inside a single page. -/
theorem Unswizzle4_sub (s : List Nat) (W h : Nat) (hW0 : 0 < W) (hW : W ≤ 32)
    (hh0 : 0 < h) (hh : h ≤ 128) (hlen : s.length = 2 * W * h) :
    Unswizzle4 s (4 * W) h
      = (unswizzle4ConvertPage 128 128 (subPage s (h * 2) W 256) index32H index32V).map
          (fun U => subRows U (2 * W) h 64) := by
  have e1 : (4 * W - 1) / 128 + 1 = 1 := by omega
  have e2 : (h - 1) / 128 + 1 = 1 := by omega
  have e3 : 4 * W / 2 = 2 * W := by omega
  have e4 : 4 * W / 4 = W := by omega
  rw [Unswizzle4_eq, e1, e2, if_pos rfl, if_pos rfl, if_pos rfl, if_pos rfl, e3, e4,
    foldlM_range_one, foldlM_range_one]
  exact pageStep_sub _ unswizzlePage_total s _ (h * 2) W (2 * W) h 256 64 (by omega)
    (by omega) (by omega) (by rw [hlen]; ring) (by omega) (by omega) (by omega)
    (by rw [make_length, hlen, Nat.mul_comm])

theorem blockBase_index32 :
    ∀ n, n < 32 → blockBase index32H index32V (n / 4) (n % 4) = 2048 * (n % 4) + 32 * (n / 4) := by
  decide

theorem blockBase_eq (i j : Nat) (hi : i < 8) (hj : j < 4) :
    blockBase index32H index32V i j = 2048 * j + 32 * i := by
  have := blockBase_index32 (4 * i + j) (by omega)
  have e1 : (4 * i + j) / 4 = i := by omega
  have e2 : (4 * i + j) % 4 = j := by omega
  rw [e1, e2] at this
  exact this

theorem subPage_getD (data : List Nat) (iw ih stride q : Nat) (hq : q < 8192) :
    (subPage data iw ih stride).getD q 0 =
      if q % stride < iw ∧ q / stride < ih then data.getD (q / stride * iw + q % stride) 0
      else 0 := by
  unfold subPage
  rw [List.getD_eq_getElem?_getD, List.getElem?_map, List.getElem?_range hq, Option.map_some',
    Option.getD_some]

theorem subRows_getD (page : List Nat) (ow oh stride p : Nat) (hp : p < oh * ow) :
    (subRows page ow oh stride).getD p 0 = page.getD (p / ow * stride + p % ow) 0 := by
  unfold subRows
  rw [List.getD_eq_getElem?_getD, List.getElem?_map, List.getElem?_range hp, Option.map_some',
    Option.getD_some]

theorem getD_lt_of_bytes (a : List Nat) (hb : Bytes a) (n : Nat) : a.getD n 0 < 256 := by
  by_cases hn : n < a.length
  · exact hb n hn
  · rw [List.getD_eq_getElem?_getD, List.getElem?_eq_none (by omega)]
    decide

theorem bytes_subPage (data : List Nat) (hb : Bytes data) (iw ih stride : Nat) :
    Bytes (subPage data iw ih stride) := by
  intro q hq
  rw [subPage_length] at hq
  rw [subPage_getD _ _ _ _ _ hq]
  split
  · exact getD_lt_of_bytes data hb _
  · decide

/-- Inside the blocks that an image of `32*Ww` by `16*Hh` pixels occupies, the
swizzled page rebuilt from the kept rows agrees with the swizzled page. -/
theorem gather32_sub (S : List Nat) (Ww Hh i j : Nat) (hW : Ww ≤ 4) (hH : Hh ≤ 8)
    (hi : i < Hh) (hj : j < Ww) :
    gather32 (subPage (subRows S (16 * Hh * 2) (8 * Ww) 256) (16 * Hh * 2) (8 * Ww) 256)
        (blockBase index32H index32V i j)
      = gather32 S (blockBase index32H index32V i j) := by
  rw [blockBase_eq i j (by omega) (by omega)]
  unfold gather32
  apply List.map_congr_left
  intro m hm
  have hm : m < 256 := List.mem_range.1 hm
  have hpos : 2048 * j + 32 * i + 256 * (m / 32) + m % 32
      = (8 * j + m / 32) * 256 + (32 * i + m % 32) := by omega
  have hd := lin_div (k := 8 * j + m / 32) (s := 256) (t := 32 * i + m % 32) (by omega)
  rw [subPage_getD _ _ _ _ _ (by omega), hpos, hd.1, hd.2,
    if_pos ⟨by omega, by omega⟩]
  have hp : (8 * j + m / 32) * (16 * Hh * 2) + (32 * i + m % 32) < 8 * Ww * (16 * Hh * 2) := by
    have := stride_fits (k := 8 * j + m / 32) (n := 8 * Ww) (s := 16 * Hh * 2)
      (l := 32 * i + m % 32 + 1) (by omega) (by omega)
    omega
  have hd2 := lin_div (k := 8 * j + m / 32) (s := 16 * Hh * 2) (t := 32 * i + m % 32)
    (by omega)
  rw [subRows_getD _ _ _ _ _ hp, hd2.1, hd2.2]

/-- The hardware 4bpp round trip on an image of `32*Ww` by `16*Hh` pixels
that lies inside a single page. -/
theorem Unswizzle4_Swizzle4_sub (buf : List Nat) (Ww Hh : Nat) (hW0 : 0 < Ww) (hW : Ww ≤ 4)
    (hH0 : 0 < Hh) (hH : Hh ≤ 8) (hlen : buf.length = 2 * (8 * Ww) * (16 * Hh))
    (hb : Bytes buf) :
    (Swizzle4 buf (4 * (8 * Ww)) (16 * Hh)).bind
      (fun s => Unswizzle4 s (4 * (8 * Ww)) (16 * Hh)) = some buf := by
  have hPl := subPage_length buf (2 * (8 * Ww)) (16 * Hh) 64
  obtain ⟨S, hS, Sl, -⟩ := swizzle4ConvertPage_spec _ index32H index32V hPl index32_ok
  have hrt := page_roundtrip _ index32H index32V hPl index32_ok index32_inj
    (bytes_subPage buf hb (2 * (8 * Ww)) (16 * Hh) 64)
  rw [hS, Option.some_bind] at hrt
  obtain ⟨U0, hU0, -, U0get⟩ := unswizzle4ConvertPage_spec S index32H index32V Sl index32_ok
  rw [hrt] at hU0
  have hU0P := Option.some.inj hU0
  obtain ⟨U, hU, Ul, Uget⟩ := unswizzle4ConvertPage_spec
    (subPage (subRows S (16 * Hh * 2) (8 * Ww) 256) (16 * Hh * 2) (8 * Ww) 256)
    index32H index32V (subPage_length _ _ _ _) index32_ok
  have hsl : (subRows S (16 * Hh * 2) (8 * Ww) 256).length = 2 * (8 * Ww) * (16 * Hh) := by
    rw [subRows_length]; ring
  rw [Swizzle4_sub buf (8 * Ww) (16 * Hh) (by omega) (by omega) (by omega) (by omega) hlen, hS,
    Option.map_some', Option.some_bind,
    Unswizzle4_sub _ (8 * Ww) (16 * Hh) (by omega) (by omega) (by omega) (by omega) hsl, hU,
    Option.map_some']
  refine congrArg some (List.ext_getElem? fun p => ?_)
  have hlen' : buf.length = 16 * Hh * (2 * (8 * Ww)) := by rw [hlen]; ring
  by_cases hp : p < 16 * Hh * (2 * (8 * Ww))
  · rw [getElem?_eq_some_getD _ _ (by rw [subRows_length]; exact hp),
      getElem?_eq_some_getD _ _ (by rw [hlen']; exact hp), subRows_getD _ _ _ _ _ hp]
    have hk : p / (2 * (8 * Ww)) < 16 * Hh :=
      Nat.div_lt_of_lt_mul (by rw [Nat.mul_comm]; exact hp)
    have ht : p % (2 * (8 * Ww)) < 2 * (8 * Ww) := Nat.mod_lt _ (by omega)
    have hdm : p / (2 * (8 * Ww)) * (2 * (8 * Ww)) + p % (2 * (8 * Ww)) = p := by
      rw [Nat.mul_comm]; exact Nat.div_add_mod p _
    generalize p / (2 * (8 * Ww)) = k at hk hdm ⊢
    generalize p % (2 * (8 * Ww)) = t at ht hdm ⊢
    have hn : 16 * (k % 16) + t % 16 < 256 := by omega
    have hq : 1024 * (k / 16) + 16 * (t / 16) + 64 * ((16 * (k % 16) + t % 16) / 16)
        + (16 * (k % 16) + t % 16) % 16 = k * 64 + t := by omega
    have h1 := Uget (k / 16) (t / 16) (16 * (k % 16) + t % 16) (by omega) (by omega) hn
    have h0 := U0get (k / 16) (t / 16) (16 * (k % 16) + t % 16) (by omega) (by omega) hn
    rw [hq] at h1 h0
    rw [gather32_sub S Ww Hh (k / 16) (t / 16) hW hH (by omega) (by omega), ← h0,
      getElem?_eq_some_getD _ _ (by rw [Ul]; omega),
      getElem?_eq_some_getD _ _ (by rw [← hU0P, hPl]; omega)] at h1
    rw [Option.some.inj h1, ← hU0P, subPage_getD _ _ _ _ _ (by omega)]
    have hd := lin_div (k := k) (s := 64) (t := t) (by omega)
    rw [hd.1, hd.2, if_pos ⟨ht, hk⟩, hdm]
  · rw [List.getElem?_eq_none (by rw [subRows_length]; omega),
      List.getElem?_eq_none (by rw [hlen']; omega)]

/-- C23. The hardware 4bpp strategy round-trips on images smaller than one
page: for width 32, 64, 96 or 128, a height that is a positive multiple of 16
and at most 128, and a byte buffer of `width*height/2` bytes,
`Unswizzle4(Swizzle4(buf, w, h), w, h) = buf`. -/
theorem Unswizzle4_Swizzle4_subpage (buf : List Nat) (width height : Nat)
    (hw : width = 32 ∨ width = 64 ∨ width = 96 ∨ width = 128)
    (hh16 : 16 ∣ height) (hh0 : 0 < height) (hh : height ≤ 128)
    (hlen : buf.length = width * height / 2) (hb : Bytes buf) :
    (Swizzle4 buf width height).bind (fun s => Unswizzle4 s width height) = some buf := by
  obtain ⟨Hh, rfl⟩ := hh16
  rcases hw with rfl | rfl | rfl | rfl
  · exact Unswizzle4_Swizzle4_sub buf 1 Hh (by omega) (by omega) (by omega) (by omega)
      (by rw [hlen]; omega) hb
  · exact Unswizzle4_Swizzle4_sub buf 2 Hh (by omega) (by omega) (by omega) (by omega)
      (by rw [hlen]; omega) hb
  · exact Unswizzle4_Swizzle4_sub buf 3 Hh (by omega) (by omega) (by omega) (by omega)
      (by rw [hlen]; omega) hb
  · exact Unswizzle4_Swizzle4_sub buf 4 Hh (by omega) (by omega) (by omega) (by omega)
      (by rw [hlen]; omega) hb

/-- C23 on the 32x16 image of 256 bytes `0xA5`. -/
theorem Unswizzle4_Swizzle4_subpage_witness :
    (32 = 32 ∨ 32 = 64 ∨ 32 = 96 ∨ 32 = 128) ∧ 16 ∣ 16 ∧ 0 < 16 ∧ 16 ≤ 128 ∧
    (List.replicate 256 165).length = 32 * 16 / 2 ∧ Bytes (List.replicate 256 165) ∧
    (Swizzle4 (List.replicate 256 165) 32 16).bind (fun s => Unswizzle4 s 32 16)
      = some (List.replicate 256 165) :=
  ⟨Or.inl rfl, by decide, by decide, by decide, List.length_replicate _ _,
    bytes_replicate 256 165 (by decide),
    Unswizzle4_Swizzle4_subpage (List.replicate 256 165) 32 16 (Or.inl rfl) (by decide)
      (by decide) (by decide) (List.length_replicate _ _) (bytes_replicate 256 165 (by decide))⟩

theorem add64_eq {a b : Nat} (h : a + b < 2 ^ 64) : add64 a b = a + b :=
  Nat.mod_eq_of_lt h

theorem mul64_eq {a b : Nat} (h : a * b < 2 ^ 64) : mul64 a b = a * b :=
  Nat.mod_eq_of_lt h

theorem shl64_eq {a k : Nat} (h : a <<< k < 2 ^ 64) : shl64 a k = a <<< k :=
  Nat.mod_eq_of_lt h

theorem sar64_eq {a : Nat} (k : Nat) (h : a < 2 ^ 63) : sar64 a k = a >>> k := by
  unfold sar64
  rw [if_pos h]

theorem lt64_iff {a b : Nat} (ha : a < 2 ^ 63) (hb : b < 2 ^ 63) :
    lt64 a b = true ↔ a < b := by
  unfold lt64
  rw [decide_eq_true_iff]
  omega

theorem andNot_le (a m : Nat) : andNot a m ≤ a := Nat.sub_le _ _

theorem Swizzle8_i64_eq (data : List Nat) (w h : Nat) :
    Swizzle8_i64 data w h = (List.range h).foldlM (fun o y => (List.range w).foldlM
      (fun o x => move1_i64 data o (addr8_i64 x y w) (add64 (mul64 y w) x)) o)
      (make data.length) := rfl

theorem Unswizzle8_i64_eq (data : List Nat) (w h : Nat) :
    Unswizzle8_i64 data w h = (List.range h).foldlM (fun o y => (List.range w).foldlM
      (fun o x => move1_i64 data o (add64 (mul64 y w) x) (addr8_i64 x y w)) o)
      (make data.length) := by
  unfold Unswizzle8_i64 move1_i64 addr8_i64
  simp only [and_comm]

theorem mul_le_pow28 {a b : Nat} (ha : a ≤ 2 ^ 28) (hb : b ≤ 2 ^ 28) : a * b ≤ 2 ^ 56 :=
  le_trans (Nat.mul_le_mul ha hb) (by decide)

/-- Inside the bounds no sum or product of the 8bpp address leaves the `int`
range: the 64-bit address is the address over the natural numbers. -/
theorem addr8_i64_eq {x y w : Nat} (hx : x < 2 ^ 28) (hy : y < 2 ^ 28) (hw : w ≤ 2 ^ 28) :
    addr8_i64 x y w = addr8 x y w := by
  have h1 := andNot_le y 0xF
  have h2 := andNot_le x 0xF
  have h3 := andNot_le y 3
  have p1 : andNot y 0xF * w ≤ 2 ^ 56 := mul_le_pow28 (by omega) hw
  have a1 : ((andNot y 3) >>> 1 + (y &&& 1)) &&& 0x7 ≤ 7 := Nat.and_le_right
  have p2 : (((andNot y 3) >>> 1 + (y &&& 1)) &&& 0x7) * w ≤ 7 * 2 ^ 28 :=
    Nat.mul_le_mul a1 hw
  have a2 : ((y + 2) >>> 2) &&& 0x1 ≤ 1 := Nat.and_le_right
  have a3 : (x + (((y + 2) >>> 2) &&& 0x1) * 4) &&& 0x7 ≤ 7 := Nat.and_le_right
  have a4 : (y >>> 1) &&& 1 ≤ 1 := Nat.and_le_right
  have a5 : (x >>> 2) &&& 2 ≤ 2 := Nat.and_le_right
  have a6 : y &&& 1 ≤ 1 := Nat.and_le_right
  have s1 : (andNot y 3) >>> 1 ≤ andNot y 3 := by
    rw [Nat.shiftRight_eq_div_pow]; exact Nat.div_le_self _ _
  unfold addr8_i64 addr8
  rw [sar64_eq 1 (show andNot y 3 < 2 ^ 63 by omega), sar64_eq 1 (show y < 2 ^ 63 by omega),
    sar64_eq 2 (show x < 2 ^ 63 by omega), add64_eq (show y + 2 < 2 ^ 64 by omega),
    sar64_eq 2 (show y + 2 < 2 ^ 63 by omega),
    mul64_eq (show andNot y 0xF * w < 2 ^ 64 by omega),
    mul64_eq (show andNot x 0xF * 2 < 2 ^ 64 by omega),
    add64_eq (show andNot y 0xF * w + andNot x 0xF * 2 < 2 ^ 64 by omega),
    add64_eq (show (andNot y 3) >>> 1 + (y &&& 1) < 2 ^ 64 by omega),
    mul64_eq (show (((andNot y 3) >>> 1 + (y &&& 1)) &&& 0x7) * w < 2 ^ 64 by omega),
    mul64_eq (show (((andNot y 3) >>> 1 + (y &&& 1)) &&& 0x7) * w * 2 < 2 ^ 64 by omega),
    mul64_eq (show (((y + 2) >>> 2) &&& 0x1) * 4 < 2 ^ 64 by omega),
    add64_eq (show x + (((y + 2) >>> 2) &&& 0x1) * 4 < 2 ^ 64 by omega),
    mul64_eq (show ((x + (((y + 2) >>> 2) &&& 0x1) * 4) &&& 0x7) * 4 < 2 ^ 64 by omega),
    add64_eq (show (((andNot y 3) >>> 1 + (y &&& 1)) &&& 0x7) * w * 2
      + ((x + (((y + 2) >>> 2) &&& 0x1) * 4) &&& 0x7) * 4 < 2 ^ 64 by omega),
    add64_eq (show ((y >>> 1) &&& 1) + ((x >>> 2) &&& 2) < 2 ^ 64 by omega),
    add64_eq (show andNot y 0xF * w + andNot x 0xF * 2
      + ((((andNot y 3) >>> 1 + (y &&& 1)) &&& 0x7) * w * 2
        + ((x + (((y + 2) >>> 2) &&& 0x1) * 4) &&& 0x7) * 4) < 2 ^ 64 by omega),
    add64_eq (show andNot y 0xF * w + andNot x 0xF * 2
      + ((((andNot y 3) >>> 1 + (y &&& 1)) &&& 0x7) * w * 2
        + ((x + (((y + 2) >>> 2) &&& 0x1) * 4) &&& 0x7) * 4)
      + (((y >>> 1) &&& 1) + ((x >>> 2) &&& 2)) < 2 ^ 64 by omega)]

theorem addr8_lt_pow60 {x y w : Nat} (hx : x < 2 ^ 28) (hy : y < 2 ^ 28) (hw : w ≤ 2 ^ 28) :
    addr8 x y w < 2 ^ 60 := by
  have h1 := andNot_le y 0xF
  have h2 := andNot_le x 0xF
  have p1 : andNot y 0xF * w ≤ 2 ^ 56 := mul_le_pow28 (by omega) hw
  have a1 : ((andNot y 3) >>> 1 + (y &&& 1)) &&& 0x7 ≤ 7 := Nat.and_le_right
  have p2 : (((andNot y 3) >>> 1 + (y &&& 1)) &&& 0x7) * w ≤ 7 * 2 ^ 28 :=
    Nat.mul_le_mul a1 hw
  have a3 : (x + (((y + 2) >>> 2) &&& 0x1) * 4) &&& 0x7 ≤ 7 := Nat.and_le_right
  have a4 : (y >>> 1) &&& 1 ≤ 1 := Nat.and_le_right
  have a5 : (x >>> 2) &&& 2 ≤ 2 := Nat.and_le_right
  unfold addr8
  omega

theorem lin64_eq {x y w : Nat} (hx : x < 2 ^ 28) (hy : y < 2 ^ 28) (hw : w ≤ 2 ^ 28) :
    add64 (mul64 y w) x = y * w + x := by
  have p : y * w ≤ 2 ^ 56 := mul_le_pow28 (by omega) hw
  rw [mul64_eq (by omega), add64_eq (by omega)]

theorem lin_lt_pow60 {x y w : Nat} (hx : x < 2 ^ 28) (hy : y < 2 ^ 28) (hw : w ≤ 2 ^ 28) :
    y * w + x < 2 ^ 60 := by
  have p : y * w ≤ 2 ^ 56 := mul_le_pow28 (by omega) hw
  omega

theorem move1_i64_eq (data out : List Nat) {d s : Nat} (hd : d < 2 ^ 63) (hs : s < 2 ^ 63)
    (hdata : data.length < 2 ^ 63) (hout : out.length < 2 ^ 63) :
    move1_i64 data out d s = move1 data out d s := by
  unfold move1_i64 move1
  simp only [lt64_iff hd hout, lt64_iff hs hdata]

theorem le64_iff {a b : Nat} (ha : a < 2 ^ 63) (hb : b < 2 ^ 63) :
    le64 a b = true ↔ a ≤ b := by
  unfold le64
  rw [decide_eq_true_iff]
  omega

theorem copyAt_length (dst src r : List Nat) (off : Nat) (h : copyAt dst off src = some r) :
    r.length = dst.length := by
  unfold copyAt at h
  split at h
  · cases h
    simp only [List.length_append, List.length_take, List.length_drop]
    omega
  · cases h

/-- Two loops whose bodies agree on the states that satisfy an invariant of
the second body compute the same result. -/
theorem foldlM_range_agree {σ : Type} (f g : σ → Nat → Option σ) (P : σ → Prop) (n : Nat)
    (init : σ) (h0 : P init)
    (h : ∀ k, k < n → ∀ s, P s → f s k = g s k ∧ ∀ s', g s k = some s' → P s') :
    (List.range n).foldlM f init = (List.range n).foldlM g init ∧
      ∀ s', (List.range n).foldlM g init = some s' → P s' := by
  induction n with
  | zero =>
    refine ⟨rfl, fun s' hs' => ?_⟩
    simp at hs'
    cases hs'
    exact h0
  | succ n ih =>
    obtain ⟨e, hP⟩ := ih (fun k hk => h k (by omega))
    rw [List.range_succ, List.foldlM_append, List.foldlM_append, e]
    cases hg : (List.range n).foldlM g init with
    | none => exact ⟨rfl, fun s' hs' => by simp at hs'⟩
    | some s =>
      obtain ⟨e', hP'⟩ := h n (by omega) s (hP s hg)
      simp only [Option.bind_eq_bind, Option.some_bind, List.foldlM_cons, List.foldlM_nil,
        Option.bind_some, e']
      refine ⟨trivial, fun s' hs' => hP' s' ?_⟩
      simpa using hs'

theorem Swizzle16_i64_eq (data : List Nat) (w h : Nat) :
    Swizzle16_i64 data w h = (List.range h).foldlM (fun o y => (List.range w).foldlM
      (fun o x => move2_i64 data o (pixel16Offset_i64 x y w) (add64 (mul64 y w) x)) o)
      (make data.length) := rfl

theorem Unswizzle16_i64_eq (data : List Nat) (w h : Nat) :
    Unswizzle16_i64 data w h = (List.range h).foldlM (fun o y => (List.range w).foldlM
      (fun o x => move2_i64 data o (add64 (mul64 y w) x) (pixel16Offset_i64 x y w)) o)
      (make data.length) := by
  unfold Unswizzle16_i64 move2_i64
  simp only [and_comm]

theorem Swizzle32_i64_eq (data : List Nat) (w h : Nat) :
    Swizzle32_i64 data w h = (List.range h).foldlM (fun o y => (List.range w).foldlM
      (fun o x => move4_i64 data o (addr8_i64 x y w) (add64 (mul64 y w) x)) o)
      (make data.length) := rfl

theorem Unswizzle32_i64_eq (data : List Nat) (w h : Nat) :
    Unswizzle32_i64 data w h = (List.range h).foldlM (fun o y => (List.range w).foldlM
      (fun o x => move4_i64 data o (add64 (mul64 y w) x) (addr8_i64 x y w)) o)
      (make data.length) := by
  unfold Unswizzle32_i64 move4_i64 addr8_i64
  simp only [and_comm]

theorem move2_i64_eq (data out : List Nat) {d s : Nat} (hd : d < 2 ^ 62) (hs : s < 2 ^ 62)
    (hdata : data.length < 2 ^ 63) (hout : out.length < 2 ^ 63) :
    move2_i64 data out d s = move2 data out d s := by
  unfold move2_i64 move2
  rw [mul64_eq (show d * 2 < 2 ^ 64 by omega), mul64_eq (show s * 2 < 2 ^ 64 by omega),
    add64_eq (show d * 2 + 1 < 2 ^ 64 by omega), add64_eq (show s * 2 + 1 < 2 ^ 64 by omega)]
  simp only [lt64_iff (show d * 2 + 1 < 2 ^ 63 by omega) hout,
    lt64_iff (show s * 2 + 1 < 2 ^ 63 by omega) hdata]

theorem move4_i64_eq (data out : List Nat) {d s : Nat} (hd : d < 2 ^ 60) (hs : s < 2 ^ 60)
    (hdata : data.length < 2 ^ 63) (hout : out.length < 2 ^ 63) :
    move4_i64 data out d s = move4 data out d s := by
  unfold move4_i64 move4
  rw [mul64_eq (show d * 4 < 2 ^ 64 by omega), mul64_eq (show s * 4 < 2 ^ 64 by omega),
    add64_eq (show d * 4 + 3 < 2 ^ 64 by omega), add64_eq (show s * 4 + 3 < 2 ^ 64 by omega),
    add64_eq (show d * 4 + 4 < 2 ^ 64 by omega), add64_eq (show s * 4 + 4 < 2 ^ 64 by omega)]
  simp only [lt64_iff (show d * 4 + 3 < 2 ^ 63 by omega) hout,
    lt64_iff (show s * 4 + 3 < 2 ^ 63 by omega) hdata]

theorem mul_le_of {a b A B C : Nat} (ha : a ≤ A) (hb : b ≤ B) (hC : A * B ≤ C) : a * b ≤ C :=
  le_trans (Nat.mul_le_mul ha hb) hC

/-- Inside the bounds the 64-bit element offset is the offset over the
natural numbers, and it is below `2^62`. -/
theorem pixel16Offset_i64_eq {x y w : Nat} (hx : x < 2 ^ 28) (hy : y < 2 ^ 28)
    (hw : w ≤ 2 ^ 28) :
    pixel16Offset_i64 x y w = pixel16Offset x y w ∧ pixel16Offset x y w < 2 ^ 62 := by
  have a1 : y &&& 0x38 ≤ 0x38 := Nat.and_le_right
  have a2 : x &&& 0x07 ≤ 0x07 := Nat.and_le_right
  have a3 : x &&& 0x30 ≤ 0x30 := Nat.and_le_right
  have a4 : y &&& 0x07 ≤ 0x07 := Nat.and_le_right
  have a5 : x &&& 0x08 ≤ 0x08 := Nat.and_le_right
  have s1 : (x >>> 6) <<< 6 ≤ x := by
    rw [Nat.shiftLeft_eq, Nat.shiftRight_eq_div_pow]; exact Nat.div_mul_le_self _ _
  have s2 : (y >>> 6) <<< 5 ≤ y := by
    rw [Nat.shiftLeft_eq, Nat.shiftRight_eq_div_pow]
    have := Nat.div_mul_le_self y (2 ^ 6)
    omega
  have s3 : (x &&& 0x30) >>> 1 ≤ 0x30 := by
    rw [Nat.shiftRight_eq_div_pow]; exact le_trans (Nat.div_le_self _ _) a3
  have s4 : (x &&& 0x08) <<< 1 ≤ 16 := by
    rw [Nat.shiftLeft_eq]; omega
  have p0 : y * w ≤ 2 ^ 56 := mul_le_pow28 (by omega) hw
  have p1 : ((y >>> 6) <<< 5 + ((x &&& 0x30) >>> 1 + (y &&& 0x07))) * w
      ≤ 2 ^ 56 + 2 ^ 34 :=
    mul_le_of (A := 2 ^ 28 + 55) (by omega) hw (by decide)
  unfold pixel16Offset_i64 pixel16Offset
  by_cases h16 : 16 ≤ w
  · rw [if_pos ((le64_iff (by decide) (by omega)).2 h16), if_pos h16]
    simp only []
    rw [sar64_eq 6 (show x < 2 ^ 63 by omega), sar64_eq 6 (show y < 2 ^ 63 by omega),
      sar64_eq 1 (show x &&& 0x30 < 2 ^ 63 by omega),
      shl64_eq (show (x >>> 6) <<< 6 < 2 ^ 64 by omega),
      shl64_eq (show (y >>> 6) <<< 5 < 2 ^ 64 by omega),
      shl64_eq (show (x &&& 0x08) <<< 1 < 2 ^ 64 by omega),
      add64_eq (show (y &&& 0x38) + (x &&& 0x07) < 2 ^ 64 by omega),
      add64_eq (show (x &&& 0x30) >>> 1 + (y &&& 0x07) < 2 ^ 64 by omega),
      add64_eq (show (x >>> 6) <<< 6 + ((y &&& 0x38) + (x &&& 0x07)) < 2 ^ 64 by omega),
      add64_eq (show (y >>> 6) <<< 5 + ((x &&& 0x30) >>> 1 + (y &&& 0x07)) < 2 ^ 64 by omega),
      mul64_eq (show ((y >>> 6) <<< 5 + ((x &&& 0x30) >>> 1 + (y &&& 0x07))) * w < 2 ^ 64
        by omega),
      add64_eq (show ((y >>> 6) <<< 5 + ((x &&& 0x30) >>> 1 + (y &&& 0x07))) * w
        + ((x >>> 6) <<< 6 + ((y &&& 0x38) + (x &&& 0x07))) < 2 ^ 64 by omega),
      mul64_eq (show 32 * (((y >>> 6) <<< 5 + ((x &&& 0x30) >>> 1 + (y &&& 0x07))) * w
        + ((x >>> 6) <<< 6 + ((y &&& 0x38) + (x &&& 0x07)))) < 2 ^ 64 by omega),
      add64_eq (show 32 * (((y >>> 6) <<< 5 + ((x &&& 0x30) >>> 1 + (y &&& 0x07))) * w
        + ((x >>> 6) <<< 6 + ((y &&& 0x38) + (x &&& 0x07)))) + (x &&& 0x08) <<< 1 < 2 ^ 64
        by omega)]
    exact ⟨rfl, by omega⟩
  · have hn : ¬ le64 16 w = true := fun hc => h16 ((le64_iff (by decide) (by omega)).1 hc)
    rw [if_neg hn, if_neg h16, mul64_eq (show y * w < 2 ^ 64 by omega),
      add64_eq (show y * w + x < 2 ^ 64 by omega),
      mul64_eq (show 32 * (y * w + x) < 2 ^ 64 by omega),
      add64_eq (show 32 * (y * w + x) + 0 < 2 ^ 64 by omega)]
    exact ⟨rfl, by omega⟩

/-- A per-pixel loop whose body agrees with a body that meets `StepSpec`, on
the pixels of the image and on buffers of the length of the input, computes
the same result. -/
theorem moveLoop_agree (b : Nat) (data : List Nat) (d s : Nat → Nat → Nat)
    (f g : List Nat → Nat → Nat → Option (List Nat)) (hf : StepSpec b data d s f) (w h : Nat)
    (hagree : ∀ y x, y < h → x < w → ∀ o, o.length = data.length → g o y x = f o y x) :
    (List.range h).foldlM (fun o y => (List.range w).foldlM (fun o x => g o y x) o)
        (make data.length)
      = (List.range h).foldlM (fun o y => (List.range w).foldlM (fun o x => f o y x) o)
        (make data.length) := by
  have htot : ∀ y x o, o.length = data.length →
      ∃ o', f o y x = some o' ∧ o'.length = data.length := by
    intro y x o ho
    by_cases hfit : Fits b data.length (d x y) (s x y)
    · obtain ⟨o', ho', hm⟩ := (hf o y x ho).1 hfit
      exact ⟨o', ho', hm.1.trans ho⟩
    · exact ⟨o, (hf o y x ho).2 hfit, ho⟩
  apply foldlM_range2_same g f data.length h w (make data.length) (make_length _)
  · intro y x hy hx o ho
    refine ⟨hagree y x hy hx o ho, fun o' ho' => ?_⟩
    obtain ⟨o'', e, hl⟩ := htot y x o ho
    rw [e] at ho'
    cases ho'
    exact hl
  · intro y x hy hx o ho
    obtain ⟨o', e, -⟩ := htot y x o ho
    exact ⟨o', e⟩

theorem Swizzle8_i64_agree (data : List Nat) (w h : Nat) (hw : w ≤ 2 ^ 28) (hh : h ≤ 2 ^ 28)
    (hlen : data.length < 2 ^ 63) : Swizzle8_i64 data w h = Swizzle8 data w h := by
  rw [Swizzle8_i64_eq, Swizzle8_eq]
  refine moveLoop_agree 1 data (fun x y => addr8 x y w) (fun x y => y * w + x) _ _
    (move1_spec data _ _) w h (fun y x hy hx o ho => ?_)
  have hx' : x < 2 ^ 28 := by omega
  have hy' : y < 2 ^ 28 := by omega
  have h1 := addr8_lt_pow60 hx' hy' hw
  have h2 := lin_lt_pow60 hx' hy' hw
  show move1_i64 data o (addr8_i64 x y w) (add64 (mul64 y w) x) = _
  rw [addr8_i64_eq hx' hy' hw, lin64_eq hx' hy' hw]
  exact move1_i64_eq data o (by omega) (by omega) hlen (by omega)

theorem Unswizzle8_i64_agree (data : List Nat) (w h : Nat) (hw : w ≤ 2 ^ 28) (hh : h ≤ 2 ^ 28)
    (hlen : data.length < 2 ^ 63) : Unswizzle8_i64 data w h = Unswizzle8 data w h := by
  rw [Unswizzle8_i64_eq, Unswizzle8_eq]
  refine moveLoop_agree 1 data (fun x y => y * w + x) (fun x y => addr8 x y w) _ _
    (move1_spec data _ _) w h (fun y x hy hx o ho => ?_)
  have hx' : x < 2 ^ 28 := by omega
  have hy' : y < 2 ^ 28 := by omega
  have h1 := addr8_lt_pow60 hx' hy' hw
  have h2 := lin_lt_pow60 hx' hy' hw
  show move1_i64 data o (add64 (mul64 y w) x) (addr8_i64 x y w) = _
  rw [addr8_i64_eq hx' hy' hw, lin64_eq hx' hy' hw]
  exact move1_i64_eq data o (by omega) (by omega) hlen (by omega)

theorem Swizzle16_i64_agree (data : List Nat) (w h : Nat) (hw : w ≤ 2 ^ 28) (hh : h ≤ 2 ^ 28)
    (hlen : data.length < 2 ^ 63) : Swizzle16_i64 data w h = Swizzle16 data w h := by
  rw [Swizzle16_i64_eq, Swizzle16_eq]
  refine moveLoop_agree 2 data (fun x y => pixel16Offset x y w) (fun x y => y * w + x) _ _
    (move2_spec data _ _) w h (fun y x hy hx o ho => ?_)
  have hx' : x < 2 ^ 28 := by omega
  have hy' : y < 2 ^ 28 := by omega
  obtain ⟨e1, h1⟩ := pixel16Offset_i64_eq hx' hy' hw
  have h2 := lin_lt_pow60 hx' hy' hw
  show move2_i64 data o (pixel16Offset_i64 x y w) (add64 (mul64 y w) x) = _
  rw [e1, lin64_eq hx' hy' hw]
  exact move2_i64_eq data o h1 (by omega) hlen (by omega)

theorem Unswizzle16_i64_agree (data : List Nat) (w h : Nat) (hw : w ≤ 2 ^ 28)
    (hh : h ≤ 2 ^ 28) (hlen : data.length < 2 ^ 63) :
    Unswizzle16_i64 data w h = Unswizzle16 data w h := by
  rw [Unswizzle16_i64_eq, Unswizzle16_eq]
  refine moveLoop_agree 2 data (fun x y => y * w + x) (fun x y => pixel16Offset x y w) _ _
    (move2_spec data _ _) w h (fun y x hy hx o ho => ?_)
  have hx' : x < 2 ^ 28 := by omega
  have hy' : y < 2 ^ 28 := by omega
  obtain ⟨e1, h1⟩ := pixel16Offset_i64_eq hx' hy' hw
  have h2 := lin_lt_pow60 hx' hy' hw
  show move2_i64 data o (add64 (mul64 y w) x) (pixel16Offset_i64 x y w) = _
  rw [e1, lin64_eq hx' hy' hw]
  exact move2_i64_eq data o (by omega) h1 hlen (by omega)

theorem Swizzle32_i64_agree (data : List Nat) (w h : Nat) (hw : w ≤ 2 ^ 28) (hh : h ≤ 2 ^ 28)
    (hlen : data.length < 2 ^ 63) : Swizzle32_i64 data w h = Swizzle32 data w h := by
  rw [Swizzle32_i64_eq, Swizzle32_eq]
  refine moveLoop_agree 4 data (fun x y => addr8 x y w) (fun x y => y * w + x) _ _
    (move4_spec data _ _) w h (fun y x hy hx o ho => ?_)
  have hx' : x < 2 ^ 28 := by omega
  have hy' : y < 2 ^ 28 := by omega
  have h1 := addr8_lt_pow60 hx' hy' hw
  have h2 := lin_lt_pow60 hx' hy' hw
  show move4_i64 data o (addr8_i64 x y w) (add64 (mul64 y w) x) = _
  rw [addr8_i64_eq hx' hy' hw, lin64_eq hx' hy' hw]
  exact move4_i64_eq data o h1 h2 hlen (by omega)

theorem Unswizzle32_i64_agree (data : List Nat) (w h : Nat) (hw : w ≤ 2 ^ 28)
    (hh : h ≤ 2 ^ 28) (hlen : data.length < 2 ^ 63) :
    Unswizzle32_i64 data w h = Unswizzle32 data w h := by
  rw [Unswizzle32_i64_eq, Unswizzle32_eq]
  refine moveLoop_agree 4 data (fun x y => y * w + x) (fun x y => addr8 x y w) _ _
    (move4_spec data _ _) w h (fun y x hy hx o ho => ?_)
  have hx' : x < 2 ^ 28 := by omega
  have hy' : y < 2 ^ 28 := by omega
  have h1 := addr8_lt_pow60 hx' hy' hw
  have h2 := lin_lt_pow60 hx' hy' hw
  show move4_i64 data o (add64 (mul64 y w) x) (addr8_i64 x y w) = _
  rw [addr8_i64_eq hx' hy' hw, lin64_eq hx' hy' hw]
  exact move4_i64_eq data o h2 h1 hlen (by omega)

/-- A loop fails when one of its iterations fails on every state that the
earlier iterations can produce. -/
theorem foldlM_range_fail {σ : Type} (f : σ → Nat → Option σ) (P : σ → Prop) (n m : Nat)
    (hm : m < n) (init : σ) (h0 : P init)
    (hstep : ∀ k, k < m → ∀ s, P s → ∃ s', f s k = some s' ∧ P s')
    (hfail : ∀ s, P s → f s m = none) :
    (List.range n).foldlM f init = none := by
  induction n with
  | zero => omega
  | succ n ih =>
    rw [List.range_succ, List.foldlM_append]
    by_cases hlt : m < n
    · rw [ih hlt]
      rfl
    · have e : m = n := by omega
      subst e
      obtain ⟨s, hs, hP⟩ := foldlM_range_inv f (fun _ s => P s) m init h0
        (fun k hk s hs => hstep k hk s hs)
      rw [hs]
      simp [hfail s hP]

theorem move2_total (data o : List Nat) (d s : Nat) (ho : o.length = data.length) :
    ∃ o', move2 data o d s = some o' ∧ o'.length = o.length := by
  by_cases hfit : Fits 2 data.length d s
  · obtain ⟨o', ho', hm⟩ := (move2_spec data (fun _ _ => d) (fun _ _ => s) o 0 0 ho).1 hfit
    exact ⟨o', ho', hm.1⟩
  · exact ⟨o, (move2_spec data (fun _ _ => d) (fun _ _ => s) o 0 0 ho).2 hfit, rfl⟩

/-- The first sixteen pixels of row 0 of an image of width `2^54` have element
offsets far below the `int` range. -/
theorem pixel16Offset_i64_row0 :
    ∀ x, x < 16 → pixel16Offset_i64 x 0 (2 ^ 54) < 2 ^ 62 ∧
      add64 (mul64 0 (2 ^ 54)) x = x := by
  decide

/-- At width `2^54` the element offset of pixel `(16, 0)` is `2^62`; doubled,
it is the bit pattern `2^63` of the most negative `int`, which passes the
guard `srcIdx+1 < len(data)`. -/
theorem pixel16Offset_i64_wraps :
    pixel16Offset_i64 16 0 (2 ^ 54) = 2 ^ 62 ∧
    mul64 (pixel16Offset_i64 16 0 (2 ^ 54)) 2 = 2 ^ 63 ∧
    lt64 (add64 (mul64 (pixel16Offset_i64 16 0 (2 ^ 54)) 2) 1) 64 = true ∧
    mul64 (add64 (mul64 0 (2 ^ 54)) 16) 2 = 32 ∧
    lt64 (add64 (mul64 (add64 (mul64 0 (2 ^ 54)) 16) 2) 1) 64 = true := by
  decide

theorem Unswizzle16_i64_overflow :
    Unswizzle16_i64 (List.replicate 64 0) (2 ^ 54) 1 = none := by
  rw [Unswizzle16_i64_eq]
  have hinner : ∀ o : List Nat, o.length = 64 →
      (List.range (2 ^ 54)).foldlM (fun o x => move2_i64 (List.replicate 64 0) o
        (add64 (mul64 0 (2 ^ 54)) x) (pixel16Offset_i64 x 0 (2 ^ 54))) o = none := by
    intro o ho
    apply foldlM_range_fail _ (fun o => o.length = 64) (2 ^ 54) 16 (by decide) o ho
    · intro k hk s hs
      obtain ⟨h1, h2⟩ := pixel16Offset_i64_row0 k hk
      rw [h2, move2_i64_eq _ _ (by omega) h1 (by rw [List.length_replicate]; decide)
        (by omega)]
      obtain ⟨o', ho', hl⟩ := move2_total (List.replicate 64 0) s k
        (pixel16Offset_i64 k 0 (2 ^ 54)) (by rw [hs, List.length_replicate])
      exact ⟨o', ho', hl.trans hs⟩
    · intro s hs
      obtain ⟨-, h2, h3, h4, h5⟩ := pixel16Offset_i64_wraps
      unfold move2_i64
      rw [List.length_replicate, hs, if_pos ⟨h5, h3⟩, h2]
      rfl
  rw [show List.range 1 = [0] from rfl, List.foldlM_cons,
    hinner (make (List.replicate 64 0).length) (by rw [make_length, List.length_replicate])]
  rfl

theorem Swizzle16_i64_overflow :
    Swizzle16_i64 (List.replicate 64 0) (2 ^ 54) 1 = none := by
  rw [Swizzle16_i64_eq]
  have hinner : ∀ o : List Nat, o.length = 64 →
      (List.range (2 ^ 54)).foldlM (fun o x => move2_i64 (List.replicate 64 0) o
        (pixel16Offset_i64 x 0 (2 ^ 54)) (add64 (mul64 0 (2 ^ 54)) x)) o = none := by
    intro o ho
    apply foldlM_range_fail _ (fun o => o.length = 64) (2 ^ 54) 16 (by decide) o ho
    · intro k hk s hs
      obtain ⟨h1, h2⟩ := pixel16Offset_i64_row0 k hk
      rw [h2, move2_i64_eq _ _ h1 (by omega) (by rw [List.length_replicate]; decide)
        (by omega)]
      obtain ⟨o', ho', hl⟩ := move2_total (List.replicate 64 0) s
        (pixel16Offset_i64 k 0 (2 ^ 54)) k (by rw [hs, List.length_replicate])
      exact ⟨o', ho', hl.trans hs⟩
    · intro s hs
      obtain ⟨-, h2, h3, h4, h5⟩ := pixel16Offset_i64_wraps
      unfold move2_i64
      rw [List.length_replicate, hs, if_pos ⟨h3, h5⟩, h2, h4]
      have hr : readAt (List.replicate 64 0) 32 = some 0 := by decide
      have hw : ∀ v, writeAt s (2 ^ 63) v = none := by
        intro v
        unfold writeAt
        rw [if_neg (by rw [hs]; decide)]
      simp only [hr, Option.bind_eq_bind, Option.some_bind, hw, Option.none_bind]
  rw [show List.range 1 = [0] from rfl, List.foldlM_cons,
    hinner (make (List.replicate 64 0).length) (by rw [make_length, List.length_replicate])]
  rfl

/-- Inside the bounds the 64-bit row offset of a page loop is the offset over
the natural numbers, and it is below `2^62`. -/
theorem pageOff64_eq {a b P i j k : Nat} (ha : a ≤ 256) (hb : b ≤ 128) (hP : P ≤ 2 ^ 22)
    (hi : i ≤ 2 ^ 22) (hj : j ≤ 2 ^ 22) (hk : k ≤ 128) :
    add64 (add64 (mul64 (mul64 (mul64 a b) P) i) (mul64 a j)) (mul64 (mul64 k a) P)
      = a * b * P * i + a * j + k * a * P ∧ a * b * P * i + a * j + k * a * P < 2 ^ 62 := by
  have p1 : a * b ≤ 2 ^ 15 := mul_le_of ha hb (by decide)
  have p2 : a * b * P ≤ 2 ^ 37 := mul_le_of p1 hP (by decide)
  have p3 : a * b * P * i ≤ 2 ^ 59 := mul_le_of p2 hi (by decide)
  have p4 : a * j ≤ 2 ^ 30 := mul_le_of ha hj (by decide)
  have p5 : k * a ≤ 2 ^ 15 := mul_le_of hk ha (by decide)
  have p6 : k * a * P ≤ 2 ^ 37 := mul_le_of p5 hP (by decide)
  rw [mul64_eq (show a * b < 2 ^ 64 by omega), mul64_eq (show a * b * P < 2 ^ 64 by omega),
    mul64_eq (show a * b * P * i < 2 ^ 64 by omega), mul64_eq (show a * j < 2 ^ 64 by omega),
    mul64_eq (show k * a < 2 ^ 64 by omega), mul64_eq (show k * a * P < 2 ^ 64 by omega),
    add64_eq (show a * b * P * i + a * j < 2 ^ 64 by omega),
    add64_eq (show a * b * P * i + a * j + k * a * P < 2 ^ 64 by omega)]
  exact ⟨rfl, by omega⟩

theorem rowOff64_eq {k t a : Nat} (hk : k ≤ 128) (ht : t ≤ 256) (ha : a ≤ 256) :
    mul64 k t = k * t ∧ add64 (k * t) a = k * t + a ∧ k * t + a < 2 ^ 62 := by
  have p : k * t ≤ 2 ^ 15 := mul_le_of hk ht (by decide)
  rw [mul64_eq (show k * t < 2 ^ 64 by omega), add64_eq (show k * t + a < 2 ^ 64 by omega)]
  exact ⟨rfl, rfl, by omega⟩

theorem copyStep_length (c : Prop) [Decidable c] (src dst : List Nat) (lo hi off : Nat)
    (r : List Nat)
    (h : (if c then do
        let s ← slice src lo hi
        copyAt dst off s
      else pure dst) = some r) : r.length = dst.length := by
  split at h
  · cases hs : slice src lo hi with
    | none => rw [hs] at h; cases h
    | some s =>
      rw [hs] at h
      exact copyAt_length dst s r off h
  · cases h
    rfl

theorem bind_agree {α β : Type} (x : Option α) (f g : α → Option β)
    (h : ∀ a, x = some a → f a = g a) : x.bind f = x.bind g := by
  cases x with
  | none => rfl
  | some a => exact h a rfl

/-- Inside the bounds the page step with 64-bit offsets is the page step over
the natural numbers. -/
theorem pageStep_i64_agree (conv : List Nat → Option (List Nat))
    (hconv : ∀ a, a.length = 8192 → ∃ r, conv a = some r ∧ r.length = 8192)
    (data : List Nat) (iw ih ow oh P is os : Nat) (out : List Nat) (i j : Nat)
    (hiw : iw ≤ 256) (hih : ih ≤ 128) (how : ow ≤ 256) (hoh : oh ≤ 128) (hP : P ≤ 2 ^ 22)
    (hi : i ≤ 2 ^ 22) (hj : j ≤ 2 ^ 22) (his : is ≤ 256) (hos : os ≤ 256)
    (hdata : data.length < 2 ^ 63) (hout : out.length < 2 ^ 63) :
    pageStep_i64 conv data iw ih ow oh P is os out i j
      = pageStep conv data iw ih ow oh P is os out i j := by
  unfold pageStep_i64 pageStep
  simp only [Option.bind_eq_bind]
  obtain ⟨e1, hl1⟩ := foldlM_range_agree
    (fun inputPage k =>
      if le64 (add64 (add64 (add64 (mul64 (mul64 (mul64 iw ih) P) i) (mul64 iw j))
            (mul64 (mul64 k iw) P)) iw) data.length
          ∧ le64 (add64 (mul64 k is) iw) inputPage.length then
        (slice data (add64 (add64 (mul64 (mul64 (mul64 iw ih) P) i) (mul64 iw j))
            (mul64 (mul64 k iw) P))
          (add64 (add64 (add64 (mul64 (mul64 (mul64 iw ih) P) i) (mul64 iw j))
            (mul64 (mul64 k iw) P)) iw)).bind (fun s => copyAt inputPage (mul64 k is) s)
      else pure inputPage)
    (fun inputPage k =>
      if iw * ih * P * i + iw * j + k * iw * P + iw ≤ data.length
          ∧ k * is + iw ≤ inputPage.length then
        (slice data (iw * ih * P * i + iw * j + k * iw * P)
          (iw * ih * P * i + iw * j + k * iw * P + iw)).bind
          (fun s => copyAt inputPage (k * is) s)
      else pure inputPage)
    (fun pg => pg.length = 8192) ih (make 8192) (make_length _)
    (fun k hk pg hpg => by
      obtain ⟨o1, o2⟩ := pageOff64_eq (b := ih) (P := P) (i := i) (j := j) (k := k) hiw hih hP
        hi hj (by omega)
      obtain ⟨r1, r2, r3⟩ := rowOff64_eq (k := k) (t := is) (a := iw) (by omega) his hiw
      constructor
      · dsimp only
        rw [o1, r1, r2, add64_eq (show iw * ih * P * i + iw * j + k * iw * P + iw < 2 ^ 64
          by omega)]
        simp only [le64_iff (show iw * ih * P * i + iw * j + k * iw * P + iw < 2 ^ 63
          by omega) hdata, le64_iff (show k * is + iw < 2 ^ 63 by omega)
          (show pg.length < 2 ^ 63 by omega)]
      · intro s' hs'
        dsimp only at hs'
        exact (copyStep_length _ data pg _ _ _ s' hs').trans hpg)
  rw [e1]
  apply bind_agree
  intro pg hpg
  have hpl := hl1 pg hpg
  apply bind_agree
  intro op hop
  have hol : op.length = 8192 := by
    obtain ⟨r, hr, hrl⟩ := hconv pg hpl
    rw [hr] at hop
    cases hop
    exact hrl
  exact (foldlM_range_agree
    (fun outputData k =>
      if le64 (add64 (mul64 k os) ow) op.length
          ∧ le64 (add64 (add64 (add64 (mul64 (mul64 (mul64 ow oh) P) i) (mul64 ow j))
            (mul64 (mul64 k ow) P)) ow) outputData.length then
        (slice op (mul64 k os) (add64 (mul64 k os) ow)).bind (fun s => copyAt outputData
          (add64 (add64 (mul64 (mul64 (mul64 ow oh) P) i) (mul64 ow j))
            (mul64 (mul64 k ow) P)) s)
      else pure outputData)
    (fun outputData k =>
      if k * os + ow ≤ op.length
          ∧ ow * oh * P * i + ow * j + k * ow * P + ow ≤ outputData.length then
        (slice op (k * os) (k * os + ow)).bind (fun s => copyAt outputData
          (ow * oh * P * i + ow * j + k * ow * P) s)
      else pure outputData)
    (fun o => o.length = out.length) oh out rfl
    (fun k hk o ho => by
      obtain ⟨o1, o2⟩ := pageOff64_eq (b := oh) (P := P) (i := i) (j := j) (k := k) how hoh hP
        hi hj (by omega)
      obtain ⟨r1, r2, r3⟩ := rowOff64_eq (k := k) (t := os) (a := ow) (by omega) hos how
      constructor
      · dsimp only
        rw [o1, r1, r2, add64_eq (show ow * oh * P * i + ow * j + k * ow * P + ow < 2 ^ 64
          by omega)]
        simp only [le64_iff (show ow * oh * P * i + ow * j + k * ow * P + ow < 2 ^ 63
          by omega) (show o.length < 2 ^ 63 by omega),
          le64_iff (show k * os + ow < 2 ^ 63 by omega) (show op.length < 2 ^ 63 by omega)]
      · intro s' hs'
        dsimp only at hs'
        exact (copyStep_length _ op o _ _ _ s' hs').trans ho)).1

theorem Swizzle4_i64_eq (data : List Nat) (width height : Nat) :
    Swizzle4_i64 data width height =
      (List.range ((height - 1) / 128 + 1)).foldlM (fun o i =>
        (List.range ((width - 1) / 128 + 1)).foldlM (fun o j =>
          pageStep_i64 (fun a => swizzle4ConvertPage 128 128 a index32H index32V) data
            (if (width - 1) / 128 + 1 = 1 then width / 2 else 64)
            (if (height - 1) / 128 + 1 = 1 then height else 128)
            (if (height - 1) / 128 + 1 = 1 then mul64 height 2 else 256)
            (if (width - 1) / 128 + 1 = 1 then width / 4 else 32)
            ((width - 1) / 128 + 1) 64 256 o i j) o) (make data.length) := by
  unfold Swizzle4_i64
  rw [buildIndex32_eq]
  rfl

theorem Unswizzle4_i64_eq (data : List Nat) (width height : Nat) :
    Unswizzle4_i64 data width height =
      (List.range ((height - 1) / 128 + 1)).foldlM (fun o i =>
        (List.range ((width - 1) / 128 + 1)).foldlM (fun o j =>
          pageStep_i64 (fun a => unswizzle4ConvertPage 128 128 a index32H index32V) data
            (if (height - 1) / 128 + 1 = 1 then mul64 height 2 else 256)
            (if (width - 1) / 128 + 1 = 1 then width / 4 else 32)
            (if (width - 1) / 128 + 1 = 1 then width / 2 else 64)
            (if (height - 1) / 128 + 1 = 1 then height else 128)
            ((width - 1) / 128 + 1) 256 64 o i j) o) (make data.length) := by
  unfold Unswizzle4_i64
  rw [buildIndex32_eq]
  rfl

/-- A page loop with 64-bit offsets is the page loop over the natural numbers
when the row sizes are those of a page and the page counts are below `2^22`. -/
theorem pageLoop_i64_agree (conv : List Nat → Option (List Nat))
    (hconv : ∀ a, a.length = 8192 → ∃ r, conv a = some r ∧ r.length = 8192)
    (data : List Nat) (iw ih ow oh nPageW nPageH is os : Nat)
    (hiw : iw ≤ 256) (hih : ih ≤ 128) (how : ow ≤ 256) (hoh : oh ≤ 128)
    (hPW : nPageW ≤ 2 ^ 22) (hPH : nPageH ≤ 2 ^ 22) (his : is ≤ 256) (hos : os ≤ 256)
    (hdata : data.length < 2 ^ 63) :
    (List.range nPageH).foldlM (fun o i => (List.range nPageW).foldlM (fun o j =>
        pageStep_i64 conv data iw ih ow oh nPageW is os o i j) o) (make data.length)
      = (List.range nPageH).foldlM (fun o i => (List.range nPageW).foldlM (fun o j =>
        pageStep conv data iw ih ow oh nPageW is os o i j) o) (make data.length) := by
  apply foldlM_range2_same
    (fun o i j => pageStep_i64 conv data iw ih ow oh nPageW is os o i j)
    (fun o i j => pageStep conv data iw ih ow oh nPageW is os o i j)
    data.length nPageH nPageW (make data.length) (make_length _)
  · intro i j hi hj o ho
    refine ⟨pageStep_i64_agree conv hconv data iw ih ow oh nPageW is os o i j hiw hih how hoh
      hPW (by omega) (by omega) his hos hdata (by omega), fun o' ho' => ?_⟩
    obtain ⟨r, hr, rl⟩ := pageStep_total conv hconv data iw ih ow oh nPageW is os o i j
    rw [hr] at ho'
    cases ho'
    exact rl.trans ho
  · intro i j hi hj o ho
    obtain ⟨r, hr, -⟩ := pageStep_total conv hconv data iw ih ow oh nPageW is os o i j
    exact ⟨r, hr⟩

theorem Swizzle4_i64_agree (data : List Nat) (width height : Nat) (hw : width ≤ 2 ^ 28)
    (hh : height ≤ 2 ^ 28) (hlen : data.length < 2 ^ 63) :
    Swizzle4_i64 data width height = Swizzle4 data width height := by
  rw [Swizzle4_i64_eq, Swizzle4_eq, mul64_eq (show height * 2 < 2 ^ 64 by omega)]
  exact pageLoop_i64_agree _ swizzlePage_total data _ _ _ _ _ _ _ _
    (by split <;> omega) (by split <;> omega) (by split <;> omega) (by split <;> omega)
    (by omega) (by omega) (by decide) (by decide) hlen

theorem Unswizzle4_i64_agree (data : List Nat) (width height : Nat) (hw : width ≤ 2 ^ 28)
    (hh : height ≤ 2 ^ 28) (hlen : data.length < 2 ^ 63) :
    Unswizzle4_i64 data width height = Unswizzle4 data width height := by
  rw [Unswizzle4_i64_eq, Unswizzle4_eq, mul64_eq (show height * 2 < 2 ^ 64 by omega)]
  exact pageLoop_i64_agree _ unswizzlePage_total data _ _ _ _ _ _ _ _
    (by split <;> omega) (by split <;> omega) (by split <;> omega) (by split <;> omega)
    (by omega) (by omega) (by decide) (by decide) hlen

/-- On a page grid of `2^55` pages per row, when the source offset of row `k0`
of the first page, `k0 * iw * 2^55`, is `2^63`, the pattern of the most
negative `int`, the guard of that row passes and its slice expression is out
of range: the page step fails. -/
theorem pageStep_i64_overflow (conv : List Nat → Option (List Nat)) (data out : List Nat)
    (hdata : data.length = 512) (iw ih ow oh is os k0 : Nat)
    (hk0 : k0 < ih) (hiw : 0 < iw) (hiw' : iw ≤ 256) (his : is ≤ 256) (hih : ih ≤ 128)
    (hfit : k0 * is + iw ≤ 8192) (hwrap : mul64 (mul64 k0 iw) (2 ^ 55) = 2 ^ 63)
    (hsmall : ∀ k, k < k0 → mul64 (mul64 k iw) (2 ^ 55) < 2 ^ 63 - 256) :
    pageStep_i64 conv data iw ih ow oh (2 ^ 55) is os out 0 0 = none := by
  unfold pageStep_i64
  have hz : ∀ k, add64 (add64 (mul64 (mul64 (mul64 iw ih) (2 ^ 55)) 0) (mul64 iw 0))
      (mul64 (mul64 k iw) (2 ^ 55)) = mul64 (mul64 k iw) (2 ^ 55) := by
    intro k
    have : mul64 (mul64 k iw) (2 ^ 55) < 2 ^ 64 := Nat.mod_lt _ (by decide)
    rw [show mul64 (mul64 (mul64 iw ih) (2 ^ 55)) 0 = 0 from rfl, show mul64 iw 0 = 0 from rfl,
      show add64 0 0 = 0 from rfl, add64_eq (by omega), Nat.zero_add]
  have hloop : (List.range ih).foldlM (fun inputPage k =>
      if le64 (add64 (add64 (add64 (mul64 (mul64 (mul64 iw ih) (2 ^ 55)) 0) (mul64 iw 0))
              (mul64 (mul64 k iw) (2 ^ 55))) iw) data.length
          ∧ le64 (add64 (mul64 k is) iw) inputPage.length then do
        let s ← slice data
          (add64 (add64 (mul64 (mul64 (mul64 iw ih) (2 ^ 55)) 0) (mul64 iw 0))
            (mul64 (mul64 k iw) (2 ^ 55)))
          (add64 (add64 (add64 (mul64 (mul64 (mul64 iw ih) (2 ^ 55)) 0) (mul64 iw 0))
            (mul64 (mul64 k iw) (2 ^ 55))) iw)
        copyAt inputPage (mul64 k is) s
      else pure inputPage) (make 8192) = none := by
    apply foldlM_range_fail _ (fun pg => pg.length = 8192) ih k0 hk0 (make 8192) (make_length _)
    · intro k hk pg hpg
      dsimp only
      rw [hz k]
      have hs := hsmall k hk
      have e : add64 (mul64 (mul64 k iw) (2 ^ 55)) iw = mul64 (mul64 k iw) (2 ^ 55) + iw :=
        add64_eq (by omega)
      rw [e]
      by_cases hg : le64 (mul64 (mul64 k iw) (2 ^ 55) + iw) data.length = true
          ∧ le64 (add64 (mul64 k is) iw) pg.length = true
      · rw [if_pos hg]
        have hle := (le64_iff (by omega) (by omega)).1 hg.1
        rw [slice_of_le data _ _ (by omega) hle]
        obtain ⟨r1, r2, r3⟩ := rowOff64_eq (k := k) (t := is) (a := iw) (by omega) his hiw'
        have hle2 := hg.2
        rw [r1, r2] at hle2
        have hle3 := (le64_iff (show k * is + iw < 2 ^ 63 by omega)
          (show pg.length < 2 ^ 63 by omega)).1 hle2
        obtain ⟨r, hr, hrl, -⟩ := copyAt_of_le pg (k * is)
          ((data.drop (mul64 (mul64 k iw) (2 ^ 55))).take
            (mul64 (mul64 k iw) (2 ^ 55) + iw - mul64 (mul64 k iw) (2 ^ 55)))
          (by rw [slice_length _ _ _ hle]; omega)
        rw [r1]
        exact ⟨r, hr, hrl.trans hpg⟩
      · rw [if_neg hg]
        exact ⟨pg, rfl, hpg⟩
    · intro pg hpg
      dsimp only
      rw [hz k0, hwrap]
      obtain ⟨r1, r2, r3⟩ := rowOff64_eq (k := k0) (t := is) (a := iw) (by omega) his hiw'
      have e : add64 (2 ^ 63) iw = 2 ^ 63 + iw := add64_eq (by omega)
      have g1 : le64 (2 ^ 63 + iw) data.length = true := by
        unfold le64
        rw [decide_eq_true_iff, hdata]
        omega
      have g2 : le64 (add64 (mul64 k0 is) iw) pg.length = true := by
        rw [r1, r2]
        exact (le64_iff (show k0 * is + iw < 2 ^ 63 by omega)
          (show pg.length < 2 ^ 63 by omega)).2 (by omega)
      rw [e, if_pos ⟨g1, g2⟩]
      have hsl : slice data (2 ^ 63) (2 ^ 63 + iw) = none := by
        unfold slice
        rw [if_neg (by rw [hdata]; omega)]
      rw [hsl]
      rfl
  simp only [Option.bind_eq_bind] at hloop ⊢
  rw [hloop]
  rfl

theorem Unswizzle4_i64_overflow :
    Unswizzle4_i64 (List.replicate 512 0) (2 ^ 62) 129 = none := by
  have hH : (129 - 1) / 128 + 1 = 2 := by decide
  have hW : (2 ^ 62 - 1) / 128 + 1 = 2 ^ 55 := by decide
  rw [Unswizzle4_i64_eq, hH, hW, if_neg (show ¬ 2 = 1 by decide),
    if_neg (show ¬ 2 ^ 55 = 1 by decide)]
  apply foldlM_range_fail _ (fun o => o.length = 512) 2 0 (by decide) _
    (by rw [make_length, List.length_replicate])
  · intro k hk
    omega
  · intro o ho
    apply foldlM_range_fail _ (fun o => o.length = 512) (2 ^ 55) 0 (by decide) o ho
    · intro k hk
      omega
    · intro o' ho'
      exact pageStep_i64_overflow _ _ o' (List.length_replicate _ _) 256 32 64 128 256 64 1
        (by decide) (by decide) (by decide) (by decide) (by decide) (by decide) (by decide)
        (by decide)

theorem Swizzle4_i64_overflow :
    Swizzle4_i64 (List.replicate 512 0) (2 ^ 62) 129 = none := by
  have hH : (129 - 1) / 128 + 1 = 2 := by decide
  have hW : (2 ^ 62 - 1) / 128 + 1 = 2 ^ 55 := by decide
  rw [Swizzle4_i64_eq, hH, hW, if_neg (show ¬ 2 = 1 by decide),
    if_neg (show ¬ 2 ^ 55 = 1 by decide)]
  apply foldlM_range_fail _ (fun o => o.length = 512) 2 0 (by decide) _
    (by rw [make_length, List.length_replicate])
  · intro k hk
    omega
  · intro o ho
    apply foldlM_range_fail _ (fun o => o.length = 512) (2 ^ 55) 0 (by decide) o ho
    · intro k hk
      omega
    · intro o' ho'
      exact pageStep_i64_overflow _ _ o' (List.length_replicate _ _) 64 128 256 32 64 256 4
        (by decide) (by decide) (by decide) (by decide) (by decide) (by decide) (by decide)
        (by decide)

theorem SkipsUnfit_congr (b : Nat) (data out : List Nat) (w h : Nat)
    (d s d' s' : Nat → Nat → Nat)
    (hd : ∀ x y, x < w → y < h → d' x y = d x y) (hs : ∀ x y, x < w → y < h → s' x y = s x y)
    (H : SkipsUnfit b data out w h d s) : SkipsUnfit b data out w h d' s' := by
  refine ⟨H.1, fun p hp hq => H.2 p hp (fun x y hx hy hfit => ?_)⟩
  have := hq x y hx hy (by rw [hd x y hx hy, hs x y hx hy]; exact hfit)
  rw [hd x y hx hy] at this
  exact this

/-- C10, amended. With `int` a 64-bit integer, the 8/16/32bpp transforms never
fail on dimensions up to `2^28`: for every buffer, of any length, and all
widths and heights of at most `2^28`, `Swizzle8`, `Unswizzle8`, `Swizzle16`,
`Unswizzle16`, `Swizzle32` and `Unswizzle32` return a buffer (no out-of-range
read or write occurs), and a pixel whose source or destination lies outside
the buffer is skipped: only the destination bytes of pixels that fit are
written, all other bytes keep the zero of the fresh buffer. -/
theorem transforms_never_fail (data : List Nat) (width height : Nat)
    (hw : width ≤ 2 ^ 28) (hh : height ≤ 2 ^ 28) (hlen : data.length < 2 ^ 63) :
    (∃ out, Swizzle8_i64 data width height = some out ∧ SkipsUnfit 1 data out width height
      (fun x y => addr8_i64 x y width) (fun x y => y * width + x)) ∧
    (∃ out, Unswizzle8_i64 data width height = some out ∧ SkipsUnfit 1 data out width height
      (fun x y => y * width + x) (fun x y => addr8_i64 x y width)) ∧
    (∃ out, Swizzle16_i64 data width height = some out ∧ SkipsUnfit 2 data out width height
      (fun x y => pixel16Offset_i64 x y width) (fun x y => y * width + x)) ∧
    (∃ out, Unswizzle16_i64 data width height = some out ∧ SkipsUnfit 2 data out width height
      (fun x y => y * width + x) (fun x y => pixel16Offset_i64 x y width)) ∧
    (∃ out, Swizzle32_i64 data width height = some out ∧ SkipsUnfit 4 data out width height
      (fun x y => addr8_i64 x y width) (fun x y => y * width + x)) ∧
    (∃ out, Unswizzle32_i64 data width height = some out ∧ SkipsUnfit 4 data out width height
      (fun x y => y * width + x) (fun x y => addr8_i64 x y width)) := by
  have e8 : ∀ x y, x < width → y < height → addr8_i64 x y width = addr8 x y width :=
    fun x y hx hy => addr8_i64_eq (by omega) (by omega) hw
  have e16 : ∀ x y, x < width → y < height →
      pixel16Offset_i64 x y width = pixel16Offset x y width :=
    fun x y hx hy => (pixel16Offset_i64_eq (by omega) (by omega) hw).1
  have el : ∀ x y, x < width → y < height → y * width + x = y * width + x :=
    fun _ _ _ _ => rfl
  rw [Swizzle8_i64_agree data width height hw hh hlen,
    Unswizzle8_i64_agree data width height hw hh hlen,
    Swizzle16_i64_agree data width height hw hh hlen,
    Unswizzle16_i64_agree data width height hw hh hlen,
    Swizzle32_i64_agree data width height hw hh hlen,
    Unswizzle32_i64_agree data width height hw hh hlen]
  obtain ⟨o1, h1, s1⟩ := Swizzle8_total data width height
  obtain ⟨o2, h2, s2⟩ := Unswizzle8_total data width height
  obtain ⟨o3, h3, s3⟩ := Swizzle16_total data width height
  obtain ⟨o4, h4, s4⟩ := Unswizzle16_total data width height
  obtain ⟨o5, h5, s5⟩ := Swizzle32_total data width height
  obtain ⟨o6, h6, s6⟩ := Unswizzle32_total data width height
  exact ⟨⟨o1, h1, SkipsUnfit_congr _ _ _ _ _ _ _ _ _ e8 el s1⟩,
    ⟨o2, h2, SkipsUnfit_congr _ _ _ _ _ _ _ _ _ el e8 s2⟩,
    ⟨o3, h3, SkipsUnfit_congr _ _ _ _ _ _ _ _ _ e16 el s3⟩,
    ⟨o4, h4, SkipsUnfit_congr _ _ _ _ _ _ _ _ _ el e16 s4⟩,
    ⟨o5, h5, SkipsUnfit_congr _ _ _ _ _ _ _ _ _ e8 el s5⟩,
    ⟨o6, h6, SkipsUnfit_congr _ _ _ _ _ _ _ _ _ el e8 s6⟩⟩

/-- C10 (amended) on the 3-byte buffer `[1, 2, 3]` with width 2 and height 2. -/
theorem transforms_never_fail_witness :
    2 ≤ 2 ^ 28 ∧ 2 ≤ 2 ^ 28 ∧ [1, 2, 3].length < 2 ^ 63 ∧
    (∃ out, Swizzle8_i64 [1, 2, 3] 2 2 = some out ∧ SkipsUnfit 1 [1, 2, 3] out 2 2
      (fun x y => addr8_i64 x y 2) (fun x y => y * 2 + x)) ∧
    (∃ out, Unswizzle8_i64 [1, 2, 3] 2 2 = some out ∧ SkipsUnfit 1 [1, 2, 3] out 2 2
      (fun x y => y * 2 + x) (fun x y => addr8_i64 x y 2)) ∧
    (∃ out, Swizzle16_i64 [1, 2, 3] 2 2 = some out ∧ SkipsUnfit 2 [1, 2, 3] out 2 2
      (fun x y => pixel16Offset_i64 x y 2) (fun x y => y * 2 + x)) ∧
    (∃ out, Unswizzle16_i64 [1, 2, 3] 2 2 = some out ∧ SkipsUnfit 2 [1, 2, 3] out 2 2
      (fun x y => y * 2 + x) (fun x y => pixel16Offset_i64 x y 2)) ∧
    (∃ out, Swizzle32_i64 [1, 2, 3] 2 2 = some out ∧ SkipsUnfit 4 [1, 2, 3] out 2 2
      (fun x y => addr8_i64 x y 2) (fun x y => y * 2 + x)) ∧
    (∃ out, Unswizzle32_i64 [1, 2, 3] 2 2 = some out ∧ SkipsUnfit 4 [1, 2, 3] out 2 2
      (fun x y => y * 2 + x) (fun x y => addr8_i64 x y 2)) :=
  ⟨by decide, by decide, by decide,
    transforms_never_fail [1, 2, 3] 2 2 (by decide) (by decide) (by decide)⟩

/-- C10 fails on the code: with `int` a 64-bit integer, on a buffer of 64
zero bytes with width `2^54` and height 1, pixel `(16, 0)` has element offset
`2^62`; the byte index `2 * 2^62` wraps to the most negative `int`, passes the
guards (they test the upper bound only) and is out of range, so `Unswizzle16`
and `Swizzle16` fail. -/
theorem Unswizzle16_index_wraps :
    pixel16Offset_i64 16 0 (2 ^ 54) = 2 ^ 62 ∧
    mul64 (pixel16Offset_i64 16 0 (2 ^ 54)) 2 = 2 ^ 63 ∧
    lt64 (add64 (mul64 (pixel16Offset_i64 16 0 (2 ^ 54)) 2) 1) 64 = true ∧
    Unswizzle16_i64 (List.replicate 64 0) (2 ^ 54) 1 = none ∧
    Swizzle16_i64 (List.replicate 64 0) (2 ^ 54) 1 = none :=
  ⟨pixel16Offset_i64_wraps.1, pixel16Offset_i64_wraps.2.1, pixel16Offset_i64_wraps.2.2.1,
    Unswizzle16_i64_overflow, Swizzle16_i64_overflow⟩

/-- C20, amended. With `int` a 64-bit integer, the hardware 4bpp strategy
never fails on dimensions up to `2^28`: for every buffer, of any length, and
all widths and heights of at most `2^28`, `Swizzle4` and `Unswizzle4` return a
buffer (of the length of the input); the page converters they call return an
8192-byte page for every 8192-byte page, and the block converters a 256-byte
block for every 256-byte block. -/
theorem hardware4_never_fails (data : List Nat) (width height : Nat)
    (hw : width ≤ 2 ^ 28) (hh : height ≤ 2 ^ 28) (hlen : data.length < 2 ^ 63) :
    (∃ out, Swizzle4_i64 data width height = some out ∧ out.length = data.length) ∧
    (∃ out, Unswizzle4_i64 data width height = some out ∧ out.length = data.length) ∧
    (∀ page : List Nat, page.length = 8192 →
      (∃ r, swizzle4ConvertPage 128 128 page index32H index32V = some r ∧ r.length = 8192) ∧
      (∃ r, unswizzle4ConvertPage 128 128 page index32H index32V = some r ∧ r.length = 8192)) ∧
    (∀ block : List Nat, block.length = 256 →
      (∃ r, swizzle4ConvertBlock block = some r ∧ r.length = 256) ∧
      (∃ r, unswizzle4ConvertBlock block = some r ∧ r.length = 256)) := by
  rw [Swizzle4_i64_agree data width height hw hh hlen,
    Unswizzle4_i64_agree data width height hw hh hlen]
  refine ⟨Swizzle4_total data width height, Unswizzle4_total data width height,
    fun page hp => ⟨swizzlePage_total page hp, unswizzlePage_total page hp⟩,
    fun block hb => ⟨?_, ?_⟩⟩
  · obtain ⟨r, hr, rl, -⟩ := convertBlockWith_spec swizzleLutTable block swizzleLutTable_ok
      (by omega)
    exact ⟨r, by rw [swizzle4ConvertBlock_eq]; exact hr, rl⟩
  · obtain ⟨r, hr, rl, -⟩ := convertBlockWith_spec unswizzleLutTable block unswizzleLutTable_ok
      (by omega)
    exact ⟨r, by rw [unswizzle4ConvertBlock_eq]; exact hr, rl⟩

/-- C20 (amended) on the 3-byte buffer `[1, 2, 3]` with width 200 and height 130. -/
theorem hardware4_never_fails_witness :
    200 ≤ 2 ^ 28 ∧ 130 ≤ 2 ^ 28 ∧ [1, 2, 3].length < 2 ^ 63 ∧
    (∃ out, Swizzle4_i64 [1, 2, 3] 200 130 = some out ∧ out.length = [1, 2, 3].length) ∧
    (∃ out, Unswizzle4_i64 [1, 2, 3] 200 130 = some out ∧ out.length = [1, 2, 3].length) ∧
    (∀ page : List Nat, page.length = 8192 →
      (∃ r, swizzle4ConvertPage 128 128 page index32H index32V = some r ∧ r.length = 8192) ∧
      (∃ r, unswizzle4ConvertPage 128 128 page index32H index32V = some r ∧ r.length = 8192)) ∧
    (∀ block : List Nat, block.length = 256 →
      (∃ r, swizzle4ConvertBlock block = some r ∧ r.length = 256) ∧
      (∃ r, unswizzle4ConvertBlock block = some r ∧ r.length = 256)) :=
  ⟨by decide, by decide, by decide,
    hardware4_never_fails [1, 2, 3] 200 130 (by decide) (by decide) (by decide)⟩

/-- C20 fails on the code: with `int` a 64-bit integer, on a buffer of 512
zero bytes with width `2^62` and height 129 the image has `2^55` pages per
row; in the first page the source offset of row 1 of `Unswizzle4`,
`256 * 2^55`, and of row 4 of `Swizzle4`, `4 * 64 * 2^55`, wraps to the most
negative `int`, passes the guard (which tests the upper bound only) and the
slice expression is out of range, so both functions fail. -/
theorem hardware4_index_wraps :
    mul64 (mul64 1 256) ((2 ^ 62 - 1) / 128 + 1) = 2 ^ 63 ∧
    mul64 (mul64 4 64) ((2 ^ 62 - 1) / 128 + 1) = 2 ^ 63 ∧
    le64 (add64 (2 ^ 63) 256) 512 = true ∧
    Unswizzle4_i64 (List.replicate 512 0) (2 ^ 62) 129 = none ∧
    Swizzle4_i64 (List.replicate 512 0) (2 ^ 62) 129 = none :=
  ⟨by decide, by decide, by decide, Unswizzle4_i64_overflow, Swizzle4_i64_overflow⟩

/-- C19 fails on the code for `Swizzle4By8`: with width 2, height 2 and the
3-byte buffer `[0, 0, 0]` (longer than `2*2/2`), the unguarded write
`temp8[i*2]` at `i = 2` is out of range of the 4-byte `temp8`, so the function
fails; `Unswizzle4By8`, which guards both writes, returns a buffer on the same
input. -/
theorem Swizzle4By8_out_of_range :
    Swizzle4By8 [0, 0, 0] 2 2 = none ∧ Unswizzle4By8 [0, 0, 0] 2 2 = some [0, 0, 0] := by
  decide

/-- The 16bpp element copy over the natural numbers: without wrap-around, for
every pixel `(x, y)` of the image that fits, `Unswizzle16` moves element
`pixel16Offset x y width` to element `y*width + x`, and `Swizzle16` moves it
back unless a later pixel that fits has the same offset. -/
theorem offset16_copy (data : List Nat) (width height x y : Nat)
    (hx : x < width) (hy : y < height)
    (hoff : 2 * pixel16Offset x y width + 2 ≤ data.length)
    (hlin : 2 * (y * width + x) + 2 ≤ data.length) :
    (∃ out, Unswizzle16 data width height = some out ∧
      ∀ c, c < 2 → out[2 * (y * width + x) + c]? = data[2 * pixel16Offset x y width + c]?) ∧
    (∃ out, Swizzle16 data width height = some out ∧
      ((∀ x' y', x' < width → y' < height →
          2 * pixel16Offset x' y' width + 2 ≤ data.length →
          2 * (y' * width + x') + 2 ≤ data.length →
          y * width + x < y' * width + x' →
          pixel16Offset x' y' width ≠ pixel16Offset x y width) →
        ∀ c, c < 2 → out[2 * pixel16Offset x y width + c]? = data[2 * (y * width + x) + c]?))
    := by
  refine ⟨?_, ?_⟩
  · obtain ⟨out, hout, -, -, hval⟩ := moveLoop_spec 2 data (fun x y => y * width + x)
      (fun x y => pixel16Offset x y width) _ (move2_spec data _ _) width height
    refine ⟨out, by rw [Unswizzle16_eq]; exact hout, ?_⟩
    exact hval (fun x y x' y' hx _ hx' _ _ _ he => lin_inj hx hx' he) x y hx hy ⟨hlin, hoff⟩
  · obtain ⟨out, hout, -⟩ := Swizzle16_total data width height
    refine ⟨out, hout, fun hlast => ?_⟩
    obtain ⟨out', hout', hval⟩ := moveLoop_last 2 data (fun x y => pixel16Offset x y width)
      (fun x y => y * width + x) _ (move2_spec data _ _) width height x y hx hy ⟨hoff, hlin⟩
      (fun x' y' hx' hy' hf hl => hlast x' y' hx' hy' hf.1 hf.2 hl)
    rw [Swizzle16_eq, hout'] at hout
    cases hout
    exact hval

/-- C14 fails on the code. For `Swizzle16`: in the 16x33 image `collide16`
(1056 bytes, zero except byte 32 = 1) pixel `(0, 1)` fits, with source bytes
32, 33 and destination element `pixel16Offset(0, 1, 16) = 512`, yet byte
`2*512` of the output of `Swizzle16` is 0 and not the source byte 1: the later
pixel `(0, 16)` has the same destination element and overwrites it. And with
`int` a 64-bit integer the offset wraps around for large arguments:
`pixel16Offset(0, 2^58, 64)` is 0 while the formula over the integers gives
`2^68`, and on a buffer of 64 zero bytes with width `2^54` and height 1, where
pixel `(0, 0)` fits, `Unswizzle16` fails at pixel `(16, 0)`. -/
theorem Swizzle16_collision :
    ((2 * pixel16Offset_i64 0 1 16 + 2 ≤ collide16.length
        ∧ 2 * (1 * 16 + 0) + 2 ≤ collide16.length) ∧
      ∃ out, Swizzle16_i64 collide16 16 33 = some out ∧
        out[2 * pixel16Offset_i64 0 1 16]? = some 0 ∧ collide16[2 * (1 * 16 + 0)]? = some 1) ∧
    (pixel16Offset_i64 0 (2 ^ 58) 64 = 0 ∧ pixel16OffsetSpec 0 (2 ^ 58) 64 = 2 ^ 68) ∧
    (2 * pixel16Offset_i64 0 0 (2 ^ 54) + 2 ≤ (List.replicate 64 0).length ∧
      2 * (0 * 2 ^ 54 + 0) + 2 ≤ (List.replicate 64 0).length ∧
      Unswizzle16_i64 (List.replicate 64 0) (2 ^ 54) 1 = none) := by
  refine ⟨⟨by rw [collide16_length]; decide, ?_⟩, by decide,
    by rw [List.length_replicate]; decide, by rw [List.length_replicate]; decide,
    Unswizzle16_i64_overflow⟩
  obtain ⟨out, hout, hval⟩ := moveLoop_last 2 collide16 (fun x y => pixel16Offset x y 16)
    (fun x y => y * 16 + x) _ (move2_spec collide16 _ _) 16 33 0 16 (by decide) (by decide)
    (by rw [collide16_length]; exact ⟨by decide, by decide⟩)
    (fun x y hx hy _ hl => pixel16Offset_512_last x hx y hy hl)
  refine ⟨out, ?_, ?_, collide16_32⟩
  · rw [Swizzle16_i64_agree collide16 16 33 (by decide) (by decide)
      (by rw [collide16_length]; decide), Swizzle16_eq]
    exact hout
  · have h0 := hval 0 (by decide)
    have e : pixel16Offset_i64 0 1 16 = pixel16Offset 0 16 16 := by decide
    rw [e]
    exact h0.trans collide16_512

/-- C14, amended. With `int` a 64-bit integer, for every width from 16 to
`2^28` the code's `pixel16Offset` is the formula of the specification for all
`x` and `y` below `2^28`. For every buffer, every height of at most `2^28` and
every pixel `(x, y)` of the image whose source and destination elements both
lie inside the buffer, `Unswizzle16` returns a buffer whose 2-byte element
`y*width + x` is element `pixel16Offset(x, y, width)` of the input; and
`Swizzle16` returns a buffer whose element `pixel16Offset(x, y, width)` is
element `y*width + x` of the input provided no later pixel (in row-major
order) that fits has the same offset, which is the case for every pixel of
the image when the width is a multiple of 64. -/
theorem pixel16_copy (data : List Nat) (width height x y : Nat) (hw : 16 ≤ width)
    (hwb : width ≤ 2 ^ 28) (hhb : height ≤ 2 ^ 28) (hlen : data.length < 2 ^ 63)
    (hx : x < width) (hy : y < height)
    (hoff : 2 * pixel16Offset_i64 x y width + 2 ≤ data.length)
    (hlin : 2 * (y * width + x) + 2 ≤ data.length) :
    (∀ a b, a < 2 ^ 28 → b < 2 ^ 28 →
      pixel16Offset_i64 a b width = pixel16OffsetSpec a b width) ∧
    (∃ out, Unswizzle16_i64 data width height = some out ∧
      ∀ c, c < 2 →
        out[2 * (y * width + x) + c]? = data[2 * pixel16Offset_i64 x y width + c]?) ∧
    (∃ out, Swizzle16_i64 data width height = some out ∧
      ((∀ x' y', x' < width → y' < height →
          2 * pixel16Offset_i64 x' y' width + 2 ≤ data.length →
          2 * (y' * width + x') + 2 ≤ data.length →
          y * width + x < y' * width + x' →
          pixel16Offset_i64 x' y' width ≠ pixel16Offset_i64 x y width) →
        ∀ c, c < 2 →
          out[2 * pixel16Offset_i64 x y width + c]? = data[2 * (y * width + x) + c]?)) ∧
    (64 ∣ width → ∀ x' y', x' < width → y' < height →
      pixel16Offset_i64 x' y' width = pixel16Offset_i64 x y width → x' = x ∧ y' = y) := by
  have E : ∀ a b, a < width → b < height →
      pixel16Offset_i64 a b width = pixel16Offset a b width :=
    fun a b ha hb => (pixel16Offset_i64_eq (by omega) (by omega) hwb).1
  rw [E x y hx hy] at hoff
  obtain ⟨hU, hS⟩ := offset16_copy data width height x y hx hy hoff hlin
  rw [Unswizzle16_i64_agree data width height hwb hhb hlen,
    Swizzle16_i64_agree data width height hwb hhb hlen, E x y hx hy]
  refine ⟨fun a b ha hb => ?_, hU, ?_, ?_⟩
  · rw [(pixel16Offset_i64_eq ha hb hwb).1]
    exact pixel16Offset_eq_spec a b width hw
  · obtain ⟨out, hout, himp⟩ := hS
    refine ⟨out, hout, fun hlast => himp (fun x' y' hx' hy' h1 h2 h3 => ?_)⟩
    rw [← E x' y' hx' hy'] at h1 ⊢
    exact hlast x' y' hx' hy' h1 h2 h3
  · rintro ⟨W, rfl⟩ x' y' hx' hy' he
    rw [E x' y' hx' hy'] at he
    exact pixel16Offset_inj hx' hx he

/-- C14 (amended) at pixel `(0, 1)` of the 64x64 image of 8192 bytes 1. -/
theorem pixel16_copy_witness :
    16 ≤ 64 ∧ 64 ≤ 2 ^ 28 ∧ 64 ≤ 2 ^ 28 ∧ (List.replicate 8192 1).length < 2 ^ 63 ∧
    0 < 64 ∧ 1 < 64 ∧
    2 * pixel16Offset_i64 0 1 64 + 2 ≤ (List.replicate 8192 1).length ∧
    2 * (1 * 64 + 0) + 2 ≤ (List.replicate 8192 1).length ∧
    (∀ a b, a < 2 ^ 28 → b < 2 ^ 28 →
      pixel16Offset_i64 a b 64 = pixel16OffsetSpec a b 64) ∧
    (∃ out, Unswizzle16_i64 (List.replicate 8192 1) 64 64 = some out ∧
      ∀ c, c < 2 → out[2 * (1 * 64 + 0) + c]?
        = (List.replicate 8192 1)[2 * pixel16Offset_i64 0 1 64 + c]?) ∧
    (∃ out, Swizzle16_i64 (List.replicate 8192 1) 64 64 = some out ∧
      ((∀ x' y', x' < 64 → y' < 64 →
          2 * pixel16Offset_i64 x' y' 64 + 2 ≤ (List.replicate 8192 1).length →
          2 * (y' * 64 + x') + 2 ≤ (List.replicate 8192 1).length →
          1 * 64 + 0 < y' * 64 + x' →
          pixel16Offset_i64 x' y' 64 ≠ pixel16Offset_i64 0 1 64) →
        ∀ c, c < 2 → out[2 * pixel16Offset_i64 0 1 64 + c]?
          = (List.replicate 8192 1)[2 * (1 * 64 + 0) + c]?)) ∧
    (64 ∣ 64 → ∀ x' y', x' < 64 → y' < 64 →
      pixel16Offset_i64 x' y' 64 = pixel16Offset_i64 0 1 64 → x' = 0 ∧ y' = 1) :=
  ⟨by decide, by decide, by decide, by rw [List.length_replicate]; decide, by decide,
    by decide, by rw [List.length_replicate]; decide, by rw [List.length_replicate]; decide,
    pixel16_copy (List.replicate 8192 1) 64 64 0 1 (by decide) (by decide) (by decide)
      (by rw [List.length_replicate]; decide) (by decide) (by decide)
      (by rw [List.length_replicate]; decide) (by rw [List.length_replicate]; decide)⟩

end Swizzle
